import Mathlib

/-!
# ISC5305 homework programs

Shallow embeddings of the programs under `src/` and theorems about them.
The definitions of all the programs come first (HW9, HW5, HW8, HW6, HW3, HW1,
HW4, HW7, then the arithmetic of `double` and the functions translated on
doubles), then the theorems.

# HW9: triangular matrix-vector multiplication

A shallow embedding of the HW9 kernels, verification routines and program
entry points (`src/HW9/*.cpp`).

Modelling conventions.

* `std::vector<double>` is a `List α`.  The carrier `α` of the matrix and
  vector entries is kept abstract: the kernels only use the constant `0.0`,
  `+` and `*`, so the definitions ask for `[Zero α] [Add α] [Mul α]` and
  nothing else.  No algebraic law (associativity, commutativity, ...) is
  assumed, every statement proved for an arbitrary `α` is therefore a
  statement about the exact sequence of additions and multiplications the
  C++ code performs.  Concrete evaluations are done over `ℚ`.  The
  verification routines compare with a tolerance; their carrier is a
  linearly ordered field, in which the small integers of the all-ones runs
  are computed exactly, as they are in `double`.
* `v[i] = e` is `List.set`, a read `v[i]` is `List.getD v i 0`.  The C++
  code never reads or writes out of bounds on the inputs it is given by its
  callers; sizes appear as hypotheses where a statement needs them.
* `int` loop counters and indices are natural numbers (all of them are
  non-negative in the source; the model is for dimensions whose index
  arithmetic `row * n + j` stays in the range of `int`).
* `for (int j = lo; j < hi; ++j) body` is a left fold of `body` over the list
  of the values taken by `j`.
-/

set_option linter.unusedSectionVars false
set_option linter.unusedVariables false

namespace HW9

/-! ## Definitions -/

section Defs

variable {α : Type} [Zero α] [Add α] [Mul α]

/-- The alias `using V = std::vector<double>`. -/
abbrev V (α : Type) := List α

/-- The alias `using A1D = std::vector<double>` (flattened row-major matrix). -/
abbrev A1D (α : Type) := List α

/-- The alias `using VI = std::vector<int>`. -/
abbrev VI := List Nat

/-- Function `init_matrix_1d` of `utils.cpp`: `A` becomes `n * n` ones and `x`
becomes `n` ones.  Returns the pair `(A, x)`; the element written is passed as `one`
(the literal `1.0`). -/
def init_matrix_1d (one : α) (A : A1D α) (x : V α) (n : Nat) : A1D α × V α :=
  -- A.resize(n * n)
  let A := A.take (n * n) ++ List.replicate (n * n - A.length) 0
  let A := (List.range (n * n)).foldl (fun A i => A.set i one) A
  -- x.resize(n)
  let x := x.take n ++ List.replicate (n - x.length) 0
  let x := (List.range n).foldl (fun x i => x.set i one) x
  (A, x)

/-- Function `compute_row_triangular` of `matrix_vector_multiply_threads.cpp`:
```
y[row] = 0.0;
int k_i = row;
for (int j = 0; j <= k_i; ++j) y[row] += A[row * n + j] * x[j];
```
-/
def compute_row_triangular (A : A1D α) (x : V α) (y : V α) (row n : Nat) : V α :=
  let y := y.set row 0
  let k_i := row
  (List.range (k_i + 1)).foldl
    (fun y j => y.set row (y.getD row 0 + A.getD (row * n + j) 0 * x.getD j 0)) y

/-- The value accumulated by a loop `acc += f j` for `j = 0, ..., k - 1`,
starting from `init`, additions performed from left to right. -/
def accFrom (f : Nat → α) (init : α) : Nat → α
  | 0 => init
  | k + 1 => accFrom f init k + f k

/-- The triangular row sum `Σ_{j=0}^{row} A[row,j]·x[j]`, accumulated from
`0.0` in the order `j = 0, 1, ..., row`. -/
def triSum (A : A1D α) (x : V α) (row n : Nat) : α :=
  accFrom (fun j => A.getD (row * n + j) 0 * x.getD j 0) 0 (row + 1)

/-! ### Shared-memory atomic work sharing (`matrix_vector_multiply_threads.cpp`) -/

/-- The shared state of one call of `matvec_triangular_atomic`: the atomic
counter `next_row`, the output vector `y`, for every launched worker whether
it is still inside its `while (true)` loop, and (instrumentation only, not
read by the code) the rows on which `compute_row_triangular` has been
called so far, in the order of the calls. -/
structure AtomicState (α : Type) where
  next_row : Nat
  y : V α
  running : List Bool
  computed : List Nat

/-- State right after the `num_threads` workers have been launched. -/
def atomic_init (y : V α) (num_threads : Nat) : AtomicState α :=
  { next_row := 0, y := y, running := List.replicate num_threads true, computed := [] }

/-- One iteration of the `while (true)` loop of worker `t`:
```
int row = next_row.fetch_add(1);
if (row >= n) break;
compute_row_triangular(A, x, y, row, n);
```
A worker that has left its loop (or was never launched) does nothing.  The
claim of a row and its computation are taken as one step: the computation
of row `row` only reads `A`, `x` and writes the slot `y[row]`, which no other
worker touches. -/
def worker_step (A : A1D α) (x : V α) (n : Nat) (s : AtomicState α) (t : Nat) :
    AtomicState α :=
  if s.running.getD t false then
    let row := s.next_row
    let s := { s with next_row := s.next_row + 1 }
    if row ≥ n then
      { s with running := s.running.set t false }
    else
      { s with y := compute_row_triangular A x s.y row n, computed := s.computed ++ [row] }
  else s

/-- The state reached from `s` when the workers take their loop iterations
in the order given by `sched` (a list of worker indices: an interleaving). -/
def atomic_run (A : A1D α) (x : V α) (n : Nat) (sched : List Nat) (s : AtomicState α) :
    AtomicState α :=
  sched.foldl (worker_step A x n) s

/-- All workers have left their loop (every `thread.join()` returns). -/
def all_joined (s : AtomicState α) : Bool :=
  s.running.all (fun b => !b)

/-- Function `matvec_triangular_atomic` under the interleaving `sched`.  The
function returns once every worker has been joined: `some y` is the output vector of a
complete run, `none` says that `sched` stops before all workers have
terminated (it is a strict prefix of a run). -/
def matvec_triangular_atomic (sched : List Nat) (y : V α) (A : A1D α) (x : V α)
    (n num_threads : Nat) : Option (V α) :=
  let s := atomic_run A x n sched (atomic_init y num_threads)
  if all_joined s then some s.y else none

/-- The invariant of the work-sharing loop, for a call started with output
vector `y₀` and `num_threads` workers: the rows computed so far are
`0, ..., min next_row n - 1`, each once and in this order; `y` is `y₀` with
the row kernel applied to these rows; and once some worker has left its loop
the counter has passed `n`. -/
structure AtomicInv (A : A1D α) (x : V α) (n num_threads : Nat) (y₀ : V α)
    (s : AtomicState α) : Prop where
  computed_eq : s.computed = List.range (min s.next_row n)
  y_eq : s.y = (List.range (min s.next_row n)).foldl
    (fun y row => compute_row_triangular A x y row n) y₀
  running_length : s.running.length = num_threads
  exhausted : ∀ t, t < num_threads → s.running.getD t false = false → n < s.next_row

/-- An interleaving that lets the workers `0, ..., k - 1` run one after the
other, each for `n + 1` loop iterations. -/
def drain_sched (n : Nat) : Nat → List Nat
  | 0 => []
  | k + 1 => drain_sched n k ++ List.replicate (n + 1) k

/-! ### Directive-scheduled loop (`matrix_vector_multiply_openmp.cpp`) -/

/-- The `schedule(...)` clause of an `omp parallel for`. -/
inductive OmpSchedule where
  | static
  | dynamic (chunk_size : Int)
  | guided
  deriving DecidableEq

/-- The OpenMP runtime, seen from the program: for a schedule clause, the
team size requested with `omp_set_num_threads` and a trip count it decides
in which order the loop iterations are executed.  An iteration only reads
`A`, `x` and its own slot `y[i]` and only writes `y[i]`, so iterations that
overlap in time do not see each other and a run is described by the order
in which the iterations are listed. -/
abbrev OmpRuntime := OmpSchedule → Int → Nat → List Nat

/-- A runtime is admissible for trip count `n` when it executes each of the
iterations `0, ..., n - 1` exactly once, whatever the clause and team size. -/
def OmpRuntime.admissible (omp : OmpRuntime) (n : Nat) : Prop :=
  ∀ sch num_threads, (omp sch num_threads n).Perm (List.range n)

/-- The body shared by the three loops of `matvec_triangular`:
```
y[i] = 0.0;
int k_i = i;
for (int j = 0; j <= k_i; ++j) y[i] += A[i * n + j] * x[j];
```
-/
def triangular_body (A : A1D α) (x : V α) (n : Nat) (y : V α) (i : Nat) : V α :=
  let y := y.set i 0
  let k_i := i
  (List.range (k_i + 1)).foldl
    (fun y j => y.set i (y.getD i 0 + A.getD (i * n + j) 0 * x.getD j 0)) y

/-- Function `matvec_triangular`: one of three `omp parallel for` loops over
`i = 0, ..., n - 1`, selected by `schedule_type`; any other string leaves `y`
untouched. -/
def matvec_triangular (omp : OmpRuntime) (y : V α) (A : A1D α) (x : V α)
    (n : Nat) (num_threads : Int) (schedule_type : String) (chunk_size : Int) : V α :=
  if schedule_type = "static" then
    (omp OmpSchedule.static num_threads n).foldl (triangular_body A x n) y
  else if schedule_type = "dynamic" then
    (omp (OmpSchedule.dynamic chunk_size) num_threads n).foldl (triangular_body A x n) y
  else if schedule_type = "guided" then
    (omp OmpSchedule.guided num_threads n).foldl (triangular_body A x n) y
  else y

/-- The runtime that runs every loop in index order (a team of one). -/
def omp_sequential : OmpRuntime := fun _ _ n => List.range n

/-- A runtime whose order depends on the clause: index order for `static`,
reverse order for `dynamic`, odd iterations before even ones for `guided`. -/
def omp_mixed : OmpRuntime := fun sch _ n =>
  match sch with
  | OmpSchedule.static => List.range n
  | OmpSchedule.dynamic _ => (List.range n).reverse
  | OmpSchedule.guided =>
      (List.range n).filter (fun i => i % 2 = 1) ++ (List.range n).filter (fun i => ¬ i % 2 = 1)

/-- Whether a `schedule(...)` clause conforms to the OpenMP specification:
the chunk size of `schedule(dynamic, chunk_size)` must be positive. -/
def OmpSchedule.conforming : OmpSchedule → Prop
  | OmpSchedule.dynamic chunk_size => 1 ≤ chunk_size
  | _ => True

/-- A runtime conforms for trip count `n` when it executes each of the
iterations `0, ..., n - 1` exactly once under every conforming clause,
whatever the team size; nothing is required of it under a clause that does
not conform. -/
def OmpRuntime.conforming (omp : OmpRuntime) (n : Nat) : Prop :=
  ∀ sch num_threads, OmpSchedule.conforming sch → (omp sch num_threads n).Perm (List.range n)

/-- The outcome of a call of `matvec_triangular` in a build with OpenMP.
The OpenMP specification requires the chunk size of
`schedule(dynamic, chunk_size)` to be positive and does not define the
behaviour of the loop otherwise (with the GNU runtime the loop does not
return for the chunk size 0); `none` stands for this.  In every other case
the call returns, with the vector of `matvec_triangular`.  The function does
not check `chunk_size`, which `main` takes from the command line. -/
def matvec_triangular_outcome {α : Type} [Zero α] [Add α] [Mul α] (omp : OmpRuntime) (y : V α)
    (A : A1D α) (x : V α) (n : Nat) (num_threads : Int) (schedule_type : String)
    (chunk_size : Int) : Option (V α) :=
  if schedule_type = "dynamic" ∧ chunk_size < 1 then none
  else some (matvec_triangular omp y A x n num_threads schedule_type chunk_size)

/-! ### Serial variants (`matrix_vector_multiply.cpp`) -/

/-- Function `matvec_row_major`:
```
for (int i = 0; i < n; ++i) {
    y[i] = 0.0;
    for (int j = 0; j < n; ++j) y[i] += A[i * n + j] * x[j];
}
```
-/
def matvec_row_major (y : V α) (A : A1D α) (x : V α) (n : Nat) : V α :=
  (List.range n).foldl (fun y i =>
    let y := y.set i 0
    (List.range n).foldl
      (fun y j => y.set i (y.getD i 0 + A.getD (i * n + j) 0 * x.getD j 0)) y) y

/-- Function `matvec_col_major`:
```
for (int j = 0; j < n; ++j)
    for (int i = 0; i < n; ++i) {
        if (j == 0) y[i] = 0.0;
        y[i] += A[i * n + j] * x[j];
    }
```
-/
def matvec_col_major (y : V α) (A : A1D α) (x : V α) (n : Nat) : V α :=
  (List.range n).foldl (fun y j =>
    (List.range n).foldl (fun y i =>
      let y := if j = 0 then y.set i 0 else y
      y.set i (y.getD i 0 + A.getD (i * n + j) 0 * x.getD j 0)) y) y

/-- The full row sum `Σ_{j<n} A[i,j]·x[j]`, accumulated from `0.0` in the
order `j = 0, 1, ..., n - 1`. -/
def fullSum (A : A1D α) (x : V α) (i n : Nat) : α :=
  accFrom (fun j => A.getD (i * n + j) 0 * x.getD j 0) 0 n

/-! ### Distributed memory (`matrix_vector_multiply_mpi.cpp`)

The `size` processes run the same `main`; a message is delivered unchanged,
so `MPI_Bcast` gives every rank the coordinator's `x`, `MPI_Send` /
`MPI_Recv` hand the receiver the sender's buffer, and the two collectives
`MPI_Scatterv` / `MPI_Gatherv` move the blocks described by their count and
displacement tables. -/

/-- The loop `for (int i = start; i < bound; i += step) v.push_back(i);` on an
empty `v`; the first argument bounds the number of iterations (`bound`
iterations are always enough when `step ≥ 1`, see `push_back_loop_fuel`). -/
def push_back_loop (bound step : Nat) : Nat → Nat → VI
  | 0, _ => []
  | fuel + 1, i => if i < bound then i :: push_back_loop bound step fuel (i + step) else []

/-- Function `compute_rows_triangular`:
```
for (size_t idx = 0; idx < row_indices.size(); ++idx) {
    int global_row = row_indices[idx];
    y_local[idx] = 0.0;
    int k_i = global_row;
    for (int j = 0; j <= k_i; ++j) y_local[idx] += A_local[idx * n + j] * x[j];
}
```
-/
def compute_rows_triangular (A_local : A1D α) (x : V α) (y_local : V α)
    (row_indices : VI) (n : Nat) : V α :=
  (List.range row_indices.length).foldl (fun y_local idx =>
    let global_row := row_indices.getD idx 0
    let y_local := y_local.set idx 0
    let k_i := global_row
    (List.range (k_i + 1)).foldl
      (fun y_local j =>
        y_local.set idx (y_local.getD idx 0 + A_local.getD (idx * n + j) 0 * x.getD j 0))
      y_local) y_local

/-- Constant `const int NUM_WARMUP = 2;` of `main`. -/
def NUM_WARMUP : Nat := 2

/-- Constant `const int NUM_RUNS = 10;` of `main`. -/
def NUM_RUNS : Nat := 10

/-- The benchmarking loop of `main`: warm-up and timed calls, all on the same
`y_local`. -/
def benchmark_rows (A_local : A1D α) (x : V α) (y_local : V α) (row_indices : VI)
    (n : Nat) : V α :=
  Nat.iterate (fun y_local => compute_rows_triangular A_local x y_local row_indices n)
    (NUM_WARMUP + NUM_RUNS) y_local

/-- Contiguous strategy: `const int rows_per_process = n / size;` -/
def rows_per_process (n size : Nat) : Nat := n / size

/-- Contiguous strategy: `int start_row = rank * rows_per_process;` -/
def start_row (n size rank : Nat) : Nat := rank * rows_per_process n size

/-- Contiguous strategy:
`int end_row = (rank == size - 1) ? n : (rank + 1) * rows_per_process;` -/
def end_row (n size rank : Nat) : Nat :=
  if rank = size - 1 then n else (rank + 1) * rows_per_process n size

/-- Contiguous strategy, `row_indices` of process `rank`:
`for (int i = start_row; i < end_row; ++i) row_indices.push_back(i);` -/
def contiguous_rows (n size rank : Nat) : VI :=
  push_back_loop (end_row n size rank) 1 (end_row n size rank) (start_row n size rank)

/-- Contiguous strategy, the table `sendcounts`:
`sendcounts[i] = (i_end - i_start) * n` for `i < size`. -/
def sendcounts (n size : Nat) : VI :=
  (List.range size).map (fun i => (end_row n size i - start_row n size i) * n)

/-- Contiguous strategy, the scatter table `displs`: `displs[i] = i_start * n`. -/
def scatter_displs (n size : Nat) : VI :=
  (List.range size).map (fun i => start_row n size i * n)

/-- Contiguous strategy, the table `recvcounts`: `recvcounts[i] = i_end - i_start`. -/
def recvcounts (n size : Nat) : VI :=
  (List.range size).map (fun i => end_row n size i - start_row n size i)

/-- Contiguous strategy, the gather table `displs`: `displs[i] = i_start`. -/
def gather_displs (n size : Nat) : VI :=
  (List.range size).map (fun i => start_row n size i)

/-- What `MPI_Scatterv` leaves in the receive buffer of process `rank`: the
`counts[rank]` elements of the root's `sendbuf` that start at offset
`displs[rank]` overwrite the beginning of `recvbuf`. -/
def MPI_Scatterv (sendbuf : List α) (counts displs : VI) (recvbuf : List α) (rank : Nat) :
    List α :=
  (List.range (counts.getD rank 0)).foldl
    (fun buf k => buf.set k (sendbuf.getD (displs.getD rank 0 + k) 0)) recvbuf

/-- What `MPI_Gatherv` leaves in the root's receive buffer: for every rank
`i < size`, the `counts[i]` elements sent by rank `i` are stored from offset
`displs[i]` on. -/
def MPI_Gatherv (sendbufs : Nat → List α) (recvbuf : List α) (counts displs : VI)
    (size : Nat) : List α :=
  (List.range size).foldl (fun buf i =>
    (List.range (counts.getD i 0)).foldl
      (fun buf k => buf.set (displs.getD i 0 + k) ((sendbufs i).getD k 0)) buf) recvbuf

/-- Contiguous strategy, `A_local` of process `rank` after
`A_local.resize(num_rows * n)` and `MPI_Scatterv`. -/
def contiguous_A_local (A_flat : A1D α) (n size rank : Nat) : A1D α :=
  let num_rows := end_row n size rank - start_row n size rank
  MPI_Scatterv A_flat (sendcounts n size) (scatter_displs n size)
    (List.replicate (num_rows * n) 0) rank

/-- Contiguous strategy, `y_local` of process `rank` after the benchmarking
loop (`y_local.resize(num_rows)` first). -/
def contiguous_y_local (A_flat : A1D α) (x : V α) (n size rank : Nat) : V α :=
  let num_rows := end_row n size rank - start_row n size rank
  benchmark_rows (contiguous_A_local A_flat n size rank) x (List.replicate num_rows 0)
    (contiguous_rows n size rank) n

/-- Contiguous strategy, the vector `y` of the coordinator after
`MPI_Gatherv` (`V y(n)` first). -/
def mpi_contiguous (A_flat : A1D α) (x : V α) (n size : Nat) : V α :=
  MPI_Gatherv (fun rank => contiguous_y_local A_flat x n size rank) (List.replicate n 0)
    (recvcounts n size) (gather_displs n size) size

/-- Cyclic strategy, `row_indices` of process `rank` (and `dest_rows` built by
the coordinator for `dest = rank`):
`for (int i = rank; i < n; i += size) row_indices.push_back(i);` -/
def cyclic_rows (n size rank : Nat) : VI :=
  push_back_loop n size n rank

/-- Cyclic strategy, packing of the rows `rows` of `A_flat` into a buffer of
`rows.size() * n` entries (`A_local` for the coordinator itself,
`send_buffer` for the other destinations):
```
for (size_t idx = 0; idx < rows.size(); ++idx) {
    int global_row = rows[idx];
    for (int j = 0; j < n; ++j) buffer[idx * n + j] = A_flat[global_row * n + j];
}
```
-/
def pack_rows (A_flat : A1D α) (rows : VI) (n : Nat) : A1D α :=
  (List.range rows.length).foldl (fun buffer idx =>
    let global_row := rows.getD idx 0
    (List.range n).foldl
      (fun buffer j => buffer.set (idx * n + j) (A_flat.getD (global_row * n + j) 0)) buffer)
    (List.replicate (rows.length * n) 0)

/-- Cyclic strategy, `A_local` of process `rank`: packed in place on the
coordinator, received from the coordinator (`MPI_Send` of `send_buffer`,
`MPI_Recv` into `A_local`) on the other ranks. -/
def cyclic_A_local (A_flat : A1D α) (n size rank : Nat) : A1D α :=
  pack_rows A_flat (cyclic_rows n size rank) n

/-- Cyclic strategy, `y_local` of process `rank` after the benchmarking loop
(`y_local.resize(row_indices.size())` first). -/
def cyclic_y_local (A_flat : A1D α) (x : V α) (n size rank : Nat) : V α :=
  benchmark_rows (cyclic_A_local A_flat n size rank) x
    (List.replicate (cyclic_rows n size rank).length 0) (cyclic_rows n size rank) n

/-- The write-back loop of the cyclic gather:
`for (i = 0; i < rows.size(); ++i) y[rows[i]] = vals[i];` -/
def store_rows (y : V α) (rows : VI) (vals : V α) : V α :=
  (List.range rows.length).foldl (fun y i => y.set (rows.getD i 0) (vals.getD i 0)) y

/-- Cyclic strategy, the vector `y` of the coordinator after the manual
gather: `y.assign(n, 0.0)`, the coordinator's own rows, then for
`src = 1, ..., size - 1` the rows and values received from `src`. -/
def mpi_cyclic (A_flat : A1D α) (x : V α) (n size : Nat) : V α :=
  let y := List.replicate n 0
  let y := store_rows y (cyclic_rows n size 0) (cyclic_y_local A_flat x n size 0)
  (List.range' 1 (size - 1)).foldl
    (fun y src => store_rows y (cyclic_rows n size src) (cyclic_y_local A_flat x n size src)) y

/-- The value `compute_rows_triangular` accumulates in `y_local[idx]`: the
sum of `A_local[idx * n + j] * x[j]` over `j = 0, ..., row_indices[idx]`,
from `0.0`, in increasing order of `j`. -/
def localSum (A_local : A1D α) (x : V α) (row_indices : VI) (n idx : Nat) : α :=
  accFrom (fun j => A_local.getD (idx * n + j) 0 * x.getD j 0) 0 (row_indices.getD idx 0 + 1)

/-- The ceiling `⌈n / P⌉` of the specification's contiguous ownership formula. -/
def spec_ceil_div (n P : Nat) : Nat := (n + P - 1) / P

/-- The specification's contiguous ownership formula: process `k` owns the
rows `r` with `k·⌈N/P⌉ ≤ r < min((k+1)·⌈N/P⌉, N)`. -/
def spec_contiguous_owns (n P k r : Nat) : Prop :=
  k * spec_ceil_div n P ≤ r ∧ r < min ((k + 1) * spec_ceil_div n P) n

/-! ### Verification and program entry points (`utils.cpp` and the `main`s)

The verification routines compare with a tolerance, so their carrier `K` is a
linearly ordered field; `1e-9` is the fraction `1 / 10 ^ 9`.  Command-line
parsing, timing and the CSV line are not modelled: a `main` is a function of
the values its arguments parse to and returns the exit code. -/

/-- The alias `using ARR = std::vector<std::vector<double>>`. -/
abbrev ARR (α : Type) := List (List α)

/-- Function `init_matrix` of `utils.cpp`: with `n = A.size()`, every
`A[i][j]` and every `x[i]`, `i, j < n`, is set to `one` (the literal `1.0`).
Returns the pair `(A, x)`. -/
def init_matrix (one : α) (A : ARR α) (x : V α) : ARR α × V α :=
  let n := A.length
  let A := (List.range n).foldl (fun A i =>
    (List.range n).foldl (fun A j => A.set i ((A.getD i []).set j one)) A) A
  let x := (List.range n).foldl (fun x i => x.set i one) x
  (A, x)

/-- Function `matvec_original`:
```
int n = A.size();
for (int i = 0; i < n; ++i) {
    y[i] = 0.0;
    for (int j = 0; j < n; ++j) y[i] += A[i][j] * x[j];
}
```
-/
def matvec_original (y : V α) (A : ARR α) (x : V α) : V α :=
  let n := A.length
  (List.range n).foldl (fun y i =>
    let y := y.set i 0
    (List.range n).foldl
      (fun y j => y.set i (y.getD i 0 + (A.getD i []).getD j 0 * x.getD j 0)) y) y

/-- Function `flatten_matrix`: `A_flat.resize(n * n)`, then
`A_flat[i * n + j] = A[i][j]` for `i, j < n`. -/
def flatten_matrix (A_flat : A1D α) (A : ARR α) (n : Nat) : A1D α :=
  let A_flat := A_flat.take (n * n) ++ List.replicate (n * n - A_flat.length) 0
  (List.range n).foldl (fun A_flat i =>
    (List.range n).foldl
      (fun A_flat j => A_flat.set (i * n + j) ((A.getD i []).getD j 0)) A_flat) A_flat

/-- The state of the loop of `verify` / `verify_triangular`: the vector `y`
(passed by non-const reference), the flag `test_passed`, the counter
`error_count`, and the indices `i` for which an `ERROR: y[i] = ...` line has
been written to `std::cerr`. -/
structure VerifyState (K : Type) where
  y : V K
  test_passed : Bool
  error_count : Nat
  reported : List Nat

/-- The literal `1e-9`. -/
def tolerance {K : Type} [LinearOrderedField K] : K := 1 / 1000000000

/-- One pass of the loop body shared by `verify` and `verify_triangular`:
```
if (std::abs(y[i] - expected_value) > 1e-9) {
    if (error_count < 5) std::cerr << "ERROR: y[" << i << "] = ...";
    test_passed = false;
    error_count++;
}
```
Here the elements are numbers of an ordered field, compared exactly;
`HW9.F64.verify_step` is the same loop body on IEEE doubles, where an element
can be a NaN. -/
def verify_step {K : Type} [LinearOrderedField K] (expected_value : K) (s : VerifyState K)
    (i : Nat) : VerifyState K :=
  if |s.y.getD i 0 - expected_value| > tolerance then
    { s with
      reported := if s.error_count < 5 then s.reported ++ [i] else s.reported
      test_passed := false
      error_count := s.error_count + 1 }
  else s

/-- The loop of `verify`: `n = y.size()`, every element is compared with
`expected_value = static_cast<double>(n)`. -/
def verify_run {K : Type} [LinearOrderedField K] (y : V K) : VerifyState K :=
  let n := y.length
  let expected_value : K := (n : K)
  (List.range n).foldl (verify_step expected_value)
    { y := y, test_passed := true, error_count := 0, reported := [] }

/-- Function `verify` of `utils.cpp`: the flag `test_passed` after the loop. -/
def verify {K : Type} [LinearOrderedField K] (y : V K) : Bool :=
  (verify_run y).test_passed

/-- The loop of `verify_triangular`: element `i < n` is compared with
`expected_value = static_cast<double>(i)`. -/
def verify_triangular_run {K : Type} [LinearOrderedField K] (y : V K) (n : Nat) :
    VerifyState K :=
  (List.range n).foldl (fun s (i : Nat) => verify_step (i : K) s i)
    { y := y, test_passed := true, error_count := 0, reported := [] }

/-- Function `verify_triangular` of `utils.cpp`: the flag `test_passed` after
the loop. -/
def verify_triangular {K : Type} [LinearOrderedField K] (y : V K) (n : Nat) : Bool :=
  (verify_triangular_run y n).test_passed

/-- The vector `y` of the serial `main` after the warm-up and timed calls of
the kernel selected by `version` (none of them for an unknown `version`):
`V y(n, 0.0)`, `init_matrix(A, x)`, `flatten_matrix(A_flat, A, n)`, then
`NUM_WARMUP + NUM_RUNS` calls. -/
def serial_y (K : Type) [LinearOrderedField K] (n : Nat) (version : String) : V K :=
  let A : ARR K := List.replicate n (List.replicate n 0)
  let x : V K := List.replicate n 0
  let y : V K := List.replicate n 0
  let Ax := init_matrix 1 A x
  let A_flat := flatten_matrix [] Ax.1 n
  Nat.iterate (fun y =>
    if version = "original" then matvec_original y Ax.1 Ax.2
    else if version = "row_major" then matvec_row_major y A_flat Ax.2 n
    else if version = "col_major" then matvec_col_major y A_flat Ax.2 n
    else y) (NUM_WARMUP + NUM_RUNS) y

/-- Exit code of the serial `main`: `return test_passed ? 0 : 1;` with
`test_passed = verify(y)`. -/
def serial_main (K : Type) [LinearOrderedField K] (n : Nat) (version : String) : Nat :=
  if verify (serial_y K n version) then 0 else 1

/-- The first `k` of the calls `matvec_triangular_atomic(y, A, x, n,
num_threads)` made by the threaded `main`, all on the same `y`; call number
`i` runs under the interleaving `sched i`.  The result is `none` when one of
the interleavings stops before its workers have terminated. -/
def atomic_calls (sched : Nat → List Nat) (A : A1D α) (x : V α) (n num_threads : Nat) :
    Nat → V α → Option (V α)
  | 0, y => some y
  | k + 1, y =>
    (atomic_calls sched A x n num_threads k y).bind
      (fun y => matvec_triangular_atomic (sched k) y A x n num_threads)

/-- The vector `y` of the threaded `main` after its `NUM_WARMUP + NUM_RUNS`
calls: `V y(n, 0.0)` and `init_matrix_1d(A, x, n)` first. -/
def threads_y (K : Type) [LinearOrderedField K] (sched : Nat → List Nat)
    (n num_threads : Nat) : Option (V K) :=
  let Ax := init_matrix_1d (1 : K) [] [] n
  atomic_calls sched Ax.1 Ax.2 n num_threads (NUM_WARMUP + NUM_RUNS) (List.replicate n 0)

/-- Exit code of the threaded `main`: `return test_passed ? 0 : 1;` with
`test_passed = verify_triangular(y, n)`. -/
def threads_main (K : Type) [LinearOrderedField K] (sched : Nat → List Nat)
    (n num_threads : Nat) : Option Nat :=
  (threads_y K sched n num_threads).map (fun y => if verify_triangular y n then 0 else 1)

/-- The vector `y` of the coordinator at the end of the MPI `main`, by
`strategy`: the gathered results for `contiguous` and `cyclic`, the untouched
`V y(n)` for any other string (no row is distributed, computed or gathered). -/
def mpi_y (strategy : String) (A_flat : A1D α) (x : V α) (n size : Nat) : V α :=
  if strategy = "contiguous" then mpi_contiguous A_flat x n size
  else if strategy = "cyclic" then mpi_cyclic A_flat x n size
  else List.replicate n 0

/-- What the coordinator of the MPI `main` computes in
`bool test_passed = verify_triangular(y, n);`. -/
def mpi_test_passed (K : Type) [LinearOrderedField K] (strategy : String) (n size : Nat) :
    Bool :=
  let Ax := init_matrix_1d (1 : K) [] (List.replicate n 0) n
  verify_triangular (mpi_y strategy Ax.1 Ax.2 n size) n

/-- Exit code of the MPI `main` (of every rank): `test_passed` is computed on
the coordinator and not used, the function ends with `MPI_Finalize();
return 0;`. -/
def mpi_main (K : Type) [LinearOrderedField K] (strategy : String) (n size : Nat) : Nat :=
  let test_passed := mpi_test_passed K strategy n size
  0

/-! ### Timing statistics and checked subscripts -/

/-- The statistics computed by `main` of the serial and of the threaded
program from the timed runs.  The call number `k` of the kernel in the
process takes `run_time k` milliseconds; the `NUM_WARMUP` first calls are
made outside the timer, the timed run `i` is the call `NUM_WARMUP + i`.
`DBL_MAX` is `std::numeric_limits<double>::max()`, `sqrt` is `std::sqrt`.
Returns `(min_duration, avg_duration, std_dev)`.
```
double min_duration = std::numeric_limits<double>::max();
double total_duration = 0.0;
std::vector<double> durations;
for (int i = 0; i < NUM_RUNS; ++i) {
    timer.run(...);
    double duration = timer.get_duration_ms();
    durations.push_back(duration);
    if (duration < min_duration) min_duration = duration;
    total_duration += duration;
}
double avg_duration = total_duration / NUM_RUNS;
double variance = 0.0;
for (double d : durations) variance += (d - avg_duration) * (d - avg_duration);
double std_dev = std::sqrt(variance / NUM_RUNS);
```
Here the arithmetic is that of an ordered field, without rounding;
`HW9.F64.benchmark_stats` is the same computation on IEEE doubles. -/
def benchmark_stats {K : Type} [LinearOrderedField K] (DBL_MAX : K) (sqrt : K → K)
    (run_time : Nat → K) : K × K × K :=
  let loop := (List.range NUM_RUNS).foldl
    (fun (s : K × K × List K) i =>
      let duration := run_time (NUM_WARMUP + i)
      let durations := s.2.2 ++ [duration]
      let min_duration := if duration < s.1 then duration else s.1
      let total_duration := s.2.1 + duration
      (min_duration, total_duration, durations))
    (DBL_MAX, 0, [])
  let min_duration := loop.1
  let total_duration := loop.2.1
  let durations := loop.2.2
  let avg_duration := total_duration / (NUM_RUNS : K)
  let variance := durations.foldl
    (fun variance d => variance + (d - avg_duration) * (d - avg_duration)) 0
  let std_dev := sqrt (variance / (NUM_RUNS : K))
  (min_duration, avg_duration, std_dev)

/-- The timed durations `d_1, ..., d_10` of the harness. -/
def timed_durations {K : Type} (run_time : Nat → K) : List K :=
  (List.range NUM_RUNS).map (fun i => run_time (NUM_WARMUP + i))

end Defs

end HW9

/-!
# HW5: surface mesh (`src/HW5/brain_mesh.cpp`)

The mesh class is a record of its data members, a member function is a
function from the record to the record after the call (and the returned
value, when there is one).  Coordinates and areas live in a field `K`; the
square root of `<cmath>` is a parameter `sqrt : K → K` of the functions that
call it.  Reading the VTK text is not modelled: `readData` receives the
points and polygons of a file that holds one point `x y z` and one polygon
`3 v1 v2 v3` per line, and whose `POINTS` and `POLYGONS` headers announce as
many entries as the file holds.
-/

namespace HW5

/-- Modelled from the spec: the alias `Triangle<INT>` is declared in
`brain_mesh_macros.h`, which is not among the sources; its uses
(`triangles[i] = {v1, v2, v3}`, `triangle[0]`) are those of
`std::array<INT, 3>`, here a triple of vertex indices. -/
abbrev Triangle := Nat × Nat × Nat

/-- Modelled from the spec: the alias behind `Vertices<T>` is declared in
`brain_mesh_macros.h`, which is not among the sources; its uses
(`vertices[i] = {x, y, z}`, `v1[0]`) are those of `std::array<T, 3>`. -/
abbrev Vertex (K : Type) := K × K × K

/-- The data members of `BrainMesh<T, INT>` (the name string is left out). -/
structure BrainMesh (K : Type) where
  vertices : List (Vertex K)
  triangles : List Triangle
  triangleAreas : List K
  vertexAreas : List K
  edgeLengths : List K
  totalArea : K
  nbPoints : Nat
  nbTriangles : Nat
  nbVertices : Nat
  nbEdges : Nat

/-- Constructor `BrainMesh(name)`: empty vectors, all counters and the total
area zero. -/
def BrainMesh.new {K : Type} [Field K] : BrainMesh K :=
  { vertices := [], triangles := [], triangleAreas := [], vertexAreas := [],
    edgeLengths := [], totalArea := 0, nbPoints := 0, nbTriangles := 0, nbVertices := 0,
    nbEdges := 0 }

/-- The order `operator<` of `std::pair<INT, INT>` (lexicographic). -/
def pair_lt (p q : Nat × Nat) : Bool :=
  p.1 < q.1 || (p.1 == q.1 && p.2 < q.2)

/-- Member `insert` of `std::set<std::pair<INT, INT>>`, the set being the
increasing list of its elements: `e` is added unless an equivalent element
is there. -/
def set_insert (e : Nat × Nat) : List (Nat × Nat) → List (Nat × Nat)
  | [] => [e]
  | x :: xs =>
    if pair_lt e x then e :: x :: xs
    else if pair_lt x e then x :: set_insert e xs
    else x :: xs

/-- The body of the loop over the triangles in `readData` and
`computeEdgeLengths`:
```
INT v1 = triangle[0], v2 = triangle[1], v3 = triangle[2];
if (v1 > v2) swap(v1, v2);
edgeSet.insert({v1, v2});
if (v2 > v3) swap(v2, v3);
edgeSet.insert({v2, v3});
if (v1 > v3) swap(v1, v3);
edgeSet.insert({v1, v3});
```
-/
def add_triangle_edges (edgeSet : List (Nat × Nat)) (triangle : Triangle) :
    List (Nat × Nat) :=
  let v1 := triangle.1
  let v2 := triangle.2.1
  let v3 := triangle.2.2
  let v12 := if v1 > v2 then (v2, v1) else (v1, v2)
  let v1 := v12.1
  let v2 := v12.2
  let edgeSet := set_insert (v1, v2) edgeSet
  let v23 := if v2 > v3 then (v3, v2) else (v2, v3)
  let v2 := v23.1
  let v3 := v23.2
  let edgeSet := set_insert (v2, v3) edgeSet
  let v13 := if v1 > v3 then (v3, v1) else (v1, v3)
  let v1 := v13.1
  let v3 := v13.2
  set_insert (v1, v3) edgeSet

/-- The set `edgeSet` after the loop `for (const auto& triangle : triangles)`. -/
def collect_edges (triangles : List Triangle) : List (Nat × Nat) :=
  triangles.foldl add_triangle_edges []

/-- Function `readData` on a file that holds the points `points` and the
triangles `polygons`: the vertices and triangles are stored, `nbVertices =
nbPoints`, and `nbEdges = edgeSet.size()`. -/
def readData {K : Type} (m : BrainMesh K) (points : List (Vertex K))
    (polygons : List Triangle) : BrainMesh K :=
  { m with
    nbPoints := points.length
    vertices := points
    nbTriangles := polygons.length
    triangles := polygons
    nbVertices := points.length
    nbEdges := (collect_edges polygons).length }

/-- Member `getNumEdges`. -/
def getNumEdges {K : Type} (m : BrainMesh K) : Nat := m.nbEdges

/-- Function `getTriangleArea` (and `triangleArea`, which calls it): half the
norm of the cross product of the edge vectors `r12`, `r13`. -/
def triangleArea {K : Type} [Field K] (sqrt : K → K) (m : BrainMesh K)
    (triangle : Triangle) : K :=
  let v1 := m.vertices.getD triangle.1 (0, 0, 0)
  let v2 := m.vertices.getD triangle.2.1 (0, 0, 0)
  let v3 := m.vertices.getD triangle.2.2 (0, 0, 0)
  let r12 : Vertex K := (v2.1 - v1.1, v2.2.1 - v1.2.1, v2.2.2 - v1.2.2)
  let r13 : Vertex K := (v3.1 - v1.1, v3.2.1 - v1.2.1, v3.2.2 - v1.2.2)
  let cross : Vertex K :=
    (r12.2.1 * r13.2.2 - r12.2.2 * r13.2.1,
     r12.2.2 * r13.1 - r12.1 * r13.2.2,
     r12.1 * r13.2.1 - r12.2.1 * r13.1)
  let magnitude := sqrt (cross.1 * cross.1 + cross.2.1 * cross.2.1 + cross.2.2 * cross.2.2)
  magnitude / 2

/-- Member `resize(n, value)` of `std::vector`. -/
def resize {β : Type} (l : List β) (n : Nat) (value : β) : List β :=
  l.take n ++ List.replicate (n - l.length) value

/-- Function `computeTriangleAreas`:
```
triangleAreas.resize(nbTriangles);
for (int i = 0; i < nbTriangles; i++) triangleAreas[i] = triangleArea(triangles[i]);
```
-/
def computeTriangleAreas {K : Type} [Field K] (sqrt : K → K) (m : BrainMesh K) : BrainMesh K :=
  let areas := resize m.triangleAreas m.nbTriangles 0
  { m with
    triangleAreas := (List.range m.nbTriangles).foldl
      (fun areas i => areas.set i (triangleArea sqrt m (m.triangles.getD i (0, 0, 0)))) areas }

/-- Function `getTotalArea`: the mesh after the call and the returned value.
```
if (triangleAreas.empty()) computeTriangleAreas();
totalArea = 0;
for (const auto& area : triangleAreas) totalArea += area;
return totalArea;
```
-/
def getTotalArea {K : Type} [Field K] (sqrt : K → K) (m : BrainMesh K) : BrainMesh K × K :=
  let m := if m.triangleAreas.isEmpty then computeTriangleAreas sqrt m else m
  let totalArea := m.triangleAreas.foldl (fun totalArea area => totalArea + area) 0
  ({ m with totalArea := totalArea }, totalArea)

/-- Function `computeVertexAreas`:
```
if (triangleAreas.empty()) computeTriangleAreas();
vertexAreas.resize(nbVertices, 0);
for (int i = 0; i < nbTriangles; i++) {
    T area = triangleAreas[i];
    T vertexArea = area / 3.0;
    vertexAreas[triangles[i][0]] += vertexArea;
    vertexAreas[triangles[i][1]] += vertexArea;
    vertexAreas[triangles[i][2]] += vertexArea;
}
```
-/
def computeVertexAreas {K : Type} [Field K] (sqrt : K → K) (m : BrainMesh K) : BrainMesh K :=
  let m := if m.triangleAreas.isEmpty then computeTriangleAreas sqrt m else m
  let vertexAreas := resize m.vertexAreas m.nbVertices 0
  { m with
    vertexAreas := (List.range m.nbTriangles).foldl (fun vertexAreas i =>
      let area := m.triangleAreas.getD i 0
      let vertexArea := area / 3
      let t := m.triangles.getD i (0, 0, 0)
      let vertexAreas := vertexAreas.set t.1 (vertexAreas.getD t.1 0 + vertexArea)
      let vertexAreas := vertexAreas.set t.2.1 (vertexAreas.getD t.2.1 0 + vertexArea)
      vertexAreas.set t.2.2 (vertexAreas.getD t.2.2 0 + vertexArea)) vertexAreas }

/-- Function `getVertexAreas`: the mesh after the call and the returned copy
of `vertexAreas` (computed first when the vector is empty). -/
def getVertexAreas {K : Type} [Field K] (sqrt : K → K) (m : BrainMesh K) :
    BrainMesh K × List K :=
  let m := if m.vertexAreas.isEmpty then computeVertexAreas sqrt m else m
  (m, m.vertexAreas)

/-- Function `computeEdgeLengths`: the edge set is collected as in
`readData`, then one length is pushed per element of the set, in the order
of the set. -/
def computeEdgeLengths {K : Type} [Field K] (sqrt : K → K) (m : BrainMesh K) : BrainMesh K :=
  let edgeSet := collect_edges m.triangles
  { m with
    edgeLengths := edgeSet.foldl (fun edgeLengths edge =>
      let v1 := m.vertices.getD edge.1 (0, 0, 0)
      let v2 := m.vertices.getD edge.2 (0, 0, 0)
      let dx := v2.1 - v1.1
      let dy := v2.2.1 - v1.2.1
      let dz := v2.2.2 - v1.2.2
      let length := sqrt (dx * dx + dy * dy + dz * dz)
      edgeLengths ++ [length]) [] }

/-- The sum computed by `main`:
`for (auto area : vertexAreas) sumVertexAreas += area;`. -/
def sumVertexAreas {K : Type} [Field K] (vertexAreas : List K) : K :=
  vertexAreas.foldl (fun sum area => sum + area) 0

/-- The undirected edge `{u, v}` as the ordered pair `(min, max)`. -/
def spec_edge (u v : Nat) : Nat × Nat := (min u v, max u v)

/-- The number of distinct undirected edges over all triangles, each triangle
`(a, b, c)` contributing its three sides `{a, b}`, `{b, c}`, `{a, c}`. -/
def spec_edge_count (triangles : List Triangle) : Nat :=
  (triangles.foldr (fun t s =>
    insert (spec_edge t.1 t.2.1) (insert (spec_edge t.2.1 t.2.2)
      (insert (spec_edge t.1 t.2.2) s))) (∅ : Finset (Nat × Nat))).card

end HW5

/-!
# HW8: matrix exceptions (`src/HW8/include/matrix.h`)
-/

namespace HW8

/-- The exception classes derived from `MatrixError` (messages left out). -/
inductive MatrixError where
  | InvalidMatrixStructureError
  | NegativeDeterminantError
  | SingularMatrixError
  deriving DecidableEq

/-- The data members of class `Matrix`: the entries of a 2 x 2 matrix. -/
structure Matrix (K : Type) where
  a11 : K
  a12 : K
  a21 : K
  a22 : K

/-- Member `determinant`: `a11_ * a22_ - a12_ * a21_`, in the arithmetic of an
ordered field (`HW8.F64.determinant` is the member on IEEE doubles, where the
products are rounded and can overflow). -/
def Matrix.determinant {K : Type} [LinearOrderedField K] (M : Matrix K) : K :=
  M.a11 * M.a22 - M.a12 * M.a21

/-- Function `invert_matrix`:
```
double det = M.determinant();
if (std::abs(det) < 1e-12) throw SingularMatrixError(...);
return Matrix(M.a22() / det, -M.a12() / det, -M.a21() / det, M.a11() / det);
```
in the arithmetic of an ordered field; `HW8.F64.invert_matrix` is the function
on IEEE doubles. -/
def invert_matrix {K : Type} [LinearOrderedField K] (M : Matrix K) :
    Except MatrixError (Matrix K) :=
  let det := M.determinant
  if |det| < 1 / 1000000000000 then
    Except.error MatrixError.SingularMatrixError
  else
    Except.ok { a11 := M.a22 / det, a12 := -M.a12 / det, a21 := -M.a21 / det, a22 := M.a11 / det }

end HW8

/-!
# HW6: scientific container (`src/HW6/code.cpp`)

The class template `ScientificContainer<T>` is a record of its three data
members.  A member function that can throw is a function from the container
before the call to the container after the call together with the outcome
(`none` for a normal return, `some e` for the exception `e`), so that what a
failed call leaves behind is part of the model.  The key type `T` has
decidable equality (it is hashed and compared by `std::unordered_set`) and a
`ToString` instance for `operator<<`.  Objects behind `std::shared_ptr` and
metadata tuples are abstract types `O` and `M`.  Standard output is the list
of lines written.
-/

namespace HW6

/-- The exceptions thrown by the container: `DuplicateElementException` and
`std::runtime_error`, each with its `what()` message. -/
inductive Exception where
  | DuplicateElementException (what : String)
  | runtime_error (what : String)
  deriving DecidableEq, Repr

/-- Whether a handler `catch (const std::runtime_error&)` catches the
exception: `DuplicateElementException` derives from `std::runtime_error`. -/
def Exception.is_runtime_error : Exception → Bool
  | Exception.DuplicateElementException _ => true
  | Exception.runtime_error _ => true

/-- Whether a handler `catch (const DuplicateElementException&)` catches
the exception. -/
def Exception.is_DuplicateElementException : Exception → Bool
  | Exception.DuplicateElementException _ => true
  | Exception.runtime_error _ => false

/-- The data members of `ScientificContainer<T>`: the `std::list` of
(key, object) pairs in list order, the `std::unordered_map` as the list of
its (key, tuple) entries, the `std::unordered_set` as the list of its
keys. -/
structure ScientificContainer (T O M : Type) where
  container : List (T × O)
  metadata : List (T × M)
  unique_elements : List T

section Defs

variable {T O M : Type} [DecidableEq T] [ToString T]

/-- A default-constructed container. -/
def ScientificContainer.empty : ScientificContainer T O M :=
  { container := [], metadata := [], unique_elements := [] }

/-- Expression `unique_elements.find(key) != unique_elements.end()`. -/
def set_contains (s : List T) (key : T) : Bool := s.contains key

/-- Member `insert` of `std::unordered_set`: no effect when the key is
there. -/
def set_insert (s : List T) (key : T) : List T :=
  if s.contains key then s else s ++ [key]

/-- Expression `metadata.find(key) != metadata.end()`. -/
def map_contains (m : List (T × M)) (key : T) : Bool := m.any (fun e => e.1 == key)

/-- Statement `metadata[key] = data`: the entry of `key` is overwritten, or
created when there is none. -/
def map_assign (m : List (T × M)) (key : T) (data : M) : List (T × M) :=
  if map_contains m key then m.map (fun e => if e.1 == key then (key, data) else e)
  else m ++ [(key, data)]

/-- Lookup `metadata.find(key)`. -/
def map_find (m : List (T × M)) (key : T) : Option M :=
  (m.find? (fun e => e.1 == key)).map Prod.snd

/-- Member `add_element`:
```
if (unique_elements.find(key) != unique_elements.end()) {
    oss << "Duplicate element with key: " << key;
    throw DuplicateElementException(oss.str());
}
container.emplace_back(key, obj);
unique_elements.insert(key);
```
-/
def add_element (c : ScientificContainer T O M) (key : T) (obj : O) :
    ScientificContainer T O M × Option Exception :=
  if set_contains c.unique_elements key then
    (c, some (Exception.DuplicateElementException ("Duplicate element with key: " ++ toString key)))
  else
    ({ c with
       container := c.container ++ [(key, obj)]
       unique_elements := set_insert c.unique_elements key }, none)

/-- Member `add_metadata`:
```
if (unique_elements.find(key) == unique_elements.end())
    throw std::runtime_error("Cannot add metadata for nonexistent key.");
if (metadata.find(key) != metadata.end())
    throw std::runtime_error("Metadata for this key already exists.");
metadata[key] = data;
```
-/
def add_metadata (c : ScientificContainer T O M) (key : T) (data : M) :
    ScientificContainer T O M × Option Exception :=
  if !set_contains c.unique_elements key then
    (c, some (Exception.runtime_error "Cannot add metadata for nonexistent key."))
  else if map_contains c.metadata key then
    (c, some (Exception.runtime_error "Metadata for this key already exists."))
  else
    ({ c with metadata := map_assign c.metadata key data }, none)

/-- Member `filter_elements`: the container after the call and the lines
written to standard output.
```
if (container.empty()) return;
for (const auto& [key, obj] : container)
    if (predicate(key)) std::cout << "Key " << key << " matches the filter" << std::endl;
```
-/
def filter_elements (c : ScientificContainer T O M) (predicate : T → Bool) :
    ScientificContainer T O M × List String :=
  if c.container.isEmpty then (c, [])
  else
    (c, c.container.foldl (fun out e =>
      if predicate e.1 then out ++ ["Key " ++ toString e.1 ++ " matches the filter"] else out) [])

/-- The pairs visited by a range-based `for` over a non-const container,
from `begin()` to `end()`: both return iterators of `container`. -/
def range_for (c : ScientificContainer T O M) : List (T × O) := c.container

/-- The pairs visited by a range-based `for` over a const container, from
`begin() const` to `end() const`. -/
def range_for_const (c : ScientificContainer T O M) : List (T × O) := c.container

/-- A sequence of calls `add_element(k, obj)`, given as the list of their
arguments, run in order from the state `c`; the run stops at the first call
that throws. -/
def add_elements (c : ScientificContainer T O M) :
    List (T × O) → ScientificContainer T O M × Option Exception
  | [] => (c, none)
  | e :: rest =>
    match add_element c e.1 e.2 with
    | (c', none) => add_elements c' rest
    | (c', some ex) => (c', some ex)

/-- The state of a container is consistent when the key set holds exactly
the keys of the element list and every metadata key is in the key set; the
empty container is, and the member functions keep it so. -/
def ScientificContainer.consistent (c : ScientificContainer T O M) : Prop :=
  (∀ key, key ∈ c.unique_elements ↔ key ∈ c.container.map Prod.fst) ∧
  (∀ key, key ∈ c.metadata.map Prod.fst → key ∈ c.unique_elements)

/-- The lines a filter is expected to print: one per element whose key
satisfies the predicate, in list order. -/
def spec_filter_output (elements : List (T × O)) (predicate : T → Bool) : List String :=
  (elements.filter (fun e => predicate e.1)).map
    (fun e => "Key " ++ toString e.1 ++ " matches the filter")

end Defs

/-! ## Serialisation -/

/-- The dynamic class of a `ScientificObject`: one of the three classes that
`get_object_type_name` recognises, or any other derived class. -/
inductive ScientificObject where
  | VectorCalculation
  | MatrixCalculation
  | TensorCalculation
  | other
  deriving DecidableEq, Repr

/-- Function `get_object_type_name`: the chain of `dynamic_cast`s. -/
def get_object_type_name : ScientificObject → String
  | ScientificObject.VectorCalculation => "VectorCalculation"
  | ScientificObject.MatrixCalculation => "MatrixCalculation"
  | ScientificObject.TensorCalculation => "TensorCalculation"
  | ScientificObject.other => "ScientificObject"

/-- Function `escape_json_string`: the characters of `str` in order, the
double quote, the backslash, the newline, the carriage return and the tab
replaced by their two-character escapes. -/
def escape_json_string (str : String) : String :=
  str.toList.foldl (fun result c =>
    if c = '"' then result ++ "\\\""
    else if c = '\\' then result ++ "\\\\"
    else if c = '\n' then result ++ "\\n"
    else if c = '\r' then result ++ "\\r"
    else if c = '\t' then result ++ "\\t"
    else result.push c) ""

/-- The first three components of the metadata tuple
`std::tuple<int, double, std::string, std::function<void()>>`; the callback
is not read by `serialize`.  `D` is the type of the `double`. -/
structure MetadataTuple (D : Type) where
  get0 : Int
  get1 : D
  get2 : String

section Serialize

variable {T D : Type} [ToString T]

/-- Member `serialize`: the text written to `sci_container.json` when the
file can be opened (otherwise the function throws before writing).
`show_double` is `operator<<` for `double`.
```
file << "{\n";
file << "  \"elements\": [\n";
bool first_element = true;
for (const auto& [key, obj] : container) {
    if (!first_element) file << ",\n";
    file << "    {\n";
    file << "      \"key\": " << key << ",\n";
    file << "      \"type\": \"" << get_object_type_name(*obj) << "\"\n";
    file << "    }";
    first_element = false;
}
file << "\n  ],\n";
file << "  \"metadata\": [\n";
... the same loop over metadata, with the fields int_value, double_value, string_value ...
file << "\n  ]\n";
file << "}\n";
```
-/
def serialize (show_double : D → String)
    (c : ScientificContainer T ScientificObject (MetadataTuple D)) : String :=
  let file := ""
  let file := file ++ "\x7b\n"
  let file := file ++ "  \"elements\": [\n"
  let s := c.container.foldl (fun (s : String × Bool) e =>
    let file := s.1
    let first_element := s.2
    let file := if !first_element then file ++ ",\n" else file
    let file := file ++ "    \x7b\n"
    let file := file ++ "      \"key\": " ++ toString e.1 ++ ",\n"
    let file := file ++ "      \"type\": \"" ++ get_object_type_name e.2 ++ "\"\n"
    let file := file ++ "    \x7d"
    (file, false)) (file, true)
  let file := s.1
  let file := file ++ "\n  ],\n"
  let file := file ++ "  \"metadata\": [\n"
  let s := c.metadata.foldl (fun (s : String × Bool) e =>
    let file := s.1
    let first_metadata := s.2
    let file := if !first_metadata then file ++ ",\n" else file
    let file := file ++ "    \x7b\n"
    let file := file ++ "      \"key\": " ++ toString e.1 ++ ",\n"
    let file := file ++ "      \"int_value\": " ++ toString e.2.get0 ++ ",\n"
    let file := file ++ "      \"double_value\": " ++ show_double e.2.get1 ++ ",\n"
    let file := file ++ "      \"string_value\": \"" ++ escape_json_string e.2.get2 ++ "\"\n"
    let file := file ++ "    \x7d"
    (file, false)) (file, true)
  let file := s.1
  let file := file ++ "\n  ]\n"
  let file := file ++ "\x7d\n"
  file

/-- The strings of a list joined by a separator. -/
def join_with (sep : String) : List String → String
  | [] => ""
  | [a] => a
  | a :: b :: rest => a ++ sep ++ join_with sep (b :: rest)

/-- The block of one element: its key and the name of its dynamic class in
the field `type`. -/
def spec_element_block (e : T × ScientificObject) : String :=
  "    \x7b\n      \"key\": " ++ toString e.1 ++ ",\n      \"type\": \""
    ++ get_object_type_name e.2 ++ "\"\n    \x7d"

/-- The block of one metadata entry. -/
def spec_metadata_block (show_double : D → String) (e : T × MetadataTuple D) : String :=
  "    \x7b\n      \"key\": " ++ toString e.1 ++ ",\n      \"int_value\": "
    ++ toString e.2.get0 ++ ",\n      \"double_value\": " ++ show_double e.2.get1
    ++ ",\n      \"string_value\": \"" ++ escape_json_string e.2.get2 ++ "\"\n    \x7d"

/-- The text the specification describes: the section `elements` with one
block per element, the section `metadata` with one block per entry, the
blocks of a section separated by a comma and a newline. -/
def spec_serialize (show_double : D → String)
    (c : ScientificContainer T ScientificObject (MetadataTuple D)) : String :=
  "\x7b\n  \"elements\": [\n" ++ join_with ",\n" (c.container.map spec_element_block)
    ++ "\n  ],\n  \"metadata\": [\n"
    ++ join_with ",\n" (c.metadata.map (spec_metadata_block show_double))
    ++ "\n  ]\n\x7d\n"

end Serialize

/-- The characters of a trailing comma before the end of a section: a
closing brace, a comma, a newline, two spaces and a closing bracket. -/
def trailing_comma : List Char := ['\x7d', ',', '\n', ' ', ' ', ']']

/-- One step of a scanner for `trailing_comma`: the state counts the
characters of the pattern matched so far, `6` once the pattern has been
seen. -/
def scan_step (q : Nat) (c : Char) : Nat :=
  if q = 6 then 6
  else if some c = trailing_comma[q]? then q + 1
  else if c = '\x7d' then 1
  else 0

/-- The scanner run over a text from the state `q`. -/
def scan (q : Nat) (text : List Char) : Nat := text.foldl scan_step q

end HW6

/-!
# HW3: three 3D grids (`src/HW3/grid3d_1d_array.cpp`, `grid3d_vector.cpp`,
`grid3d_new.cpp`)

A grid is a record of its data members; `int` dimensions and indices are
integers in the range of `int`, and the `int` expressions `nx * ny * nz` and
`i * ny * nz + j * nz + k` are evaluated with `wrap_int`, operation by
operation (32-bit two's complement; memory exhaustion is not modelled).  A
loop `for (int i = 0; i < n; i++)` runs over `List.range n.toNat`.  A member
function that can throw returns `Except GridError _`: the grid after the
call (or the value returned), or the exception.  `double` is a type `α`
with `0`, `1`, `+` and `*`, no law assumed.
-/

namespace HW3

/-- The exceptions of the grid classes: the two thrown by the source, and
the two thrown by the allocations it performs, `new T[n]` with a negative
`n` (`std::bad_array_new_length`) and `std::vector::resize` with a negative
`int` converted to `size_type` (`std::length_error`).  The last value,
`out_of_array`, is not an exception: it stands for an access `data[t]`
outside the allocated array, the behaviour of which is not defined. -/
inductive GridError where
  | out_of_range
  | invalid_argument
  | bad_array_new_length
  | length_error
  | out_of_array
  deriving DecidableEq, Repr

/-- The value of type `int` (32 bits, two's complement) that an arithmetic
operation with the exact result `x` yields. -/
def wrap_int (x : Int) : Int := (x + 2147483648) % 4294967296 - 2147483648

/-- The `int` expression `nx * ny * nz`, evaluated from the left. -/
def int_size (nx ny nz : Int) : Int := wrap_int (wrap_int (nx * ny) * nz)

/-- Expression `new T[n]`: throws for a negative `n`; the fresh slots hold
`garbage`, which every caller overwrites before reading. -/
def new_array {β : Type} (n : Int) (garbage : β) : Except GridError (List β) :=
  if n < 0 then Except.error GridError.bad_array_new_length
  else Except.ok (List.replicate n.toNat garbage)

/-- Member `resize(n, value)` of `std::vector` called with the `int` `n`. -/
def vector_resize {β : Type} (v : List β) (n : Int) (value : β) : Except GridError (List β) :=
  if n < 0 then Except.error GridError.length_error
  else Except.ok (v.take n.toNat ++ List.replicate (n.toNat - v.length) value)

/-- The loop nest
`for (i = 0; i < nx; i++) for (j = 0; j < ny; j++) for (k = 0; k < nz; k++) body`. -/
def for3 {σ : Type} (nx ny nz : Int) (body : σ → Nat → Nat → Nat → σ) (s : σ) : σ :=
  (List.range nx.toNat).foldl (fun s i =>
    (List.range ny.toNat).foldl (fun s j =>
      (List.range nz.toNat).foldl (fun s k => body s i j k) s) s) s

section Defs

variable {α : Type} [Zero α] [One α] [Add α] [Mul α]

/-- Read `data[i][j][k]` of a nested array. -/
def get3 (data : List (List (List α))) (i j k : Nat) : α :=
  ((data.getD i []).getD j []).getD k 0

/-- Write `data[i][j][k] = v` of a nested array. -/
def set3 (data : List (List (List α))) (i j k : Nat) (v : α) : List (List (List α)) :=
  data.set i ((data.getD i []).set j (((data.getD i []).getD j []).set k v))

/-! ## Grid1D -/

/-- The data members of `Grid1D`. -/
structure Grid1D (α : Type) where
  data : List α
  nx : Int
  ny : Int
  nz : Int

/-- Constructor `Grid1D(nx_, ny_, nz_)`:
```
data = new double[nx * ny * nz];
for (int i = 0; i < nx * ny * nz; i++) data[i] = 0.0;
```
-/
def Grid1D.ctor (nx_ ny_ nz_ : Int) : Except GridError (Grid1D α) :=
  match new_array (int_size nx_ ny_ nz_) (0 : α) with
  | Except.error e => Except.error e
  | Except.ok data =>
    Except.ok
      { data := (List.range (int_size nx_ ny_ nz_).toNat).foldl (fun data i => data.set i 0) data
        nx := nx_, ny := ny_, nz := nz_ }

/-- Copy constructor `Grid1D(const Grid1D& grid)`. -/
def Grid1D.copy_ctor (grid : Grid1D α) : Except GridError (Grid1D α) :=
  match new_array (int_size grid.nx grid.ny grid.nz) (0 : α) with
  | Except.error e => Except.error e
  | Except.ok data =>
    Except.ok
      { data := (List.range (int_size grid.nx grid.ny grid.nz).toNat).foldl
          (fun data i => data.set i (grid.data.getD i 0)) data
        nx := grid.nx, ny := grid.ny, nz := grid.nz }

/-- Operator `operator=` called with another object (`this != &grid`): the
old array is deleted, the dimensions are copied, a new array is allocated and
filled from `grid`. -/
def Grid1D.assign (g grid : Grid1D α) : Except GridError (Grid1D α) :=
  match new_array (int_size grid.nx grid.ny grid.nz) (0 : α) with
  | Except.error e => Except.error e
  | Except.ok data =>
    Except.ok
      { data := (List.range (int_size grid.nx grid.ny grid.nz).toNat).foldl
          (fun data i => data.set i (grid.data.getD i 0)) data
        nx := grid.nx, ny := grid.ny, nz := grid.nz }

/-- Member `getSize`: `nx * ny * nz`. -/
def Grid1D.getSize (g : Grid1D α) : Int := int_size g.nx g.ny g.nz

/-- The offset of the element `(i, j, k)`, the `int` expression
`i * ny * nz + j * nz + k`. -/
def Grid1D.offset (g : Grid1D α) (i j k : Int) : Int :=
  wrap_int (wrap_int (wrap_int (wrap_int (i * g.ny) * g.nz) + wrap_int (j * g.nz)) + k)

/-- Operator `operator()(i, j, k)`:
```
if (i < 0 || i >= nx || j < 0 || j >= ny || k < 0 || k >= nz)
    throw std::out_of_range("Index out of bounds");
return data[i * ny * nz + j * nz + k];
```
The array `data` has `data.length` slots; an offset outside it gives
`out_of_array`. -/
def Grid1D.get (g : Grid1D α) (i j k : Int) : Except GridError α :=
  if i < 0 ∨ i ≥ g.nx ∨ j < 0 ∨ j ≥ g.ny ∨ k < 0 ∨ k ≥ g.nz then
    Except.error GridError.out_of_range
  else if g.offset i j k < 0 ∨ (g.data.length : Int) ≤ g.offset i j k then
    Except.error GridError.out_of_array
  else Except.ok (g.data.getD (g.offset i j k).toNat 0)

/-- Member `set(i, j, k, value)`: the same check, then
`data[i * ny * nz + j * nz + k] = value`. -/
def Grid1D.set (g : Grid1D α) (i j k : Int) (value : α) : Except GridError (Grid1D α) :=
  if i < 0 ∨ i ≥ g.nx ∨ j < 0 ∨ j ≥ g.ny ∨ k < 0 ∨ k ≥ g.nz then
    Except.error GridError.out_of_range
  else if g.offset i j k < 0 ∨ (g.data.length : Int) ≤ g.offset i j k then
    Except.error GridError.out_of_array
  else Except.ok { g with data := g.data.set (g.offset i j k).toNat value }

/-- Operator `operator+`:
```
if (nx != grid.nx || ny != grid.ny || nz != grid.nz) throw std::invalid_argument(...);
Grid1D result(nx, ny, nz);
for (int i = 0; i < nx * ny * nz; i++) result.data[i] = data[i] + grid.data[i];
return result;
```
-/
def Grid1D.add (g grid : Grid1D α) : Except GridError (Grid1D α) :=
  if g.nx ≠ grid.nx ∨ g.ny ≠ grid.ny ∨ g.nz ≠ grid.nz then
    Except.error GridError.invalid_argument
  else
    match (Grid1D.ctor g.nx g.ny g.nz : Except GridError (Grid1D α)) with
    | Except.error e => Except.error e
    | Except.ok result =>
      Except.ok
        { result with
          data := (List.range (int_size g.nx g.ny g.nz).toNat).foldl
            (fun rdata i => rdata.set i (g.data.getD i 0 + grid.data.getD i 0)) result.data }

/-- Member operator `operator*(factor)`. -/
def Grid1D.mul (g : Grid1D α) (factor : α) : Except GridError (Grid1D α) :=
  match (Grid1D.ctor g.nx g.ny g.nz : Except GridError (Grid1D α)) with
  | Except.error e => Except.error e
  | Except.ok result =>
    Except.ok
      { result with
        data := (List.range (int_size g.nx g.ny g.nz).toNat).foldl
          (fun rdata i => rdata.set i (g.data.getD i 0 * factor)) result.data }

/-- Friend operator `operator*(factor, grid)`: `return grid * factor;`. -/
def Grid1D.mul_friend (factor : α) (grid : Grid1D α) : Except GridError (Grid1D α) :=
  grid.mul factor

/-- Prefix operator `operator++`: `data[i] += 1.0` for every `i`. -/
def Grid1D.incr (g : Grid1D α) : Grid1D α :=
  { g with
    data := (List.range (int_size g.nx g.ny g.nz).toNat).foldl
      (fun data i => data.set i (data.getD i 0 + 1)) g.data }

/-- Operator `operator+=`; `grid = none` stands for the call `a += a`, in
which `grid` is `*this` and `grid.data[i]` is read from the array being
updated.
```
if (nx != grid.nx || ny != grid.ny || nz != grid.nz) throw std::invalid_argument(...);
for (int i = 0; i < nx * ny * nz; i++) data[i] += grid.data[i];
```
-/
def Grid1D.add_assign (g : Grid1D α) : Option (Grid1D α) → Except GridError (Grid1D α)
  | some grid =>
    if g.nx ≠ grid.nx ∨ g.ny ≠ grid.ny ∨ g.nz ≠ grid.nz then
      Except.error GridError.invalid_argument
    else
      Except.ok
        { g with
          data := (List.range (int_size g.nx g.ny g.nz).toNat).foldl
            (fun data i => data.set i (data.getD i 0 + grid.data.getD i 0)) g.data }
  | none =>
    Except.ok
      { g with
        data := (List.range (int_size g.nx g.ny g.nz).toNat).foldl
          (fun data i => data.set i (data.getD i 0 + data.getD i 0)) g.data }

/-- A `Grid1D` is well formed when the product `nx * ny * nz` is in the range
of `int` and not negative, and its array has that many slots, as after the
constructor called with such dimensions. -/
def Grid1D.wf (g : Grid1D α) : Prop :=
  0 ≤ g.nx * g.ny * g.nz ∧ g.data.length = (g.nx * g.ny * g.nz).toNat ∧
    g.nx * g.ny * g.nz < 2147483648

/-! ## GridVec -/

/-- The data members of `GridVec`. -/
structure GridVec (α : Type) where
  data : List (List (List α))
  nx : Int
  ny : Int
  nz : Int

/-- Constructor `GridVec(nx_, ny_, nz_)`:
```
data.resize(nx);
for (int i = 0; i < nx; i++) {
    data[i].resize(ny);
    for (int j = 0; j < ny; j++) data[i][j].resize(nz, 0.0);
}
```
The row `data[i]` is resized, its cells are resized, and the row is stored. -/
def GridVec.ctor (nx_ ny_ nz_ : Int) : Except GridError (GridVec α) :=
  match vector_resize ([] : List (List (List α))) nx_ [] with
  | Except.error e => Except.error e
  | Except.ok data =>
    match (List.range nx_.toNat).foldlM (fun data i =>
        match vector_resize (data.getD i []) ny_ [] with
        | Except.error e => Except.error e
        | Except.ok row =>
          match (List.range ny_.toNat).foldlM (fun row j =>
              match vector_resize (row.getD j []) nz_ (0 : α) with
              | Except.error e => Except.error e
              | Except.ok cell => Except.ok (row.set j cell)) row with
          | Except.error e => Except.error e
          | Except.ok row => Except.ok (data.set i row)) data with
    | Except.error e => Except.error e
    | Except.ok data => Except.ok { data := data, nx := nx_, ny := ny_, nz := nz_ }

/-- Copy constructor `GridVec(const GridVec& grid)`: `data = grid.data`. -/
def GridVec.copy_ctor (grid : GridVec α) : Except GridError (GridVec α) :=
  Except.ok { data := grid.data, nx := grid.nx, ny := grid.ny, nz := grid.nz }

/-- Operator `operator=` called with another object (`this != &grid`). -/
def GridVec.assign (g grid : GridVec α) : Except GridError (GridVec α) :=
  Except.ok { data := grid.data, nx := grid.nx, ny := grid.ny, nz := grid.nz }

/-- Member `getSize`: `nx * ny * nz`. -/
def GridVec.getSize (g : GridVec α) : Int := int_size g.nx g.ny g.nz

/-- Operator `operator()(i, j, k)`: the bounds check, then `data[i][j][k]`. -/
def GridVec.get (g : GridVec α) (i j k : Int) : Except GridError α :=
  if i < 0 ∨ i ≥ g.nx ∨ j < 0 ∨ j ≥ g.ny ∨ k < 0 ∨ k ≥ g.nz then
    Except.error GridError.out_of_range
  else Except.ok (get3 g.data i.toNat j.toNat k.toNat)

/-- Member `set(i, j, k, value)`: the bounds check, then
`data[i][j][k] = value`. -/
def GridVec.set (g : GridVec α) (i j k : Int) (value : α) : Except GridError (GridVec α) :=
  if i < 0 ∨ i ≥ g.nx ∨ j < 0 ∨ j ≥ g.ny ∨ k < 0 ∨ k ≥ g.nz then
    Except.error GridError.out_of_range
  else Except.ok { g with data := set3 g.data i.toNat j.toNat k.toNat value }

/-- Operator `operator+`: the dimension check, `GridVec result(nx, ny, nz)`,
then `result.data[i][j][k] = data[i][j][k] + grid.data[i][j][k]` in the loop
nest. -/
def GridVec.add (g grid : GridVec α) : Except GridError (GridVec α) :=
  if g.nx ≠ grid.nx ∨ g.ny ≠ grid.ny ∨ g.nz ≠ grid.nz then
    Except.error GridError.invalid_argument
  else
    match (GridVec.ctor g.nx g.ny g.nz : Except GridError (GridVec α)) with
    | Except.error e => Except.error e
    | Except.ok result =>
      Except.ok
        { result with
          data := for3 g.nx g.ny g.nz (fun rdata i j k =>
            set3 rdata i j k (get3 g.data i j k + get3 grid.data i j k)) result.data }

/-- Member operator `operator*(factor)`. -/
def GridVec.mul (g : GridVec α) (factor : α) : Except GridError (GridVec α) :=
  match (GridVec.ctor g.nx g.ny g.nz : Except GridError (GridVec α)) with
  | Except.error e => Except.error e
  | Except.ok result =>
    Except.ok
      { result with
        data := for3 g.nx g.ny g.nz (fun rdata i j k =>
          set3 rdata i j k (get3 g.data i j k * factor)) result.data }

/-- Friend operator `operator*(factor, grid)`: `return grid * factor;`. -/
def GridVec.mul_friend (factor : α) (grid : GridVec α) : Except GridError (GridVec α) :=
  grid.mul factor

/-- Prefix operator `operator++`: `data[i][j][k] += 1.0` in the loop nest. -/
def GridVec.incr (g : GridVec α) : GridVec α :=
  { g with
    data := for3 g.nx g.ny g.nz (fun data i j k =>
      set3 data i j k (get3 data i j k + 1)) g.data }

/-- Operator `operator+=`; `grid = none` stands for the call `a += a`. -/
def GridVec.add_assign (g : GridVec α) : Option (GridVec α) → Except GridError (GridVec α)
  | some grid =>
    if g.nx ≠ grid.nx ∨ g.ny ≠ grid.ny ∨ g.nz ≠ grid.nz then
      Except.error GridError.invalid_argument
    else
      Except.ok
        { g with
          data := for3 g.nx g.ny g.nz (fun data i j k =>
            set3 data i j k (get3 data i j k + get3 grid.data i j k)) g.data }
  | none =>
    Except.ok
      { g with
        data := for3 g.nx g.ny g.nz (fun data i j k =>
          set3 data i j k (get3 data i j k + get3 data i j k)) g.data }

/-! ## GridNew -/

/-- Modelled from the spec: the class declaration is in `grid3d_new.h`,
which is not among the sources; `grid3d_new.cpp` uses the members `data`
(indexed three times, allocated as `new double**[nx]`) and `nx`, `ny`, `nz`,
the same interface as the other two classes. -/
structure GridNew (α : Type) where
  data : List (List (List α))
  nx : Int
  ny : Int
  nz : Int

/-- The allocation common to the constructor, the copy constructor and the
assignment of `GridNew`, `init i j k` being the value stored in
`data[i][j][k]`:
```
data = new double**[nx];
for (int i = 0; i < nx; i++) {
    data[i] = new double*[ny];
    for (int j = 0; j < ny; j++) {
        data[i][j] = new double[nz];
        for (int k = 0; k < nz; k++) data[i][j][k] = init;
    }
}
```
The row `data[i]` is allocated, its cells are allocated and filled, and the
row is stored. -/
def GridNew.allocate (nx ny nz : Int) (init : Nat → Nat → Nat → α) :
    Except GridError (List (List (List α))) :=
  match new_array nx ([] : List (List α)) with
  | Except.error e => Except.error e
  | Except.ok data =>
    (List.range nx.toNat).foldlM (fun data i =>
      match new_array ny ([] : List α) with
      | Except.error e => Except.error e
      | Except.ok row =>
        match (List.range ny.toNat).foldlM (fun row j =>
            match new_array nz (0 : α) with
            | Except.error e => Except.error e
            | Except.ok cell =>
              Except.ok (row.set j
                ((List.range nz.toNat).foldl (fun cell k => cell.set k (init i j k)) cell)))
            row with
        | Except.error e => Except.error e
        | Except.ok row => Except.ok (data.set i row)) data

/-- Constructor `GridNew(nx_, ny_, nz_)`: every element is `0.0`. -/
def GridNew.ctor (nx_ ny_ nz_ : Int) : Except GridError (GridNew α) :=
  match GridNew.allocate nx_ ny_ nz_ (fun _ _ _ => (0 : α)) with
  | Except.error e => Except.error e
  | Except.ok data => Except.ok { data := data, nx := nx_, ny := ny_, nz := nz_ }

/-- Copy constructor `GridNew(const GridNew& grid)`: every element is
`grid.data[i][j][k]`. -/
def GridNew.copy_ctor (grid : GridNew α) : Except GridError (GridNew α) :=
  match GridNew.allocate grid.nx grid.ny grid.nz (fun i j k => get3 grid.data i j k) with
  | Except.error e => Except.error e
  | Except.ok data => Except.ok { data := data, nx := grid.nx, ny := grid.ny, nz := grid.nz }

/-- Operator `operator=` called with another object (`this != &grid`): the
old arrays are deleted, the dimensions are copied, new arrays are allocated
and filled from `grid`. -/
def GridNew.assign (g grid : GridNew α) : Except GridError (GridNew α) :=
  match GridNew.allocate grid.nx grid.ny grid.nz (fun i j k => get3 grid.data i j k) with
  | Except.error e => Except.error e
  | Except.ok data => Except.ok { data := data, nx := grid.nx, ny := grid.ny, nz := grid.nz }

/-- Member `getSize`: `nx * ny * nz`. -/
def GridNew.getSize (g : GridNew α) : Int := int_size g.nx g.ny g.nz

/-- Operator `operator()(i, j, k)`: the bounds check, then `data[i][j][k]`. -/
def GridNew.get (g : GridNew α) (i j k : Int) : Except GridError α :=
  if i < 0 ∨ i ≥ g.nx ∨ j < 0 ∨ j ≥ g.ny ∨ k < 0 ∨ k ≥ g.nz then
    Except.error GridError.out_of_range
  else Except.ok (get3 g.data i.toNat j.toNat k.toNat)

/-- Member `set(i, j, k, value)`: the bounds check, then
`data[i][j][k] = value`. -/
def GridNew.set (g : GridNew α) (i j k : Int) (value : α) : Except GridError (GridNew α) :=
  if i < 0 ∨ i ≥ g.nx ∨ j < 0 ∨ j ≥ g.ny ∨ k < 0 ∨ k ≥ g.nz then
    Except.error GridError.out_of_range
  else Except.ok { g with data := set3 g.data i.toNat j.toNat k.toNat value }

/-- Operator `operator+`: the dimension check, `GridNew result(nx, ny, nz)`,
then `result.data[i][j][k] = data[i][j][k] + grid.data[i][j][k]` in the loop
nest. -/
def GridNew.add (g grid : GridNew α) : Except GridError (GridNew α) :=
  if g.nx ≠ grid.nx ∨ g.ny ≠ grid.ny ∨ g.nz ≠ grid.nz then
    Except.error GridError.invalid_argument
  else
    match (GridNew.ctor g.nx g.ny g.nz : Except GridError (GridNew α)) with
    | Except.error e => Except.error e
    | Except.ok result =>
      Except.ok
        { result with
          data := for3 g.nx g.ny g.nz (fun rdata i j k =>
            set3 rdata i j k (get3 g.data i j k + get3 grid.data i j k)) result.data }

/-- Member operator `operator*(factor)`. -/
def GridNew.mul (g : GridNew α) (factor : α) : Except GridError (GridNew α) :=
  match (GridNew.ctor g.nx g.ny g.nz : Except GridError (GridNew α)) with
  | Except.error e => Except.error e
  | Except.ok result =>
    Except.ok
      { result with
        data := for3 g.nx g.ny g.nz (fun rdata i j k =>
          set3 rdata i j k (get3 g.data i j k * factor)) result.data }

/-- Friend operator `operator*(factor, grid)`: `return grid * factor;`. -/
def GridNew.mul_friend (factor : α) (grid : GridNew α) : Except GridError (GridNew α) :=
  grid.mul factor

/-- Prefix operator `operator++`: `data[i][j][k] += 1.0` in the loop nest. -/
def GridNew.incr (g : GridNew α) : GridNew α :=
  { g with
    data := for3 g.nx g.ny g.nz (fun data i j k =>
      set3 data i j k (get3 data i j k + 1)) g.data }

/-- Operator `operator+=`; `grid = none` stands for the call `a += a`. -/
def GridNew.add_assign (g : GridNew α) : Option (GridNew α) → Except GridError (GridNew α)
  | some grid =>
    if g.nx ≠ grid.nx ∨ g.ny ≠ grid.ny ∨ g.nz ≠ grid.nz then
      Except.error GridError.invalid_argument
    else
      Except.ok
        { g with
          data := for3 g.nx g.ny g.nz (fun data i j k =>
            set3 data i j k (get3 data i j k + get3 grid.data i j k)) g.data }
  | none =>
    Except.ok
      { g with
        data := for3 g.nx g.ny g.nz (fun data i j k =>
          set3 data i j k (get3 data i j k + get3 data i j k)) g.data }

/-! ## Programs over a grid class -/

/-- The public interface shared by the three classes. -/
structure GridImpl (G α : Type) where
  ctor : Int → Int → Int → Except GridError G
  copy_ctor : G → Except GridError G
  assign : G → G → Except GridError G
  getSize : G → Int
  get : G → Int → Int → Int → Except GridError α
  set : G → Int → Int → Int → α → Except GridError G
  add : G → G → Except GridError G
  mul : G → α → Except GridError G
  mul_friend : α → G → Except GridError G
  incr : G → G
  add_assign : G → Option G → Except GridError G

/-- The interface of `Grid1D`. -/
def Grid1D.impl : GridImpl (Grid1D α) α :=
  { ctor := Grid1D.ctor, copy_ctor := Grid1D.copy_ctor, assign := Grid1D.assign,
    getSize := Grid1D.getSize, get := Grid1D.get, set := Grid1D.set, add := Grid1D.add,
    mul := Grid1D.mul, mul_friend := Grid1D.mul_friend, incr := Grid1D.incr,
    add_assign := Grid1D.add_assign }

/-- The interface of `GridVec`. -/
def GridVec.impl : GridImpl (GridVec α) α :=
  { ctor := GridVec.ctor, copy_ctor := GridVec.copy_ctor, assign := GridVec.assign,
    getSize := GridVec.getSize, get := GridVec.get, set := GridVec.set, add := GridVec.add,
    mul := GridVec.mul, mul_friend := GridVec.mul_friend, incr := GridVec.incr,
    add_assign := GridVec.add_assign }

/-- The interface of `GridNew`. -/
def GridNew.impl : GridImpl (GridNew α) α :=
  { ctor := GridNew.ctor, copy_ctor := GridNew.copy_ctor, assign := GridNew.assign,
    getSize := GridNew.getSize, get := GridNew.get, set := GridNew.set, add := GridNew.add,
    mul := GridNew.mul, mul_friend := GridNew.mul_friend, incr := GridNew.incr,
    add_assign := GridNew.add_assign }

/-- One statement of a test program over grid variables, which are numbered
in the order of their declaration:
`Grid g(nx, ny, nz);`, `Grid g(src);`, `dst = src;`, `g.getSize()`,
`g(i, j, k)`, `g.set(i, j, k, value);`, `Grid g = a + b;`,
`Grid g = a * factor;`, `Grid g = factor * a;`, `++g;`, `a += b;`. -/
inductive GridCmd (α : Type) where
  | ctor (nx ny nz : Int)
  | copy_ctor (src : Nat)
  | assign (dst src : Nat)
  | getSize (g : Nat)
  | get (g : Nat) (i j k : Int)
  | set (g : Nat) (i j k : Int) (value : α)
  | add (a b : Nat)
  | mul (a : Nat) (factor : α)
  | mul_friend (factor : α) (a : Nat)
  | incr (g : Nat)
  | add_assign (a b : Nat)

/-- What a statement lets the program observe: a normal return, an exception
(caught by the program, which goes on), the value of `getSize()` or of a
read. -/
inductive GridEvent (α : Type) where
  | done
  | raised (e : GridError)
  | size (n : Int)
  | value (x : α)

/-- A statement that declares a variable initialised by `r`; when the
initialiser throws no variable is declared. -/
def declare {G : Type} (s : List G) (r : Except GridError G) : List G × GridEvent α :=
  match r with
  | Except.ok g => (s ++ [g], GridEvent.done)
  | Except.error e => (s, GridEvent.raised e)

/-- A statement that changes the variable `v` to `r`; the member functions
throw before they change anything, so the variable is unchanged then. -/
def update {G : Type} (s : List G) (v : Nat) (r : Except GridError G) : List G × GridEvent α :=
  match r with
  | Except.ok g => (s.set v g, GridEvent.done)
  | Except.error e => (s, GridEvent.raised e)

/-- One statement run on the variables `s`; `none` when it names a variable
that is not declared.  `dst = src` with `dst` and `src` the same variable is
the self-assignment the operators test for, `a += a` passes `*this`. -/
def step {G : Type} (I : GridImpl G α) (s : List G) : GridCmd α → Option (List G × GridEvent α)
  | GridCmd.ctor nx ny nz => some (declare s (I.ctor nx ny nz))
  | GridCmd.copy_ctor src =>
    match s[src]? with
    | some g => some (declare s (I.copy_ctor g))
    | none => none
  | GridCmd.assign dst src =>
    match s[dst]?, s[src]? with
    | some g, some grid =>
      if dst = src then some (s, GridEvent.done) else some (update s dst (I.assign g grid))
    | _, _ => none
  | GridCmd.getSize v =>
    match s[v]? with
    | some g => some (s, GridEvent.size (I.getSize g))
    | none => none
  | GridCmd.get v i j k =>
    match s[v]? with
    | some g =>
      match I.get g i j k with
      | Except.ok x => some (s, GridEvent.value x)
      | Except.error e => some (s, GridEvent.raised e)
    | none => none
  | GridCmd.set v i j k value =>
    match s[v]? with
    | some g => some (update s v (I.set g i j k value))
    | none => none
  | GridCmd.add a b =>
    match s[a]?, s[b]? with
    | some g, some grid => some (declare s (I.add g grid))
    | _, _ => none
  | GridCmd.mul a factor =>
    match s[a]? with
    | some g => some (declare s (I.mul g factor))
    | none => none
  | GridCmd.mul_friend factor a =>
    match s[a]? with
    | some g => some (declare s (I.mul_friend factor g))
    | none => none
  | GridCmd.incr v =>
    match s[v]? with
    | some g => some (s.set v (I.incr g), GridEvent.done)
    | none => none
  | GridCmd.add_assign a b =>
    match s[a]?, s[b]? with
    | some g, some grid =>
      some (update s a (I.add_assign g (if a = b then none else some grid)))
    | _, _ => none

/-- The events of a program run from the variables `s`. -/
def run_from {G : Type} (I : GridImpl G α) : List (GridCmd α) → List G →
    Option (List (GridEvent α))
  | [], _ => some []
  | c :: cs, s =>
    match step I s c with
    | none => none
    | some (s', ev) =>
      match run_from I cs s' with
      | none => none
      | some evs => some (ev :: evs)

/-- The events of a program run from no variable. -/
def run {G : Type} (I : GridImpl G α) (prog : List (GridCmd α)) : Option (List (GridEvent α)) :=
  run_from I prog []

/-- Whether every grid a program constructs has non-negative dimensions
whose product is in the range of `int`. -/
def GridCmd.small_dims : GridCmd α → Prop
  | GridCmd.ctor nx ny nz => 0 ≤ nx ∧ 0 ≤ ny ∧ 0 ≤ nz ∧ nx * ny * nz < 2147483648
  | _ => True

/-- Whether an event is an exception. -/
def GridEvent.is_raised : GridEvent α → Bool
  | GridEvent.raised _ => true
  | _ => false

/-! ## The abstract view of a grid -/

/-- What the equivalence proof sees of a grid: its dimensions, the element
at `(i, j, k)`, and the invariant of the representation. -/
structure GridView (G α : Type) where
  wf : G → Prop
  nx : G → Int
  ny : G → Int
  nz : G → Int
  rd : G → Nat → Nat → Nat → α

/-- The result `r` is a well-formed grid of dimensions `a`, `b`, `c` whose
element at every in-bounds `(i, j, k)` is `f i j k`. -/
def Returns {G : Type} (V : GridView G α) (r : Except GridError G) (a b c : Int)
    (f : Nat → Nat → Nat → α) : Prop :=
  ∃ g, r = Except.ok g ∧ V.wf g ∧ V.nx g = a ∧ V.ny g = b ∧ V.nz g = c ∧
    ∀ i j k : Nat, (i : Int) < a → (j : Int) < b → (k : Int) < c → V.rd g i j k = f i j k

/-- The specification of the interface in terms of the view. -/
structure Lawful {G : Type} (I : GridImpl G α) (V : GridView G α) : Prop where
  ctor_spec : ∀ a b c : Int, 0 ≤ a → 0 ≤ b → 0 ≤ c → a * b * c < 2147483648 →
    Returns V (I.ctor a b c) a b c (fun _ _ _ => 0)
  copy_spec : ∀ g, V.wf g → Returns V (I.copy_ctor g) (V.nx g) (V.ny g) (V.nz g) (V.rd g)
  assign_spec : ∀ g grid, V.wf g → V.wf grid →
    Returns V (I.assign g grid) (V.nx grid) (V.ny grid) (V.nz grid) (V.rd grid)
  getSize_spec : ∀ g, I.getSize g = int_size (V.nx g) (V.ny g) (V.nz g)
  get_spec : ∀ g (i j k : Int), V.wf g →
    I.get g i j k =
      if i < 0 ∨ i ≥ V.nx g ∨ j < 0 ∨ j ≥ V.ny g ∨ k < 0 ∨ k ≥ V.nz g then
        Except.error GridError.out_of_range
      else Except.ok (V.rd g i.toNat j.toNat k.toNat)
  set_raise : ∀ g (i j k : Int) (v : α), V.wf g →
    (i < 0 ∨ i ≥ V.nx g ∨ j < 0 ∨ j ≥ V.ny g ∨ k < 0 ∨ k ≥ V.nz g) →
    I.set g i j k v = Except.error GridError.out_of_range
  set_spec : ∀ g (i j k : Int) (v : α), V.wf g →
    ¬ (i < 0 ∨ i ≥ V.nx g ∨ j < 0 ∨ j ≥ V.ny g ∨ k < 0 ∨ k ≥ V.nz g) →
    Returns V (I.set g i j k v) (V.nx g) (V.ny g) (V.nz g)
      (fun i' j' k' =>
        if (i' : Int) = i ∧ (j' : Int) = j ∧ (k' : Int) = k then v else V.rd g i' j' k')
  add_raise : ∀ g grid, V.wf g → V.wf grid →
    (V.nx g ≠ V.nx grid ∨ V.ny g ≠ V.ny grid ∨ V.nz g ≠ V.nz grid) →
    I.add g grid = Except.error GridError.invalid_argument
  add_spec : ∀ g grid, V.wf g → V.wf grid →
    ¬ (V.nx g ≠ V.nx grid ∨ V.ny g ≠ V.ny grid ∨ V.nz g ≠ V.nz grid) →
    Returns V (I.add g grid) (V.nx g) (V.ny g) (V.nz g)
      (fun i j k => V.rd g i j k + V.rd grid i j k)
  mul_spec : ∀ g (factor : α), V.wf g →
    Returns V (I.mul g factor) (V.nx g) (V.ny g) (V.nz g) (fun i j k => V.rd g i j k * factor)
  mul_friend_spec : ∀ g (factor : α), I.mul_friend factor g = I.mul g factor
  incr_spec : ∀ g, V.wf g →
    Returns V (Except.ok (I.incr g)) (V.nx g) (V.ny g) (V.nz g) (fun i j k => V.rd g i j k + 1)
  add_assign_raise : ∀ g grid, V.wf g → V.wf grid →
    (V.nx g ≠ V.nx grid ∨ V.ny g ≠ V.ny grid ∨ V.nz g ≠ V.nz grid) →
    I.add_assign g (some grid) = Except.error GridError.invalid_argument
  add_assign_spec : ∀ g grid, V.wf g → V.wf grid →
    ¬ (V.nx g ≠ V.nx grid ∨ V.ny g ≠ V.ny grid ∨ V.nz g ≠ V.nz grid) →
    Returns V (I.add_assign g (some grid)) (V.nx g) (V.ny g) (V.nz g)
      (fun i j k => V.rd g i j k + V.rd grid i j k)
  add_assign_self_spec : ∀ g, V.wf g →
    Returns V (I.add_assign g none) (V.nx g) (V.ny g) (V.nz g)
      (fun i j k => V.rd g i j k + V.rd g i j k)

/-- Two grids of two classes hold the same data. -/
def Rel {G H : Type} (V : GridView G α) (W : GridView H α) (g : G) (h : H) : Prop :=
  V.wf g ∧ W.wf h ∧ V.nx g = W.nx h ∧ V.ny g = W.ny h ∧ V.nz g = W.nz h ∧
    ∀ i j k : Nat, (i : Int) < V.nx g → (j : Int) < V.ny g → (k : Int) < V.nz g →
      V.rd g i j k = W.rd h i j k

/-- Two lists of variables hold the same data, variable by variable. -/
def StoreRel {G H : Type} (V : GridView G α) (W : GridView H α) (s : List G) (t : List H) :
    Prop :=
  s.length = t.length ∧ ∀ (v : Nat) (g : G) (h : H), s[v]? = some g → t[v]? = some h → Rel V W g h

/-- A nested array has `a` rows of `b` cells of `c` elements. -/
def shape3 (data : List (List (List α))) (a b c : Nat) : Prop :=
  data.length = a ∧ ∀ i, i < a →
    (data.getD i []).length = b ∧ ∀ j, j < b → ((data.getD i []).getD j []).length = c

/-- The nested array of `a` rows of `b` cells of `c` elements holding
`f i j k` at `(i, j, k)`. -/
def tab3 (a b c : Nat) (f : Nat → Nat → Nat → α) : List (List (List α)) :=
  (List.range a).map (fun i => (List.range b).map (fun j => (List.range c).map (fun k => f i j k)))

/-- The innermost loop of a nest that updates every element in place, on one
cell: `for (k = 0; k < nz; k++) cell[k] = h k cell[k]`. -/
def cell_loop (nz : Nat) (h : Nat → α → α) (cell : List α) : List α :=
  (List.range nz).foldl (fun cell k => cell.set k (h k (cell.getD k 0))) cell

/-- The two inner loops of such a nest, on one row. -/
def row_loop (ny nz : Nat) (h : Nat → Nat → α → α) (row : List (List α)) : List (List α) :=
  (List.range ny).foldl (fun row j => row.set j (cell_loop nz (h j) (row.getD j []))) row

/-- The view of a `Grid1D`. -/
def Grid1D.view : GridView (Grid1D α) α :=
  { wf := fun g => 0 ≤ g.nx ∧ 0 ≤ g.ny ∧ 0 ≤ g.nz ∧
      g.data.length = (g.nx * g.ny * g.nz).toNat ∧ g.nx * g.ny * g.nz < 2147483648
    nx := fun g => g.nx, ny := fun g => g.ny, nz := fun g => g.nz
    rd := fun g i j k => g.data.getD (i * g.ny.toNat * g.nz.toNat + j * g.nz.toNat + k) 0 }

/-- The view of a `GridVec`. -/
def GridVec.view : GridView (GridVec α) α :=
  { wf := fun g => 0 ≤ g.nx ∧ 0 ≤ g.ny ∧ 0 ≤ g.nz ∧
      shape3 g.data g.nx.toNat g.ny.toNat g.nz.toNat
    nx := fun g => g.nx, ny := fun g => g.ny, nz := fun g => g.nz
    rd := fun g i j k => get3 g.data i j k }

/-- The view of a `GridNew`. -/
def GridNew.view : GridView (GridNew α) α :=
  { wf := fun g => 0 ≤ g.nx ∧ 0 ≤ g.ny ∧ 0 ≤ g.nz ∧
      shape3 g.data g.nx.toNat g.ny.toNat g.nz.toNat
    nx := fun g => g.nx, ny := fun g => g.ny, nz := fun g => g.nz
    rd := fun g i j k => get3 g.data i j k }

end Defs

end HW3

/-!
# HW1: data normalisation (`src/HW1/data_processor.cpp`)

Values are elements of a linearly ordered field: exact arithmetic, no NaN.
-/

namespace HW1

section Defs

variable {K : Type} [LinearOrderedField K]

/-- Algorithm `std::min_element` on the non-empty range `first, rest...`,
dereferenced: the iterator moves to an element only when it is smaller
(`*it < *smallest`), so the value is that of the first smallest element. -/
def min_element (first : K) (rest : List K) : K :=
  rest.foldl (fun smallest value => if value < smallest then value else smallest) first

/-- Algorithm `std::max_element` on the non-empty range `first, rest...`,
dereferenced: the iterator moves only when `*largest < *it`. -/
def max_element (first : K) (rest : List K) : K :=
  rest.foldl (fun largest value => if largest < value then value else largest) first

/-- Function `normalizeData`:
```
if (data.empty()) return data;
double minVal = *std::min_element(data.begin(), data.end());
double maxVal = *std::max_element(data.begin(), data.end());
if (maxVal == minVal) return std::vector<double>(data.size(), 0.5);
std::vector<double> normalized;
for (double value : data) normalized.push_back((value - minVal) / (maxVal - minVal));
return normalized;
```
in the arithmetic of an ordered field (no rounding, no overflow, no NaN);
`HW1.F64.normalizeData` is the function on IEEE doubles. -/
def normalizeData : List K → List K
  | [] => []
  | first :: rest =>
    let minVal := min_element first rest
    let maxVal := max_element first rest
    if maxVal = minVal then List.replicate (first :: rest).length (1 / 2)
    else
      (first :: rest).foldl
        (fun normalized value => normalized ++ [(value - minVal) / (maxVal - minVal)]) []

end Defs

end HW1

/-!
# HW4: bracket refinement by bisection (`src/HW4/solver.h`)

The template parameter `T` is a linearly ordered field (exact arithmetic).
The recursion of `bisectionRecursive` is bounded by a fuel argument: `none`
means that the fuel ran out before the base case was reached.
-/

namespace HW4

section Defs

variable {K : Type} [LinearOrderedField K]

/-- The bracket on which `bisectionRecursive` calls itself:
```
if (left_value * center_value < 0)       new_bracket = {bracket.first, center};
else if (right_value * center_value < 0) new_bracket = {center, bracket.second};
else {
    T new_left = bracket.first + (center - bracket.first) / 2.0;
    T new_right = center + (bracket.second - center) / 2.0;
    new_bracket = {new_left, new_right};
}
```
-/
def new_bracket (func : K → K) (bracket : K × K) : K × K :=
  let center := (bracket.1 + bracket.2) / 2
  let left_value := func bracket.1
  let right_value := func bracket.2
  let center_value := func center
  if left_value * center_value < 0 then (bracket.1, center)
  else if right_value * center_value < 0 then (center, bracket.2)
  else
    let new_left := bracket.1 + (center - bracket.1) / 2
    let new_right := center + (bracket.2 - center) / 2
    (new_left, new_right)

/-- Whether the third branch (`else`, no sign change on either half) is the
one taken on `bracket`. -/
def third_branch (func : K → K) (bracket : K × K) : Bool :=
  let center := (bracket.1 + bracket.2) / 2
  !(decide (func bracket.1 * func center < 0)) && !(decide (func bracket.2 * func center < 0))

/-- Function `bisectionRecursive`, with fuel:
```
T center = (bracket.first + bracket.second) / 2.0;
if (std::abs(center - bracket.first) <= bracket_tol) return bracket;
... new_bracket ...
return bisectionRecursive(func, new_bracket, bracket_tol);
```
for a type `T` with the arithmetic of an ordered field (no rounding, no
underflow); `HW4.F64.bisectionRecursive` is the instance `T = double` on IEEE
doubles. -/
def bisectionRecursive (func : K → K) : Nat → K × K → K → Option (K × K)
  | 0, _, _ => none
  | fuel + 1, bracket, bracket_tol =>
    let center := (bracket.1 + bracket.2) / 2
    if |center - bracket.1| ≤ bracket_tol then some bracket
    else bisectionRecursive func fuel (new_bracket func bracket) bracket_tol

/-- The members of `Solver<T>` that `refineBracket` writes. -/
structure Solver (K : Type) where
  bracket_tol : K
  bracket : K × K

/-- Member `refineBracket`: stores the tolerance and the bracket returned by
`bisectionRecursive`. -/
def Solver.refineBracket (s : Solver K) (func : K → K) (fuel : Nat) (bracket_ : K × K)
    (bracket_tol : K) : Option (Solver K) :=
  match bisectionRecursive func fuel bracket_ bracket_tol with
  | some b => some { s with bracket_tol := bracket_tol, bracket := b }
  | none => none

/-- The property kept by the recursion: the function changes sign over the
bracket, or vanishes at its midpoint. -/
def bracketed (func : K → K) (bracket : K × K) : Prop :=
  func bracket.1 * func bracket.2 < 0 ∨ func ((bracket.1 + bracket.2) / 2) = 0

end Defs

end HW4

/-!
# HW7: polynomial expression trees (`src/HW7/PolynomialBinaryTree.cpp`)

A `std::shared_ptr<Node>` is a tree: `nullptr`, or a node of one of the three
`NodeType`s.  `double` is a linearly ordered field.  A function that can
throw returns `Except String _`, the string being the message of the
`std::runtime_error`.
-/

namespace HW7

/-- What a `std::shared_ptr<Node>` points to (`Node.h`): nothing, a constant,
a variable, or an operator with its two children. -/
inductive Node (K : Type) where
  | nullptr : Node K
  | Constant (constant : K) : Node K
  | Variable (name : Char) : Node K
  | Operator (op : Char) (left right : Node K) : Node K

section Defs

variable {K : Type} [LinearOrderedField K]

/-- Function `evaluateNode`: `0.0` for a null pointer, the children first,
then `throw std::runtime_error("Unsupported operator")` for an operator
other than `+`, `-`, `*`. -/
def evaluateNode : Node K → K → Except String K
  | Node.nullptr, _ => Except.ok 0
  | Node.Constant c, _ => Except.ok c
  | Node.Variable _, x => Except.ok x
  | Node.Operator op left right, x =>
    match evaluateNode left x with
    | Except.error e => Except.error e
    | Except.ok leftVal =>
      match evaluateNode right x with
      | Except.error e => Except.error e
      | Except.ok rightVal =>
        if op = '+' then Except.ok (leftVal + rightVal)
        else if op = '-' then Except.ok (leftVal - rightVal)
        else if op = '*' then Except.ok (leftVal * rightVal)
        else Except.error "Unsupported operator"

/-- Function `isZero`:
`node->type == NodeType::Constant && std::abs(node->getConstant()) < 1e-10`. -/
def isZero : Node K → Bool
  | Node.Constant c => decide (|c| < 1 / 10000000000)
  | _ => false

/-- Function `isConstant`: a constant, or an operator whose two children are
constant. -/
def isConstant : Node K → Bool
  | Node.nullptr => false
  | Node.Constant _ => true
  | Node.Variable _ => false
  | Node.Operator _ left right => isConstant left && isConstant right

/-- Function `getConstantValue`. -/
def getConstantValue : Node K → K
  | Node.nullptr => 0
  | Node.Constant c => c
  | Node.Variable _ => 0
  | Node.Operator op left right =>
    let leftVal := getConstantValue left
    let rightVal := getConstantValue right
    if op = '+' then leftVal + rightVal
    else if op = '-' then leftVal - rightVal
    else if op = '*' then leftVal * rightVal
    else 0

/-- Function `simplifyNode`. -/
def simplifyNode : Node K → Node K
  | Node.nullptr => Node.nullptr
  | Node.Constant c => Node.Constant c
  | Node.Variable v => Node.Variable v
  | Node.Operator op l r =>
    let left := simplifyNode l
    let right := simplifyNode r
    let leftZero := isZero left
    let rightZero := isZero right
    let leftConst := isConstant left
    let rightConst := isConstant right
    if op = '+' then
      if leftZero then right
      else if rightZero then left
      else if leftConst && rightConst then
        Node.Constant (getConstantValue left + getConstantValue right)
      else Node.Operator op left right
    else if op = '-' then
      if leftZero then
        if rightConst then Node.Constant (-getConstantValue right)
        else Node.Operator '*' (Node.Constant (-1)) right
      else if rightZero then left
      else if leftConst && rightConst then
        Node.Constant (getConstantValue left - getConstantValue right)
      else Node.Operator op left right
    else if op = '*' then
      if leftZero || rightZero then Node.Constant 0
      else if leftConst && rightConst then
        Node.Constant (getConstantValue left * getConstantValue right)
      else Node.Operator op left right
    else Node.Operator op left right

/-- Function `differentiateNode`; an operator other than `+`, `-`, `*` throws
before its children are visited. -/
def differentiateNode : Node K → Except String (Node K)
  | Node.nullptr => Except.ok (Node.Constant 0)
  | Node.Constant _ => Except.ok (Node.Constant 0)
  | Node.Variable _ => Except.ok (Node.Constant 1)
  | Node.Operator op left right =>
    if op = '+' ∨ op = '-' then
      match differentiateNode left with
      | Except.error e => Except.error e
      | Except.ok leftDiff =>
        match differentiateNode right with
        | Except.error e => Except.error e
        | Except.ok rightDiff => Except.ok (Node.Operator op leftDiff rightDiff)
    else if op = '*' then
      match differentiateNode left with
      | Except.error e => Except.error e
      | Except.ok leftDiff =>
        match differentiateNode right with
        | Except.error e => Except.error e
        | Except.ok rightDiff =>
          let term1 := Node.Operator '*' leftDiff right
          let term2 := Node.Operator '*' left rightDiff
          Except.ok (Node.Operator '+' term1 term2)
    else Except.error "Unsupported operator for differentiation"

/-- Member `differentiate`, on the root: `differentiateNode`, then
`simplify`. -/
def differentiate (root : Node K) : Except String (Node K) :=
  match differentiateNode root with
  | Except.error e => Except.error e
  | Except.ok diffRoot => Except.ok (simplifyNode diffRoot)

/-- Member `evaluate` of the tree returned by `differentiate`. -/
def differentiate_evaluate (root : Node K) (x : K) : Except String K :=
  match differentiate root with
  | Except.error e => Except.error e
  | Except.ok d => evaluateNode d x

/-- The expression trees of the specification: constants, the variable `x`
and the operators `+`, `-`, `*`. -/
inductive Expression (K : Type) where
  | const (c : K) : Expression K
  | var : Expression K
  | add (l r : Expression K) : Expression K
  | sub (l r : Expression K) : Expression K
  | mul (l r : Expression K) : Expression K

/-- The tree built for an expression by the constructors
`PolynomialBinaryTree(double)`, `PolynomialBinaryTree("x")` and the
operators `+`, `-`, `*` of the class. -/
def Expression.toNode : Expression K → Node K
  | Expression.const c => Node.Constant c
  | Expression.var => Node.Variable 'x'
  | Expression.add l r => Node.Operator '+' l.toNode r.toNode
  | Expression.sub l r => Node.Operator '-' l.toNode r.toNode
  | Expression.mul l r => Node.Operator '*' l.toNode r.toNode

/-- The value of an expression at `x`. -/
def Expression.value : Expression K → K → K
  | Expression.const c, _ => c
  | Expression.var, x => x
  | Expression.add l r, x => l.value x + r.value x
  | Expression.sub l r, x => l.value x - r.value x
  | Expression.mul l r, x => l.value x * r.value x

/-- The value at `x` of the formal derivative: `D c = 0`, `D x = 1`,
`D (l ± r) = D l ± D r`, `D (l * r) = D l * r + l * D r`. -/
def Expression.derivative_value : Expression K → K → K
  | Expression.const _, _ => 0
  | Expression.var, _ => 1
  | Expression.add l r, x => l.derivative_value x + r.derivative_value x
  | Expression.sub l r, x => l.derivative_value x - r.derivative_value x
  | Expression.mul l r, x => l.derivative_value x * r.value x + l.value x * r.derivative_value x

/-- Every constant of the expression is an integer. -/
def Expression.integer_constants : Expression K → Prop
  | Expression.const c => ∃ n : Int, c = n
  | Expression.var => True
  | Expression.add l r => l.integer_constants ∧ r.integer_constants
  | Expression.sub l r => l.integer_constants ∧ r.integer_constants
  | Expression.mul l r => l.integer_constants ∧ r.integer_constants

/-- A tree without null pointer, whose operators are `+`, `-`, `*` and whose
constants are integers. -/
def Node.integral : Node K → Prop
  | Node.nullptr => False
  | Node.Constant c => ∃ n : Int, c = n
  | Node.Variable _ => True
  | Node.Operator op left right =>
    (op = '+' ∨ op = '-' ∨ op = '*') ∧ left.integral ∧ right.integral

/-- The value at `x` of a tree, read directly off the tree: what
`evaluateNode` returns when it does not throw. -/
def Node.value : Node K → K → K
  | Node.nullptr, _ => 0
  | Node.Constant c, _ => c
  | Node.Variable _, x => x
  | Node.Operator op left right, x =>
    if op = '+' then left.value x + right.value x
    else if op = '-' then left.value x - right.value x
    else if op = '*' then left.value x * right.value x
    else 0

/-- A tree without null pointer whose operators are `+`, `-`, `*`. -/
def Node.supported : Node K → Prop
  | Node.nullptr => False
  | Node.Constant _ => True
  | Node.Variable _ => True
  | Node.Operator op left right =>
    (op = '+' ∨ op = '-' ∨ op = '*') ∧ left.supported ∧ right.supported

/-- Whether a node is the constant `0`. -/
def Node.is_constant_zero : Node K → Bool
  | Node.Constant c => decide (c = 0)
  | _ => false

/-- Whether the zero test of `simplifyNode` is exact on the tree: every
simplified operand on which `isZero` holds is the constant `0`, so that no
non-zero constant below `1e-10` in absolute value is taken for zero. -/
def Node.zero_test_exact : Node K → Bool
  | Node.Operator _ left right =>
    left.zero_test_exact && right.zero_test_exact &&
    (!isZero (simplifyNode left) || (simplifyNode left).is_constant_zero) &&
    (!isZero (simplifyNode right) || (simplifyNode right).is_constant_zero)
  | _ => true

/-- The polynomial with the zeros `zeros` (counted with multiplicity, in
increasing order), as `from_zeros` of `main.cpp` builds it from the sorted
`std::map`: `1.0` multiplied by the factors `x - zero`. -/
def from_zeros (zeros : List K) : Expression K :=
  zeros.foldl (fun result zero =>
    Expression.mul result (Expression.sub Expression.var (Expression.const zero)))
    (Expression.const 1)

end Defs

end HW7

/-!
# The arithmetic of `double`

The sections above take `double` as an exact ordered field.  This section
gives the arithmetic the programs run on: IEEE 754 binary64 with rounding to
nearest, ties to even, gradual underflow, overflow to an infinity, signed
zeros and NaN.  A finite double is given by its sign and the rational number
that is its magnitude.  The functions of the programs are translated a
second time over this type, in the namespaces `F64`.
-/

namespace IEEE754

/-- The power `2 ^ e` for an integer exponent. -/
def pow2 (e : Int) : ℚ :=
  if 0 ≤ e then ((2 ^ e.toNat : Nat) : ℚ) else 1 / ((2 ^ (-e).toNat : Nat) : ℚ)

/-- The number of binary digits of `n`, counted with at most `fuel`
halvings. -/
def bit_length : Nat → Nat → Nat
  | 0, _ => 0
  | fuel + 1, n => if n = 0 then 0 else bit_length fuel (n / 2) + 1

/-- The binade of a positive rational `q`: the integer `e` with
`2 ^ e ≤ q < 2 ^ (e + 1)`. -/
def binade (q : ℚ) : Int :=
  let a : Int := (bit_length q.num.toNat q.num.toNat : Int) - (bit_length q.den q.den : Int)
  if pow2 a ≤ q then a else a - 1

/-- Rounding of a non-negative rational to the nearest integer, ties to the
even one. -/
def round_half_even (n : ℚ) : Int :=
  let fl : Int := n.num / (n.den : Int)
  let frac : ℚ := n - fl
  if frac < 1 / 2 then fl
  else if 1 / 2 < frac then fl + 1
  else if fl % 2 = 0 then fl else fl + 1

/-- The spacing of the doubles around a positive rational: `2 ^ (e - 52)` in
the binade `e`, and `2 ^ (-1074)` below `2 ^ (-1022)` (subnormal numbers). -/
def ulp (q : ℚ) : ℚ := pow2 (max (binade q) (-1022) - 52)

/-- Rounding of a non-negative rational to the nearest number of the form
`m * 2 ^ e` with `m < 2 ^ 53` and `e ≥ -1074`, ties to even `m` (the
exponent is not bounded above here). -/
def round_magnitude (q : ℚ) : ℚ :=
  if q = 0 then 0 else (round_half_even (q / ulp q) : ℚ) * ulp q

/-- The largest finite `double`, `(2 ^ 53 - 1) * 2 ^ 971`. -/
def DBL_MAX : ℚ := ((2 ^ 53 - 1) * 2 ^ 971 : Nat)

/-- A value of type `double` (IEEE 754 binary64): a finite number given by
its sign and its magnitude (so that `-0.0` is a value), an infinity, or a
NaN. -/
inductive Double where
  | finite (negative : Bool) (magnitude : ℚ)
  | infinite (negative : Bool)
  | nan
  deriving DecidableEq, Repr

namespace Double

/-- The double nearest to the real number of sign `negative` and magnitude
`q ≥ 0` (round to nearest, ties to even); a magnitude that rounds above
`DBL_MAX` overflows to an infinity. -/
def round (negative : Bool) (q : ℚ) : Double :=
  if DBL_MAX < round_magnitude q then infinite negative else finite negative (round_magnitude q)

/-- The double nearest to a rational number; the value of a decimal literal
and of a converted `int`. -/
def ofRat (q : ℚ) : Double := round (decide (q < 0)) |q|

/-- The signed value of a finite double. -/
def signed (negative : Bool) (magnitude : ℚ) : ℚ := if negative then -magnitude else magnitude

/-- Unary minus. -/
def neg : Double → Double
  | finite s m => finite (!s) m
  | infinite s => infinite (!s)
  | nan => nan

/-- Function `std::abs`. -/
def abs : Double → Double
  | finite _ m => finite false m
  | infinite _ => infinite false
  | nan => nan

/-- Operator `+`. -/
def add : Double → Double → Double
  | nan, _ => nan
  | _, nan => nan
  | infinite s, infinite t => if s = t then infinite s else nan
  | infinite s, finite _ _ => infinite s
  | finite _ _, infinite t => infinite t
  | finite s m, finite t n =>
    let v := signed s m + signed t n
    if v = 0 then finite (s && t) 0 else round (decide (v < 0)) |v|

/-- Operator `-`. -/
def sub (x y : Double) : Double := add x (neg y)

/-- Operator `*`. -/
def mul : Double → Double → Double
  | nan, _ => nan
  | _, nan => nan
  | infinite s, infinite t => infinite (xor s t)
  | infinite s, finite t n => if n = 0 then nan else infinite (xor s t)
  | finite s m, infinite t => if m = 0 then nan else infinite (xor s t)
  | finite s m, finite t n => round (xor s t) (m * n)

/-- Operator `/`. -/
def div : Double → Double → Double
  | nan, _ => nan
  | _, nan => nan
  | infinite _, infinite _ => nan
  | infinite s, finite t _ => infinite (xor s t)
  | finite s _, infinite t => finite (xor s t) 0
  | finite s m, finite t n =>
    if n = 0 then (if m = 0 then nan else infinite (xor s t))
    else round (xor s t) (m / n)

/-- Operator `<`: false when an operand is a NaN. -/
def lt : Double → Double → Bool
  | nan, _ => false
  | _, nan => false
  | infinite s, infinite t => s && !t
  | infinite s, finite _ _ => s
  | finite _ _, infinite t => !t
  | finite s m, finite t n => decide (signed s m < signed t n)

/-- Operator `>`. -/
def gt (x y : Double) : Bool := lt y x

/-- Operator `==`: false when an operand is a NaN, true of `0.0` and
`-0.0`. -/
def eq : Double → Double → Bool
  | nan, _ => false
  | _, nan => false
  | infinite s, infinite t => s == t
  | infinite _, finite _ _ => false
  | finite _ _, infinite _ => false
  | finite s m, finite t n => decide (signed s m = signed t n)

/-- Operator `<=`. -/
def le (x y : Double) : Bool := lt x y || eq x y

/-- A value of the model is a double when, if finite, its magnitude is not
negative, is at most `DBL_MAX` and is one of the numbers `m * 2 ^ e` of the
format (rounding does not change it). -/
def valid : Double → Prop
  | finite _ m => 0 ≤ m ∧ m ≤ DBL_MAX ∧ round_magnitude m = m
  | _ => True

/-- Whether a double is a finite number. -/
def is_finite : Double → Bool
  | finite _ _ => true
  | _ => false

/-- The number that a finite double stands for (`0` for the other values). -/
def value : Double → ℚ
  | finite s m => signed s m
  | _ => 0

end Double

end IEEE754


/-! ## HW1 on doubles -/

namespace HW1.F64

open IEEE754

/-- Algorithm `std::min_element`, dereferenced, with `operator<` of
`double`. -/
def min_element (first : Double) (rest : List Double) : Double :=
  rest.foldl (fun smallest value => if value.lt smallest then value else smallest) first

/-- Algorithm `std::max_element`, dereferenced. -/
def max_element (first : Double) (rest : List Double) : Double :=
  rest.foldl (fun largest value => if largest.lt value then value else largest) first

/-- Function `normalizeData` on doubles:
```
if (data.empty()) return data;
double minVal = *std::min_element(data.begin(), data.end());
double maxVal = *std::max_element(data.begin(), data.end());
if (maxVal == minVal) return std::vector<double>(data.size(), 0.5);
for (double value : data) normalized.push_back((value - minVal) / (maxVal - minVal));
```
-/
def normalizeData : List Double → List Double
  | [] => []
  | first :: rest =>
    let minVal := min_element first rest
    let maxVal := max_element first rest
    if maxVal.eq minVal then List.replicate (first :: rest).length (Double.ofRat (1 / 2))
    else
      (first :: rest).foldl
        (fun normalized value =>
          normalized ++ [(value.sub minVal).div (maxVal.sub minVal)]) []

end HW1.F64

/-! ## HW4 on doubles -/

namespace HW4.F64

open IEEE754

/-- The bracket on which `bisectionRecursive` calls itself, on doubles. -/
def new_bracket (func : Double → Double) (bracket : Double × Double) : Double × Double :=
  let center := (bracket.1.add bracket.2).div (Double.ofRat 2)
  let left_value := func bracket.1
  let right_value := func bracket.2
  let center_value := func center
  if (left_value.mul center_value).lt (Double.ofRat 0) then (bracket.1, center)
  else if (right_value.mul center_value).lt (Double.ofRat 0) then (center, bracket.2)
  else
    let new_left := bracket.1.add ((center.sub bracket.1).div (Double.ofRat 2))
    let new_right := center.add ((bracket.2.sub center).div (Double.ofRat 2))
    (new_left, new_right)

/-- Whether the third branch is the one taken on `bracket`, on doubles. -/
def third_branch (func : Double → Double) (bracket : Double × Double) : Bool :=
  let center := (bracket.1.add bracket.2).div (Double.ofRat 2)
  !((func bracket.1).mul (func center)).lt (Double.ofRat 0) &&
    !((func bracket.2).mul (func center)).lt (Double.ofRat 0)

/-- Function `bisectionRecursive` on doubles, with fuel:
```
T center = (bracket.first + bracket.second) / 2.0;
if (std::abs(center - bracket.first) <= bracket_tol) return bracket;
... new_bracket ...
return bisectionRecursive(func, new_bracket, bracket_tol);
```
-/
def bisectionRecursive (func : Double → Double) :
    Nat → Double × Double → Double → Option (Double × Double)
  | 0, _, _ => none
  | fuel + 1, bracket, bracket_tol =>
    let center := (bracket.1.add bracket.2).div (Double.ofRat 2)
    if ((center.sub bracket.1).abs).le bracket_tol then some bracket
    else bisectionRecursive func fuel (new_bracket func bracket) bracket_tol

/-- The function `f(x) = 1e-153 * (x - 0.9)^21` on doubles, computed by
repeated multiplication from the left; its only zero is `0.9`. -/
def scaled_power (x : Double) : Double :=
  (List.range 21).foldl (fun p _ => p.mul (x.sub (Double.ofRat (9 / 10))))
    (Double.ofRat (1 / 10 ^ 153))

end HW4.F64

/-! ## HW8 on doubles -/

namespace HW8.F64

open IEEE754

/-- Member `determinant` on doubles: `a11_ * a22_ - a12_ * a21_`. -/
def determinant (M : Matrix Double) : Double :=
  (M.a11.mul M.a22).sub (M.a12.mul M.a21)

/-- Function `invert_matrix` on doubles:
```
double det = M.determinant();
if (std::abs(det) < 1e-12) throw SingularMatrixError(...);
return Matrix(M.a22() / det, -M.a12() / det, -M.a21() / det, M.a11() / det);
```
-/
def invert_matrix (M : Matrix Double) : Except MatrixError (Matrix Double) :=
  let det := determinant M
  if det.abs.lt (Double.ofRat (1 / 1000000000000)) then
    Except.error MatrixError.SingularMatrixError
  else
    Except.ok { a11 := M.a22.div det, a12 := M.a12.neg.div det, a21 := M.a21.neg.div det,
                a22 := M.a11.div det }

end HW8.F64

/-! ## HW9 on doubles -/

namespace HW9.F64

open IEEE754

/-- One pass of the loop body of `verify_triangular` on doubles:
`if (std::abs(y[i] - expected_value) > 1e-9) ...`. -/
def verify_step (expected_value : Double) (s : VerifyState Double) (i : Nat) :
    VerifyState Double :=
  if (((s.y.getD i (Double.ofRat 0)).sub expected_value).abs).gt
      (Double.ofRat (1 / 1000000000)) then
    { s with
      reported := if s.error_count < 5 then s.reported ++ [i] else s.reported
      test_passed := false
      error_count := s.error_count + 1 }
  else s

/-- The loop of `verify_triangular` on doubles: element `i < n` is compared
with `expected_value = static_cast<double>(i)`. -/
def verify_triangular_run (y : List Double) (n : Nat) : VerifyState Double :=
  (List.range n).foldl (fun s (i : Nat) => verify_step (Double.ofRat i) s i)
    { y := y, test_passed := true, error_count := 0, reported := [] }

/-- Function `verify_triangular` of `utils.cpp` on doubles. -/
def verify_triangular (y : List Double) (n : Nat) : Bool :=
  (verify_triangular_run y n).test_passed

/-- The statistics computed by `main` from the timed runs, on doubles;
`sqrt` is `std::sqrt`.  Returns `(min_duration, avg_duration, std_dev)`. -/
def benchmark_stats (sqrt : Double → Double) (run_time : Nat → Double) :
    Double × Double × Double :=
  let loop := (List.range NUM_RUNS).foldl
    (fun (s : Double × Double × List Double) i =>
      let duration := run_time (NUM_WARMUP + i)
      let durations := s.2.2 ++ [duration]
      let min_duration := if duration.lt s.1 then duration else s.1
      let total_duration := s.2.1.add duration
      (min_duration, total_duration, durations))
    (Double.finite false DBL_MAX, Double.ofRat 0, [])
  let min_duration := loop.1
  let total_duration := loop.2.1
  let durations := loop.2.2
  let avg_duration := total_duration.div (Double.ofRat NUM_RUNS)
  let variance := durations.foldl
    (fun variance d => variance.add ((d.sub avg_duration).mul (d.sub avg_duration)))
    (Double.ofRat 0)
  let std_dev := sqrt (variance.div (Double.ofRat NUM_RUNS))
  (min_duration, avg_duration, std_dev)

end HW9.F64

namespace HW9

/-! ## Theorems -/

section ListLemmas

variable {α : Type}

theorem getD_set_self (l : List α) (i : Nat) (a d : α) (h : i < l.length) :
    (l.set i a).getD i d = a := by
  simp [h]

theorem getD_set_ne (l : List α) (i j : Nat) (a d : α) (h : i ≠ j) :
    (l.set i a).getD j d = l.getD j d := by
  simp [h]

theorem set_getD_self (l : List α) (i : Nat) (d : α) (h : i < l.length) :
    l.set i (l.getD i d) = l := by
  apply List.ext_getElem (by simp)
  intro k h1 h2
  by_cases hk : i = k
  · subst hk; simp [h]
  · simp [hk]

theorem set_getD_same (l : List α) (i : Nat) (d : α) : l.set i (l.getD i d) = l := by
  by_cases h : i < l.length
  · exact set_getD_self l i d h
  · exact List.set_eq_of_length_le (by omega)

/-- Writing slot `i` and then overwriting it with a value computed from what
was just written. -/
theorem set_set_getD (l : List α) (i : Nat) (a d : α) (h : α → α) :
    (l.set i a).set i (h ((l.set i a).getD i d)) = l.set i (h a) := by
  by_cases hi : i < l.length
  · rw [List.set_set, getD_set_self _ _ _ _ hi]
  · rw [List.set_eq_of_length_le (by simp; omega), List.set_eq_of_length_le (by omega),
      List.set_eq_of_length_le (by omega)]

theorem ext_getD (l₁ l₂ : List α) (d : α) (hl : l₁.length = l₂.length)
    (h : ∀ t, t < l₁.length → l₁.getD t d = l₂.getD t d) : l₁ = l₂ := by
  apply List.ext_getElem hl
  intro t h1 h2
  have := h t h1
  rwa [List.getD_eq_getElem _ _ h1, List.getD_eq_getElem _ _ h2] at this

/-- A fold whose every step is a `set` keeps the length. -/
theorem foldl_set_length {ι : Type} (p : List α → ι → Nat) (v : List α → ι → α)
    (l : List ι) (y : List α) :
    (l.foldl (fun y i => y.set (p y i) (v y i)) y).length = y.length := by
  induction l generalizing y with
  | nil => rfl
  | cons a l ih => simp only [List.foldl_cons]; rw [ih, List.length_set]

/-- A loop over `i < k` that replaces slot `i` by a function of its old
content. -/
theorem foldl_update_getD (g : Nat → α → α) (d : α) (k : Nat) (y : List α) (t : Nat) :
    ((List.range k).foldl (fun y i => y.set i (g i (y.getD i d))) y).getD t d
      = if t < k ∧ t < y.length then g t (y.getD t d) else y.getD t d := by
  induction k with
  | zero => simp
  | succ k ih =>
    rw [List.range_succ, List.foldl_append]
    simp only [List.foldl_cons, List.foldl_nil]
    by_cases htk : k = t
    · subst htk
      by_cases hlen : k < y.length
      · rw [getD_set_self _ _ _ _ (by rw [foldl_set_length (fun _ i => i)]; exact hlen), ih]
        simp [hlen]
      · rw [List.set_eq_of_length_le (by rw [foldl_set_length (fun _ i => i)]; omega), ih]
        simp [hlen]
    · rw [getD_set_ne _ _ _ _ _ htk, ih]
      by_cases h1 : t < k
      · have h2 : t < k + 1 := by omega
        simp [h1, h2]
      · have h2 : ¬ t < k + 1 := by omega
        simp [h1, h2]

/-- A loop that stores `v i` at position `p i` for `i < k` does not touch a
slot that is none of the `p i`. -/
theorem foldl_store_getD_of_ne (p : Nat → Nat) (v : Nat → α) (k : Nat) (y : List α)
    (t : Nat) (d : α) (h : ∀ i, i < k → p i ≠ t) :
    ((List.range k).foldl (fun y i => y.set (p i) (v i)) y).getD t d = y.getD t d := by
  induction k with
  | zero => simp
  | succ k ih =>
    rw [List.range_succ, List.foldl_append]
    simp only [List.foldl_cons, List.foldl_nil]
    rw [getD_set_ne _ _ _ _ _ (h k (by omega)), ih (fun i hi => h i (by omega))]

/-- A loop that stores `v i` at position `p i` for `i < k`, the positions
being pairwise distinct, leaves `v i` at position `p i`. -/
theorem foldl_store_getD_of_eq (p : Nat → Nat) (v : Nat → α) (k : Nat) (y : List α)
    (i : Nat) (d : α) (hi : i < k) (hp : p i < y.length)
    (hinj : ∀ i', i' < k → p i' = p i → i' = i) :
    ((List.range k).foldl (fun y i => y.set (p i) (v i)) y).getD (p i) d = v i := by
  induction k with
  | zero => omega
  | succ k ih =>
    rw [List.range_succ, List.foldl_append]
    simp only [List.foldl_cons, List.foldl_nil]
    by_cases hik : i = k
    · subst hik
      rw [getD_set_self _ _ _ _ (by rw [foldl_set_length (fun _ i => p i)]; exact hp)]
    · have hne : p k ≠ p i := fun he => hik (hinj k (by omega) he).symm
      rw [getD_set_ne _ _ _ _ _ hne]
      exact ih (by omega) (fun i' hi' he => hinj i' (by omega) he)

/-- Writing `one` into the slots `0, ..., m - 1` of a list of length `m`. -/
theorem foldl_fill (one : α) (m : Nat) (l : List α) (hl : l.length = m) :
    (List.range m).foldl (fun l i => l.set i one) l = List.replicate m one := by
  apply ext_getD _ _ one
  · rw [foldl_set_length (fun _ i => i) (fun _ _ => one), hl, List.length_replicate]
  · intro t ht
    rw [foldl_set_length (fun _ i => i) (fun _ _ => one), hl] at ht
    rw [foldl_update_getD (fun _ _ => one) one m l t, if_pos ⟨ht, by omega⟩,
      List.getD_eq_getElem _ _ (by simpa using ht)]
    simp

theorem getD_replicate (a d : α) (m t : Nat) (ht : t < m) :
    (List.replicate m a).getD t d = a := by
  rw [List.getD_eq_getElem _ _ (by simpa using ht)]
  simp

/-- A function that sends every list of length `n` to the list `c` of length
`n` gives `c` after any positive number of applications. -/
theorem iterate_const_of_length (f : List α → List α) (c : List α) (n : Nat)
    (hc : c.length = n) (hf : ∀ y, y.length = n → f y = c) (k : Nat) (y : List α)
    (hy : y.length = n) : Nat.iterate f (k + 1) y = c := by
  induction k with
  | zero => exact hf y hy
  | succ k ih =>
    rw [Function.iterate_succ_apply', ih]
    exact hf c hc

end ListLemmas

section Lemmas

variable {α : Type} [Zero α] [Add α] [Mul α]

/-- A loop `y[r] += f j` over `j < m` only changes slot `r`, which ends up
holding the left-to-right accumulation started from the old `y[r]`. -/
theorem foldl_acc_eq (r : Nat) (f : Nat → α) (m : Nat) (y : List α) :
    (List.range m).foldl (fun y j => y.set r (y.getD r 0 + f j)) y
      = y.set r (accFrom f (y.getD r 0) m) := by
  induction m with
  | zero =>
    simp only [List.range_zero, List.foldl_nil, accFrom]
    rw [set_getD_same]
  | succ m ih =>
    rw [List.range_succ, List.foldl_append, ih]
    simp only [List.foldl_cons, List.foldl_nil, accFrom]
    exact set_set_getD y r _ 0 (fun a => a + f m)

/-- The single-row kernel in closed form: slot `row` receives `triSum`. -/
theorem compute_row_triangular_eq (A : A1D α) (x y : V α) (row n : Nat) :
    compute_row_triangular A x y row n = y.set row (triSum A x row n) := by
  unfold compute_row_triangular triSum
  simp only []
  rw [foldl_acc_eq]
  exact set_set_getD y row 0 0
    (fun a => accFrom (fun j => A.getD (row * n + j) 0 * x.getD j 0) a (row + 1))

/-! ### Serial variants -/

theorem matvec_row_major_eq (y : V α) (A : A1D α) (x : V α) (n : Nat) :
    matvec_row_major y A x n
      = (List.range n).foldl (fun y i => y.set i (fullSum A x i n)) y := by
  unfold matvec_row_major
  congr 1
  funext y i
  simp only []
  rw [foldl_acc_eq]
  exact set_set_getD y i 0 0
    (fun a => accFrom (fun j => A.getD (i * n + j) 0 * x.getD j 0) a n)

theorem matvec_row_major_length (y : V α) (A : A1D α) (x : V α) (n : Nat) :
    (matvec_row_major y A x n).length = y.length := by
  rw [matvec_row_major_eq]
  exact foldl_set_length (fun _ i => i) (fun _ i => fullSum A x i n) _ y

theorem matvec_row_major_getD (y : V α) (A : A1D α) (x : V α) (n t : Nat) :
    (matvec_row_major y A x n).getD t 0
      = if t < n ∧ t < y.length then fullSum A x t n else y.getD t 0 := by
  rw [matvec_row_major_eq]
  exact foldl_update_getD (fun i _ => fullSum A x i n) 0 n y t

/-- The first `m` passes of the outer (column) loop of `matvec_col_major`. -/
theorem matvec_col_major_loop (y : V α) (A : A1D α) (x : V α) (n m : Nat) :
    let ym := (List.range m).foldl (fun y j =>
      (List.range n).foldl (fun y i =>
        let y := if j = 0 then y.set i 0 else y
        y.set i (y.getD i 0 + A.getD (i * n + j) 0 * x.getD j 0)) y) y
    ym.length = y.length ∧
    ∀ t, ym.getD t 0
      = if t < n ∧ t < y.length ∧ 0 < m
        then accFrom (fun j => A.getD (t * n + j) 0 * x.getD j 0) 0 m else y.getD t 0 := by
  induction m with
  | zero => simp
  | succ m ih =>
    obtain ⟨ihl, ihg⟩ := ih
    simp only [] at ihl ihg ⊢
    rw [List.range_succ, List.foldl_append]
    simp only [List.foldl_cons, List.foldl_nil]
    generalize (List.range m).foldl (fun y j =>
      (List.range n).foldl (fun y i =>
        (if j = 0 then y.set i 0 else y).set i
          ((if j = 0 then y.set i 0 else y).getD i 0 + A.getD (i * n + j) 0 * x.getD j 0))
        y) y = ym at ihl ihg ⊢
    have hbody : (fun (y : List α) i =>
        (if m = 0 then y.set i 0 else y).set i
          ((if m = 0 then y.set i 0 else y).getD i 0 + A.getD (i * n + m) 0 * x.getD m 0))
        = (fun y i => y.set i ((fun i old =>
            (if m = 0 then 0 else old) + A.getD (i * n + m) 0 * x.getD m 0) i (y.getD i 0))) := by
      funext y i
      by_cases hm : m = 0
      · simp only [hm, if_true]
        exact set_set_getD y i 0 0 (fun a => a + A.getD (i * n + 0) 0 * x.getD 0 0)
      · simp only [hm, if_false]
    rw [hbody]
    refine ⟨?_, ?_⟩
    · rw [foldl_set_length (fun _ i => i)]; exact ihl
    · intro t
      rw [foldl_update_getD (fun i old =>
        (if m = 0 then 0 else old) + A.getD (i * n + m) 0 * x.getD m 0) 0 n ym t, ihl, ihg t]
      by_cases ht : t < n ∧ t < y.length
      · obtain ⟨h1, h2⟩ := ht
        by_cases hm : m = 0
        · subst hm; simp [h1, h2, accFrom]
        · have hm' : 0 < m := by omega
          simp [h1, h2, hm, hm', accFrom]
      · have ht' : ¬ (t < n ∧ t < y.length ∧ 0 < m) := fun h => ht ⟨h.1, h.2.1⟩
        have ht'' : ¬ (t < n ∧ t < y.length ∧ 0 < m + 1) := fun h => ht ⟨h.1, h.2.1⟩
        rw [if_neg ht, if_neg ht', if_neg ht'']

theorem matvec_col_major_length (y : V α) (A : A1D α) (x : V α) (n : Nat) :
    (matvec_col_major y A x n).length = y.length :=
  (matvec_col_major_loop y A x n n).1

theorem matvec_col_major_getD (y : V α) (A : A1D α) (x : V α) (n t : Nat) :
    (matvec_col_major y A x n).getD t 0
      = if t < n ∧ t < y.length then fullSum A x t n else y.getD t 0 := by
  have h := (matvec_col_major_loop y A x n n).2 t
  simp only [] at h
  unfold matvec_col_major
  rw [h]
  by_cases ht : t < n ∧ t < y.length
  · have ht' : t < n ∧ t < y.length ∧ 0 < n := ⟨ht.1, ht.2, by omega⟩
    rw [if_pos ht, if_pos ht']; rfl
  · have ht' : ¬ (t < n ∧ t < y.length ∧ 0 < n) := fun h => ht ⟨h.1, h.2.1⟩
    rw [if_neg ht, if_neg ht']

/-! ### Directive-scheduled loop -/

theorem triangular_body_eq (A : A1D α) (x y : V α) (n i : Nat) :
    triangular_body A x n y i = y.set i (triSum A x i n) := by
  unfold triangular_body triSum
  simp only []
  rw [foldl_acc_eq]
  exact set_set_getD y i 0 0
    (fun a => accFrom (fun j => A.getD (i * n + j) 0 * x.getD j 0) a (i + 1))

theorem triangular_body_eq_kernel (A : A1D α) (x y : V α) (n i : Nat) :
    triangular_body A x n y i = compute_row_triangular A x y i n := by
  rw [triangular_body_eq, compute_row_triangular_eq]

/-- Storing `v i` in slot `i` for the indices `i` of a list, in the order of
the list: the outcome only depends on which indices occur. -/
theorem foldl_set_list_getD (v : Nat → α) (l : List Nat) (y : List α) (t : Nat) (d : α) :
    (l.foldl (fun y i => y.set i (v i)) y).getD t d
      = if t ∈ l ∧ t < y.length then v t else y.getD t d := by
  induction l generalizing y with
  | nil => simp
  | cons a l ih =>
    simp only [List.foldl_cons]
    rw [ih, List.length_set]
    by_cases htl : t ∈ l
    · by_cases hlen : t < y.length
      · simp [htl, hlen]
      · have h1 : (y.set a (v a)).getD t d = y.getD t d := by
          rw [List.getD_eq_default _ _ (by simp; omega), List.getD_eq_default _ _ (by omega)]
        rw [if_neg (fun h => hlen h.2), if_neg (fun h => hlen h.2), h1]
    · by_cases hta : a = t
      · subst hta
        by_cases hlen : a < y.length
        · simp [htl, hlen]
        · rw [List.set_eq_of_length_le (by omega)]
          simp [hlen]
      · rw [getD_set_ne _ _ _ _ _ hta]
        have : ¬ t ∈ a :: l := by
          simp only [List.mem_cons, not_or]
          exact ⟨fun h => hta h.symm, htl⟩
        simp [htl, this]

/-- Running the loop body over any list of iterations with the same members
as `range n` gives the result of running it in index order. -/
theorem foldl_triangular_body_order (A : A1D α) (x y : V α) (n : Nat) (l : List Nat)
    (hl : ∀ t, t ∈ l ↔ t < n) :
    l.foldl (triangular_body A x n) y = (List.range n).foldl (triangular_body A x n) y := by
  have hb : triangular_body A x n = fun y i => y.set i (triSum A x i n) := by
    funext y i; exact triangular_body_eq A x y n i
  rw [hb]
  apply ext_getD _ _ 0
  · rw [foldl_set_length (fun _ i => i), foldl_set_length (fun _ i => i)]
  · intro t _
    rw [foldl_set_list_getD, foldl_set_list_getD]
    simp only [hl, List.mem_range]

theorem foldl_kernel_eq_body (A : A1D α) (x y : V α) (n : Nat) (l : List Nat) :
    l.foldl (fun y row => compute_row_triangular A x y row n) y
      = l.foldl (triangular_body A x n) y := by
  have hb : (fun y row => compute_row_triangular A x y row n) = triangular_body A x n := by
    funext y i
    exact (triangular_body_eq_kernel A x y n i).symm
  rw [hb]

/-- Every row kernel applied once, in index order: slot `t < n` holds
`triSum`. -/
theorem foldl_kernel_getD (A : A1D α) (x y : V α) (n t : Nat) :
    ((List.range n).foldl (fun y row => compute_row_triangular A x y row n) y).getD t 0
      = if t < n ∧ t < y.length then triSum A x t n else y.getD t 0 := by
  have hb : (fun y row => compute_row_triangular A x y row n)
      = fun y i => y.set i (triSum A x i n) := by
    funext y i; exact compute_row_triangular_eq A x y i n
  rw [hb, foldl_set_list_getD]
  simp only [List.mem_range]

/-! ### Atomic work sharing -/

theorem atomic_init_inv (A : A1D α) (x y : V α) (n num_threads : Nat) :
    AtomicInv A x n num_threads y (atomic_init y num_threads) := by
  refine ⟨by simp [atomic_init], by simp [atomic_init], by simp [atomic_init], ?_⟩
  intro t ht h
  rw [atomic_init] at h
  simp only [] at h
  rw [List.getD_eq_getElem _ _ (by simpa using ht)] at h
  simp at h

theorem worker_step_inv (A : A1D α) (x y₀ : V α) (n num_threads : Nat) (s : AtomicState α)
    (t : Nat) (h : AtomicInv A x n num_threads y₀ s) :
    AtomicInv A x n num_threads y₀ (worker_step A x n s t) := by
  obtain ⟨h1, h2, h3, h4⟩ := h
  unfold worker_step
  by_cases hr : s.running.getD t false = true
  · rw [if_pos hr]
    by_cases hn : s.next_row ≥ n
    · simp only [hn, if_true]
      have hmin : min (s.next_row + 1) n = min s.next_row n := by omega
      refine ⟨by simpa [hmin] using h1, by simpa [hmin] using h2, by simpa using h3, ?_⟩
      intro t' ht' hf
      show n < s.next_row + 1
      omega
    · simp only [hn, if_false]
      have hmin : min (s.next_row + 1) n = min s.next_row n + 1 := by omega
      have hmin' : min s.next_row n = s.next_row := by omega
      refine ⟨?_, ?_, h3, ?_⟩
      · show s.computed ++ [s.next_row] = List.range (min (s.next_row + 1) n)
        rw [hmin, List.range_succ, ← h1, hmin']
      · show compute_row_triangular A x s.y s.next_row n = _
        rw [hmin, List.range_succ, List.foldl_append, ← h2, hmin']
        rfl
      · intro t' ht' hf
        have := h4 t' ht' hf
        show n < s.next_row + 1
        omega
  · rw [if_neg hr]
    exact ⟨h1, h2, h3, h4⟩

theorem atomic_run_inv (A : A1D α) (x y₀ : V α) (n num_threads : Nat) (sched : List Nat)
    (s : AtomicState α) (h : AtomicInv A x n num_threads y₀ s) :
    AtomicInv A x n num_threads y₀ (atomic_run A x n sched s) := by
  induction sched generalizing s with
  | nil => exact h
  | cons t sched ih => exact ih _ (worker_step_inv A x y₀ n num_threads s t h)

theorem atomic_run_append (A : A1D α) (x : V α) (n : Nat) (l₁ l₂ : List Nat)
    (s : AtomicState α) :
    atomic_run A x n (l₁ ++ l₂) s = atomic_run A x n l₂ (atomic_run A x n l₁ s) := by
  unfold atomic_run
  rw [List.foldl_append]

theorem worker_step_running_length (A : A1D α) (x : V α) (n : Nat) (s : AtomicState α)
    (t : Nat) : (worker_step A x n s t).running.length = s.running.length := by
  unfold worker_step
  by_cases hr : s.running.getD t false = true
  · rw [if_pos hr]
    by_cases hn : s.next_row ≥ n
    · simp only [hn, if_true, List.length_set]
    · simp only [hn, if_false]
  · rw [if_neg hr]

/-- A worker that has left its loop never re-enters it. -/
theorem worker_step_stays_joined (A : A1D α) (x : V α) (n : Nat) (s : AtomicState α)
    (t u : Nat) (hu : s.running.getD u false = false) :
    (worker_step A x n s t).running.getD u false = false := by
  unfold worker_step
  by_cases hr : s.running.getD t false = true
  · rw [if_pos hr]
    by_cases hn : s.next_row ≥ n
    · simp only [hn, if_true]
      have htu : t ≠ u := by
        intro h; subst h; rw [hr] at hu; exact absurd hu (by decide)
      change (s.running.set t false).getD u false = false
      rw [List.getD_eq_getElem?_getD, List.getElem?_set_ne htu, ← List.getD_eq_getElem?_getD]
      exact hu
    · simp only [hn, if_false]
      exact hu
  · rw [if_neg hr]
    exact hu

theorem atomic_run_running_length (A : A1D α) (x : V α) (n : Nat) (sched : List Nat)
    (s : AtomicState α) : (atomic_run A x n sched s).running.length = s.running.length := by
  induction sched generalizing s with
  | nil => rfl
  | cons t sched ih =>
    show (atomic_run A x n sched (worker_step A x n s t)).running.length = _
    rw [ih, worker_step_running_length]

theorem atomic_run_stays_joined (A : A1D α) (x : V α) (n : Nat) (sched : List Nat)
    (s : AtomicState α) (u : Nat) (hu : s.running.getD u false = false) :
    (atomic_run A x n sched s).running.getD u false = false := by
  induction sched generalizing s with
  | nil => exact hu
  | cons t sched ih => exact ih _ (worker_step_stays_joined A x n s t u hu)

/-- After `k` consecutive loop iterations worker `t` has left its loop or the
counter has reached `k`. -/
theorem worker_progress (A : A1D α) (x : V α) (n : Nat) (s : AtomicState α) (t k : Nat) :
    (atomic_run A x n (List.replicate k t) s).running.getD t false = false ∨
      k ≤ (atomic_run A x n (List.replicate k t) s).next_row := by
  induction k with
  | zero => right; exact Nat.zero_le _
  | succ k ih =>
    rw [List.replicate_succ', atomic_run_append]
    generalize atomic_run A x n (List.replicate k t) s = s' at ih ⊢
    show (worker_step A x n s' t).running.getD t false = false ∨
      k + 1 ≤ (worker_step A x n s' t).next_row
    rcases ih with ih | ih
    · left; exact worker_step_stays_joined A x n s' t t ih
    · by_cases hr : s'.running.getD t false = true
      · right
        unfold worker_step
        rw [if_pos hr]
        by_cases hn : s'.next_row ≥ n
        · simp only [hn, if_true]; omega
        · simp only [hn, if_false]; omega
      · left
        have : s'.running.getD t false = false := by
          cases h : s'.running.getD t false
          · rfl
          · exact absurd h hr
        exact worker_step_stays_joined A x n s' t t this

/-- After `n + 1` consecutive loop iterations worker `t` has left its loop. -/
theorem worker_drains (A : A1D α) (x : V α) (n : Nat) (s : AtomicState α) (t : Nat) :
    (atomic_run A x n (List.replicate (n + 1) t) s).running.getD t false = false := by
  rw [List.replicate_succ', atomic_run_append]
  have hp := worker_progress A x n s t n
  generalize atomic_run A x n (List.replicate n t) s = s' at hp ⊢
  show (worker_step A x n s' t).running.getD t false = false
  rcases hp with hp | hp
  · exact worker_step_stays_joined A x n s' t t hp
  · by_cases hr : s'.running.getD t false = true
    · unfold worker_step
      rw [if_pos hr]
      have hn : s'.next_row ≥ n := hp
      simp only [hn, if_true]
      change (s'.running.set t false).getD t false = false
      by_cases hlen : t < s'.running.length
      · exact getD_set_self _ _ _ _ hlen
      · exact List.getD_eq_default _ _ (by simp; omega)
    · have : s'.running.getD t false = false := by
        cases h : s'.running.getD t false
        · rfl
        · exact absurd h hr
      exact worker_step_stays_joined A x n s' t t this

theorem drain_sched_joins (A : A1D α) (x : V α) (n : Nat) (s : AtomicState α) (k u : Nat)
    (hu : u < k) : (atomic_run A x n (drain_sched n k) s).running.getD u false = false := by
  induction k with
  | zero => omega
  | succ k ih =>
    rw [drain_sched, atomic_run_append]
    by_cases huk : u = k
    · subst huk; exact worker_drains A x n _ u
    · exact atomic_run_stays_joined A x n _ _ u (ih (by omega))

theorem all_joined_of_forall (s : AtomicState α)
    (h : ∀ u, u < s.running.length → s.running.getD u false = false) : all_joined s = true := by
  unfold all_joined
  rw [List.all_eq_true]
  intro b hb
  obtain ⟨u, hu, rfl⟩ := List.getElem_of_mem hb
  have := h u hu
  rw [List.getD_eq_getElem _ _ hu] at this
  rw [this]; rfl

theorem getD_false_of_all_joined (s : AtomicState α) (h : all_joined s = true) (u : Nat) :
    s.running.getD u false = false := by
  by_cases hu : u < s.running.length
  · unfold all_joined at h
    rw [List.all_eq_true] at h
    have := h _ (List.getElem_mem hu)
    rw [List.getD_eq_getElem _ _ hu]
    simpa using this
  · exact List.getD_eq_default _ _ (by omega)

theorem count_range_eq (n r : Nat) : (List.range n).count r = if r < n then 1 else 0 := by
  by_cases h : r < n
  · rw [if_pos h]
    exact List.count_eq_one_of_mem (List.nodup_range n) (List.mem_range.mpr h)
  · rw [if_neg h]
    exact List.count_eq_zero_of_not_mem (fun hm => h (List.mem_range.mp hm))

/-- In a complete run the counter has passed `n`. -/
theorem atomic_complete_next_row (A : A1D α) (x y : V α) (n num_threads : Nat)
    (hP : 1 ≤ num_threads) (sched : List Nat)
    (hj : all_joined (atomic_run A x n sched (atomic_init y num_threads)) = true) :
    n < (atomic_run A x n sched (atomic_init y num_threads)).next_row := by
  have hinv := atomic_run_inv A x y n num_threads sched _ (atomic_init_inv A x y n num_threads)
  exact hinv.exhausted 0 (by omega) (getD_false_of_all_joined _ hj 0)

/-- The output of a complete run is the row kernel applied to the rows
`0, ..., n - 1` in this order. -/
theorem matvec_triangular_atomic_eq (A : A1D α) (x y y' : V α) (n num_threads : Nat)
    (hP : 1 ≤ num_threads) (sched : List Nat)
    (h : matvec_triangular_atomic sched y A x n num_threads = some y') :
    y' = (List.range n).foldl (fun y row => compute_row_triangular A x y row n) y := by
  unfold matvec_triangular_atomic at h
  simp only [] at h
  by_cases hj : all_joined (atomic_run A x n sched (atomic_init y num_threads)) = true
  · rw [if_pos hj] at h
    have hinv := atomic_run_inv A x y n num_threads sched _ (atomic_init_inv A x y n num_threads)
    have hn := atomic_complete_next_row A x y n num_threads hP sched hj
    have hy := hinv.y_eq
    rw [Nat.min_eq_right (by omega)] at hy
    rw [← hy]
    exact (Option.some.inj h).symm
  · rw [if_neg hj] at h
    exact absurd h (by simp)

/-! ### Row assignment -/

theorem mem_push_back_loop (bound step fuel i r : Nat) :
    r ∈ push_back_loop bound step fuel i ↔ ∃ q, q < fuel ∧ r = i + q * step ∧ r < bound := by
  induction fuel generalizing i with
  | zero => simp [push_back_loop]
  | succ fuel ih =>
    unfold push_back_loop
    by_cases hi : i < bound
    · rw [if_pos hi, List.mem_cons, ih]
      constructor
      · rintro (h | ⟨q, hq, hr, hb⟩)
        · exact ⟨0, by omega, by simp [h], by omega⟩
        · exact ⟨q + 1, by omega, by rw [hr, Nat.add_mul]; omega, hb⟩
      · rintro ⟨q, hq, hr, hb⟩
        cases q with
        | zero => left; simpa using hr
        | succ q => right; exact ⟨q, by omega, by rw [hr, Nat.add_mul]; omega, hb⟩
    · rw [if_neg hi]
      constructor
      · intro h; exact absurd h (List.not_mem_nil _)
      · rintro ⟨q, _, hr, hb⟩
        have : i ≤ r := by rw [hr]; exact Nat.le_add_right _ _
        omega

theorem push_back_loop_sorted (bound step fuel i : Nat) (hs : 1 ≤ step) :
    List.Sorted (· < ·) (push_back_loop bound step fuel i) := by
  induction fuel generalizing i with
  | zero => simp [push_back_loop]
  | succ fuel ih =>
    unfold push_back_loop
    by_cases hi : i < bound
    · rw [if_pos hi]
      refine List.sorted_cons.mpr ⟨?_, ih _⟩
      intro r hr
      obtain ⟨q, _, hq, _⟩ := (mem_push_back_loop _ _ _ _ _).mp hr
      have : i + step ≤ r := by rw [hq]; exact Nat.le_add_right _ _
      omega
    · rw [if_neg hi]; exact List.sorted_nil

/-- The iteration bound of `push_back_loop` is never what ends the loop once
it is at least `bound - i`: one more unit of fuel changes nothing. -/
theorem push_back_loop_fuel (bound step fuel i : Nat) (hs : 1 ≤ step)
    (hf : bound ≤ i + fuel) :
    push_back_loop bound step (fuel + 1) i = push_back_loop bound step fuel i := by
  induction fuel generalizing i with
  | zero =>
    have : ¬ i < bound := by omega
    simp [push_back_loop, this]
  | succ fuel ih =>
    rw [push_back_loop, push_back_loop.eq_def bound step (fuel + 1) i]
    by_cases hi : i < bound
    · simp only [hi, if_true]
      rw [ih (i + step) (by omega)]
    · simp only [hi, if_false]

/-- With step one the loop lists the interval `[i, bound)`. -/
theorem push_back_loop_one (bound fuel i : Nat) (hf : bound ≤ i + fuel) :
    push_back_loop bound 1 fuel i = List.range' i (bound - i) := by
  induction fuel generalizing i with
  | zero =>
    have : bound - i = 0 := by omega
    simp [push_back_loop, this]
  | succ fuel ih =>
    unfold push_back_loop
    by_cases hi : i < bound
    · rw [if_pos hi, ih (i + 1) (by omega)]
      have : bound - i = (bound - (i + 1)) + 1 := by omega
      rw [this, List.range'_succ]
    · rw [if_neg hi]
      have : bound - i = 0 := by omega
      simp [this]

theorem mem_cyclic_rows (n P k r : Nat) (hP : 1 ≤ P) (hk : k < P) :
    r ∈ cyclic_rows n P k ↔ r < n ∧ r % P = k := by
  unfold cyclic_rows
  rw [mem_push_back_loop]
  constructor
  · rintro ⟨q, _, hr, hb⟩
    refine ⟨hb, ?_⟩
    rw [hr, Nat.add_mul_mod_self_right, Nat.mod_eq_of_lt hk]
  · rintro ⟨hb, hm⟩
    have hdm := Nat.div_add_mod r P
    have hle : r / P ≤ r := Nat.div_le_self r P
    refine ⟨r / P, by omega, ?_, hb⟩
    rw [Nat.mul_comm (r / P) P]
    omega

theorem cyclic_rows_sorted (n P k : Nat) (hP : 1 ≤ P) :
    List.Sorted (· < ·) (cyclic_rows n P k) :=
  push_back_loop_sorted n P n k hP

theorem contiguous_rows_eq (n P k : Nat) :
    contiguous_rows n P k
      = List.range' (start_row n P k) (end_row n P k - start_row n P k) := by
  unfold contiguous_rows
  exact push_back_loop_one _ _ _ (by omega)

theorem mem_contiguous_rows (n P k r : Nat) :
    r ∈ contiguous_rows n P k ↔ start_row n P k ≤ r ∧ r < end_row n P k := by
  rw [contiguous_rows_eq, List.mem_range']
  constructor
  · rintro ⟨i, hi, rfl⟩; omega
  · rintro ⟨h1, h2⟩; exact ⟨r - start_row n P k, by omega, by omega⟩

/-- The block of the last process is not negative: `start_row ≤ end_row`. -/
theorem start_row_le_end_row (n P k : Nat) (hP : 1 ≤ P) (hk : k < P) :
    start_row n P k ≤ end_row n P k := by
  unfold start_row end_row rows_per_process
  by_cases hlast : k = P - 1
  · rw [if_pos hlast]
    calc k * (n / P) ≤ P * (n / P) := Nat.mul_le_mul_right _ (by omega)
      _ ≤ n := Nat.mul_div_le n P
  · rw [if_neg hlast]
    exact Nat.mul_le_mul_right _ (by omega)

theorem end_row_le (n P k : Nat) (hP : 1 ≤ P) (hk : k < P) : end_row n P k ≤ n := by
  unfold end_row rows_per_process
  by_cases hlast : k = P - 1
  · rw [if_pos hlast]
  · rw [if_neg hlast]
    calc (k + 1) * (n / P) ≤ P * (n / P) := Nat.mul_le_mul_right _ (by omega)
      _ ≤ n := Nat.mul_div_le n P

/-- Every row below `n` lies in the block of exactly one process. -/
theorem contiguous_owner_unique (n P r : Nat) (hP : 1 ≤ P) (hr : r < n) :
    ∃! k, k < P ∧ start_row n P k ≤ r ∧ r < end_row n P k := by
  unfold start_row end_row rows_per_process
  by_cases hlow : r < (P - 1) * (n / P)
  · have hq : 0 < n / P := by
      rcases Nat.eq_zero_or_pos (n / P) with h | h
      · rw [h] at hlow; simp at hlow
      · exact h
    have hk : r / (n / P) < P - 1 := (Nat.div_lt_iff_lt_mul hq).mpr hlow
    refine ⟨r / (n / P), ⟨by omega, Nat.div_mul_le_self r _, ?_⟩, ?_⟩
    · rw [if_neg (by omega)]
      have := Nat.lt_mul_div_succ r hq
      rw [Nat.mul_comm] at this
      exact this
    · rintro k' ⟨hk', h1, h2⟩
      by_cases hlast : k' = P - 1
      · rw [hlast] at h1; omega
      · rw [if_neg hlast] at h2
        apply Nat.le_antisymm
        · exact (Nat.le_div_iff_mul_le hq).mpr h1
        · have : r / (n / P) < k' + 1 := (Nat.div_lt_iff_lt_mul hq).mpr h2
          omega
  · refine ⟨P - 1, ⟨by omega, by omega, by rw [if_pos rfl]; exact hr⟩, ?_⟩
    rintro k' ⟨hk', h1, h2⟩
    by_contra hne
    rw [if_neg hne] at h2
    have : (k' + 1) * (n / P) ≤ (P - 1) * (n / P) := Nat.mul_le_mul_right _ (by omega)
    omega

theorem getD_map_range (f : Nat → Nat) (P k : Nat) (hk : k < P) :
    ((List.range P).map f).getD k 0 = f k := by
  rw [List.getD_eq_getElem _ _ (by simpa using hk)]
  simp

theorem gather_displs_getD (n P k : Nat) (hk : k < P) :
    (gather_displs n P).getD k 0 = start_row n P k :=
  getD_map_range _ P k hk

theorem recvcounts_getD (n P k : Nat) (hk : k < P) :
    (recvcounts n P).getD k 0 = end_row n P k - start_row n P k :=
  getD_map_range _ P k hk

theorem scatter_displs_getD (n P k : Nat) (hk : k < P) :
    (scatter_displs n P).getD k 0 = start_row n P k * n :=
  getD_map_range _ P k hk

theorem sendcounts_getD (n P k : Nat) (hk : k < P) :
    (sendcounts n P).getD k 0 = (end_row n P k - start_row n P k) * n :=
  getD_map_range _ P k hk

theorem gather_block_iff (n P k r : Nat) (hP : 1 ≤ P) (hk : k < P) :
    ((gather_displs n P).getD k 0 ≤ r ∧
        r < (gather_displs n P).getD k 0 + (recvcounts n P).getD k 0)
      ↔ (start_row n P k ≤ r ∧ r < end_row n P k) := by
  rw [gather_displs_getD n P k hk, recvcounts_getD n P k hk]
  have := start_row_le_end_row n P k hP hk
  omega

theorem spec_ceil_div_of_dvd (n P : Nat) (hP : 1 ≤ P) (hd : P ∣ n) :
    spec_ceil_div n P = n / P := by
  obtain ⟨m, rfl⟩ := hd
  unfold spec_ceil_div
  rw [Nat.mul_div_cancel_left m (by omega)]
  have h1 : P * m + P - 1 = (P - 1) + m * P := by
    rw [Nat.mul_comm]; omega
  rw [h1, Nat.add_mul_div_right _ _ (by omega), Nat.div_eq_of_lt (by omega)]
  omega

/-! ### Distributed pipelines -/

theorem accFrom_congr (f g : Nat → α) (a : α) (m : Nat) (h : ∀ j, j < m → f j = g j) :
    accFrom f a m = accFrom g a m := by
  induction m with
  | zero => rfl
  | succ m ih =>
    rw [accFrom, accFrom, ih (fun j hj => h j (by omega)), h m (by omega)]

theorem compute_rows_triangular_eq (A_local : A1D α) (x y_local : V α) (rows : VI) (n : Nat) :
    compute_rows_triangular A_local x y_local rows n
      = (List.range rows.length).foldl
          (fun y idx => y.set idx (localSum A_local x rows n idx)) y_local := by
  unfold compute_rows_triangular
  congr 1
  funext y idx
  simp only []
  rw [foldl_acc_eq]
  exact set_set_getD y idx 0 0
    (fun a => accFrom (fun j => A_local.getD (idx * n + j) 0 * x.getD j 0) a
      (rows.getD idx 0 + 1))

theorem compute_rows_triangular_length (A_local : A1D α) (x y_local : V α) (rows : VI)
    (n : Nat) : (compute_rows_triangular A_local x y_local rows n).length = y_local.length := by
  rw [compute_rows_triangular_eq]
  exact foldl_set_length (fun _ i => i) (fun _ i => localSum A_local x rows n i) _ y_local

theorem compute_rows_triangular_getD (A_local : A1D α) (x y_local : V α) (rows : VI)
    (n t : Nat) :
    (compute_rows_triangular A_local x y_local rows n).getD t 0
      = if t < rows.length ∧ t < y_local.length then localSum A_local x rows n t
        else y_local.getD t 0 := by
  rw [compute_rows_triangular_eq]
  exact foldl_update_getD (fun i _ => localSum A_local x rows n i) 0 rows.length y_local t

/-- Calling `compute_rows_triangular` once or several times on the same
`y_local` gives the same slots. -/
theorem iterate_compute_rows (A_local : A1D α) (x y_local : V α) (rows : VI) (n m : Nat) :
    let ym := Nat.iterate (fun y => compute_rows_triangular A_local x y rows n) (m + 1) y_local
    ym.length = y_local.length ∧
    ∀ t, ym.getD t 0
      = if t < rows.length ∧ t < y_local.length then localSum A_local x rows n t
        else y_local.getD t 0 := by
  induction m with
  | zero =>
    simp only [Function.iterate_succ, Function.iterate_zero, Function.comp_apply, id_eq]
    exact ⟨compute_rows_triangular_length _ _ _ _ _,
      fun t => compute_rows_triangular_getD _ _ _ _ _ t⟩
  | succ m ih =>
    obtain ⟨ihl, ihg⟩ := ih
    simp only [] at ihl ihg ⊢
    rw [Function.iterate_succ_apply']
    refine ⟨by rw [compute_rows_triangular_length]; exact ihl, ?_⟩
    intro t
    rw [compute_rows_triangular_getD, ihl, ihg t]
    by_cases ht : t < rows.length ∧ t < y_local.length
    · simp only [if_pos ht]
    · simp only [if_neg ht]

theorem benchmark_rows_length (A_local : A1D α) (x y_local : V α) (rows : VI) (n : Nat) :
    (benchmark_rows A_local x y_local rows n).length = y_local.length :=
  (iterate_compute_rows A_local x y_local rows n 11).1

theorem benchmark_rows_getD (A_local : A1D α) (x y_local : V α) (rows : VI) (n t : Nat) :
    (benchmark_rows A_local x y_local rows n).getD t 0
      = if t < rows.length ∧ t < y_local.length then localSum A_local x rows n t
        else y_local.getD t 0 :=
  (iterate_compute_rows A_local x y_local rows n 11).2 t

/-- The local computation of a process whose buffer `A_local` holds, row by
row, the rows `rows` of `A`: slot `idx` of `y_local` is the triangular sum of
the global row `rows[idx]`. -/
theorem benchmark_rows_triSum (A A_local : A1D α) (x : V α) (rows : VI) (n idx : Nat)
    (hidx : idx < rows.length) (hrow : rows.getD idx 0 < n)
    (hA : ∀ j, j < n → A_local.getD (idx * n + j) 0 = A.getD (rows.getD idx 0 * n + j) 0) :
    (benchmark_rows A_local x (List.replicate rows.length 0) rows n).getD idx 0
      = triSum A x (rows.getD idx 0) n := by
  rw [benchmark_rows_getD, if_pos ⟨hidx, by simpa using hidx⟩]
  unfold localSum triSum
  apply accFrom_congr
  intro j hj
  rw [hA j (by omega)]

theorem nested_store_length (cnt : Nat → Nat) (p : Nat → Nat → Nat) (v : Nat → Nat → α)
    (m : Nat) (y : List α) :
    ((List.range m).foldl (fun y i =>
      (List.range (cnt i)).foldl (fun y k => y.set (p i k) (v i k)) y) y).length
      = y.length := by
  induction m with
  | zero => rfl
  | succ m ih =>
    rw [List.range_succ, List.foldl_append]
    simp only [List.foldl_cons, List.foldl_nil]
    rw [foldl_set_length (fun _ k => p m k) (fun _ k => v m k), ih]

/-- Two nested store loops whose target positions `p i k` are pairwise
distinct and in range leave `v i k` at position `p i k`. -/
theorem nested_store_getD (cnt : Nat → Nat) (p : Nat → Nat → Nat) (v : Nat → Nat → α)
    (d : α) (m : Nat) (y : List α)
    (hinj : ∀ i i' k k', i < m → i' < m → k < cnt i → k' < cnt i' →
      p i k = p i' k' → i = i' ∧ k = k')
    (hlen : ∀ i k, i < m → k < cnt i → p i k < y.length)
    (i k : Nat) (hi : i < m) (hk : k < cnt i) :
    ((List.range m).foldl (fun y i =>
      (List.range (cnt i)).foldl (fun y k => y.set (p i k) (v i k)) y) y).getD (p i k) d
      = v i k := by
  induction m with
  | zero => omega
  | succ m ih =>
    rw [List.range_succ, List.foldl_append]
    simp only [List.foldl_cons, List.foldl_nil]
    by_cases him : i = m
    · subst him
      apply foldl_store_getD_of_eq (p i) (v i) (cnt i) _ k d hk
      · rw [nested_store_length]; exact hlen i k (by omega) hk
      · intro k' hk' he
        exact (hinj i i k' k (by omega) (by omega) hk' hk he).2
    · rw [foldl_store_getD_of_ne (p m) (v m) (cnt m) _ (p i k) d]
      · exact ih (fun a b c e ha hb hc he h => hinj a b c e (by omega) (by omega) hc he h)
          (fun a c ha hc => hlen a c (by omega) hc) (by omega)
      · intro k' hk' he
        exact him (hinj m i k' k (by omega) (by omega) hk' hk he).1.symm

theorem row_major_index_inj (n idx idx' j j' : Nat) (hj : j < n) (hj' : j' < n)
    (h : idx * n + j = idx' * n + j') : idx = idx' ∧ j = j' := by
  have hn : 0 < n := by omega
  have e1 : (idx * n + j) / n = idx := by
    rw [Nat.add_comm, Nat.add_mul_div_right _ _ hn, Nat.div_eq_of_lt hj, Nat.zero_add]
  have e2 : (idx' * n + j') / n = idx' := by
    rw [Nat.add_comm, Nat.add_mul_div_right _ _ hn, Nat.div_eq_of_lt hj', Nat.zero_add]
  have e : idx = idx' := by rw [← e1, ← e2, h]
  subst e
  exact ⟨rfl, by omega⟩

theorem row_major_index_lt (n len idx j : Nat) (hidx : idx < len) (hj : j < n) :
    idx * n + j < len * n := by
  calc idx * n + j < idx * n + n := by omega
    _ = (idx + 1) * n := by rw [Nat.add_mul, Nat.one_mul]
    _ ≤ len * n := Nat.mul_le_mul_right _ (by omega)

theorem pack_rows_getD (A_flat : A1D α) (rows : VI) (n idx j : Nat)
    (hidx : idx < rows.length) (hj : j < n) :
    (pack_rows A_flat rows n).getD (idx * n + j) 0
      = A_flat.getD (rows.getD idx 0 * n + j) 0 := by
  unfold pack_rows
  exact nested_store_getD (fun _ => n) (fun idx j => idx * n + j)
    (fun idx j => A_flat.getD (rows.getD idx 0 * n + j) 0) 0 rows.length _
    (fun i i' k k' _ _ hk hk' h => row_major_index_inj n i i' k k' hk hk' h)
    (fun i k hi hk => by
      rw [List.length_replicate]
      exact row_major_index_lt n rows.length i k hi hk)
    idx j hidx hj

theorem getD_mem_of_lt (rows : VI) (i : Nat) (hi : i < rows.length) :
    rows.getD i 0 ∈ rows := by
  rw [List.getD_eq_getElem _ _ hi]
  exact List.getElem_mem hi

theorem getD_inj_of_nodup (rows : VI) (hn : rows.Nodup) (i i' : Nat) (hi : i < rows.length)
    (hi' : i' < rows.length) (h : rows.getD i 0 = rows.getD i' 0) : i = i' := by
  rw [List.getD_eq_getElem _ _ hi, List.getD_eq_getElem _ _ hi'] at h
  exact (List.Nodup.getElem_inj_iff hn).mp h

theorem exists_getD_of_mem (rows : VI) (r : Nat) (h : r ∈ rows) :
    ∃ i, i < rows.length ∧ rows.getD i 0 = r := by
  obtain ⟨i, hi, he⟩ := List.getElem_of_mem h
  exact ⟨i, hi, by rw [List.getD_eq_getElem _ _ hi]; exact he⟩

/-- Cyclic strategy: slot `idx` of `y_local` on process `k` is the triangular
sum of the global row `row_indices[idx]`. -/
theorem cyclic_y_local_getD (A : A1D α) (x : V α) (n P k idx : Nat) (hP : 1 ≤ P) (hk : k < P)
    (hidx : idx < (cyclic_rows n P k).length) :
    (cyclic_y_local A x n P k).getD idx 0 = triSum A x ((cyclic_rows n P k).getD idx 0) n := by
  unfold cyclic_y_local
  apply benchmark_rows_triSum A _ x _ n idx hidx
  · exact ((mem_cyclic_rows n P k _ hP hk).mp (getD_mem_of_lt _ idx hidx)).1
  · intro j hj
    exact pack_rows_getD A _ n idx j hidx hj

theorem mpi_cyclic_eq (A : A1D α) (x : V α) (n P : Nat) (hP : 1 ≤ P) :
    mpi_cyclic A x n P
      = (List.range P).foldl (fun y src =>
          (List.range (cyclic_rows n P src).length).foldl
            (fun y i => y.set ((cyclic_rows n P src).getD i 0)
              ((cyclic_y_local A x n P src).getD i 0)) y)
          (List.replicate n 0) := by
  have hr : List.range P = 0 :: List.range' 1 (P - 1) := by
    have hP' : P = (P - 1) + 1 := by omega
    rw [List.range_eq_range']
    conv_lhs => rw [hP']
    rw [List.range'_succ]
  rw [hr, List.foldl_cons]
  rfl

theorem mpi_cyclic_length (A : A1D α) (x : V α) (n P : Nat) (hP : 1 ≤ P) :
    (mpi_cyclic A x n P).length = n := by
  rw [mpi_cyclic_eq A x n P hP, nested_store_length, List.length_replicate]

theorem mpi_cyclic_getD (A : A1D α) (x : V α) (n P i : Nat) (hP : 1 ≤ P) (hi : i < n) :
    (mpi_cyclic A x n P).getD i 0 = triSum A x i n := by
  rw [mpi_cyclic_eq A x n P hP]
  have hk : i % P < P := Nat.mod_lt i (by omega)
  have hmem : i ∈ cyclic_rows n P (i % P) := (mem_cyclic_rows n P _ i hP hk).mpr ⟨hi, rfl⟩
  obtain ⟨idx, hidx, he⟩ := exists_getD_of_mem _ i hmem
  have key := nested_store_getD (fun src => (cyclic_rows n P src).length)
    (fun src i => (cyclic_rows n P src).getD i 0)
    (fun src i => (cyclic_y_local A x n P src).getD i 0) 0 P (List.replicate n 0)
    (by
      intro s s' a a' hs hs' ha ha' h
      have m1 := (mem_cyclic_rows n P s _ hP hs).mp (getD_mem_of_lt _ a ha)
      have m2 := (mem_cyclic_rows n P s' _ hP hs').mp (getD_mem_of_lt _ a' ha')
      simp only [] at h
      have hss : s = s' := by rw [← m1.2, ← m2.2, h]
      subst hss
      exact ⟨rfl, getD_inj_of_nodup _ (cyclic_rows_sorted n P s hP).nodup a a' ha ha' h⟩)
    (by
      intro s a hs ha
      rw [List.length_replicate]
      exact ((mem_cyclic_rows n P s _ hP hs).mp (getD_mem_of_lt _ a ha)).1)
    (i % P) idx hk hidx
  simp only [] at key
  rw [he] at key
  rw [key, cyclic_y_local_getD A x n P (i % P) idx hP hk hidx, he]

theorem MPI_Scatterv_getD (sendbuf : List α) (counts displs : VI) (recvbuf : List α)
    (rank k : Nat) :
    (MPI_Scatterv sendbuf counts displs recvbuf rank).getD k 0
      = if k < counts.getD rank 0 ∧ k < recvbuf.length
        then sendbuf.getD (displs.getD rank 0 + k) 0 else recvbuf.getD k 0 := by
  unfold MPI_Scatterv
  exact foldl_update_getD (fun k _ => sendbuf.getD (displs.getD rank 0 + k) 0) 0 _ recvbuf k

theorem contiguous_rows_length (n P k : Nat) :
    (contiguous_rows n P k).length = end_row n P k - start_row n P k := by
  rw [contiguous_rows_eq, List.length_range']

theorem contiguous_rows_getD (n P k idx : Nat) (hidx : idx < end_row n P k - start_row n P k) :
    (contiguous_rows n P k).getD idx 0 = start_row n P k + idx := by
  rw [List.getD_eq_getElem _ _ (by rw [contiguous_rows_length]; exact hidx)]
  simp [contiguous_rows_eq]

theorem contiguous_A_local_getD (A : A1D α) (n P k idx j : Nat) (hk : k < P)
    (hidx : idx < end_row n P k - start_row n P k) (hj : j < n) :
    (contiguous_A_local A n P k).getD (idx * n + j) 0
      = A.getD ((start_row n P k + idx) * n + j) 0 := by
  unfold contiguous_A_local
  simp only []
  have hlt := row_major_index_lt n _ idx j hidx hj
  rw [MPI_Scatterv_getD, sendcounts_getD n P k hk, scatter_displs_getD n P k hk,
    if_pos ⟨hlt, by rw [List.length_replicate]; exact hlt⟩]
  congr 1
  rw [Nat.add_mul]
  omega

/-- Contiguous strategy: slot `idx` of `y_local` on process `k` is the
triangular sum of the global row `start_row + idx`. -/
theorem contiguous_y_local_getD (A : A1D α) (x : V α) (n P k idx : Nat) (hP : 1 ≤ P)
    (hk : k < P) (hidx : idx < end_row n P k - start_row n P k) :
    (contiguous_y_local A x n P k).getD idx 0 = triSum A x (start_row n P k + idx) n := by
  unfold contiguous_y_local
  simp only []
  have hlen := contiguous_rows_length n P k
  have hrow := contiguous_rows_getD n P k idx hidx
  have hend := end_row_le n P k hP hk
  rw [← hlen, ← hrow]
  apply benchmark_rows_triSum A _ x _ n idx (by rw [hlen]; exact hidx)
  · rw [hrow]; omega
  · intro j hj
    rw [hrow]
    exact contiguous_A_local_getD A n P k idx j hk hidx hj

theorem mpi_contiguous_length (A : A1D α) (x : V α) (n P : Nat) :
    (mpi_contiguous A x n P).length = n := by
  unfold mpi_contiguous MPI_Gatherv
  rw [nested_store_length, List.length_replicate]

theorem mpi_contiguous_getD (A : A1D α) (x : V α) (n P i : Nat) (hP : 1 ≤ P) (hi : i < n) :
    (mpi_contiguous A x n P).getD i 0 = triSum A x i n := by
  obtain ⟨k, ⟨hk, hs, he⟩, _⟩ := contiguous_owner_unique n P i hP hi
  have own : ∀ s a, s < P → a < (recvcounts n P).getD s 0 →
      (gather_displs n P).getD s 0 + a = start_row n P s + a ∧
      a < end_row n P s - start_row n P s ∧
      start_row n P s ≤ start_row n P s + a ∧ start_row n P s + a < end_row n P s := by
    intro s a hs ha
    rw [recvcounts_getD n P s hs] at ha
    rw [gather_displs_getD n P s hs]
    omega
  have hcnt : i - start_row n P k < (recvcounts n P).getD k 0 := by
    rw [recvcounts_getD n P k hk]; omega
  have key := nested_store_getD (fun s => (recvcounts n P).getD s 0)
    (fun s a => (gather_displs n P).getD s 0 + a)
    (fun s a => (contiguous_y_local A x n P s).getD a 0) 0 P (List.replicate n 0)
    (by
      intro s s' a a' hs hs' ha ha' h
      simp only [] at h
      obtain ⟨e1, _, l1, u1⟩ := own s a hs ha
      obtain ⟨e2, _, l2, u2⟩ := own s' a' hs' ha'
      rw [e1, e2] at h
      have hr : start_row n P s + a < n := by
        have := end_row_le n P s hP hs
        omega
      obtain ⟨k₀, _, huniq⟩ := contiguous_owner_unique n P _ hP hr
      have q1 := huniq s ⟨hs, l1, u1⟩
      have q2 := huniq s' ⟨hs', by rw [h]; exact l2, by rw [h]; exact u2⟩
      have hss : s = s' := q1.trans q2.symm
      subst hss
      exact ⟨rfl, by omega⟩)
    (by
      intro s a hs ha
      obtain ⟨e1, _, _, u1⟩ := own s a hs ha
      have := end_row_le n P s hP hs
      rw [List.length_replicate]
      simp only []
      omega)
    k (i - start_row n P k) hk hcnt
  simp only [] at key
  have hpos : (gather_displs n P).getD k 0 + (i - start_row n P k) = i := by
    rw [gather_displs_getD n P k hk]; omega
  rw [hpos] at key
  unfold mpi_contiguous MPI_Gatherv
  rw [key, contiguous_y_local_getD A x n P k _ hP hk (by omega)]
  congr 1
  omega

/-- In a semiring the ordered accumulation is the usual finite sum. -/
theorem accFrom_eq_sum {R : Type} [Semiring R] (f : Nat → R) (m : Nat) :
    accFrom f 0 m = ∑ j in Finset.range m, f j := by
  induction m with
  | zero => simp [accFrom]
  | succ m ih => rw [accFrom, ih, Finset.sum_range_succ]

theorem triSum_eq_sum {R : Type} [Semiring R] (A : A1D R) (x : V R) (row n : Nat) :
    triSum A x row n = ∑ j in Finset.range (row + 1), A.getD (row * n + j) 0 * x.getD j 0 :=
  accFrom_eq_sum _ _

theorem fullSum_eq_sum {R : Type} [Semiring R] (A : A1D R) (x : V R) (i n : Nat) :
    fullSum A x i n = ∑ j in Finset.range n, A.getD (i * n + j) 0 * x.getD j 0 :=
  accFrom_eq_sum _ _

/-- The message a process hands to `MPI_Gatherv` has the length announced in
`recvcounts`. -/
theorem contiguous_y_local_length (A : A1D α) (x : V α) (n P k : Nat) (hk : k < P) :
    (contiguous_y_local A x n P k).length = (recvcounts n P).getD k 0 := by
  unfold contiguous_y_local
  simp only []
  rw [benchmark_rows_length, List.length_replicate, recvcounts_getD n P k hk]

theorem init_matrix_1d_eq (one : α) (A : A1D α) (x : V α) (n : Nat) :
    init_matrix_1d one A x n = (List.replicate (n * n) one, List.replicate n one) := by
  have fill : ∀ (m : Nat) (l : List α), l.length = m →
      (List.range m).foldl (fun l i => l.set i one) l = List.replicate m one := by
    intro m l hl
    apply ext_getD _ _ 0
    · rw [foldl_set_length (fun _ i => i) (fun _ _ => one), hl, List.length_replicate]
    · intro t ht
      rw [foldl_set_length (fun _ i => i) (fun _ _ => one), hl] at ht
      rw [foldl_update_getD (fun _ _ => one) 0 m l t, if_pos ⟨ht, by omega⟩,
        List.getD_eq_getElem _ _ (by simpa using ht)]
      simp
  unfold init_matrix_1d
  simp only []
  rw [fill (n * n) _ (by simp; omega), fill n _ (by simp; omega)]

theorem accFrom_const_one {R : Type} [Semiring R] (m : Nat) :
    accFrom (fun _ => (1 : R)) 0 m = (m : R) := by
  induction m with
  | zero => simp [accFrom]
  | succ m ih => rw [accFrom, ih, Nat.cast_succ]

/-- On the all-ones matrix and vector the triangular sum of row `row` is
`row + 1`: the kernel adds the `row + 1` products of the columns
`0, ..., row`. -/
theorem triSum_all_ones {R : Type} [Semiring R] (n row : Nat) (hrow : row < n) :
    triSum (List.replicate (n * n) (1 : R)) (List.replicate n (1 : R)) row n
      = (row : R) + 1 := by
  unfold triSum
  rw [accFrom_congr _ (fun _ => (1 : R)) 0 (row + 1), accFrom_const_one, Nat.cast_succ]
  intro j hj
  have h1 : row * n + j < n * n := row_major_index_lt n n row j hrow (by omega)
  rw [List.getD_eq_getElem _ _ (by simpa using h1),
    List.getD_eq_getElem _ _ (by simp; omega)]
  simp

/-- Whatever the policy, the scheduled loop computes what the row kernel
computes when applied to the rows `0, ..., n - 1` in this order. -/
theorem matvec_triangular_eq_kernel_fold (omp : OmpRuntime) (y : V α) (A : A1D α) (x : V α) (n : Nat)
    (homp : omp.admissible n) (t c : Int) :
    matvec_triangular omp y A x n t "static" c
        = (List.range n).foldl (fun y row => compute_row_triangular A x y row n) y ∧
    matvec_triangular omp y A x n t "dynamic" c
        = (List.range n).foldl (fun y row => compute_row_triangular A x y row n) y ∧
    matvec_triangular omp y A x n t "guided" c
        = (List.range n).foldl (fun y row => compute_row_triangular A x y row n) y := by
  have key : ∀ sch t, (omp sch t n).foldl (triangular_body A x n) y
      = (List.range n).foldl (fun y row => compute_row_triangular A x y row n) y := by
    intro sch t
    rw [foldl_kernel_eq_body]
    apply foldl_triangular_body_order
    intro r
    rw [(homp sch t).mem_iff, List.mem_range]
  refine ⟨?_, ?_, ?_⟩
  · simp only [matvec_triangular, if_true]
    exact key _ _
  · have h1 : ¬ ("dynamic" = "static") := by decide
    simp only [matvec_triangular, h1, if_false, if_true]
    exact key _ _
  · have h1 : ¬ ("guided" = "static") := by decide
    have h2 : ¬ ("guided" = "dynamic") := by decide
    simp only [matvec_triangular, h1, h2, if_false, if_true]
    exact key _ _

/-- Every interleaving followed by `drain_sched` is a complete run. -/
theorem atomic_run_drain_joined (A : A1D α) (x y : V α) (n num_threads : Nat)
    (sched : List Nat) :
    all_joined (atomic_run A x n (sched ++ drain_sched n num_threads)
      (atomic_init y num_threads)) = true := by
  rw [atomic_run_append]
  apply all_joined_of_forall
  intro u hu
  rw [atomic_run_running_length, atomic_run_running_length] at hu
  have hlen : (atomic_init y num_threads).running.length = num_threads := by
    simp [atomic_init]
  exact drain_sched_joins A x n _ num_threads u (by omega)

/-! ### Verification -/

theorem verify_step_y {K : Type} [LinearOrderedField K] (e : K) (s : VerifyState K) (i : Nat) :
    (verify_step e s i).y = s.y := by
  unfold verify_step
  by_cases h : |s.y.getD i 0 - e| > tolerance
  · rw [if_pos h]
  · rw [if_neg h]

theorem verify_step_test_passed {K : Type} [LinearOrderedField K] (e : K) (s : VerifyState K)
    (i : Nat) :
    (verify_step e s i).test_passed
      = (s.test_passed && !decide (|s.y.getD i 0 - e| > tolerance)) := by
  unfold verify_step
  by_cases h : |s.y.getD i 0 - e| > tolerance
  · rw [if_pos h, decide_eq_true h]; simp
  · rw [if_neg h, decide_eq_false h]; simp

/-- The verification loop never writes to `y`, and its flag is the
conjunction of the element tests. -/
theorem verify_fold {K : Type} [LinearOrderedField K] (e : Nat → K) (l : List Nat)
    (s : VerifyState K) :
    (l.foldl (fun s i => verify_step (e i) s i) s).y = s.y ∧
    (l.foldl (fun s i => verify_step (e i) s i) s).test_passed
      = (s.test_passed && l.all (fun i => !decide (|s.y.getD i 0 - e i| > tolerance))) := by
  induction l generalizing s with
  | nil => simp
  | cons a l ih =>
    simp only [List.foldl_cons, List.all_cons]
    obtain ⟨h1, h2⟩ := ih (verify_step (e a) s a)
    rw [h1, h2, verify_step_y, verify_step_test_passed, Bool.and_assoc]
    exact ⟨rfl, rfl⟩

theorem verify_triangular_iff {K : Type} [LinearOrderedField K] (y : V K) (n : Nat) :
    verify_triangular y n = true ↔ ∀ i, i < n → |y.getD i 0 - (i : K)| ≤ tolerance := by
  unfold verify_triangular verify_triangular_run
  rw [(verify_fold (fun i => (i : K)) (List.range n) _).2]
  simp only [Bool.true_and, List.all_eq_true, List.mem_range, Bool.not_eq_true',
    decide_eq_false_iff_not, not_lt, gt_iff_lt]

theorem verify_iff {K : Type} [LinearOrderedField K] (y : V K) :
    verify y = true ↔ ∀ i, i < y.length → |y.getD i 0 - (y.length : K)| ≤ tolerance := by
  unfold verify verify_run
  simp only []
  rw [(verify_fold (fun _ => (y.length : K)) (List.range y.length) _).2]
  simp only [Bool.true_and, List.all_eq_true, List.mem_range, Bool.not_eq_true',
    decide_eq_false_iff_not, not_lt, gt_iff_lt]

theorem tolerance_pos {K : Type} [LinearOrderedField K] : (0 : K) < tolerance := by
  unfold tolerance; positivity

theorem tolerance_lt_one {K : Type} [LinearOrderedField K] : (tolerance : K) < 1 := by
  unfold tolerance
  rw [div_lt_one (by norm_num)]
  norm_num

theorem verify_triangular_eq_false {K : Type} [LinearOrderedField K] (y : V K) (n i : Nat)
    (hi : i < n) (h : tolerance < |y.getD i 0 - (i : K)|) : verify_triangular y n = false := by
  cases hv : verify_triangular y n
  · rfl
  · exact absurd ((verify_triangular_iff y n).mp hv i hi) (not_le.mpr h)

/-! ### Serial program on the all-ones input -/

theorem fullSum_all_ones {R : Type} [Semiring R] (n i : Nat) (hi : i < n) :
    fullSum (List.replicate (n * n) (1 : R)) (List.replicate n (1 : R)) i n = (n : R) := by
  unfold fullSum
  rw [accFrom_congr _ (fun _ => (1 : R)) 0 n, accFrom_const_one]
  intro j hj
  rw [getD_replicate _ _ _ _ (row_major_index_lt n n i j hi hj), getD_replicate _ _ _ _ hj]
  simp

theorem matvec_row_major_all_ones {R : Type} [Semiring R] (n : Nat) (y : V R)
    (hy : y.length = n) :
    matvec_row_major y (List.replicate (n * n) 1) (List.replicate n 1) n
      = List.replicate n (n : R) := by
  apply ext_getD _ _ 0
  · rw [matvec_row_major_length, hy, List.length_replicate]
  · intro t ht
    rw [matvec_row_major_length, hy] at ht
    rw [matvec_row_major_getD, if_pos ⟨ht, by omega⟩, fullSum_all_ones n t ht,
      getD_replicate _ _ _ _ ht]

theorem matvec_col_major_all_ones {R : Type} [Semiring R] (n : Nat) (y : V R)
    (hy : y.length = n) :
    matvec_col_major y (List.replicate (n * n) 1) (List.replicate n 1) n
      = List.replicate n (n : R) := by
  apply ext_getD _ _ 0
  · rw [matvec_col_major_length, hy, List.length_replicate]
  · intro t ht
    rw [matvec_col_major_length, hy] at ht
    rw [matvec_col_major_getD, if_pos ⟨ht, by omega⟩, fullSum_all_ones n t ht,
      getD_replicate _ _ _ _ ht]

theorem matvec_original_eq (y : V α) (A : ARR α) (x : V α) :
    matvec_original y A x
      = (List.range A.length).foldl (fun y i => y.set i
          (accFrom (fun j => (A.getD i []).getD j 0 * x.getD j 0) 0 A.length)) y := by
  unfold matvec_original
  simp only []
  congr 1
  funext y i
  rw [foldl_acc_eq]
  exact set_set_getD y i 0 0
    (fun a => accFrom (fun j => (A.getD i []).getD j 0 * x.getD j 0) a A.length)

theorem matvec_original_length (y : V α) (A : ARR α) (x : V α) :
    (matvec_original y A x).length = y.length := by
  rw [matvec_original_eq]
  exact foldl_set_length (fun _ i => i) _ _ y

theorem matvec_original_getD (y : V α) (A : ARR α) (x : V α) (t : Nat) :
    (matvec_original y A x).getD t 0
      = if t < A.length ∧ t < y.length
        then accFrom (fun j => (A.getD t []).getD j 0 * x.getD j 0) 0 A.length
        else y.getD t 0 := by
  rw [matvec_original_eq]
  exact foldl_update_getD
    (fun i _ => accFrom (fun j => (A.getD i []).getD j 0 * x.getD j 0) 0 A.length) 0 _ y t

theorem matvec_original_all_ones {R : Type} [Semiring R] (n : Nat) (y : V R)
    (hy : y.length = n) :
    matvec_original y (List.replicate n (List.replicate n 1)) (List.replicate n 1)
      = List.replicate n (n : R) := by
  apply ext_getD _ _ 0
  · rw [matvec_original_length, hy, List.length_replicate]
  · intro t ht
    rw [matvec_original_length, hy] at ht
    have hsum : accFrom (fun j => ((List.replicate n (List.replicate n (1 : R))).getD t []).getD
        j 0 * (List.replicate n (1 : R)).getD j 0) 0 n = (n : R) := by
      rw [accFrom_congr _ (fun _ => (1 : R)) 0 n, accFrom_const_one]
      intro j hj
      rw [getD_replicate _ _ _ _ ht, getD_replicate _ _ _ _ hj]
      simp
    rw [matvec_original_getD, List.length_replicate, if_pos ⟨ht, by omega⟩, hsum,
      getD_replicate _ _ _ _ ht]

/-- The inner loop of `init_matrix` for row `i` fills that row. -/
theorem init_matrix_row (one : α) (A : ARR α) (i m : Nat) :
    (List.range m).foldl (fun A j => A.set i ((A.getD i []).set j one)) A
      = A.set i ((List.range m).foldl (fun r j => r.set j one) (A.getD i [])) := by
  induction m with
  | zero =>
    simp only [List.range_zero, List.foldl_nil]
    rw [set_getD_same]
  | succ m ih =>
    rw [List.range_succ, List.foldl_append, List.foldl_append, ih]
    simp only [List.foldl_cons, List.foldl_nil]
    exact set_set_getD A i _ [] (fun r => r.set m one)

theorem init_matrix_eq (one : α) (n : Nat) :
    init_matrix one (List.replicate n (List.replicate n 0)) (List.replicate n 0)
      = (List.replicate n (List.replicate n one), List.replicate n one) := by
  unfold init_matrix
  simp only [List.length_replicate]
  rw [foldl_fill one n _ (by simp)]
  congr 1
  have hb : (fun (A : ARR α) i =>
      (List.range n).foldl (fun A j => A.set i ((A.getD i []).set j one)) A)
      = (fun A i => A.set i ((fun _ r =>
          (List.range n).foldl (fun r j => r.set j one) r) i (A.getD i []))) := by
    funext A i
    exact init_matrix_row one A i n
  rw [hb]
  apply ext_getD _ _ []
  · rw [foldl_set_length (fun _ i => i), List.length_replicate, List.length_replicate]
  · intro t ht
    rw [foldl_set_length (fun _ i => i), List.length_replicate] at ht
    rw [foldl_update_getD (fun _ r => (List.range n).foldl (fun r j => r.set j one) r) [] n _ t,
      if_pos ⟨ht, by simpa using ht⟩, getD_replicate _ _ _ _ ht, getD_replicate _ _ _ _ ht]
    exact foldl_fill one n _ (by simp)

theorem flatten_matrix_all_ones (one : α) (n : Nat) :
    flatten_matrix [] (List.replicate n (List.replicate n one)) n
      = List.replicate (n * n) one := by
  unfold flatten_matrix
  simp only [List.take_nil, List.nil_append, List.length_nil, Nat.sub_zero]
  apply ext_getD _ _ 0
  · rw [nested_store_length (fun _ => n) (fun i j => i * n + j), List.length_replicate,
      List.length_replicate]
  · intro t ht
    rw [nested_store_length (fun _ => n) (fun i j => i * n + j), List.length_replicate] at ht
    have hn : 0 < n := by
      rcases Nat.eq_zero_or_pos n with h | h
      · subst h; simp at ht
      · exact h
    have hi : t / n < n := (Nat.div_lt_iff_lt_mul hn).mpr ht
    have hj : t % n < n := Nat.mod_lt t hn
    have ht' : t = t / n * n + t % n := by
      have := Nat.div_add_mod t n
      rw [Nat.mul_comm] at this
      omega
    have key := nested_store_getD (fun _ => n) (fun i j => i * n + j)
      (fun i j => ((List.replicate n (List.replicate n one)).getD i []).getD j 0) 0 n
      (List.replicate (n * n) 0)
      (fun i i' k k' _ _ hk hk' h => row_major_index_inj n i i' k k' hk hk' h)
      (fun i k hi hk => by
        rw [List.length_replicate]
        exact row_major_index_lt n n i k hi hk)
      (t / n) (t % n) hi hj
    simp only [] at key
    rw [← ht'] at key
    rw [key, getD_replicate _ _ _ _ hi, getD_replicate _ _ _ _ hj, getD_replicate _ _ _ _ ht]

/-- The serial program with a known `version` ends with `y[i] = n`. -/
theorem serial_y_eq {K : Type} [LinearOrderedField K] (n : Nat) (version : String)
    (hv : version = "original" ∨ version = "row_major" ∨ version = "col_major") :
    serial_y K n version = List.replicate n (n : K) := by
  unfold serial_y
  simp only []
  rw [init_matrix_eq, flatten_matrix_all_ones]
  have h1 : ¬ ("row_major" = "original") := by decide
  have h2 : ¬ ("col_major" = "original") := by decide
  have h3 : ¬ ("col_major" = "row_major") := by decide
  apply iterate_const_of_length _ _ n (by simp) _ 11 _ (by simp)
  intro y hy
  rcases hv with hv | hv | hv
  · subst hv
    simp only [if_true]
    exact matvec_original_all_ones n y hy
  · subst hv
    simp only [h1, if_false, if_true]
    exact matvec_row_major_all_ones n y hy
  · subst hv
    simp only [h2, h3, if_false, if_true]
    exact matvec_col_major_all_ones n y hy

/-- The serial program with an unknown `version` leaves `y` all zeros. -/
theorem serial_y_unknown {K : Type} [LinearOrderedField K] (n : Nat) (version : String)
    (h1 : version ≠ "original") (h2 : version ≠ "row_major") (h3 : version ≠ "col_major") :
    serial_y K n version = List.replicate n (0 : K) := by
  unfold serial_y
  simp only [h1, h2, h3, if_false]
  exact Function.iterate_fixed rfl _

theorem verify_replicate_self {K : Type} [LinearOrderedField K] (n : Nat) :
    verify (List.replicate n (n : K)) = true := by
  rw [verify_iff]
  intro i hi
  rw [List.length_replicate] at hi ⊢
  rw [getD_replicate _ _ _ _ hi, sub_self, abs_zero]
  exact le_of_lt tolerance_pos

/-! ### Threaded and distributed programs on the all-ones input -/

theorem foldl_kernel_length (A : A1D α) (x y : V α) (n : Nat) (l : List Nat) :
    (l.foldl (fun y row => compute_row_triangular A x y row n) y).length = y.length := by
  have hb : (fun y row => compute_row_triangular A x y row n)
      = fun y i => y.set i (triSum A x i n) := by
    funext y i; exact compute_row_triangular_eq A x y i n
  rw [hb]
  exact foldl_set_length (fun _ i => i) _ l y

/-- A complete run of `matvec_triangular_atomic` keeps the length of `y` and
leaves the triangular sum of row `t` in every slot `t < n`. -/
theorem matvec_triangular_atomic_getD (A : A1D α) (x y y' : V α) (n num_threads : Nat)
    (hP : 1 ≤ num_threads) (sched : List Nat)
    (h : matvec_triangular_atomic sched y A x n num_threads = some y') :
    y'.length = y.length ∧
    ∀ t, t < n → t < y.length → y'.getD t 0 = triSum A x t n := by
  have he := matvec_triangular_atomic_eq A x y y' n num_threads hP sched h
  subst he
  refine ⟨foldl_kernel_length A x y n _, ?_⟩
  intro t ht hty
  rw [foldl_kernel_getD, if_pos ⟨ht, hty⟩]

theorem atomic_calls_length (sched : Nat → List Nat) (A : A1D α) (x : V α)
    (n num_threads : Nat) (hP : 1 ≤ num_threads) (k : Nat) (y y' : V α)
    (h : atomic_calls sched A x n num_threads k y = some y') : y'.length = y.length := by
  induction k generalizing y' with
  | zero =>
    rw [atomic_calls] at h
    rw [← Option.some.inj h]
  | succ k ih =>
    rw [atomic_calls] at h
    cases hk : atomic_calls sched A x n num_threads k y with
    | none => rw [hk] at h; exact absurd h (by simp)
    | some y₁ =>
      rw [hk] at h
      have h' : matvec_triangular_atomic (sched k) y₁ A x n num_threads = some y' := h
      rw [(matvec_triangular_atomic_getD A x y₁ y' n num_threads hP _ h').1, ih y₁ hk]

/-- After at least one call every slot `t < n` holds the triangular sum of
row `t`. -/
theorem atomic_calls_getD (sched : Nat → List Nat) (A : A1D α) (x : V α)
    (n num_threads : Nat) (hP : 1 ≤ num_threads) (k : Nat) (y y' : V α)
    (h : atomic_calls sched A x n num_threads (k + 1) y = some y') :
    ∀ t, t < n → t < y.length → y'.getD t 0 = triSum A x t n := by
  rw [atomic_calls] at h
  cases hk : atomic_calls sched A x n num_threads k y with
  | none => rw [hk] at h; exact absurd h (by simp)
  | some y₁ =>
    rw [hk] at h
    have h' : matvec_triangular_atomic (sched k) y₁ A x n num_threads = some y' := h
    intro t ht hty
    have hl := atomic_calls_length sched A x n num_threads hP k y y₁ hk
    exact (matvec_triangular_atomic_getD A x y₁ y' n num_threads hP _ h').2 t ht
      (by rw [hl]; exact hty)

/-- Calls whose interleavings all end with `drain_sched` all return. -/
theorem atomic_calls_complete (sched : Nat → List Nat) (A : A1D α) (x : V α)
    (n num_threads : Nat) (k : Nat) (y : V α) :
    ∃ y', atomic_calls (fun i => sched i ++ drain_sched n num_threads) A x n num_threads k y
      = some y' := by
  induction k with
  | zero => exact ⟨y, rfl⟩
  | succ k ih =>
    obtain ⟨y₁, h₁⟩ := ih
    rw [atomic_calls, h₁]
    have hj := atomic_run_drain_joined A x y₁ n num_threads (sched k)
    exact ⟨_, by
      show matvec_triangular_atomic (sched k ++ drain_sched n num_threads) y₁ A x n num_threads
        = _
      unfold matvec_triangular_atomic
      simp only []
      rw [if_pos hj]⟩

/-- A vector with `y[t] = t + 1` in its slots below `n ≥ 1` is rejected by
`verify_triangular`. -/
theorem verify_triangular_succ {K : Type} [LinearOrderedField K] (y : V K) (n : Nat)
    (hn : 1 ≤ n) (h : ∀ t, t < n → y.getD t 0 = (t : K) + 1) :
    verify_triangular y n = false := by
  apply verify_triangular_eq_false y n 0 (by omega)
  rw [h 0 (by omega)]
  simp only [Nat.cast_zero, zero_add, sub_zero, abs_one]
  exact tolerance_lt_one

/-- The all-zeros vector of length `n ≥ 2` is rejected by `verify_triangular`. -/
theorem verify_triangular_zeros {K : Type} [LinearOrderedField K] (n : Nat) (hn : 2 ≤ n) :
    verify_triangular (List.replicate n (0 : K)) n = false := by
  apply verify_triangular_eq_false _ n 1 (by omega)
  rw [getD_replicate _ _ _ _ (by omega)]
  simp only [Nat.cast_one, zero_sub, abs_neg, abs_one]
  exact tolerance_lt_one

theorem threads_y_getD {K : Type} [LinearOrderedField K] (sched : Nat → List Nat)
    (n num_threads : Nat) (hP : 1 ≤ num_threads) (y : V K)
    (h : threads_y K sched n num_threads = some y) :
    ∀ t, t < n → y.getD t 0 = (t : K) + 1 := by
  intro t ht
  unfold threads_y at h
  simp only [] at h
  rw [init_matrix_1d_eq] at h
  have h' : atomic_calls sched (List.replicate (n * n) (1 : K)) (List.replicate n (1 : K)) n
      num_threads (11 + 1) (List.replicate n 0) = some y := h
  rw [atomic_calls_getD sched _ _ n num_threads hP 11 _ y h' t ht (by simpa using ht)]
  exact triSum_all_ones n t ht

theorem mpi_y_contiguous_getD {K : Type} [LinearOrderedField K] (n size t : Nat) (x₀ : V K)
    (hP : 1 ≤ size) (ht : t < n) :
    (mpi_y "contiguous" (init_matrix_1d (1 : K) [] x₀ n).1 (init_matrix_1d (1 : K) [] x₀ n).2
      n size).getD t 0 = (t : K) + 1 := by
  rw [init_matrix_1d_eq]
  simp only [mpi_y, if_true]
  rw [mpi_contiguous_getD _ _ n size t hP ht]
  exact triSum_all_ones n t ht

theorem mpi_y_cyclic_getD {K : Type} [LinearOrderedField K] (n size t : Nat) (x₀ : V K)
    (hP : 1 ≤ size) (ht : t < n) :
    (mpi_y "cyclic" (init_matrix_1d (1 : K) [] x₀ n).1 (init_matrix_1d (1 : K) [] x₀ n).2
      n size).getD t 0 = (t : K) + 1 := by
  rw [init_matrix_1d_eq]
  have h1 : ¬ ("cyclic" = "contiguous") := by decide
  simp only [mpi_y, h1, if_false, if_true]
  rw [mpi_cyclic_getD _ _ n size t hP ht]
  exact triSum_all_ones n t ht

theorem mpi_y_unknown (strategy : String) (A : A1D α) (x : V α) (n size : Nat)
    (h1 : strategy ≠ "contiguous") (h2 : strategy ≠ "cyclic") :
    mpi_y strategy A x n size = List.replicate n 0 := by
  simp only [mpi_y, h1, h2, if_false]

/-! ### Frame and idempotence -/

theorem compute_row_triangular_length (A : A1D α) (x y : V α) (row n : Nat) :
    (compute_row_triangular A x y row n).length = y.length := by
  rw [compute_row_triangular_eq, List.length_set]

/-- The result of applying the row kernel to every row of `[0, n)` does not
depend on what a vector of length `n` held before. -/
theorem foldl_kernel_indep (A : A1D α) (x y y' : V α) (n : Nat) (hy : y.length = n)
    (hy' : y'.length = n) :
    (List.range n).foldl (fun y row => compute_row_triangular A x y row n) y
      = (List.range n).foldl (fun y row => compute_row_triangular A x y row n) y' := by
  apply ext_getD _ _ 0
  · rw [foldl_kernel_length, foldl_kernel_length, hy, hy']
  · intro t ht
    rw [foldl_kernel_length, hy] at ht
    rw [foldl_kernel_getD, foldl_kernel_getD, if_pos ⟨ht, by omega⟩, if_pos ⟨ht, by omega⟩]

theorem matvec_row_major_indep (A : A1D α) (x y y' : V α) (n : Nat) (hy : y.length = n)
    (hy' : y'.length = n) : matvec_row_major y A x n = matvec_row_major y' A x n := by
  apply ext_getD _ _ 0
  · rw [matvec_row_major_length, matvec_row_major_length, hy, hy']
  · intro t ht
    rw [matvec_row_major_length, hy] at ht
    rw [matvec_row_major_getD, matvec_row_major_getD, if_pos ⟨ht, by omega⟩,
      if_pos ⟨ht, by omega⟩]

theorem matvec_col_major_indep (A : A1D α) (x y y' : V α) (n : Nat) (hy : y.length = n)
    (hy' : y'.length = n) : matvec_col_major y A x n = matvec_col_major y' A x n := by
  apply ext_getD _ _ 0
  · rw [matvec_col_major_length, matvec_col_major_length, hy, hy']
  · intro t ht
    rw [matvec_col_major_length, hy] at ht
    rw [matvec_col_major_getD, matvec_col_major_getD, if_pos ⟨ht, by omega⟩,
      if_pos ⟨ht, by omega⟩]

theorem compute_rows_triangular_indep (A_local : A1D α) (x z z' : V α) (rows : VI) (n : Nat)
    (hz : z.length = rows.length) (hz' : z'.length = rows.length) :
    compute_rows_triangular A_local x z rows n = compute_rows_triangular A_local x z' rows n := by
  apply ext_getD _ _ 0
  · rw [compute_rows_triangular_length, compute_rows_triangular_length, hz, hz']
  · intro t ht
    rw [compute_rows_triangular_length, hz] at ht
    rw [compute_rows_triangular_getD, compute_rows_triangular_getD, if_pos ⟨ht, by omega⟩,
      if_pos ⟨ht, by omega⟩]

/-! ### Configuration and boundary cases -/

/-- With no worker launched no step changes the state. -/
theorem atomic_run_no_workers (A : A1D α) (x y : V α) (n : Nat) (sched : List Nat) :
    atomic_run A x n sched (atomic_init y 0) = atomic_init y 0 := by
  induction sched with
  | nil => rfl
  | cons t sched ih =>
    have hstep : worker_step A x n (atomic_init y 0) t = atomic_init y 0 := by
      unfold worker_step
      have hr : (atomic_init y 0).running.getD t false = false := by
        simp [atomic_init]
      rw [hr]
      rfl
    show atomic_run A x n sched (worker_step A x n (atomic_init y 0) t) = _
    rw [hstep, ih]

theorem matvec_triangular_unknown (omp : OmpRuntime) (y : V α) (A : A1D α) (x : V α) (n : Nat)
    (t c : Int) (st : String) (h1 : st ≠ "static") (h2 : st ≠ "dynamic") (h3 : st ≠ "guided") :
    matvec_triangular omp y A x n t st c = y := by
  simp only [matvec_triangular, h1, h2, h3, if_false]

/-- The all-zeros vector of length `n ≥ 1` is rejected by `verify`, the empty
vector is accepted. -/
theorem verify_zeros {K : Type} [LinearOrderedField K] (n : Nat) :
    verify (List.replicate n (0 : K)) = decide (n = 0) := by
  rcases Nat.eq_zero_or_pos n with h | h
  · subst h
    rfl
  · have hne : ¬ n = 0 := by omega
    rw [decide_eq_false hne]
    cases hv : verify (List.replicate n (0 : K))
    · rfl
    · have h0 := (verify_iff _).mp hv 0 (by simpa using h)
      rw [List.length_replicate, getD_replicate _ _ _ _ h, zero_sub, abs_neg,
        Nat.abs_cast] at h0
      have h1 : (1 : K) ≤ (n : K) := by exact_mod_cast h
      exact absurd (lt_of_le_of_lt (le_trans h1 h0) tolerance_lt_one) (lt_irrefl _)

/-- The counter `error_count` is the number of elements that fail the test:
the loop runs over all of `[0, n)` whatever it finds. -/
theorem verify_fold_error_count {K : Type} [LinearOrderedField K] (e : Nat → K) (l : List Nat)
    (s : VerifyState K) :
    (l.foldl (fun s i => verify_step (e i) s i) s).error_count
      = s.error_count + l.countP (fun i => decide (|s.y.getD i 0 - e i| > tolerance)) := by
  induction l generalizing s with
  | nil => simp
  | cons a l ih =>
    simp only [List.foldl_cons]
    rw [ih, verify_step_y, List.countP_cons]
    unfold verify_step
    by_cases h : |s.y.getD a 0 - e a| > tolerance
    · rw [if_pos h, decide_eq_true h]
      simp only [if_true]
      omega
    · rw [if_neg h, decide_eq_false h]
      simp

theorem contiguous_rows_zero (size rank : Nat) : contiguous_rows 0 size rank = [] := by
  have he : end_row 0 size rank = 0 := by
    unfold end_row rows_per_process
    by_cases h : rank = size - 1
    · rw [if_pos h]
    · rw [if_neg h, Nat.zero_div, Nat.mul_zero]
  unfold contiguous_rows
  rw [he]
  rfl

theorem cyclic_rows_zero (size rank : Nat) : cyclic_rows 0 size rank = [] := rfl

/-- A complete or partial run for `n = 0` computes no row and leaves `y` as
it was. -/
theorem atomic_run_zero (A : A1D α) (x y : V α) (num_threads : Nat) (sched : List Nat) :
    (atomic_run A x 0 sched (atomic_init y num_threads)).computed = [] ∧
    (atomic_run A x 0 sched (atomic_init y num_threads)).y = y := by
  have hinv := atomic_run_inv A x y 0 num_threads sched _ (atomic_init_inv A x y 0 num_threads)
  have h1 := hinv.computed_eq
  have h2 := hinv.y_eq
  rw [Nat.min_zero] at h1 h2
  exact ⟨h1, h2⟩

end Lemmas

/-! ## The claims -/

section Claims

variable {α : Type} [Zero α] [Add α] [Mul α]

/-- C1 (what the code does instead): for every `N ≥ 1` and every `i` in
`[0, N)`, with `A` and `x` the all-ones matrix and vector built by
`init_matrix_1d`, each triangular strategy leaves `y[i] = i + 1`, not `i`:
the row kernel `compute_row_triangular`, every complete run of
`matvec_triangular_atomic` (and every interleaving extends to a complete
run), the scheduled loop `matvec_triangular` under each of its three
policies, and `compute_rows_triangular` on the rows `0, ..., N - 1`.  The
inner loop `for (j = 0; j <= k_i; ++j)` adds `i + 1` unit terms, one more
than the `i` terms `verify_triangular` expects. -/
theorem triangular_all_ones (n i : Nat) (y : V ℚ) (omp : OmpRuntime) (sched : List Nat)
    (num_threads : Nat) (t c : Int) (hi : i < n) (hy : y.length = n) (homp : omp.admissible n)
    (hP : 1 ≤ num_threads) :
    let A := (init_matrix_1d (1 : ℚ) [] [] n).1
    let x := (init_matrix_1d (1 : ℚ) [] [] n).2
    (compute_row_triangular A x y i n).getD i 0 = (i : ℚ) + 1 ∧
    (∀ y', matvec_triangular_atomic sched y A x n num_threads = some y' →
      y'.getD i 0 = (i : ℚ) + 1) ∧
    (∃ y', matvec_triangular_atomic (sched ++ drain_sched n num_threads) y A x n num_threads
      = some y') ∧
    (matvec_triangular omp y A x n t "static" c).getD i 0 = (i : ℚ) + 1 ∧
    (matvec_triangular omp y A x n t "dynamic" c).getD i 0 = (i : ℚ) + 1 ∧
    (matvec_triangular omp y A x n t "guided" c).getD i 0 = (i : ℚ) + 1 ∧
    (compute_rows_triangular A x y (List.range n) n).getD i 0 = (i : ℚ) + 1 ∧
    (i : ℚ) + 1 ≠ (i : ℚ) := by
  intro A x
  have hA : A = List.replicate (n * n) 1 := by
    show (init_matrix_1d (1 : ℚ) [] [] n).1 = _
    rw [init_matrix_1d_eq]
  have hx : x = List.replicate n 1 := by
    show (init_matrix_1d (1 : ℚ) [] [] n).2 = _
    rw [init_matrix_1d_eq]
  have hsum : triSum A x i n = (i : ℚ) + 1 := by
    rw [hA, hx]; exact triSum_all_ones n i hi
  have hall : ((List.range n).foldl (fun y row => compute_row_triangular A x y row n) y).getD i 0
      = (i : ℚ) + 1 := by
    rw [foldl_kernel_getD, if_pos ⟨hi, by omega⟩, hsum]
  have homp' := matvec_triangular_eq_kernel_fold omp y A x n homp
  refine ⟨?_, ?_, ?_, ?_, ?_, ?_, ?_, ?_⟩
  · rw [compute_row_triangular_eq, getD_set_self _ _ _ _ (by omega), hsum]
  · intro y' h
    rw [matvec_triangular_atomic_eq A x y y' n num_threads hP sched h]
    exact hall
  · have hj : all_joined (atomic_run A x n (sched ++ drain_sched n num_threads)
        (atomic_init y num_threads)) = true :=
      atomic_run_drain_joined A x y n num_threads sched
    exact ⟨_, by unfold matvec_triangular_atomic; simp only []; rw [if_pos hj]⟩
  · rw [(homp' t c).1]; exact hall
  · rw [(homp' t c).2.1]; exact hall
  · rw [(homp' t c).2.2]; exact hall
  · rw [compute_rows_triangular_getD, if_pos ⟨by simpa using hi, by omega⟩]
    have hr : (List.range n).getD i 0 = i := by
      rw [List.getD_eq_getElem _ _ (by simpa using hi)]; simp
    unfold localSum
    rw [hr]
    exact hsum
  · intro h
    have : (1 : ℚ) = 0 := by linarith
    exact one_ne_zero this

theorem triangular_all_ones_witness :
    (compute_row_triangular [(1 : ℚ)] [1] [0] 0 1).getD 0 0 = ((0 : ℕ) : ℚ) + 1 ∧
    (∀ y', matvec_triangular_atomic [0, 0] [0] [(1 : ℚ)] [1] 1 1 = some y' →
      y'.getD 0 0 = ((0 : ℕ) : ℚ) + 1) ∧
    (∃ y', matvec_triangular_atomic ([0, 0] ++ drain_sched 1 1) [0] [(1 : ℚ)] [1] 1 1
      = some y') ∧
    (matvec_triangular omp_sequential [0] [(1 : ℚ)] [1] 1 4 "static" 1).getD 0 0
      = ((0 : ℕ) : ℚ) + 1 ∧
    (matvec_triangular omp_sequential [0] [(1 : ℚ)] [1] 1 4 "dynamic" 1).getD 0 0
      = ((0 : ℕ) : ℚ) + 1 ∧
    (matvec_triangular omp_sequential [0] [(1 : ℚ)] [1] 1 4 "guided" 1).getD 0 0
      = ((0 : ℕ) : ℚ) + 1 ∧
    (compute_rows_triangular [(1 : ℚ)] [1] [0] (List.range 1) 1).getD 0 0
      = ((0 : ℕ) : ℚ) + 1 ∧
    ((0 : ℕ) : ℚ) + 1 ≠ ((0 : ℕ) : ℚ) :=
  triangular_all_ones 1 0 [0] omp_sequential [0, 0] 1 4 1 (by decide) (by decide)
    (fun _ _ => List.Perm.refl _) (by decide)

/-- The failing input of C1 evaluated: for `N = 1` (so `A = [1.0]`,
`x = [1.0]`, `y = [0.0]` before the call) every triangular strategy
returns `y = [1.0]`. -/
theorem triangular_N1_evaluates :
    init_matrix_1d (1 : ℚ) [] [] 1 = ([1], [1]) ∧
    compute_row_triangular [(1 : ℚ)] [1] [0] 0 1 = [1] ∧
    matvec_triangular_atomic [0, 0] [0] [(1 : ℚ)] [1] 1 1 = some [1] ∧
    matvec_triangular omp_sequential [0] [(1 : ℚ)] [1] 1 4 "static" 1 = [1] ∧
    compute_rows_triangular [(1 : ℚ)] [1] [0] [0] 1 = [1] := by
  refine ⟨?_, ?_, ?_, ?_, ?_⟩
  · simp [init_matrix_1d, List.range_succ]
  · simp [compute_row_triangular, List.range_succ]
  · simp [matvec_triangular_atomic, atomic_run, atomic_init, worker_step, all_joined,
      compute_row_triangular, List.range_succ]
  · simp [matvec_triangular, omp_sequential, triangular_body, List.range_succ]
  · simp [compute_rows_triangular, List.range_succ]

/-- C2: for every `n`, every `row < n`, every matrix `A` of `n * n` entries,
vector `x` of `n` entries and output vector `y` of `n` entries (whatever it
holds), `compute_row_triangular` leaves in `y[row]` the sum over
`j = 0, ..., row` (inclusive) of `A[row * n + j] * x[j]`, accumulated from
`0.0` in increasing order of `j`. -/
theorem compute_row_triangular_sum (A : A1D α) (x y : V α) (row n : Nat)
    (hrow : row < n) (hA : A.length = n * n) (hx : x.length = n) (hy : y.length = n) :
    (compute_row_triangular A x y row n).getD row 0 = triSum A x row n := by
  rw [compute_row_triangular_eq, getD_set_self _ _ _ _ (by omega)]

theorem compute_row_triangular_sum_witness :
    (compute_row_triangular [(1 : ℚ), 2, 3, 4] [5, 6] [7, 8] 1 2).getD 1 0
      = triSum [(1 : ℚ), 2, 3, 4] [5, 6] 1 2 :=
  compute_row_triangular_sum [(1 : ℚ), 2, 3, 4] [5, 6] [7, 8] 1 2
    (by decide) (by decide) (by decide) (by decide)

/-- C9: for every `n`, every matrix `A` of `n * n` entries, vector `x` of `n`
entries and initial `y` of length `n`, `matvec_row_major` and
`matvec_col_major` leave the same `y`, and each `y[i]` is the sum of the
`A[i * n + j] * x[j]` accumulated from `0.0` over `j = 0, 1, ..., n - 1` in
that order. -/
theorem row_major_eq_col_major (y : V α) (A : A1D α) (x : V α) (n : Nat)
    (hA : A.length = n * n) (hx : x.length = n) (hy : y.length = n) :
    matvec_row_major y A x n = matvec_col_major y A x n ∧
    ∀ i, i < n → (matvec_row_major y A x n).getD i 0 = fullSum A x i n ∧
      (matvec_col_major y A x n).getD i 0 = fullSum A x i n := by
  refine ⟨?_, ?_⟩
  · apply ext_getD _ _ 0
    · rw [matvec_row_major_length, matvec_col_major_length]
    · intro t _
      rw [matvec_row_major_getD, matvec_col_major_getD]
  · intro i hi
    rw [matvec_row_major_getD, matvec_col_major_getD, if_pos ⟨hi, by omega⟩]
    exact ⟨rfl, rfl⟩

theorem row_major_eq_col_major_witness :
    matvec_row_major [7, 8] [(1 : ℚ), 2, 3, 4] [5, 6] 2
        = matvec_col_major [7, 8] [(1 : ℚ), 2, 3, 4] [5, 6] 2 ∧
    ∀ i, i < 2 → (matvec_row_major [7, 8] [(1 : ℚ), 2, 3, 4] [5, 6] 2).getD i 0
        = fullSum [(1 : ℚ), 2, 3, 4] [5, 6] i 2 ∧
      (matvec_col_major [7, 8] [(1 : ℚ), 2, 3, 4] [5, 6] 2).getD i 0
        = fullSum [(1 : ℚ), 2, 3, 4] [5, 6] i 2 :=
  row_major_eq_col_major [7, 8] [(1 : ℚ), 2, 3, 4] [5, 6] 2
    (by decide) (by decide) (by decide)

/-- Under a conforming clause the scheduled loop computes what the row
kernel computes when applied to the rows `0, ..., n - 1` in this order. -/
theorem scheduled_loop_eq_kernel_fold (omp : OmpRuntime) (y : V α) (A : A1D α) (x : V α)
    (n : Nat) (homp : omp.conforming n) (sch : OmpSchedule) (hsch : sch.conforming) (t : Int) :
    (omp sch t n).foldl (triangular_body A x n) y
      = (List.range n).foldl (fun y row => compute_row_triangular A x y row n) y := by
  rw [foldl_kernel_eq_body]
  apply foldl_triangular_body_order
  intro r
  rw [(homp sch t hsch).mem_iff, List.mem_range]

/-- A runtime that executes each iteration once under every clause does so
under the conforming ones. -/
theorem conforming_of_admissible (omp : OmpRuntime) (n : Nat) (h : omp.admissible n) :
    omp.conforming n :=
  fun sch t _ => h sch t

/-- The runtime `omp_mixed` executes each iteration once. -/
theorem omp_mixed_admissible (n : Nat) : omp_mixed.admissible n := by
  intro sch t
  cases sch with
  | static => exact List.Perm.refl _
  | dynamic c => exact List.reverse_perm _
  | guided =>
    show List.Perm ((List.range n).filter (fun i => i % 2 = 1) ++
      (List.range n).filter (fun i => ¬ i % 2 = 1)) (List.range n)
    have e : (fun i : Nat => decide (¬ i % 2 = 1)) = (fun i => !decide (i % 2 = 1)) := by
      funext i
      by_cases h : i % 2 = 1 <;> simp [h]
    rw [e]
    exact List.filter_append_perm (fun i => decide (i % 2 = 1)) (List.range n)

/-- C10, as stated, fails for a chunk size that is not positive: whatever
the runtime, the call of `matvec_triangular` with `dynamic` and
`chunk_size = 0` has no defined result, while the call with `static`
returns `y = [1, 2]` on every runtime that executes each iteration of a
conforming loop once. -/
theorem nonpositive_chunk_disagrees :
    (∀ omp : OmpRuntime,
      matvec_triangular_outcome omp [0, 0] [(1 : ℤ), 1, 1, 1] [1, 1] 2 4 "dynamic" 0 = none) ∧
    (∀ omp : OmpRuntime, omp.conforming 2 →
      matvec_triangular_outcome omp [0, 0] [(1 : ℤ), 1, 1, 1] [1, 1] 2 4 "static" 0
        = some [1, 2]) := by
  refine ⟨fun omp => rfl, fun omp homp => ?_⟩
  have h : matvec_triangular omp [0, 0] [(1 : ℤ), 1, 1, 1] [1, 1] 2 4 "static" 0 = [1, 2] := by
    simp only [matvec_triangular, if_true]
    rw [scheduled_loop_eq_kernel_fold omp _ _ _ 2 homp OmpSchedule.static trivial _]
    decide
  show (if "static" = "dynamic" ∧ (0 : Int) < 1 then none else some _) = some [1, 2]
  rw [if_neg (by decide), h]

/-- C10, amended: for every `n`, `A`, `x`, initial `y`, thread counts and
chunk sizes, the chunk size given to `dynamic` being at least 1, and every
OpenMP runtime that executes each iteration of a work-shared loop with a
conforming `schedule` clause exactly once, `matvec_triangular` called with
`schedule_type` equal to `static`, `dynamic` and `guided` returns and
produces the same `y`, which is the result of applying the single-row
kernel `compute_row_triangular` once to every row in `[0, n)`; with
`dynamic` and a chunk size below 1 the call has no defined result. -/
theorem schedules_agree_for_positive_chunk (omp : OmpRuntime) (y : V α) (A : A1D α) (x : V α)
    (n : Nat) (t₁ t₂ t₃ c₁ c₂ c₃ : Int) (homp : omp.conforming n) (hc : 1 ≤ c₂) :
    matvec_triangular_outcome omp y A x n t₁ "static" c₁
        = some ((List.range n).foldl (fun y row => compute_row_triangular A x y row n) y) ∧
    matvec_triangular_outcome omp y A x n t₂ "dynamic" c₂
        = some ((List.range n).foldl (fun y row => compute_row_triangular A x y row n) y) ∧
    matvec_triangular_outcome omp y A x n t₃ "guided" c₃
        = some ((List.range n).foldl (fun y row => compute_row_triangular A x y row n) y) ∧
    (∀ c : Int, c < 1 → matvec_triangular_outcome omp y A x n t₂ "dynamic" c = none) := by
  refine ⟨?_, ?_, ?_, fun c hlt => if_pos ⟨rfl, hlt⟩⟩
  · unfold matvec_triangular_outcome
    rw [if_neg (fun h => absurd h.1 (by decide))]
    simp only [matvec_triangular, if_true]
    rw [scheduled_loop_eq_kernel_fold omp y A x n homp OmpSchedule.static trivial _]
  · have h1 : ¬ ("dynamic" = "static") := by decide
    unfold matvec_triangular_outcome
    rw [if_neg (fun h => absurd h.2 (not_lt.mpr hc))]
    simp only [matvec_triangular, h1, if_false, if_true]
    rw [scheduled_loop_eq_kernel_fold omp y A x n homp (OmpSchedule.dynamic c₂) hc _]
  · have h1 : ¬ ("guided" = "static") := by decide
    have h2 : ¬ ("guided" = "dynamic") := by decide
    unfold matvec_triangular_outcome
    rw [if_neg (fun h => absurd h.1 h2)]
    simp only [matvec_triangular, h1, h2, if_false, if_true]
    rw [scheduled_loop_eq_kernel_fold omp y A x n homp OmpSchedule.guided trivial _]

theorem schedules_agree_for_positive_chunk_witness :
    matvec_triangular_outcome omp_mixed [7, 8, 9] [(1 : ℚ), 2, 3, 4, 5, 6, 7, 8, 9] [1, 2, 3]
        3 4 "static" 0
      = some ((List.range 3).foldl (fun y row =>
          compute_row_triangular [(1 : ℚ), 2, 3, 4, 5, 6, 7, 8, 9] [1, 2, 3] y row 3)
          [7, 8, 9]) ∧
    matvec_triangular_outcome omp_mixed [7, 8, 9] [(1 : ℚ), 2, 3, 4, 5, 6, 7, 8, 9] [1, 2, 3]
        3 2 "dynamic" 5
      = some ((List.range 3).foldl (fun y row =>
          compute_row_triangular [(1 : ℚ), 2, 3, 4, 5, 6, 7, 8, 9] [1, 2, 3] y row 3)
          [7, 8, 9]) ∧
    matvec_triangular_outcome omp_mixed [7, 8, 9] [(1 : ℚ), 2, 3, 4, 5, 6, 7, 8, 9] [1, 2, 3]
        3 8 "guided" (-1)
      = some ((List.range 3).foldl (fun y row =>
          compute_row_triangular [(1 : ℚ), 2, 3, 4, 5, 6, 7, 8, 9] [1, 2, 3] y row 3)
          [7, 8, 9]) ∧
    (∀ c : Int, c < 1 →
      matvec_triangular_outcome omp_mixed [7, 8, 9] [(1 : ℚ), 2, 3, 4, 5, 6, 7, 8, 9] [1, 2, 3]
        3 2 "dynamic" c = none) :=
  schedules_agree_for_positive_chunk omp_mixed [7, 8, 9] [(1 : ℚ), 2, 3, 4, 5, 6, 7, 8, 9]
    [1, 2, 3] 3 4 2 8 0 5 (-1) (conforming_of_admissible _ _ (omp_mixed_admissible 3))
    (by decide)

/-- C5: for every `N ≥ 0` and worker count `P ≥ 1`, under every interleaving
of the workers' steps (one step: an atomic fetch-and-increment of `next_row`,
then the computation of the claimed row if it is `< N`), once all workers
have terminated every row index in `[0, N)` has been computed exactly once
and no index outside `[0, N)` has been computed.  Moreover every
interleaving can be continued to one in which all workers have terminated. -/
theorem atomic_rows_exactly_once (A : A1D α) (x y : V α) (n num_threads : Nat)
    (hP : 1 ≤ num_threads) (sched : List Nat) :
    (all_joined (atomic_run A x n sched (atomic_init y num_threads)) = true →
      ∀ r, (atomic_run A x n sched (atomic_init y num_threads)).computed.count r
        = if r < n then 1 else 0) ∧
    all_joined (atomic_run A x n (sched ++ drain_sched n num_threads)
      (atomic_init y num_threads)) = true := by
  refine ⟨?_, ?_⟩
  · intro hj r
    have hinv := atomic_run_inv A x y n num_threads sched _ (atomic_init_inv A x y n num_threads)
    have hn := atomic_complete_next_row A x y n num_threads hP sched hj
    rw [hinv.computed_eq, Nat.min_eq_right (by omega)]
    exact count_range_eq n r
  · exact atomic_run_drain_joined A x y n num_threads sched

theorem atomic_rows_exactly_once_witness :
    all_joined (atomic_run [(1 : ℚ), 2, 3, 4, 5, 6, 7, 8, 9] [1, 2, 3] 3 [1, 0, 1, 1, 0]
        (atomic_init [7, 8, 9] 2)) = true ∧
    (∀ r, (atomic_run [(1 : ℚ), 2, 3, 4, 5, 6, 7, 8, 9] [1, 2, 3] 3 [1, 0, 1, 1, 0]
        (atomic_init [7, 8, 9] 2)).computed.count r = if r < 3 then 1 else 0) ∧
    all_joined (atomic_run [(1 : ℚ), 2, 3, 4, 5, 6, 7, 8, 9] [1, 2, 3] 3
      ([1, 0, 1, 1, 0] ++ drain_sched 3 2) (atomic_init [7, 8, 9] 2)) = true :=
  ⟨by decide,
    (atomic_rows_exactly_once [(1 : ℚ), 2, 3, 4, 5, 6, 7, 8, 9] [1, 2, 3] [7, 8, 9] 3 2
      (by decide) [1, 0, 1, 1, 0]).1 (by decide),
    (atomic_rows_exactly_once [(1 : ℚ), 2, 3, 4, 5, 6, 7, 8, 9] [1, 2, 3] [7, 8, 9] 3 2
      (by decide) [1, 0, 1, 1, 0]).2⟩

/-- C6: for every `N ≥ 0`, `P ≥ 1` and process `k` in `[0, P)`, the row list
built for process `k` by the cyclic strategy consists of exactly the rows `r`
with `0 ≤ r < N` and `r mod P = k`, each once and in increasing order; the
lists of distinct processes are disjoint and every row of `[0, N)` is in the
list of some process. -/
theorem cyclic_ownership (n P k : Nat) (hP : 1 ≤ P) (hk : k < P) :
    cyclic_rows n P k = (List.range n).filter (fun r => r % P = k) ∧
    (∀ k', k' < P → k' ≠ k → List.Disjoint (cyclic_rows n P k) (cyclic_rows n P k')) ∧
    (∀ r, r < n → ∃ k', k' < P ∧ r ∈ cyclic_rows n P k') := by
  refine ⟨?_, ?_, ?_⟩
  · have hs1 := cyclic_rows_sorted n P k hP
    have hs2 : List.Sorted (· < ·) ((List.range n).filter (fun r => r % P = k)) :=
      List.Sorted.filter _ (List.sorted_lt_range n)
    refine List.eq_of_perm_of_sorted ?_ hs1 hs2
    rw [List.perm_ext_iff_of_nodup hs1.nodup hs2.nodup]
    intro r
    rw [mem_cyclic_rows n P k r hP hk, List.mem_filter, List.mem_range]
    simp
  · intro k' hk' hne r h1 h2
    rw [mem_cyclic_rows n P k r hP hk] at h1
    rw [mem_cyclic_rows n P k' r hP hk'] at h2
    exact hne (h2.2.symm.trans h1.2)
  · intro r hr
    exact ⟨r % P, Nat.mod_lt r (by omega),
      (mem_cyclic_rows n P (r % P) r hP (Nat.mod_lt r (by omega))).mpr ⟨hr, rfl⟩⟩

theorem cyclic_ownership_witness :
    cyclic_rows 7 3 1 = (List.range 7).filter (fun r => r % 3 = 1) ∧
    (∀ k', k' < 3 → k' ≠ 1 → List.Disjoint (cyclic_rows 7 3 1) (cyclic_rows 7 3 k')) ∧
    (∀ r, r < 7 → ∃ k', k' < 3 ∧ r ∈ cyclic_rows 7 3 k') :=
  cyclic_ownership 7 3 1 (by decide) (by decide)

/-- C7, as the claim states it, fails: for `N = 5`, `P = 2` the rows of
process `0` are not the interval `[0·⌈5/2⌉, min(1·⌈5/2⌉, 5)) = [0, 3)`; the
code assigns rows `0, 1` to process `0` and row `2` to process `1`. -/
theorem contiguous_ceil_formula_fails :
    contiguous_rows 5 2 0 = [0, 1] ∧ contiguous_rows 5 2 1 = [2, 3, 4] ∧
    ¬ (∀ r, r ∈ contiguous_rows 5 2 0 ↔ spec_contiguous_owns 5 2 0 r) := by
  refine ⟨by decide, by decide, ?_⟩
  intro h
  have h2 : (2 : Nat) ∈ contiguous_rows 5 2 0 :=
    (h 2).mpr ⟨by decide, by decide⟩
  exact absurd h2 (by decide)

/-- C7, amended: for every `N ≥ 0`, `P ≥ 1` and process `k` in `[0, P)`, the
rows assigned to process `k` by the contiguous strategy are the interval
`[k·⌊N/P⌋, (k+1)·⌊N/P⌋)` for `k < P - 1` and `[(P-1)·⌊N/P⌋, N)` for the last
process `k = P - 1`, listed in increasing order; when `P` divides `N` this
is the interval `[k·⌈N/P⌉, min((k+1)·⌈N/P⌉, N))`. -/
theorem contiguous_ownership (n P k : Nat) (hP : 1 ≤ P) (hk : k < P) :
    contiguous_rows n P k
      = List.range' (k * (n / P))
          ((if k = P - 1 then n else (k + 1) * (n / P)) - k * (n / P)) ∧
    (∀ r, r ∈ contiguous_rows n P k ↔
      k * (n / P) ≤ r ∧ r < (if k = P - 1 then n else (k + 1) * (n / P))) ∧
    (P ∣ n → ∀ r, r ∈ contiguous_rows n P k ↔ spec_contiguous_owns n P k r) := by
  refine ⟨contiguous_rows_eq n P k, mem_contiguous_rows n P k, ?_⟩
  intro hd r
  rw [mem_contiguous_rows]
  unfold spec_contiguous_owns start_row end_row rows_per_process
  rw [spec_ceil_div_of_dvd n P hP hd]
  have hn : P * (n / P) = n := Nat.mul_div_cancel' hd
  by_cases hlast : k = P - 1
  · rw [if_pos hlast]
    have : (k + 1) * (n / P) = n := by
      have : k + 1 = P := by omega
      rw [this, hn]
    rw [this, Nat.min_self]
  · rw [if_neg hlast]
    have : (k + 1) * (n / P) ≤ n := by
      calc (k + 1) * (n / P) ≤ P * (n / P) := Nat.mul_le_mul_right _ (by omega)
        _ = n := hn
    rw [Nat.min_eq_left this]

theorem contiguous_ownership_witness :
    contiguous_rows 6 3 2
      = List.range' (2 * (6 / 3))
          ((if 2 = 3 - 1 then 6 else (2 + 1) * (6 / 3)) - 2 * (6 / 3)) ∧
    (∀ r, r ∈ contiguous_rows 6 3 2 ↔
      2 * (6 / 3) ≤ r ∧ r < (if 2 = 3 - 1 then 6 else (2 + 1) * (6 / 3))) ∧
    (3 ∣ 6 → ∀ r, r ∈ contiguous_rows 6 3 2 ↔ spec_contiguous_owns 6 3 2 r) :=
  contiguous_ownership 6 3 2 (by decide) (by decide)

/-- C8: for every `N ≥ 0` and `P ≥ 1`, the row blocks `[start_k, end_k)` of
the contiguous strategy, `k = 0, ..., P - 1`, are pairwise disjoint and
their union is exactly `[0, N)`: every row below `N` is in the block of
exactly one process, no block contains a row `≥ N`, and two distinct
processes share no row.  The blocks `[displs[k], displs[k] + recvcounts[k])`
of the gather tables are the same blocks, so they partition `[0, N)` too. -/
theorem contiguous_partition (n P : Nat) (hP : 1 ≤ P) :
    (∀ r, r < n → ∃! k, k < P ∧ r ∈ contiguous_rows n P k) ∧
    (∀ k r, k < P → r ∈ contiguous_rows n P k → r < n) ∧
    (∀ k k', k < P → k' < P → k ≠ k' →
      List.Disjoint (contiguous_rows n P k) (contiguous_rows n P k')) ∧
    (∀ r, r < n → ∃! k, k < P ∧ (gather_displs n P).getD k 0 ≤ r ∧
      r < (gather_displs n P).getD k 0 + (recvcounts n P).getD k 0) ∧
    (∀ k r, k < P → (gather_displs n P).getD k 0 ≤ r →
      r < (gather_displs n P).getD k 0 + (recvcounts n P).getD k 0 → r < n) := by
  refine ⟨?_, ?_, ?_, ?_, ?_⟩
  · intro r hr
    obtain ⟨k, hk, huniq⟩ := contiguous_owner_unique n P r hP hr
    refine ⟨k, ⟨hk.1, (mem_contiguous_rows n P k r).mpr hk.2⟩, ?_⟩
    rintro k' ⟨hk', hm⟩
    exact huniq k' ⟨hk', (mem_contiguous_rows n P k' r).mp hm⟩
  · intro k r hk hm
    have h1 := (mem_contiguous_rows n P k r).mp hm
    have h2 := end_row_le n P k hP hk
    omega
  · intro k k' hk hk' hne r h1 h2
    have hr : r < n := by
      have a := (mem_contiguous_rows n P k r).mp h1
      have b := end_row_le n P k hP hk
      omega
    obtain ⟨k₀, _, huniq⟩ := contiguous_owner_unique n P r hP hr
    have e1 := huniq k ⟨hk, (mem_contiguous_rows n P k r).mp h1⟩
    have e2 := huniq k' ⟨hk', (mem_contiguous_rows n P k' r).mp h2⟩
    exact hne (e1.trans e2.symm)
  · intro r hr
    obtain ⟨k, hk, huniq⟩ := contiguous_owner_unique n P r hP hr
    refine ⟨k, ⟨hk.1, (gather_block_iff n P k r hP hk.1).mpr hk.2⟩, ?_⟩
    rintro k' ⟨hk', hm⟩
    exact huniq k' ⟨hk', (gather_block_iff n P k' r hP hk').mp hm⟩
  · intro k r hk h1 h2
    have h3 := (gather_block_iff n P k r hP hk).mp ⟨h1, h2⟩
    have h4 := end_row_le n P k hP hk
    omega

theorem contiguous_partition_witness :
    (∀ r, r < 7 → ∃! k, k < 3 ∧ r ∈ contiguous_rows 7 3 k) ∧
    (∀ k r, k < 3 → r ∈ contiguous_rows 7 3 k → r < 7) ∧
    (∀ k k', k < 3 → k' < 3 → k ≠ k' →
      List.Disjoint (contiguous_rows 7 3 k) (contiguous_rows 7 3 k')) ∧
    (∀ r, r < 7 → ∃! k, k < 3 ∧ (gather_displs 7 3).getD k 0 ≤ r ∧
      r < (gather_displs 7 3).getD k 0 + (recvcounts 7 3).getD k 0) ∧
    (∀ k r, k < 3 → (gather_displs 7 3).getD k 0 ≤ r →
      r < (gather_displs 7 3).getD k 0 + (recvcounts 7 3).getD k 0 → r < 7) :=
  contiguous_partition 7 3 (by decide)

/-- C3: for every `N ≥ 0`, process count `P ≥ 1`, matrix `A` (`N * N`
entries) and vector `x` (`N` entries), the cyclic pipeline (each process
`k` gets the rows `k, k + P, ...` packed into its local buffer, runs
`compute_rows_triangular`, and every result is written back to the slot
named by its global row index) yields a vector of length `N` whose entry
`i`, for every `i` in `[0, N)`, is the `y[i]` that the single-row kernel
`compute_row_triangular` computes for row `i` of the full matrix. -/
theorem cyclic_pipeline_eq_kernel (A : A1D α) (x y₀ : V α) (n P : Nat) (hP : 1 ≤ P)
    (hA : A.length = n * n) (hx : x.length = n) (hy : y₀.length = n) :
    (mpi_cyclic A x n P).length = n ∧
    ∀ i, i < n →
      (mpi_cyclic A x n P).getD i 0 = (compute_row_triangular A x y₀ i n).getD i 0 := by
  refine ⟨mpi_cyclic_length A x n P hP, ?_⟩
  intro i hi
  rw [mpi_cyclic_getD A x n P i hP hi, compute_row_triangular_eq,
    getD_set_self _ _ _ _ (by omega)]

theorem cyclic_pipeline_eq_kernel_witness :
    (mpi_cyclic [(1 : ℚ), 2, 3, 4, 5, 6, 7, 8, 9] [1, 2, 3] 3 2).length = 3 ∧
    ∀ i, i < 3 →
      (mpi_cyclic [(1 : ℚ), 2, 3, 4, 5, 6, 7, 8, 9] [1, 2, 3] 3 2).getD i 0
        = (compute_row_triangular [(1 : ℚ), 2, 3, 4, 5, 6, 7, 8, 9] [1, 2, 3] [7, 8, 9]
            i 3).getD i 0 :=
  cyclic_pipeline_eq_kernel [(1 : ℚ), 2, 3, 4, 5, 6, 7, 8, 9] [1, 2, 3] [7, 8, 9] 3 2
    (by decide) (by decide) (by decide) (by decide)

/-- C4: for every `N ≥ 0`, process count `P ≥ 1`, matrix `A` (`N * N`
entries) and vector `x` (`N` entries), the contiguous pipeline (the
flattened matrix scattered with the `sendcounts` / `displs` table,
`compute_rows_triangular` run on each process's block, the results gathered
with the `recvcounts` / `displs` table) yields a vector of length `N` whose
entry `i`, for every `i` in `[0, N)`, is the `y[i]` that the single-row
kernel `compute_row_triangular` computes for row `i` of the full matrix. -/
theorem contiguous_pipeline_eq_kernel (A : A1D α) (x y₀ : V α) (n P : Nat) (hP : 1 ≤ P)
    (hA : A.length = n * n) (hx : x.length = n) (hy : y₀.length = n) :
    (mpi_contiguous A x n P).length = n ∧
    ∀ i, i < n →
      (mpi_contiguous A x n P).getD i 0 = (compute_row_triangular A x y₀ i n).getD i 0 := by
  refine ⟨mpi_contiguous_length A x n P, ?_⟩
  intro i hi
  rw [mpi_contiguous_getD A x n P i hP hi, compute_row_triangular_eq,
    getD_set_self _ _ _ _ (by omega)]

theorem contiguous_pipeline_eq_kernel_witness :
    (mpi_contiguous [(1 : ℚ), 2, 3, 4, 5, 6, 7, 8, 9] [1, 2, 3] 3 2).length = 3 ∧
    ∀ i, i < 3 →
      (mpi_contiguous [(1 : ℚ), 2, 3, 4, 5, 6, 7, 8, 9] [1, 2, 3] 3 2).getD i 0
        = (compute_row_triangular [(1 : ℚ), 2, 3, 4, 5, 6, 7, 8, 9] [1, 2, 3] [7, 8, 9]
            i 3).getD i 0 :=
  contiguous_pipeline_eq_kernel [(1 : ℚ), 2, 3, 4, 5, 6, 7, 8, 9] [1, 2, 3] [7, 8, 9] 3 2
    (by decide) (by decide) (by decide) (by decide)

/-- C11, as the claim states it, fails: for `N = 100` on the all-ones matrix
and vector `matvec_row_major` leaves `y = [100, 100, ..., 100]`, so it is not
true that `y[i] = i` for every `i < 100` (already `y[0] = 100`). -/
theorem row_major_all_ones_not_index :
    matvec_row_major (List.replicate 100 0) (List.replicate (100 * 100) (1 : ℚ))
        (List.replicate 100 1) 100 = List.replicate 100 ((100 : ℕ) : ℚ) ∧
    ¬ (∀ i, i < 100 →
      (matvec_row_major (List.replicate 100 0) (List.replicate (100 * 100) (1 : ℚ))
        (List.replicate 100 1) 100).getD i 0 = ((i : ℕ) : ℚ)) := by
  have h := matvec_row_major_all_ones 100 (List.replicate 100 (0 : ℚ)) (by simp)
  refine ⟨h, ?_⟩
  intro hall
  have h0 := hall 0 (by decide)
  rw [h, getD_replicate _ _ _ _ (by decide)] at h0
  norm_num at h0

/-- C11, amended: for the all-ones `N * N` matrix and all-ones vector (as
built by `init_matrix` and `flatten_matrix`), `matvec_row_major` leaves
`y[i] = N` for every `i` in `[0, N)`, whatever `y` held before; for `N = 100`
the result is `[100, 100, ..., 100]`. -/
theorem row_major_all_ones {R : Type} [Semiring R] (n : Nat) (y : V R) (hy : y.length = n) :
    init_matrix (1 : R) (List.replicate n (List.replicate n 0)) (List.replicate n 0)
        = (List.replicate n (List.replicate n 1), List.replicate n 1) ∧
    flatten_matrix [] (List.replicate n (List.replicate n (1 : R))) n
        = List.replicate (n * n) 1 ∧
    matvec_row_major y (List.replicate (n * n) 1) (List.replicate n 1) n
        = List.replicate n (n : R) ∧
    ∀ i, i < n →
      (matvec_row_major y (List.replicate (n * n) 1) (List.replicate n 1) n).getD i 0
        = (n : R) := by
  refine ⟨init_matrix_eq 1 n, flatten_matrix_all_ones 1 n, matvec_row_major_all_ones n y hy, ?_⟩
  intro i hi
  rw [matvec_row_major_all_ones n y hy, getD_replicate _ _ _ _ hi]

theorem row_major_all_ones_witness :
    init_matrix (1 : ℚ) (List.replicate 100 (List.replicate 100 0)) (List.replicate 100 0)
        = (List.replicate 100 (List.replicate 100 1), List.replicate 100 1) ∧
    flatten_matrix [] (List.replicate 100 (List.replicate 100 (1 : ℚ))) 100
        = List.replicate (100 * 100) 1 ∧
    matvec_row_major (List.replicate 100 0) (List.replicate (100 * 100) 1)
        (List.replicate 100 1) 100 = List.replicate 100 ((100 : ℕ) : ℚ) ∧
    ∀ i, i < 100 →
      (matvec_row_major (List.replicate 100 0) (List.replicate (100 * 100) 1)
        (List.replicate 100 1) 100).getD i 0 = ((100 : ℕ) : ℚ) :=
  row_major_all_ones 100 (List.replicate 100 (0 : ℚ)) (List.length_replicate 100 0)

/-- C12: for every `row < n` and every `y` of length `n`,
`compute_row_triangular` leaves `y[k]` unchanged for every `k ≠ row` and
keeps the length of `y` (`A` and `x` are read-only parameters, the function
has no other output than `y`); consequently two kernel applications for
distinct rows commute. -/
theorem compute_row_triangular_frame (A : A1D α) (x y : V α) (row n : Nat) (hrow : row < n)
    (hy : y.length = n) :
    (∀ k, k ≠ row → (compute_row_triangular A x y row n).getD k 0 = y.getD k 0) ∧
    (compute_row_triangular A x y row n).length = y.length ∧
    (∀ row', row' < n → row' ≠ row →
      compute_row_triangular A x (compute_row_triangular A x y row n) row' n
        = compute_row_triangular A x (compute_row_triangular A x y row' n) row n) := by
  refine ⟨?_, compute_row_triangular_length A x y row n, ?_⟩
  · intro k hk
    rw [compute_row_triangular_eq, getD_set_ne _ _ _ _ _ (Ne.symm hk)]
  · intro row' _ hne
    rw [compute_row_triangular_eq, compute_row_triangular_eq, compute_row_triangular_eq,
      compute_row_triangular_eq]
    exact List.set_comm _ _ _ (Ne.symm hne)

theorem compute_row_triangular_frame_witness :
    (∀ k, k ≠ 1 →
      (compute_row_triangular [(1 : ℚ), 2, 3, 4, 5, 6, 7, 8, 9] [1, 2, 3] [7, 8, 9] 1 3).getD k 0
        = ([7, 8, 9] : List ℚ).getD k 0) ∧
    (compute_row_triangular [(1 : ℚ), 2, 3, 4, 5, 6, 7, 8, 9] [1, 2, 3] [7, 8, 9] 1 3).length
      = ([7, 8, 9] : List ℚ).length ∧
    (∀ row', row' < 3 → row' ≠ 1 →
      compute_row_triangular [(1 : ℚ), 2, 3, 4, 5, 6, 7, 8, 9] [1, 2, 3]
          (compute_row_triangular [(1 : ℚ), 2, 3, 4, 5, 6, 7, 8, 9] [1, 2, 3] [7, 8, 9] 1 3)
          row' 3
        = compute_row_triangular [(1 : ℚ), 2, 3, 4, 5, 6, 7, 8, 9] [1, 2, 3]
          (compute_row_triangular [(1 : ℚ), 2, 3, 4, 5, 6, 7, 8, 9] [1, 2, 3] [7, 8, 9] row' 3)
          1 3) :=
  compute_row_triangular_frame [(1 : ℚ), 2, 3, 4, 5, 6, 7, 8, 9] [1, 2, 3] [7, 8, 9] 1 3
    (by decide) (by decide)

/-- C13: for fixed `n`, `A`, `x`, each strategy function (`matvec_row_major`,
`matvec_col_major`, the scheduled loop of `matvec_triangular` under each of
its three policies, a complete run of `matvec_triangular_atomic`, and
`compute_rows_triangular`) gives, when run twice, the `y` it gives when run
once, and its result is the same for any two initial vectors `y`, `y'` of
the right length. -/
theorem strategies_idempotent (n : Nat) (A : A1D α) (x y y' : V α) (omp : OmpRuntime)
    (t c : Int) (num_threads : Nat) (s₁ s₂ : List Nat) (A_local : A1D α) (rows : VI)
    (z z' : V α) (hy : y.length = n) (hy' : y'.length = n) (homp : omp.admissible n)
    (hP : 1 ≤ num_threads) (hz : z.length = rows.length) (hz' : z'.length = rows.length) :
    (matvec_row_major (matvec_row_major y A x n) A x n = matvec_row_major y A x n ∧
      matvec_row_major y A x n = matvec_row_major y' A x n) ∧
    (matvec_col_major (matvec_col_major y A x n) A x n = matvec_col_major y A x n ∧
      matvec_col_major y A x n = matvec_col_major y' A x n) ∧
    (∀ st, st = "static" ∨ st = "dynamic" ∨ st = "guided" →
      matvec_triangular omp (matvec_triangular omp y A x n t st c) A x n t st c
          = matvec_triangular omp y A x n t st c ∧
        matvec_triangular omp y A x n t st c = matvec_triangular omp y' A x n t st c) ∧
    (∀ y₁ y₂, matvec_triangular_atomic s₁ y A x n num_threads = some y₁ →
      (matvec_triangular_atomic s₂ y₁ A x n num_threads = some y₂ → y₂ = y₁) ∧
      (matvec_triangular_atomic s₂ y' A x n num_threads = some y₂ → y₂ = y₁)) ∧
    (compute_rows_triangular A_local x (compute_rows_triangular A_local x z rows n) rows n
        = compute_rows_triangular A_local x z rows n ∧
      compute_rows_triangular A_local x z rows n
        = compute_rows_triangular A_local x z' rows n) := by
  refine ⟨⟨?_, ?_⟩, ⟨?_, ?_⟩, ?_, ?_, ⟨?_, ?_⟩⟩
  · exact matvec_row_major_indep A x _ y n (by rw [matvec_row_major_length, hy]) hy
  · exact matvec_row_major_indep A x y y' n hy hy'
  · exact matvec_col_major_indep A x _ y n (by rw [matvec_col_major_length, hy]) hy
  · exact matvec_col_major_indep A x y y' n hy hy'
  · intro st hst
    have key : ∀ w : V α, matvec_triangular omp w A x n t st c
        = (List.range n).foldl (fun y row => compute_row_triangular A x y row n) w := by
      intro w
      rcases hst with h | h | h
      · rw [h]; exact (matvec_triangular_eq_kernel_fold omp w A x n homp t c).1
      · rw [h]; exact (matvec_triangular_eq_kernel_fold omp w A x n homp t c).2.1
      · rw [h]; exact (matvec_triangular_eq_kernel_fold omp w A x n homp t c).2.2
    rw [key, key, key]
    exact ⟨foldl_kernel_indep A x _ y n (by rw [foldl_kernel_length, hy]) hy,
      foldl_kernel_indep A x y y' n hy hy'⟩
  · intro y₁ y₂ h₁
    have e₁ := matvec_triangular_atomic_eq A x y y₁ n num_threads hP s₁ h₁
    refine ⟨?_, ?_⟩
    · intro h₂
      rw [matvec_triangular_atomic_eq A x y₁ y₂ n num_threads hP s₂ h₂, e₁]
      exact foldl_kernel_indep A x _ y n (by rw [foldl_kernel_length, hy]) hy
    · intro h₂
      rw [matvec_triangular_atomic_eq A x y' y₂ n num_threads hP s₂ h₂, e₁]
      exact foldl_kernel_indep A x y' y n hy' hy
  · exact compute_rows_triangular_indep A_local x _ z rows n
      (by rw [compute_rows_triangular_length, hz]) hz
  · exact compute_rows_triangular_indep A_local x z z' rows n hz hz'

theorem strategies_idempotent_witness :
    (matvec_row_major (matvec_row_major [7, 8] [(1 : ℚ), 2, 3, 4] [5, 6] 2) [(1 : ℚ), 2, 3, 4] [5, 6] 2
        = matvec_row_major [7, 8] [(1 : ℚ), 2, 3, 4] [5, 6] 2 ∧
      matvec_row_major [7, 8] [(1 : ℚ), 2, 3, 4] [5, 6] 2 = matvec_row_major [0, 0] [(1 : ℚ), 2, 3, 4] [5, 6] 2) ∧
    (matvec_col_major (matvec_col_major [7, 8] [(1 : ℚ), 2, 3, 4] [5, 6] 2) [(1 : ℚ), 2, 3, 4] [5, 6] 2
        = matvec_col_major [7, 8] [(1 : ℚ), 2, 3, 4] [5, 6] 2 ∧
      matvec_col_major [7, 8] [(1 : ℚ), 2, 3, 4] [5, 6] 2 = matvec_col_major [0, 0] [(1 : ℚ), 2, 3, 4] [5, 6] 2) ∧
    (∀ st, st = "static" ∨ st = "dynamic" ∨ st = "guided" →
      matvec_triangular omp_mixed (matvec_triangular omp_mixed [7, 8] [(1 : ℚ), 2, 3, 4] [5, 6] 2 4 st 1)
            [(1 : ℚ), 2, 3, 4] [5, 6] 2 4 st 1
          = matvec_triangular omp_mixed [7, 8] [(1 : ℚ), 2, 3, 4] [5, 6] 2 4 st 1 ∧
        matvec_triangular omp_mixed [7, 8] [(1 : ℚ), 2, 3, 4] [5, 6] 2 4 st 1
          = matvec_triangular omp_mixed [0, 0] [(1 : ℚ), 2, 3, 4] [5, 6] 2 4 st 1) ∧
    (∀ y₁ y₂, matvec_triangular_atomic [1, 0, 0, 1] [7, 8] [(1 : ℚ), 2, 3, 4] [5, 6] 2 2 = some y₁ →
      (matvec_triangular_atomic [0, 0, 1, 0] y₁ [(1 : ℚ), 2, 3, 4] [5, 6] 2 2 = some y₂ → y₂ = y₁) ∧
      (matvec_triangular_atomic [0, 0, 1, 0] [0, 0] [(1 : ℚ), 2, 3, 4] [5, 6] 2 2 = some y₂ → y₂ = y₁)) ∧
    (compute_rows_triangular [(3 : ℚ), 4] [5, 6] (compute_rows_triangular [(3 : ℚ), 4] [5, 6] [9] [1] 2)
          [1] 2
        = compute_rows_triangular [(3 : ℚ), 4] [5, 6] [9] [1] 2 ∧
      compute_rows_triangular [(3 : ℚ), 4] [5, 6] [9] [1] 2
        = compute_rows_triangular [(3 : ℚ), 4] [5, 6] [0] [1] 2) :=
  strategies_idempotent 2 [(1 : ℚ), 2, 3, 4] [5, 6] [7, 8] [0, 0] omp_mixed 4 1 2 [1, 0, 0, 1] [0, 0, 1, 0]
    [(3 : ℚ), 4] [1] [9] [0] (by decide) (by decide)
    (by
      intro sch t
      cases sch with
      | static => exact List.Perm.refl _
      | dynamic c => exact List.reverse_perm _
      | guided =>
        show List.Perm [1, 0] [0, 1]
        decide)
    (by decide) (by decide) (by decide)

/-- C14 (what the code does instead): for every `N ≥ 1` and `P ≥ 1`, on the
all-ones input, `verify_triangular` rejects the `y` computed by a complete
run of `matvec_triangular_atomic` (it holds `y[i] = i + 1`, the check expects
`i`), so the threaded program exits with code `1`, not `0`: every run of
`main` that returns returns `1`, and runs that return exist for every family
of interleavings. -/
theorem threads_main_rejects {K : Type} [LinearOrderedField K] (sched : Nat → List Nat)
    (s : List Nat) (y y' : V K) (n num_threads : Nat) (hn : 1 ≤ n) (hP : 1 ≤ num_threads)
    (hy : y.length = n) :
    (matvec_triangular_atomic s y (init_matrix_1d (1 : K) [] [] n).1
        (init_matrix_1d (1 : K) [] [] n).2 n num_threads = some y' →
      verify_triangular y' n = false) ∧
    (∀ code, threads_main K sched n num_threads = some code → code = 1) ∧
    threads_main K (fun i => sched i ++ drain_sched n num_threads) n num_threads = some 1 := by
  have hcode : ∀ sc code, threads_main K sc n num_threads = some code → code = 1 := by
    intro sc code h
    unfold threads_main at h
    cases hty : threads_y K sc n num_threads with
    | none => rw [hty] at h; exact absurd h (by simp)
    | some w =>
      rw [hty] at h
      have hv := verify_triangular_succ w n hn (threads_y_getD sc n num_threads hP w hty)
      simp only [Option.map_some', hv] at h
      exact (Option.some.inj h).symm
  refine ⟨?_, hcode sched, ?_⟩
  · intro h
    apply verify_triangular_succ y' n hn
    intro t ht
    rw [init_matrix_1d_eq] at h
    rw [(matvec_triangular_atomic_getD _ _ y y' n num_threads hP s h).2 t ht (by omega)]
    exact triSum_all_ones n t ht
  · obtain ⟨w, hw⟩ := atomic_calls_complete sched (init_matrix_1d (1 : K) [] [] n).1
      (init_matrix_1d (1 : K) [] [] n).2 n num_threads (NUM_WARMUP + NUM_RUNS)
      (List.replicate n 0)
    have hmain : ∃ code, threads_main K (fun i => sched i ++ drain_sched n num_threads) n
        num_threads = some code := by
      unfold threads_main threads_y
      simp only []
      rw [hw]
      exact ⟨_, rfl⟩
    obtain ⟨code, hc⟩ := hmain
    rw [hc, hcode _ code hc]

theorem threads_main_rejects_witness :
    (matvec_triangular_atomic (drain_sched 100 8) (List.replicate 100 0)
        (init_matrix_1d (1 : ℚ) [] [] 100).1 (init_matrix_1d (1 : ℚ) [] [] 100).2 100 8
        = some ((List.range 100).map (fun i => ((i : ℕ) : ℚ) + 1)) →
      verify_triangular ((List.range 100).map (fun i => ((i : ℕ) : ℚ) + 1)) 100 = false) ∧
    (∀ code, threads_main ℚ (fun _ => drain_sched 100 8) 100 8 = some code → code = 1) ∧
    threads_main ℚ (fun i => (fun _ => drain_sched 100 8) i ++ drain_sched 100 8) 100 8
      = some 1 :=
  threads_main_rejects (fun _ => drain_sched 100 8) (drain_sched 100 8) (List.replicate 100 0)
    ((List.range 100).map (fun i => ((i : ℕ) : ℚ) + 1)) 100 8 (by decide) (by decide)
    (List.length_replicate 100 0)

/-- C15 (what the code does instead): the MPI program returns exit code `0`
whatever `verify_triangular` says about the gathered `y`.  For every
`N ≥ 1` and `P ≥ 1` the verification rejects the gathered `y` of both
strategies (it holds `y[i] = i + 1`), and for `N ≥ 2` it rejects the
untouched `y` left by an unknown strategy, yet `main` returns `0` and not
`1`. -/
theorem mpi_main_ignores_verification {K : Type} [LinearOrderedField K] (strategy : String)
    (n size : Nat) (hn : 1 ≤ n) (hP : 1 ≤ size) :
    mpi_test_passed K "contiguous" n size = false ∧
    mpi_test_passed K "cyclic" n size = false ∧
    (2 ≤ n → strategy ≠ "contiguous" → strategy ≠ "cyclic" →
      mpi_test_passed K strategy n size = false) ∧
    mpi_main K "contiguous" n size = 0 ∧
    mpi_main K "cyclic" n size = 0 ∧
    mpi_main K strategy n size = 0 := by
  refine ⟨?_, ?_, ?_, rfl, rfl, rfl⟩
  · unfold mpi_test_passed
    exact verify_triangular_succ _ n hn
      (fun t ht => mpi_y_contiguous_getD n size t _ hP ht)
  · unfold mpi_test_passed
    exact verify_triangular_succ _ n hn
      (fun t ht => mpi_y_cyclic_getD n size t _ hP ht)
  · intro hn2 h1 h2
    unfold mpi_test_passed
    simp only []
    rw [mpi_y_unknown strategy _ _ n size h1 h2]
    exact verify_triangular_zeros n hn2

theorem mpi_main_ignores_verification_witness :
    mpi_test_passed ℚ "contiguous" 2 1 = false ∧
    mpi_test_passed ℚ "cyclic" 2 1 = false ∧
    (2 ≤ 2 → "block" ≠ "contiguous" → "block" ≠ "cyclic" →
      mpi_test_passed ℚ "block" 2 1 = false) ∧
    mpi_main ℚ "contiguous" 2 1 = 0 ∧
    mpi_main ℚ "cyclic" 2 1 = 0 ∧
    mpi_main ℚ "block" 2 1 = 0 :=
  mpi_main_ignores_verification "block" 2 1 (by decide) (by decide)

/-- C16: for every `N ≥ 1` and every initial `y` of length `N`, the `y`
computed on the all-ones matrix and vector by `matvec_row_major`, by
`matvec_col_major` and by `matvec_original` is accepted by `verify`, and the
serial program exits with code `0` for each of the three versions. -/
theorem serial_run_succeeds {K : Type} [LinearOrderedField K] (n : Nat) (y : V K)
    (hn : 1 ≤ n) (hy : y.length = n) :
    verify (matvec_row_major y (List.replicate (n * n) 1) (List.replicate n 1) n) = true ∧
    verify (matvec_col_major y (List.replicate (n * n) 1) (List.replicate n 1) n) = true ∧
    verify (matvec_original y (List.replicate n (List.replicate n 1)) (List.replicate n 1))
      = true ∧
    serial_main K n "row_major" = 0 ∧
    serial_main K n "col_major" = 0 ∧
    serial_main K n "original" = 0 := by
  have hmain : ∀ v, v = "original" ∨ v = "row_major" ∨ v = "col_major" →
      serial_main K n v = 0 := by
    intro v hv
    unfold serial_main
    rw [serial_y_eq n v hv, verify_replicate_self]
    rfl
  refine ⟨?_, ?_, ?_, hmain _ (Or.inr (Or.inl rfl)), hmain _ (Or.inr (Or.inr rfl)),
    hmain _ (Or.inl rfl)⟩
  · rw [matvec_row_major_all_ones n y hy]; exact verify_replicate_self n
  · rw [matvec_col_major_all_ones n y hy]; exact verify_replicate_self n
  · rw [matvec_original_all_ones n y hy]; exact verify_replicate_self n

theorem serial_run_succeeds_witness :
    verify (matvec_row_major (List.replicate 100 0) (List.replicate (100 * 100) (1 : ℚ))
      (List.replicate 100 1) 100) = true ∧
    verify (matvec_col_major (List.replicate 100 0) (List.replicate (100 * 100) (1 : ℚ))
      (List.replicate 100 1) 100) = true ∧
    verify (matvec_original (List.replicate 100 0)
      (List.replicate 100 (List.replicate 100 (1 : ℚ))) (List.replicate 100 1)) = true ∧
    serial_main ℚ 100 "row_major" = 0 ∧
    serial_main ℚ 100 "col_major" = 0 ∧
    serial_main ℚ 100 "original" = 0 :=
  serial_run_succeeds 100 (List.replicate 100 (0 : ℚ)) (by decide)
    (List.length_replicate 100 0)

/-- C17, as the claim states it, fails: called with `num_threads = 0` (here
`n = 2`, all-ones `A` and `x`, `y = [0, 0]`) `matvec_triangular_atomic`
returns normally and `y` is still `[0, 0]`: no row has been computed and no
error has been signalled. -/
theorem zero_threads_returns_normally :
    matvec_triangular_atomic [] [0, 0] [(1 : ℚ), 1, 1, 1] [1, 1] 2 0 = some [0, 0] ∧
    (atomic_run [(1 : ℚ), 1, 1, 1] [1, 1] 2 [] (atomic_init [0, 0] 0)).computed = [] :=
  ⟨rfl, rfl⟩

/-- C17, amended: `matvec_triangular_atomic` called with `num_threads = 0`
launches no worker and returns normally with `y` unchanged and no row
computed, under every interleaving; no configuration error is signalled. -/
theorem zero_threads_leaves_y (sched : List Nat) (y : V α) (A : A1D α) (x : V α) (n : Nat) :
    matvec_triangular_atomic sched y A x n 0 = some y ∧
    (atomic_run A x n sched (atomic_init y 0)).computed = [] := by
  unfold matvec_triangular_atomic
  simp only []
  rw [atomic_run_no_workers]
  exact ⟨rfl, rfl⟩

/-- C18, as the claim states it, fails: called with the schedule name `fast`
`matvec_triangular` returns normally with `y = [7, 8]` untouched, and the MPI
program run with the strategy name `block` returns `0`. -/
theorem unknown_strategy_returns_normally :
    matvec_triangular omp_mixed [7, 8] [(1 : ℚ), 2, 3, 4] [5, 6] 2 4 "fast" 1 = [7, 8] ∧
    mpi_y "block" [(1 : ℚ), 1, 1, 1] [1, 1] 2 1 = [0, 0] ∧
    mpi_main ℚ "block" 2 1 = 0 := by
  refine ⟨?_, ?_, rfl⟩
  · exact matvec_triangular_unknown omp_mixed _ _ _ 2 4 1 "fast" (by decide) (by decide)
      (by decide)
  · exact mpi_y_unknown "block" _ _ 2 1 (by decide) (by decide)

/-- C18, amended: `matvec_triangular` called with a `schedule_type` outside
`static`, `dynamic`, `guided` returns normally with `y` untouched; the serial
program with a `version` outside `original`, `row_major`, `col_major` calls
no kernel, leaves `y` all zeros and exits with the code of the verification
of that vector (`1` for `N ≥ 1`, `0` for `N = 0`); the MPI program with a
`strategy` outside `contiguous`, `cyclic` distributes and computes nothing,
leaves `y` all zeros and returns `0`.  None of them reports the invalid
name. -/
theorem unknown_strategy_untouched {K : Type} [LinearOrderedField K] (omp : OmpRuntime)
    (y A x : V K) (n size : Nat) (t c : Int) (schedule_type version strategy : String) :
    (schedule_type ≠ "static" → schedule_type ≠ "dynamic" → schedule_type ≠ "guided" →
      matvec_triangular omp y A x n t schedule_type c = y) ∧
    (version ≠ "original" → version ≠ "row_major" → version ≠ "col_major" →
      serial_y K n version = List.replicate n 0 ∧
      serial_main K n version = (if n = 0 then 0 else 1)) ∧
    (strategy ≠ "contiguous" → strategy ≠ "cyclic" →
      mpi_y strategy A x n size = List.replicate n 0 ∧
      mpi_main K strategy n size = 0) := by
  refine ⟨fun h1 h2 h3 => matvec_triangular_unknown omp y A x n t c schedule_type h1 h2 h3,
    fun h4 h5 h6 => ⟨serial_y_unknown n version h4 h5 h6, ?_⟩,
    fun h7 h8 => ⟨mpi_y_unknown strategy A x n size h7 h8, rfl⟩⟩
  unfold serial_main
  rw [serial_y_unknown n version h4 h5 h6, verify_zeros]
  by_cases hn : n = 0
  · simp [hn]
  · simp [hn]

theorem unknown_strategy_untouched_witness :
    matvec_triangular omp_mixed [7, 8] [(1 : ℚ), 2, 3, 4] [5, 6] 2 4 "cyclic" 1 = [7, 8] ∧
    (serial_y ℚ 2 "static" = List.replicate 2 0 ∧
      serial_main ℚ 2 "static" = (if 2 = 0 then 0 else 1)) ∧
    (mpi_y "row_major" [(1 : ℚ), 2, 3, 4] [5, 6] 2 3 = List.replicate 2 0 ∧
      mpi_main ℚ "row_major" 2 3 = 0) :=
  ⟨(unknown_strategy_untouched omp_mixed [7, 8] [(1 : ℚ), 2, 3, 4] [5, 6] 2 3 4 1
      "cyclic" "static" "row_major").1 (by decide) (by decide) (by decide),
    (unknown_strategy_untouched omp_mixed [7, 8] [(1 : ℚ), 2, 3, 4] [5, 6] 2 3 4 1
      "cyclic" "static" "row_major").2.1 (by decide) (by decide) (by decide),
    (unknown_strategy_untouched omp_mixed [7, 8] [(1 : ℚ), 2, 3, 4] [5, 6] 2 3 4 1
      "cyclic" "static" "row_major").2.2 (by decide) (by decide)⟩

/-- C19: for `N = 0` every strategy's compute function leaves `y` as it was
(empty, for the empty `y` of the programs) whatever `A` and `x` are, so
without reading any of their elements: the loops of `matvec_row_major`,
`matvec_col_major`, `matvec_original` and `matvec_triangular` have no
iteration, a run of `matvec_triangular_atomic` computes no row, and
`compute_rows_triangular` has no row to process.  The contiguous and cyclic
row assignments are empty for every process, and both `verify` and
`verify_triangular` accept the empty result. -/
theorem zero_dimension {K : Type} [LinearOrderedField K] (A x y : V K) (omp : OmpRuntime)
    (t c : Int) (st : String) (sched : List Nat) (num_threads size rank : Nat)
    (homp : omp.admissible 0) :
    matvec_row_major y A x 0 = y ∧
    matvec_col_major y A x 0 = y ∧
    matvec_original y [] x = y ∧
    matvec_triangular omp y A x 0 t st c = y ∧
    (atomic_run A x 0 sched (atomic_init y num_threads)).computed = [] ∧
    (∀ y', matvec_triangular_atomic sched y A x 0 num_threads = some y' → y' = y) ∧
    compute_rows_triangular A x y [] 0 = y ∧
    contiguous_rows 0 size rank = [] ∧
    cyclic_rows 0 size rank = [] ∧
    verify ([] : V K) = true ∧
    verify_triangular ([] : V K) 0 = true ∧
    verify_triangular y 0 = true := by
  have hnil : ∀ sch, omp sch t 0 = [] := fun sch => List.Perm.eq_nil (homp sch t)
  refine ⟨rfl, rfl, rfl, ?_, (atomic_run_zero A x y num_threads sched).1, ?_, rfl,
    contiguous_rows_zero size rank, cyclic_rows_zero size rank, rfl, rfl, rfl⟩
  · unfold matvec_triangular
    rw [hnil, hnil, hnil]
    simp
  · intro y' h
    unfold matvec_triangular_atomic at h
    simp only [] at h
    by_cases hj : all_joined (atomic_run A x 0 sched (atomic_init y num_threads)) = true
    · rw [if_pos hj] at h
      rw [← Option.some.inj h]
      exact (atomic_run_zero A x y num_threads sched).2
    · rw [if_neg hj] at h
      exact absurd h (by simp)

theorem zero_dimension_witness :
    matvec_row_major ([] : V ℚ) [] [] 0 = [] ∧
    matvec_col_major ([] : V ℚ) [] [] 0 = [] ∧
    matvec_original ([] : V ℚ) [] [] = [] ∧
    matvec_triangular omp_mixed ([] : V ℚ) [] [] 0 4 "guided" 1 = [] ∧
    (atomic_run ([] : V ℚ) [] 0 [1, 0] (atomic_init [] 2)).computed = [] ∧
    (∀ y', matvec_triangular_atomic [1, 0] ([] : V ℚ) [] [] 0 2 = some y' → y' = []) ∧
    compute_rows_triangular ([] : V ℚ) [] [] [] 0 = [] ∧
    contiguous_rows 0 4 3 = [] ∧
    cyclic_rows 0 4 3 = [] ∧
    verify ([] : V ℚ) = true ∧
    verify_triangular ([] : V ℚ) 0 = true ∧
    verify_triangular ([] : V ℚ) 0 = true :=
  zero_dimension ([] : V ℚ) [] [] omp_mixed 4 1 "guided" [1, 0] 2 4 3
    (by
      intro sch t
      cases sch with
      | static => exact List.Perm.refl _
      | dynamic c => exact List.Perm.refl _
      | guided => exact List.Perm.refl _)

end Claims

end HW9

/-! # HW5 and HW8: theorems -/

namespace HW5

section Lemmas

variable {K : Type} [Field K]

theorem resize_length {β : Type} (l : List β) (n : Nat) (value : β) :
    (resize l n value).length = n := by
  unfold resize
  rw [List.length_append, List.length_take, List.length_replicate]
  omega

theorem resize_nil {β : Type} (n : Nat) (value : β) :
    resize ([] : List β) n value = List.replicate n value := by
  simp [resize]

/-- The sum computed by `main` is the sum of the list. -/
theorem foldl_add_eq_sum (l : List K) (a : K) :
    l.foldl (fun sum area => sum + area) a = a + l.sum := by
  induction l generalizing a with
  | nil => simp
  | cons x l ih => simp only [List.foldl_cons, List.sum_cons]; rw [ih]; ring

theorem sumVertexAreas_eq_sum (l : List K) : sumVertexAreas l = l.sum := by
  unfold sumVertexAreas
  rw [foldl_add_eq_sum, zero_add]

/-- Statement `l[i] += v` adds `v` to the sum of `l`. -/
theorem sum_set_add (l : List K) (i : Nat) (v : K) (hi : i < l.length) :
    (l.set i (l.getD i 0 + v)).sum = l.sum + v := by
  induction l generalizing i with
  | nil => simp at hi
  | cons x l ih =>
    cases i with
    | zero => simp; ring
    | succ i =>
      have hi' : i < l.length := by simpa using hi
      have := ih i hi'
      simp only [List.set_cons_succ, List.sum_cons, List.getD_cons_succ]
      rw [this]; ring

/-- The areas stored by `computeTriangleAreas`: one per triangle. -/
theorem computeTriangleAreas_length (sqrt : K → K) (m : BrainMesh K) :
    (computeTriangleAreas sqrt m).triangleAreas.length = m.nbTriangles := by
  unfold computeTriangleAreas
  simp only
  rw [HW9.foldl_set_length (fun _ i => i), resize_length]

/-- The three statements `vertexAreas[t[c]] += area / 3` add `area` to the sum
of the vertex areas. -/
theorem vertex_step_sum [CharZero K] (va : List K) (t : Triangle) (area : K)
    (h1 : t.1 < va.length) (h2 : t.2.1 < va.length) (h3 : t.2.2 < va.length) :
    let va1 := va.set t.1 (va.getD t.1 0 + area / 3)
    let va2 := va1.set t.2.1 (va1.getD t.2.1 0 + area / 3)
    let va3 := va2.set t.2.2 (va2.getD t.2.2 0 + area / 3)
    va3.length = va.length ∧ va3.sum = va.sum + area := by
  intro va1 va2 va3
  have l1 : va1.length = va.length := List.length_set ..
  have l2 : va2.length = va.length := (List.length_set ..).trans l1
  have l3 : va3.length = va.length := (List.length_set ..).trans l2
  refine ⟨l3, ?_⟩
  have s1 : va1.sum = va.sum + area / 3 := sum_set_add va _ _ h1
  have s2 : va2.sum = va1.sum + area / 3 := sum_set_add va1 _ _ (by rw [l1]; exact h2)
  have s3 : va3.sum = va2.sum + area / 3 := sum_set_add va2 _ _ (by rw [l2]; exact h3)
  rw [s3, s2, s1]
  have h3 : (3 : K) ≠ 0 := by norm_num
  field_simp
  ring

/-- The loop of `computeVertexAreas` over the first `k` triangles adds the
first `k` areas to the sum of the vertex areas. -/
theorem vertex_loop_sum [CharZero K] (triangles : List Triangle) (areas : List K) (nv : Nat)
    (hidx : ∀ t ∈ triangles, t.1 < nv ∧ t.2.1 < nv ∧ t.2.2 < nv)
    (k : Nat) (hk : k ≤ triangles.length) (hka : k ≤ areas.length)
    (init : List K) (hinit : init.length = nv) :
    ((List.range k).foldl (fun vertexAreas i =>
      let area := areas.getD i 0
      let vertexArea := area / 3
      let t := triangles.getD i (0, 0, 0)
      let vertexAreas := vertexAreas.set t.1 (vertexAreas.getD t.1 0 + vertexArea)
      let vertexAreas := vertexAreas.set t.2.1 (vertexAreas.getD t.2.1 0 + vertexArea)
      vertexAreas.set t.2.2 (vertexAreas.getD t.2.2 0 + vertexArea)) init).length = nv ∧
    ((List.range k).foldl (fun vertexAreas i =>
      let area := areas.getD i 0
      let vertexArea := area / 3
      let t := triangles.getD i (0, 0, 0)
      let vertexAreas := vertexAreas.set t.1 (vertexAreas.getD t.1 0 + vertexArea)
      let vertexAreas := vertexAreas.set t.2.1 (vertexAreas.getD t.2.1 0 + vertexArea)
      vertexAreas.set t.2.2 (vertexAreas.getD t.2.2 0 + vertexArea)) init).sum
      = init.sum + (areas.take k).sum := by
  induction k with
  | zero => simp [hinit]
  | succ k ih =>
    obtain ⟨hlen, hsum⟩ := ih (by omega) (by omega)
    rw [List.range_succ, List.foldl_append]
    simp only [List.foldl_cons, List.foldl_nil]
    generalize (List.range k).foldl _ init = va at hlen hsum ⊢
    have hkt : k < triangles.length := by omega
    have hmem : triangles.getD k (0, 0, 0) ∈ triangles := by
      rw [List.getD_eq_getElem _ _ hkt]; exact List.getElem_mem _
    obtain ⟨h1, h2, h3⟩ := hidx _ hmem
    obtain ⟨hl, hs⟩ := vertex_step_sum va (triangles.getD k (0, 0, 0)) (areas.getD k 0)
      (by omega) (by omega) (by omega)
    refine ⟨hl.trans hlen, ?_⟩
    rw [hs, hsum]
    have hka' : k < areas.length := by omega
    rw [List.sum_take_succ _ _ hka', List.getD_eq_getElem _ _ hka']
    ring

/-- The vertex areas stored by `computeVertexAreas` on a mesh with no vertex
area yet, whose triangles index valid vertices: they sum to the sum of the
triangle areas held after the call. -/
theorem computeVertexAreas_sum [CharZero K] (sqrt : K → K) (m : BrainMesh K)
    (hva : m.vertexAreas = []) (hnt : m.nbTriangles = m.triangles.length)
    (hta : m.triangleAreas = [] ∨ m.triangleAreas.length = m.nbTriangles)
    (hidx : ∀ t ∈ m.triangles, t.1 < m.nbVertices ∧ t.2.1 < m.nbVertices ∧ t.2.2 < m.nbVertices) :
    (computeVertexAreas sqrt m).vertexAreas.sum = (computeVertexAreas sqrt m).triangleAreas.sum ∧
    (computeVertexAreas sqrt m).triangleAreas.length = m.nbTriangles ∧
    (computeVertexAreas sqrt m).nbTriangles = m.nbTriangles := by
  unfold computeVertexAreas
  simp only
  generalize hm1 : (if m.triangleAreas.isEmpty = true then computeTriangleAreas sqrt m else m) = m1
  have h1 : m1.triangles = m.triangles ∧ m1.nbTriangles = m.nbTriangles ∧
      m1.nbVertices = m.nbVertices ∧ m1.vertexAreas = m.vertexAreas ∧
      m1.triangleAreas.length = m.nbTriangles := by
    subst hm1
    by_cases he : m.triangleAreas.isEmpty = true
    · rw [if_pos he]
      exact ⟨rfl, rfl, rfl, rfl, computeTriangleAreas_length sqrt m⟩
    · rw [if_neg he]
      refine ⟨rfl, rfl, rfl, rfl, ?_⟩
      rcases hta with h | h
      · rw [h] at he; simp at he
      · exact h
  obtain ⟨e1, e2, e3, e4, e5⟩ := h1
  have := vertex_loop_sum m1.triangles m1.triangleAreas m1.nbVertices
    (by rw [e1, e3]; exact hidx) m1.nbTriangles (by rw [e1, e2, hnt]) (by rw [e5, e2])
    (resize m1.vertexAreas m1.nbVertices 0) (resize_length _ _ _)
  refine ⟨?_, e5, e2⟩
  rw [this.2, List.take_of_length_le (by rw [e5, e2]), e4, hva, resize_nil]
  simp

/-- The areas stored by `computeTriangleAreas`: the area of each triangle,
in the order of the triangles. -/
theorem computeTriangleAreas_eq (sqrt : K → K) (m : BrainMesh K)
    (hnt : m.nbTriangles = m.triangles.length) :
    (computeTriangleAreas sqrt m).triangleAreas = m.triangles.map (triangleArea sqrt m) := by
  apply HW9.ext_getD _ _ 0
  · rw [computeTriangleAreas_length, List.length_map, hnt]
  · intro t ht
    rw [computeTriangleAreas_length] at ht
    unfold computeTriangleAreas
    simp only
    rw [HW9.foldl_update_getD (fun i _ => triangleArea sqrt m (m.triangles.getD i (0, 0, 0))) 0,
      if_pos ⟨ht, by rw [resize_length]; exact ht⟩,
      List.getD_eq_getElem m.triangles _ (by rw [← hnt]; exact ht),
      List.getD_eq_getElem (m.triangles.map _) _ (by rw [List.length_map, ← hnt]; exact ht),
      List.getElem_map]

/-- The value returned by `getTotalArea` is the sum of the triangle areas held
after the call, which are those held before unless there were none. -/
theorem getTotalArea_eq (sqrt : K → K) (m : BrainMesh K) :
    (getTotalArea sqrt m).2 = (getTotalArea sqrt m).1.triangleAreas.sum ∧
    (getTotalArea sqrt m).1.triangleAreas
      = (if m.triangleAreas.isEmpty then computeTriangleAreas sqrt m else m).triangleAreas ∧
    (getTotalArea sqrt m).1.vertexAreas = m.vertexAreas ∧
    (getTotalArea sqrt m).1.triangles = m.triangles ∧
    (getTotalArea sqrt m).1.vertices = m.vertices ∧
    (getTotalArea sqrt m).1.nbTriangles = m.nbTriangles ∧
    (getTotalArea sqrt m).1.nbVertices = m.nbVertices := by
  unfold getTotalArea
  refine ⟨?_, ?_, ?_, ?_, ?_, ?_, ?_⟩
  · dsimp only
    rw [foldl_add_eq_sum, zero_add]
  all_goals dsimp only
  all_goals by_cases he : m.triangleAreas.isEmpty = true
  all_goals first | (rw [if_pos he]; rfl) | (rw [if_neg he])

/-- The triangle areas are computed once: a second computation on a mesh
that holds one area per triangle, for the same vertices and triangles, stores
the same areas. -/
theorem triangleAreas_stable (sqrt : K → K) (m : BrainMesh K)
    (hnt : m.nbTriangles = m.triangles.length)
    (hA : m.triangleAreas = m.triangles.map (triangleArea sqrt m)) :
    (if m.triangleAreas.isEmpty then computeTriangleAreas sqrt m else m).triangleAreas
      = m.triangles.map (triangleArea sqrt m) := by
  by_cases he : m.triangleAreas.isEmpty = true
  · rw [if_pos he, computeTriangleAreas_eq sqrt m hnt]
  · rw [if_neg he, hA]

/-- Function `computeEdgeLengths` stores one length per element of the edge
set. -/
theorem computeEdgeLengths_length (sqrt : K → K) (m : BrainMesh K) :
    (computeEdgeLengths sqrt m).edgeLengths.length = (collect_edges m.triangles).length := by
  unfold computeEdgeLengths
  simp only
  generalize collect_edges m.triangles = es
  have : ∀ (f : Nat × Nat → K) (init : List K),
      (es.foldl (fun edgeLengths edge => edgeLengths ++ [f edge]) init).length
        = init.length + es.length := by
    intro f
    induction es with
    | nil => intro init; rfl
    | cons e es ih =>
      intro init
      rw [List.foldl_cons, ih]
      simp only [List.length_append, List.length_cons, List.length_nil]
      omega
  rw [this (fun edge => sqrt _), List.length_nil, Nat.zero_add]

/-- The edge set of a single triangle with distinct indices: three edges
when the third index is the largest, two otherwise. -/
theorem single_triangle_edges (a b c : Nat) (hab : a ≠ b) (hbc : b ≠ c) (hac : a ≠ c) :
    (collect_edges [(a, b, c)]).length = if a < c ∧ b < c then 3 else 2 := by
  unfold collect_edges add_triangle_edges
  simp only [List.foldl_cons, List.foldl_nil]
  have key : ∀ x y : Nat, x < y → ¬ y < x ∧ x ≠ y ∧ y ≠ x := fun x y h => by omega
  rcases Nat.lt_or_gt_of_ne hab with h1 | h1 <;> rcases Nat.lt_or_gt_of_ne hbc with h2 | h2 <;>
    rcases Nat.lt_or_gt_of_ne hac with h3 | h3 <;>
    first
    | omega
    | (obtain ⟨k1, p1, q1⟩ := key _ _ h1
       obtain ⟨k2, p2, q2⟩ := key _ _ h2
       obtain ⟨k3, p3, q3⟩ := key _ _ h3
       simp [set_insert, pair_lt, h1, h2, h3, k1, k2, k3, p1, p2, p3, q1, q2, q3])

/-- The area of a triangle depends on the mesh through its vertices only. -/
theorem triangleArea_congr (sqrt : K → K) (m m' : BrainMesh K) (h : m.vertices = m'.vertices) :
    triangleArea sqrt m = triangleArea sqrt m' := by
  funext t
  unfold triangleArea
  rw [h]

/-- On a mesh that holds the vertices `points` and the triangles `polygons`,
and either no triangle area or the area of each triangle, `getTotalArea`
returns the sum of the areas of the triangles and leaves the area of each
triangle stored. -/
theorem getTotalArea_loaded (sqrt : K → K) (m0 m : BrainMesh K)
    (hv : m.vertices = m0.vertices) (ht : m.triangles = m0.triangles)
    (hnt : m.nbTriangles = m0.triangles.length)
    (hta : m.triangleAreas = [] ∨ m.triangleAreas = m0.triangles.map (triangleArea sqrt m0)) :
    (getTotalArea sqrt m).2 = (m0.triangles.map (triangleArea sqrt m0)).sum ∧
    (getTotalArea sqrt m).1.triangleAreas = m0.triangles.map (triangleArea sqrt m0) := by
  obtain ⟨h1, h2, -⟩ := getTotalArea_eq sqrt m
  have h3 : (if m.triangleAreas.isEmpty then computeTriangleAreas sqrt m else m).triangleAreas
      = m0.triangles.map (triangleArea sqrt m0) := by
    by_cases he : m.triangleAreas.isEmpty = true
    · rw [if_pos he, computeTriangleAreas_eq sqrt m (by rw [hnt, ht]), ht,
        triangleArea_congr sqrt m m0 hv]
    · rw [if_neg he]
      rcases hta with h | h
      · rw [h] at he; simp at he
      · exact h
  rw [h1, h2, h3]
  exact ⟨rfl, rfl⟩

/-- On such a mesh with no vertex area yet, whose triangles index valid
vertices, `computeVertexAreas` stores vertex areas that sum to the sum of the
areas of the triangles. -/
theorem computeVertexAreas_loaded [CharZero K] (sqrt : K → K) (m0 m : BrainMesh K)
    (hv : m.vertices = m0.vertices) (ht : m.triangles = m0.triangles)
    (hnt : m.nbTriangles = m0.triangles.length)
    (hta : m.triangleAreas = [] ∨ m.triangleAreas = m0.triangles.map (triangleArea sqrt m0))
    (hva : m.vertexAreas = [])
    (hidx : ∀ t ∈ m0.triangles,
      t.1 < m.nbVertices ∧ t.2.1 < m.nbVertices ∧ t.2.2 < m.nbVertices) :
    (computeVertexAreas sqrt m).vertexAreas.sum = (m0.triangles.map (triangleArea sqrt m0)).sum ∧
    (computeVertexAreas sqrt m).triangleAreas = m0.triangles.map (triangleArea sqrt m0) ∧
    (computeVertexAreas sqrt m).vertices = m0.vertices ∧
    (computeVertexAreas sqrt m).triangles = m0.triangles ∧
    (computeVertexAreas sqrt m).nbTriangles = m0.triangles.length ∧
    (computeVertexAreas sqrt m).nbVertices = m.nbVertices := by
  have hA : (computeVertexAreas sqrt m).triangleAreas
      = m0.triangles.map (triangleArea sqrt m0) := by
    unfold computeVertexAreas
    dsimp only
    by_cases he : m.triangleAreas.isEmpty = true
    · rw [if_pos he, computeTriangleAreas_eq sqrt m (by rw [hnt, ht]), ht,
        triangleArea_congr sqrt m m0 hv]
    · rw [if_neg he]
      rcases hta with h | h
      · rw [h] at he; simp at he
      · exact h
  have hrest : (computeVertexAreas sqrt m).vertices = m0.vertices ∧
      (computeVertexAreas sqrt m).triangles = m0.triangles ∧
      (computeVertexAreas sqrt m).nbTriangles = m0.triangles.length ∧
      (computeVertexAreas sqrt m).nbVertices = m.nbVertices := by
    unfold computeVertexAreas
    dsimp only
    by_cases he : m.triangleAreas.isEmpty = true
    · rw [if_pos he]; exact ⟨hv, ht, hnt, rfl⟩
    · rw [if_neg he]; exact ⟨hv, ht, hnt, rfl⟩
  refine ⟨?_, hA, hrest⟩
  have := computeVertexAreas_sum sqrt m hva (by rw [hnt, ht])
    (by
      rcases hta with h | h
      · exact Or.inl h
      · exact Or.inr (by rw [h, List.length_map, hnt]))
    (by rw [ht]; exact hidx)
  rw [this.1, hA]

end Lemmas

section Claims

variable {K : Type} [Field K]

/-- C21 (divergence): for the mesh of the single triangle `(0, 2, 1)`,
`readData` counts 2 edges and `computeEdgeLengths` stores 2 lengths, while
the triangle has 3 distinct sides; the same triangle listed as `(0, 1, 2)` is
counted with 3 edges. -/
theorem edge_count_depends_on_index_order (sqrt : K → K) (m : BrainMesh K)
    (points : List (Vertex K)) :
    getNumEdges (readData m points [(0, 2, 1)]) = 2 ∧
    (computeEdgeLengths sqrt (readData m points [(0, 2, 1)])).edgeLengths.length = 2 ∧
    spec_edge_count [(0, 2, 1)] = 3 ∧
    getNumEdges (readData m points [(0, 1, 2)]) = 3 := by
  refine ⟨?_, ?_, by decide, ?_⟩
  · show (collect_edges [(0, 2, 1)]).length = 2
    decide
  · rw [computeEdgeLengths_length]
    show (collect_edges [(0, 2, 1)]).length = 2
    decide
  · show (collect_edges [(0, 1, 2)]).length = 3
    decide

/-- C23: for a freshly loaded mesh whose triangles all index valid vertices,
after `computeVertexAreas` the sum of `vertexAreas` equals the value of
`getTotalArea()`, which is the sum of the areas of the triangles; the same
holds in the order of `main` (`getTotalArea`, `computeVertexAreas`,
`getVertexAreas`). -/
theorem vertex_areas_sum_to_total_area [CharZero K] (sqrt : K → K) (points : List (Vertex K))
    (polygons : List Triangle)
    (hidx : ∀ t ∈ polygons,
      t.1 < points.length ∧ t.2.1 < points.length ∧ t.2.2 < points.length) :
    sumVertexAreas (computeVertexAreas sqrt (readData BrainMesh.new points polygons)).vertexAreas
      = (getTotalArea sqrt
          (computeVertexAreas sqrt (readData BrainMesh.new points polygons))).2 ∧
    (getTotalArea sqrt (computeVertexAreas sqrt (readData BrainMesh.new points polygons))).2
      = (polygons.map (triangleArea sqrt (readData BrainMesh.new points polygons))).sum ∧
    sumVertexAreas (getVertexAreas sqrt (computeVertexAreas sqrt
        (getTotalArea sqrt (readData BrainMesh.new points polygons)).1)).2
      = (getTotalArea sqrt (readData BrainMesh.new points polygons)).2 := by
  have hm0 : ∀ t ∈ (readData (BrainMesh.new : BrainMesh K) points polygons).triangles,
      t.1 < points.length ∧ t.2.1 < points.length ∧ t.2.2 < points.length := hidx
  obtain ⟨c1, c2, c3, c4, c5, c6⟩ := computeVertexAreas_loaded sqrt
    (readData BrainMesh.new points polygons) (readData BrainMesh.new points polygons)
    rfl rfl rfl (Or.inl rfl) rfl hm0
  obtain ⟨t1, -⟩ := getTotalArea_loaded sqrt (readData BrainMesh.new points polygons)
    (computeVertexAreas sqrt (readData BrainMesh.new points polygons)) c3 c4 c5 (Or.inr c2)
  obtain ⟨g1, g2⟩ := getTotalArea_loaded sqrt (readData BrainMesh.new points polygons)
    (readData BrainMesh.new points polygons) rfl rfl rfl (Or.inl rfl)
  obtain ⟨-, -, g3, g4, g5, g6, g7⟩ := getTotalArea_eq sqrt
    (readData (BrainMesh.new : BrainMesh K) points polygons)
  obtain ⟨d1, d2, d3, d4, d5, d6⟩ := computeVertexAreas_loaded sqrt
    (readData BrainMesh.new points polygons)
    (getTotalArea sqrt (readData BrainMesh.new points polygons)).1
    g5 g4 g6 (Or.inr g2) g3 (by rw [g7]; exact hm0)
  refine ⟨?_, ?_, ?_⟩
  · rw [sumVertexAreas_eq_sum, c1, t1]
  · rw [t1]; rfl
  · rw [sumVertexAreas_eq_sum, g1]
    unfold getVertexAreas
    dsimp only
    by_cases he : (computeVertexAreas sqrt
        (getTotalArea sqrt (readData BrainMesh.new points polygons)).1).vertexAreas.isEmpty = true
    · rw [if_pos he]
      have hnil : (computeVertexAreas sqrt
          (getTotalArea sqrt (readData BrainMesh.new points polygons)).1).vertexAreas = [] :=
        List.isEmpty_iff.mp he
      obtain ⟨e1, -⟩ := computeVertexAreas_loaded sqrt
        (readData BrainMesh.new points polygons)
        (computeVertexAreas sqrt (getTotalArea sqrt (readData BrainMesh.new points polygons)).1)
        d3 d4 d5 (Or.inr d2) hnil (by rw [d6, g7]; exact hm0)
      rw [e1]
    · rw [if_neg he, d1]

theorem vertex_areas_sum_to_total_area_witness :
    sumVertexAreas (computeVertexAreas (fun x : ℚ => x)
        (readData BrainMesh.new [(0, 0, 0), (1, 0, 0), (0, 1, 0), (1, 1, 3)]
          [(0, 1, 2), (1, 2, 3)])).vertexAreas
      = (getTotalArea (fun x : ℚ => x)
          (computeVertexAreas (fun x : ℚ => x)
            (readData BrainMesh.new [(0, 0, 0), (1, 0, 0), (0, 1, 0), (1, 1, 3)]
              [(0, 1, 2), (1, 2, 3)]))).2 :=
  (vertex_areas_sum_to_total_area (fun x : ℚ => x) [(0, 0, 0), (1, 0, 0), (0, 1, 0), (1, 1, 3)]
    [(0, 1, 2), (1, 2, 3)] (by decide)).1

end Claims

end HW5

namespace HW8

section Claims

variable {K : Type} [LinearOrderedField K]

/-- In exact arithmetic the matrix returned by `invert_matrix` is a right
inverse of its argument. -/
theorem invert_matrix_right_inverse (M : Matrix K)
    (hge : 1 / 1000000000000 ≤ |M.determinant|) :
    ∃ R : Matrix K, invert_matrix M = Except.ok R ∧
      M.a11 * R.a11 + M.a12 * R.a21 = 1 ∧ M.a11 * R.a12 + M.a12 * R.a22 = 0 ∧
      M.a21 * R.a11 + M.a22 * R.a21 = 0 ∧ M.a21 * R.a12 + M.a22 * R.a22 = 1 := by
  have hlt : ¬ |M.determinant| < 1 / 1000000000000 := not_lt.mpr hge
  have hne : M.determinant ≠ 0 := by
    intro h0
    rw [h0, abs_zero] at hge
    norm_num at hge
  refine ⟨_, by unfold invert_matrix; dsimp only; rw [if_neg hlt], ?_, ?_, ?_, ?_⟩
  all_goals dsimp only
  all_goals field_simp
  all_goals try simp only [Matrix.determinant]
  all_goals ring

end Claims

end HW8

/-! # HW6: theorems -/

namespace HW6

section Lemmas

variable {T O M : Type} [DecidableEq T] [ToString T]

theorem set_contains_iff (s : List T) (key : T) : set_contains s key = true ↔ key ∈ s := by
  simp [set_contains]

theorem map_contains_iff (m : List (T × M)) (key : T) :
    map_contains m key = true ↔ key ∈ m.map Prod.fst := by
  unfold map_contains
  rw [List.any_eq_true, List.mem_map]
  constructor
  · rintro ⟨e, he, h⟩
    exact ⟨e, he, by simpa using h⟩
  · rintro ⟨e, he, h⟩
    exact ⟨e, he, by simpa using h⟩

theorem mem_set_insert (s : List T) (key k : T) :
    k ∈ set_insert s key ↔ k = key ∨ k ∈ s := by
  unfold set_insert
  by_cases h : s.contains key = true
  · rw [if_pos h]
    have : key ∈ s := by simpa using h
    constructor
    · exact Or.inr
    · rintro (rfl | h') 
      · exact this
      · exact h'
  · rw [if_neg h, List.mem_append, List.mem_singleton]
    tauto

/-- The default-constructed container is consistent. -/
theorem empty_consistent : (ScientificContainer.empty : ScientificContainer T O M).consistent := by
  constructor <;> intro key <;> simp [ScientificContainer.empty]

/-- What `add_element` does for a key of the key set: it throws and changes
nothing. -/
theorem add_element_present (c : ScientificContainer T O M) (key : T) (obj : O)
    (h : key ∈ c.unique_elements) :
    add_element c key obj
      = (c, some (Exception.DuplicateElementException
          ("Duplicate element with key: " ++ toString key))) := by
  unfold add_element
  rw [if_pos ((set_contains_iff _ _).mpr h)]

/-- What `add_element` does for a key that is not in the key set. -/
theorem add_element_absent (c : ScientificContainer T O M) (key : T) (obj : O)
    (h : key ∉ c.unique_elements) :
    add_element c key obj
      = ({ c with
           container := c.container ++ [(key, obj)]
           unique_elements := set_insert c.unique_elements key }, none) := by
  unfold add_element
  rw [if_neg (fun h' => h ((set_contains_iff _ _).mp h'))]

/-- Member `add_element` keeps the container consistent. -/
theorem add_element_consistent (c : ScientificContainer T O M) (hc : c.consistent) (key : T)
    (obj : O) : (add_element c key obj).1.consistent := by
  by_cases h : key ∈ c.unique_elements
  · rw [add_element_present c key obj h]; exact hc
  · rw [add_element_absent c key obj h]
    constructor
    · intro k
      dsimp only
      rw [mem_set_insert, List.map_append, List.mem_append, hc.1 k]
      simp only [List.map_cons, List.map_nil, List.mem_singleton]
      tauto
    · intro k hk
      dsimp only at hk ⊢
      rw [mem_set_insert]
      exact Or.inr (hc.2 k hk)

/-- The lookup in a map extended by a new entry. -/
theorem map_find_append (m : List (T × M)) (key k : T) (data : M)
    (h : key ∉ m.map Prod.fst) :
    map_find (m ++ [(key, data)]) k = if k = key then some data else map_find m k := by
  unfold map_find
  induction m with
  | nil =>
    by_cases hk : k = key
    · subst hk; simp
    · have : ¬ key = k := fun e => hk e.symm
      simp [hk, this]
  | cons e m ih =>
    have hne : e.1 ≠ key := fun he => h (by simp [he])
    have hm : key ∉ m.map Prod.fst := fun hm => h (by simp at hm ⊢; exact Or.inr hm)
    by_cases hek : e.1 = k
    · have : ¬ k = key := fun e' => hne (hek.trans e')
      simp [hek, this]
    · have hb : (e.1 == k) = false := by simpa using hek
      rw [List.cons_append, List.find?_cons, List.find?_cons, hb]
      exact ih hm

/-- The lines written by the loop of `filter_elements`. -/
theorem filter_loop_eq (predicate : T → Bool) (elements : List (T × O)) (out : List String) :
    elements.foldl (fun out e =>
      if predicate e.1 then out ++ ["Key " ++ toString e.1 ++ " matches the filter"] else out) out
      = out ++ spec_filter_output elements predicate := by
  unfold spec_filter_output
  induction elements generalizing out with
  | nil => simp
  | cons e es ih =>
    rw [List.foldl_cons, ih]
    by_cases hp : predicate e.1 = true
    · simp [hp, List.filter_cons]
    · simp [hp, List.filter_cons]

/-- A run of `add_element` calls from a consistent container succeeds exactly
when the keys are pairwise distinct and none is in the container; it then
appends the calls to the element list. -/
theorem add_elements_spec (calls : List (T × O)) :
    ∀ c : ScientificContainer T O M, c.consistent →
      ((add_elements c calls).2 = none ↔
        (calls.map Prod.fst).Nodup ∧ ∀ e ∈ calls, e.1 ∉ c.container.map Prod.fst) ∧
      ((add_elements c calls).2 = none →
        (add_elements c calls).1.container = c.container ++ calls) := by
  induction calls with
  | nil =>
    intro c hc
    simp [add_elements]
  | cons e rest ih =>
    intro c hc
    by_cases h : e.1 ∈ c.unique_elements
    · have hcont : e.1 ∈ c.container.map Prod.fst := (hc.1 _).mp h
      have hrun : add_elements c (e :: rest) = (c, some (Exception.DuplicateElementException
          ("Duplicate element with key: " ++ toString e.1))) := by
        rw [add_elements, add_element_present c e.1 e.2 h]
      rw [hrun]
      refine ⟨⟨fun hn => (by cases hn), fun hn => absurd hcont (hn.2 e (List.mem_cons_self _ _))⟩,
        fun hn => (by cases hn)⟩
    · have hcont : e.1 ∉ c.container.map Prod.fst := fun h' => h ((hc.1 _).mpr h')
      have hstep := add_element_absent c e.1 e.2 h
      have hcons := add_element_consistent c hc e.1 e.2
      rw [hstep] at hcons
      have hrun : add_elements c (e :: rest)
          = add_elements { c with
              container := c.container ++ [(e.1, e.2)]
              unique_elements := set_insert c.unique_elements e.1 } rest := by
        rw [add_elements, hstep]
      rw [hrun]
      obtain ⟨ih1, ih2⟩ := ih _ hcons
      constructor
      · rw [ih1]
        dsimp only
        simp only [List.map_cons, List.nodup_cons, List.mem_cons, List.map_append, List.map_nil,
          List.mem_append, List.mem_singleton, List.mem_map, List.not_mem_nil, or_false]
        constructor
        · rintro ⟨hnd, hall⟩
          refine ⟨⟨?_, hnd⟩, ?_⟩
          · rintro ⟨x, hx, hxe⟩
            exact (hall x hx) (Or.inr hxe)
          · rintro x (rfl | hx)
            · intro hmem
              exact hcont (List.mem_map.mpr hmem)
            · intro hmem
              exact hall x hx (Or.inl hmem)
        · rintro ⟨⟨hne, hnd⟩, hall⟩
          refine ⟨hnd, ?_⟩
          intro x hx hmem
          rcases hmem with hmem | hmem
          · exact hall x (Or.inr hx) hmem
          · exact hne ⟨x, hx, hmem⟩
      · intro hn
        rw [ih2 hn]
        dsimp only
        rw [List.append_assoc]
        rfl

/-- What `add_metadata` does for a key that is not in the key set. -/
theorem add_metadata_missing (c : ScientificContainer T O M) (key : T) (data : M)
    (h : key ∉ c.unique_elements) :
    add_metadata c key data
      = (c, some (Exception.runtime_error "Cannot add metadata for nonexistent key.")) := by
  unfold add_metadata
  have h1 : set_contains c.unique_elements key = false := by
    rw [← Bool.not_eq_true]; exact fun h' => h ((set_contains_iff _ _).mp h')
  rw [h1]
  rfl

/-- What `add_metadata` does for a key of the key set that has metadata. -/
theorem add_metadata_exists (c : ScientificContainer T O M) (key : T) (data : M)
    (h : key ∈ c.unique_elements) (hm : key ∈ c.metadata.map Prod.fst) :
    add_metadata c key data
      = (c, some (Exception.runtime_error "Metadata for this key already exists.")) := by
  unfold add_metadata
  rw [(set_contains_iff _ _).mpr h, (map_contains_iff _ _).mpr hm]
  rfl

/-- What `add_metadata` does for a key of the key set that has no
metadata. -/
theorem add_metadata_fresh (c : ScientificContainer T O M) (key : T) (data : M)
    (h : key ∈ c.unique_elements) (hm : key ∉ c.metadata.map Prod.fst) :
    add_metadata c key data = ({ c with metadata := c.metadata ++ [(key, data)] }, none) := by
  unfold add_metadata map_assign
  have h2 : map_contains c.metadata key = false := by
    rw [← Bool.not_eq_true]; exact fun h' => hm ((map_contains_iff _ _).mp h')
  rw [(set_contains_iff _ _).mpr h, h2]
  rfl

/-- Member `add_metadata` keeps the container consistent. -/
theorem add_metadata_consistent (c : ScientificContainer T O M) (hc : c.consistent) (key : T)
    (data : M) : (add_metadata c key data).1.consistent := by
  by_cases h1 : key ∈ c.unique_elements
  · by_cases h2 : key ∈ c.metadata.map Prod.fst
    · rw [add_metadata_exists c key data h1 h2]; exact hc
    · rw [add_metadata_fresh c key data h1 h2]
      refine ⟨hc.1, ?_⟩
      intro k hk
      dsimp only at hk ⊢
      rw [List.map_append, List.mem_append] at hk
      rcases hk with hk | hk
      · exact hc.2 k hk
      · have : k = key := by simpa using hk
        rw [this]; exact h1
  · rw [add_metadata_missing c key data h1]; exact hc

end Lemmas

section Claims

variable {T O M : Type} [DecidableEq T] [ToString T]

/-- C24: in every consistent container state, `add_element` with a key already
present raises `DuplicateElementException`, which is a `std::runtime_error`,
and leaves the element list, the key set and the metadata unchanged; with a
key not present it appends the element, records the key, leaves the metadata
unchanged and does not raise. -/
theorem add_element_duplicate_atomic (c : ScientificContainer T O M) (hc : c.consistent)
    (key : T) (obj : O) :
    (key ∈ c.container.map Prod.fst →
      (add_element c key obj).1 = c ∧
      ∃ ex, (add_element c key obj).2 = some ex ∧
        ex.is_DuplicateElementException = true ∧ ex.is_runtime_error = true) ∧
    (key ∉ c.container.map Prod.fst →
      (add_element c key obj).2 = none ∧
      (add_element c key obj).1.container = c.container ++ [(key, obj)] ∧
      (add_element c key obj).1.metadata = c.metadata ∧
      ∀ k, k ∈ (add_element c key obj).1.unique_elements ↔ k = key ∨ k ∈ c.unique_elements) := by
  constructor
  · intro hk
    rw [add_element_present c key obj ((hc.1 key).mpr hk)]
    exact ⟨rfl, _, rfl, rfl, rfl⟩
  · intro hk
    rw [add_element_absent c key obj (fun h => hk ((hc.1 key).mp h))]
    exact ⟨rfl, rfl, rfl, fun k => mem_set_insert _ _ _⟩

theorem add_element_duplicate_atomic_witness :
    (add_element (add_element (ScientificContainer.empty : ScientificContainer Nat Nat Nat) 7 1).1
        7 2).1
      = (add_element (ScientificContainer.empty : ScientificContainer Nat Nat Nat) 7 1).1 ∧
    ∃ ex, (add_element
        (add_element (ScientificContainer.empty : ScientificContainer Nat Nat Nat) 7 1).1 7 2).2
        = some ex ∧
      ex.is_DuplicateElementException = true ∧ ex.is_runtime_error = true :=
  (add_element_duplicate_atomic
    (add_element (ScientificContainer.empty : ScientificContainer Nat Nat Nat) 7 1).1
    (add_element_consistent _ empty_consistent 7 1) 7 2).1 (by decide)

/-- C25: in every consistent container state, `add_metadata(key, data)`
succeeds exactly when `key` is the key of an element and has no metadata
yet; then `data` becomes the metadata of `key`, the metadata of the other
keys and the elements are unchanged; otherwise it raises
`std::runtime_error` and leaves the whole container unchanged. -/
theorem add_metadata_succeeds_iff (c : ScientificContainer T O M) (hc : c.consistent)
    (key : T) (data : M) :
    ((add_metadata c key data).2 = none ↔
      key ∈ c.container.map Prod.fst ∧ key ∉ c.metadata.map Prod.fst) ∧
    ((add_metadata c key data).2 = none →
      (add_metadata c key data).1.container = c.container ∧
      (add_metadata c key data).1.unique_elements = c.unique_elements ∧
      map_find (add_metadata c key data).1.metadata key = some data ∧
      ∀ k, k ≠ key → map_find (add_metadata c key data).1.metadata k = map_find c.metadata k) ∧
    ((add_metadata c key data).2 ≠ none →
      (add_metadata c key data).1 = c ∧
      ∃ what, (add_metadata c key data).2 = some (Exception.runtime_error what)) := by
  by_cases h1 : key ∈ c.unique_elements
  · have hk : key ∈ c.container.map Prod.fst := (hc.1 key).mp h1
    by_cases hm : key ∈ c.metadata.map Prod.fst
    · rw [add_metadata_exists c key data h1 hm]
      exact ⟨⟨fun h => (by cases h), fun h => absurd hm h.2⟩, fun h => (by cases h),
        fun _ => ⟨rfl, _, rfl⟩⟩
    · rw [add_metadata_fresh c key data h1 hm]
      refine ⟨⟨fun _ => ⟨hk, hm⟩, fun _ => rfl⟩, fun _ => ⟨rfl, rfl, ?_, ?_⟩,
        fun h => absurd rfl h⟩
      · dsimp only
        rw [map_find_append _ _ _ _ hm, if_pos rfl]
      · intro k hkk
        dsimp only
        rw [map_find_append _ _ _ _ hm, if_neg hkk]
  · have hk : key ∉ c.container.map Prod.fst := fun h => h1 ((hc.1 key).mpr h)
    rw [add_metadata_missing c key data h1]
    exact ⟨⟨fun h => (by cases h), fun h => absurd h.1 hk⟩, fun h => (by cases h),
      fun _ => ⟨rfl, _, rfl⟩⟩

theorem add_metadata_succeeds_iff_witness :
    (add_metadata (add_element (ScientificContainer.empty : ScientificContainer Nat Nat Nat) 7 1).1
      7 42).2 = none ↔
      7 ∈ (add_element (ScientificContainer.empty : ScientificContainer Nat Nat Nat) 7 1).1.container.map
        Prod.fst ∧
      7 ∉ (add_element (ScientificContainer.empty : ScientificContainer Nat Nat Nat) 7 1).1.metadata.map
        Prod.fst :=
  (add_metadata_succeeds_iff
    (add_element (ScientificContainer.empty : ScientificContainer Nat Nat Nat) 7 1).1
    (add_element_consistent _ empty_consistent 7 1) 7 42).1

/-- C29: a sequence of `add_element` calls from a consistent container all
succeed exactly when their keys are pairwise distinct and not yet in the
container; iterating the container afterwards, const or not, visits the
elements it held before followed by the pairs (key, object) of the calls, in
the order of the calls, each once. -/
theorem iteration_in_insertion_order (c : ScientificContainer T O M) (hc : c.consistent)
    (calls : List (T × O)) :
    ((add_elements c calls).2 = none ↔
      (calls.map Prod.fst).Nodup ∧ ∀ e ∈ calls, e.1 ∉ c.container.map Prod.fst) ∧
    ((add_elements c calls).2 = none →
      range_for (add_elements c calls).1 = c.container ++ calls ∧
      range_for_const (add_elements c calls).1 = c.container ++ calls) := by
  obtain ⟨h1, h2⟩ := add_elements_spec calls c hc
  exact ⟨h1, fun h => ⟨h2 h, h2 h⟩⟩

theorem iteration_in_insertion_order_witness :
    range_for (add_elements (ScientificContainer.empty : ScientificContainer Nat Nat Nat)
        [(3, 30), (1, 10), (2, 20)]).1 = [(3, 30), (1, 10), (2, 20)] ∧
    range_for_const (add_elements (ScientificContainer.empty : ScientificContainer Nat Nat Nat)
        [(3, 30), (1, 10), (2, 20)]).1 = [(3, 30), (1, 10), (2, 20)] :=
  (iteration_in_insertion_order (ScientificContainer.empty : ScientificContainer Nat Nat Nat)
    empty_consistent [(3, 30), (1, 10), (2, 20)]).2 (by decide)

/-- C30: for every container and predicate, `filter_elements` leaves the
container (elements, metadata, key set) unchanged and prints exactly one line
`Key <k> matches the filter` for each element whose key satisfies the
predicate, in insertion order, nothing for the others, and nothing at all
for a container with no element. -/
theorem filter_elements_reports_matches (c : ScientificContainer T O M) (predicate : T → Bool) :
    (filter_elements c predicate).1 = c ∧
    (filter_elements c predicate).2 = spec_filter_output c.container predicate ∧
    (filter_elements ({ c with container := [] } : ScientificContainer T O M) predicate).2
      = [] := by
  refine ⟨?_, ?_, ?_⟩
  · unfold filter_elements
    by_cases h : c.container.isEmpty = true
    · rw [if_pos h]
    · rw [if_neg h]
  · unfold filter_elements
    by_cases h : c.container.isEmpty = true
    · rw [if_pos h, List.isEmpty_iff.mp h]; rfl
    · rw [if_neg h]
      dsimp only
      rw [filter_loop_eq, List.nil_append]
  · rfl

end Claims

end HW6

/-! # HW3: theorems -/

namespace HW3

section IndexLemmas

/-- The flattened offset of an in-bounds triple stays below the size. -/
theorem offset_lt (a b c i j k : Nat) (hi : i < a) (hj : j < b) (hk : k < c) :
    i * b * c + j * c + k < a * b * c := by
  have h1 : i * b + j < a * b := HW9.row_major_index_lt b a i j hi hj
  have h2 := HW9.row_major_index_lt c (a * b) (i * b + j) k h1 hk
  calc i * b * c + j * c + k = (i * b + j) * c + k := by ring
    _ < a * b * c := h2

/-- The flattened offset is injective on in-bounds triples. -/
theorem offset_inj (b c i j k i' j' k' : Nat) (hj : j < b) (hk : k < c) (hj' : j' < b)
    (hk' : k' < c) (h : i * b * c + j * c + k = i' * b * c + j' * c + k') :
    i = i' ∧ j = j' ∧ k = k' := by
  have h' : (i * b + j) * c + k = (i' * b + j') * c + k' := by
    calc (i * b + j) * c + k = i * b * c + j * c + k := by ring
      _ = i' * b * c + j' * c + k' := h
      _ = (i' * b + j') * c + k' := by ring
  obtain ⟨e1, e2⟩ := HW9.row_major_index_inj c _ _ k k' hk hk' h'
  obtain ⟨e3, e4⟩ := HW9.row_major_index_inj b _ _ j j' hj hj' e1
  exact ⟨e3, e4, e2⟩

theorem toNat_mul3 (x y z : Int) (hx : 0 ≤ x) (hy : 0 ≤ y) (hz : 0 ≤ z) :
    (x * y * z).toNat = x.toNat * y.toNat * z.toNat := by
  lift x to ℕ using hx
  lift y to ℕ using hy
  lift z to ℕ using hz
  simp only [Int.toNat_natCast]
  exact_mod_cast Int.toNat_natCast (x * y * z)

theorem toNat_offset (y z i j k : Int) (hy : 0 ≤ y) (hz : 0 ≤ z) (hi : 0 ≤ i) (hj : 0 ≤ j)
    (hk : 0 ≤ k) :
    (i * y * z + j * z + k).toNat = i.toNat * y.toNat * z.toNat + j.toNat * z.toNat + k.toNat := by
  lift y to ℕ using hy
  lift z to ℕ using hz
  lift i to ℕ using hi
  lift j to ℕ using hj
  lift k to ℕ using hk
  simp only [Int.toNat_natCast]
  exact_mod_cast Int.toNat_natCast (i * y * z + j * z + k)

theorem toNat_lt_toNat (i n : Int) (hi : 0 ≤ i) (h : i < n) : i.toNat < n.toNat := by
  omega

/-- An exact result in the range of `int` is not changed. -/
theorem wrap_int_of_range (x : Int) (h0 : -2147483648 ≤ x) (h1 : x < 2147483648) :
    wrap_int x = x := by
  unfold wrap_int
  omega

/-- The wrapped value differs from the exact one by a multiple of `2^32`. -/
theorem wrap_int_eq_add (x : Int) : ∃ m : Int, wrap_int x = x + 4294967296 * m :=
  ⟨-((x + 2147483648) / 4294967296), by unfold wrap_int; omega⟩

theorem wrap_int_add_mul (y m : Int) : wrap_int (y + 4294967296 * m) = wrap_int y := by
  unfold wrap_int
  have h : y + 4294967296 * m + 2147483648 = (y + 2147483648) + 4294967296 * m := by ring
  rw [h, Int.add_mul_emod_self_left]

theorem wrap_int_mul_left (x c : Int) : wrap_int (wrap_int x * c) = wrap_int (x * c) := by
  obtain ⟨m, hm⟩ := wrap_int_eq_add x
  have h : (x + 4294967296 * m) * c = x * c + 4294967296 * (m * c) := by ring
  rw [hm, h, wrap_int_add_mul]

theorem wrap_int_add_left (x y : Int) : wrap_int (wrap_int x + y) = wrap_int (x + y) := by
  obtain ⟨m, hm⟩ := wrap_int_eq_add x
  have h : x + 4294967296 * m + y = x + y + 4294967296 * m := by ring
  rw [hm, h, wrap_int_add_mul]

theorem wrap_int_add_right (x y : Int) : wrap_int (x + wrap_int y) = wrap_int (x + y) := by
  rw [add_comm, wrap_int_add_left, add_comm]

/-- The `int` product of the dimensions is the exact product when that is in
the range of `int`. -/
theorem int_size_eq (a b c : Int) (h0 : -2147483648 ≤ a * b * c)
    (h1 : a * b * c < 2147483648) : int_size a b c = a * b * c := by
  unfold int_size
  rw [wrap_int_mul_left, wrap_int_of_range _ h0 h1]

/-- The `int` offset is the exact offset when that is in the range of
`int`. -/
theorem int_offset_eq (y z i j k : Int) (h0 : -2147483648 ≤ i * y * z + j * z + k)
    (h1 : i * y * z + j * z + k < 2147483648) :
    wrap_int (wrap_int (wrap_int (wrap_int (i * y) * z) + wrap_int (j * z)) + k)
      = i * y * z + j * z + k := by
  have e : wrap_int (wrap_int (i * y * z) + wrap_int (j * z)) = wrap_int (i * y * z + j * z) := by
    rw [wrap_int_add_left, wrap_int_add_right]
  rw [wrap_int_mul_left, e, wrap_int_add_left, wrap_int_of_range _ h0 h1]

end IndexLemmas

section ListLemmas

variable {β : Type}

theorem getD_map_range_fn (f : Nat → β) (d : β) (n t : Nat) (ht : t < n) :
    ((List.range n).map f).getD t d = f t := by
  rw [List.getD_eq_getElem _ _ (by simpa using ht)]
  simp

/-- A loop over `i < n` that replaces slot `i` of a list of length `n` by a
function of its old content yields the list of the new contents. -/
theorem foldl_update_eq_map (g : Nat → β → β) (d : β) (n : Nat) (y : List β)
    (hy : y.length = n) :
    (List.range n).foldl (fun y i => y.set i (g i (y.getD i d))) y
      = (List.range n).map (fun i => g i (y.getD i d)) := by
  apply HW9.ext_getD _ _ d
  · rw [HW9.foldl_set_length (fun _ i => i), hy, List.length_map, List.length_range]
  · intro t ht
    rw [HW9.foldl_set_length (fun _ i => i), hy] at ht
    rw [HW9.foldl_update_getD g d n y t, if_pos ⟨ht, by omega⟩, getD_map_range_fn _ _ _ _ ht]

theorem map_range_getD (l : List β) (d : β) (n : Nat) (hn : l.length = n) :
    (List.range n).map (fun i => l.getD i d) = l := by
  apply HW9.ext_getD _ _ d
  · simp [hn]
  · intro t ht
    rw [List.length_map, List.length_range] at ht
    rw [getD_map_range_fn _ _ _ _ ht]

theorem map_range_const (v : β) (n : Nat) :
    (List.range n).map (fun _ => v) = List.replicate n v := by
  apply HW9.ext_getD _ _ v
  · simp
  · intro t ht
    rw [List.length_map, List.length_range] at ht
    rw [getD_map_range_fn _ _ _ _ ht, HW9.getD_replicate _ _ _ _ ht]

/-- A fold in the exception monad whose body never throws is the plain
fold. -/
theorem foldlM_ok {σ ι : Type} (f : σ → ι → Except GridError σ) (g : σ → ι → σ) (l : List ι)
    (h : ∀ s, ∀ i ∈ l, f s i = Except.ok (g s i)) (s : σ) :
    l.foldlM f s = Except.ok (l.foldl g s) := by
  induction l generalizing s with
  | nil => rfl
  | cons a l ih =>
    rw [List.foldlM_cons, h s a (List.mem_cons_self _ _)]
    exact ih (fun s i hi => h s i (List.mem_cons_of_mem _ hi)) (g s a)

end ListLemmas

section Grid1DLemmas

variable {α : Type} [Zero α] [One α] [Add α] [Mul α]

theorem new_array_ok {β : Type} (n : Int) (hn : 0 ≤ n) (garbage : β) :
    new_array n garbage = Except.ok (List.replicate n.toNat garbage) := by
  unfold new_array
  rw [if_neg (by omega)]

/-- The constructor of `Grid1D` when the product of the dimensions is not
negative and in the range of `int`: an array of that many zeros. -/
theorem grid1d_ctor_eq (nx ny nz : Int) (h : 0 ≤ nx * ny * nz)
    (hb : nx * ny * nz < 2147483648) :
    (Grid1D.ctor nx ny nz : Except GridError (Grid1D α))
      = Except.ok { data := List.replicate (nx * ny * nz).toNat 0, nx := nx, ny := ny, nz := nz } := by
  unfold Grid1D.ctor
  rw [int_size_eq _ _ _ (by omega) hb, new_array_ok _ h]
  dsimp only
  rw [HW9.foldl_fill 0 _ _ (List.length_replicate _ _)]

/-- The constructor of `Grid1D` when the `int` product of the dimensions is
negative. -/
theorem grid1d_ctor_raises (nx ny nz : Int) (h : int_size nx ny nz < 0) :
    (Grid1D.ctor nx ny nz : Except GridError (Grid1D α))
      = Except.error GridError.bad_array_new_length := by
  unfold Grid1D.ctor new_array
  rw [if_pos h]

/-- The copy constructor of `Grid1D` copies a well-formed grid. -/
theorem grid1d_copy_ctor_eq (g : Grid1D α) (hg : g.wf) : g.copy_ctor = Except.ok g := by
  unfold Grid1D.copy_ctor
  rw [int_size_eq _ _ _ (by have := hg.1; omega) hg.2.2, new_array_ok _ hg.1]
  dsimp only
  rw [foldl_update_eq_map (fun i _ => g.data.getD i 0) 0 _ _ (List.length_replicate _ _),
    map_range_getD _ _ _ hg.2.1]

/-- The assignment of `Grid1D` makes the target a copy of a well-formed
grid. -/
theorem grid1d_assign_eq (g grid : Grid1D α) (hg : grid.wf) : g.assign grid = Except.ok grid := by
  unfold Grid1D.assign
  rw [int_size_eq _ _ _ (by have := hg.1; omega) hg.2.2, new_array_ok _ hg.1]
  dsimp only
  rw [foldl_update_eq_map (fun i _ => grid.data.getD i 0) 0 _ _ (List.length_replicate _ _),
    map_range_getD _ _ _ hg.2.1]

theorem grid1d_add_eq (g grid : Grid1D α) (hg : g.wf)
    (hd : ¬ (g.nx ≠ grid.nx ∨ g.ny ≠ grid.ny ∨ g.nz ≠ grid.nz)) :
    g.add grid = Except.ok
      { data := (List.range (g.nx * g.ny * g.nz).toNat).map
          (fun t => g.data.getD t 0 + grid.data.getD t 0)
        nx := g.nx, ny := g.ny, nz := g.nz } := by
  unfold Grid1D.add
  rw [if_neg hd, grid1d_ctor_eq _ _ _ hg.1 hg.2.2,
    int_size_eq _ _ _ (by have := hg.1; omega) hg.2.2]
  dsimp only
  rw [foldl_update_eq_map (fun i _ => g.data.getD i 0 + grid.data.getD i 0) 0 _ _
    (List.length_replicate _ _)]

theorem grid1d_mul_eq (g : Grid1D α) (factor : α) (hg : g.wf) :
    g.mul factor = Except.ok
      { data := (List.range (g.nx * g.ny * g.nz).toNat).map (fun t => g.data.getD t 0 * factor)
        nx := g.nx, ny := g.ny, nz := g.nz } := by
  unfold Grid1D.mul
  rw [grid1d_ctor_eq _ _ _ hg.1 hg.2.2, int_size_eq _ _ _ (by have := hg.1; omega) hg.2.2]
  dsimp only
  rw [foldl_update_eq_map (fun i _ => g.data.getD i 0 * factor) 0 _ _
    (List.length_replicate _ _)]

theorem grid1d_incr_eq (g : Grid1D α) (hg : g.wf) :
    g.incr =
      { data := (List.range (g.nx * g.ny * g.nz).toNat).map (fun t => g.data.getD t 0 + 1)
        nx := g.nx, ny := g.ny, nz := g.nz } := by
  unfold Grid1D.incr
  rw [int_size_eq _ _ _ (by have := hg.1; omega) hg.2.2,
    foldl_update_eq_map (fun _ x => x + 1) 0 _ _ hg.2.1]

theorem grid1d_add_assign_eq (g grid : Grid1D α) (hg : g.wf)
    (hd : ¬ (g.nx ≠ grid.nx ∨ g.ny ≠ grid.ny ∨ g.nz ≠ grid.nz)) :
    g.add_assign (some grid) = Except.ok
      { data := (List.range (g.nx * g.ny * g.nz).toNat).map
          (fun t => g.data.getD t 0 + grid.data.getD t 0)
        nx := g.nx, ny := g.ny, nz := g.nz } := by
  unfold Grid1D.add_assign
  dsimp only
  rw [if_neg hd, int_size_eq _ _ _ (by have := hg.1; omega) hg.2.2,
    foldl_update_eq_map (fun i x => x + grid.data.getD i 0) 0 _ _ hg.2.1]

theorem grid1d_add_assign_self_eq (g : Grid1D α) (hg : g.wf) :
    g.add_assign none = Except.ok
      { data := (List.range (g.nx * g.ny * g.nz).toNat).map
          (fun t => g.data.getD t 0 + g.data.getD t 0)
        nx := g.nx, ny := g.ny, nz := g.nz } := by
  unfold Grid1D.add_assign
  dsimp only
  rw [int_size_eq _ _ _ (by have := hg.1; omega) hg.2.2,
    foldl_update_eq_map (fun _ x => x + x) 0 _ _ hg.2.1]

/-- The offset of in-bounds natural indices in a grid of natural dimensions
whose product is in the range of `int`. -/
theorem grid1d_offset_natCast (data : List α) (nx ny nz i j k : Nat) (hi : i < nx)
    (hj : j < ny) (hk : k < nz) (hb : nx * ny * nz < 2147483648) :
    Grid1D.offset ({ data := data, nx := nx, ny := ny, nz := nz } : Grid1D α) i j k
      = ((i * ny * nz + j * nz + k : Nat) : Int) := by
  have hlt := offset_lt nx ny nz i j k hi hj hk
  have hc : ((i * ny * nz + j * nz + k : Nat) : Int) = (i : Int) * ny * nz + j * nz + k := by
    push_cast
    ring
  unfold Grid1D.offset
  dsimp only
  rw [int_offset_eq _ _ _ _ _ (by rw [← hc]; omega) (by rw [← hc]; omega), hc]

/-- The read of a well-formed `Grid1D` of natural dimensions at in-bounds
natural indices. -/
theorem grid1d_get_natCast (data : List α) (nx ny nz i j k : Nat) (hi : i < nx) (hj : j < ny)
    (hk : k < nz) (hb : nx * ny * nz < 2147483648) (hlen : data.length = nx * ny * nz) :
    Grid1D.get ({ data := data, nx := nx, ny := ny, nz := nz } : Grid1D α) i j k
      = Except.ok (data.getD (i * ny * nz + j * nz + k) 0) := by
  have hlt := offset_lt nx ny nz i j k hi hj hk
  unfold Grid1D.get
  rw [if_neg (by dsimp only; omega), grid1d_offset_natCast _ _ _ _ _ _ _ hi hj hk hb,
    if_neg (by dsimp only; omega), Int.toNat_natCast]

/-- The write of a well-formed `Grid1D` of natural dimensions at in-bounds
natural indices. -/
theorem grid1d_set_natCast (data : List α) (nx ny nz i j k : Nat) (v : α) (hi : i < nx)
    (hj : j < ny) (hk : k < nz) (hb : nx * ny * nz < 2147483648)
    (hlen : data.length = nx * ny * nz) :
    Grid1D.set ({ data := data, nx := nx, ny := ny, nz := nz } : Grid1D α) i j k v
      = Except.ok { data := data.set (i * ny * nz + j * nz + k) v, nx := nx, ny := ny, nz := nz } := by
  have hlt := offset_lt nx ny nz i j k hi hj hk
  unfold Grid1D.set
  rw [if_neg (by dsimp only; omega), grid1d_offset_natCast _ _ _ _ _ _ _ hi hj hk hb,
    if_neg (by dsimp only; omega), Int.toNat_natCast]

end Grid1DLemmas

section Grid1DClaims

variable {α : Type} [Zero α] [One α] [Add α] [Mul α]

/-- C26, as stated, fails when the product of the dimensions overflows:
`Grid1D(65536, 65536, 1)` returns a grid with no element, since the `int`
product `nx * ny * nz` is 0; the index `(0, 0, 0)` is in bounds, its offset 0
is not below that product, and `set(0, 0, 0, v)` and the read at `(0, 0, 0)`
pass the bounds check and access `data[0]` outside the array. -/
theorem grid1d_overflowing_size :
    (Grid1D.ctor 65536 65536 1 : Except GridError (Grid1D Int))
      = Except.ok { data := [], nx := 65536, ny := 65536, nz := 1 } ∧
    Grid1D.getSize ({ data := [], nx := 65536, ny := 65536, nz := 1 } : Grid1D Int) = 0 ∧
    Grid1D.offset ({ data := [], nx := 65536, ny := 65536, nz := 1 } : Grid1D Int) 0 0 0 = 0 ∧
    Grid1D.set ({ data := [], nx := 65536, ny := 65536, nz := 1 } : Grid1D Int) 0 0 0 7
      = Except.error GridError.out_of_array ∧
    Grid1D.get ({ data := [], nx := 65536, ny := 65536, nz := 1 } : Grid1D Int) 0 0 0
      = Except.error GridError.out_of_array := by
  exact ⟨rfl, rfl, rfl, rfl, rfl⟩

/-- C26, amended: for dimensions whose product `nx * ny * nz` is not
negative and below `2^31` the constructor returns a well-formed grid; for
every well-formed `Grid1D` (its array has `nx * ny * nz` slots, a number
below `2^31`) and all in-bounds `(i, j, k)` and `(i', j', k')`,
`set(i, j, k, v)` returns normally and keeps the grid well formed and its
dimensions, and afterwards the read at `(i', j', k')` returns `v` if
`(i', j', k') = (i, j, k)` and the value it had before otherwise; the offset
computed is `i * ny * nz + j * nz + k`, lies in `[0, nx * ny * nz)` and is
injective on in-bounds triples. -/
theorem grid1d_read_after_write (g : Grid1D α) (hg : g.wf) (i j k i' j' k' : Int) (v : α)
    (hi : 0 ≤ i ∧ i < g.nx) (hj : 0 ≤ j ∧ j < g.ny) (hk : 0 ≤ k ∧ k < g.nz)
    (hi' : 0 ≤ i' ∧ i' < g.nx) (hj' : 0 ≤ j' ∧ j' < g.ny) (hk' : 0 ≤ k' ∧ k' < g.nz) :
    (∀ nx ny nz : Int, 0 ≤ nx * ny * nz → nx * ny * nz < 2147483648 →
      ∃ g0 : Grid1D α, Grid1D.ctor nx ny nz = Except.ok g0 ∧ g0.wf ∧
        g0.nx = nx ∧ g0.ny = ny ∧ g0.nz = nz) ∧
    (∃ g', g.set i j k v = Except.ok g' ∧ g'.wf ∧
      g'.nx = g.nx ∧ g'.ny = g.ny ∧ g'.nz = g.nz ∧
      g'.get i' j' k' = if i' = i ∧ j' = j ∧ k' = k then Except.ok v else g.get i' j' k') ∧
    g.offset i j k = i * g.ny * g.nz + j * g.nz + k ∧
    0 ≤ g.offset i j k ∧ g.offset i j k < g.nx * g.ny * g.nz ∧
    (g.offset i' j' k' = g.offset i j k ↔ i' = i ∧ j' = j ∧ k' = k) := by
  refine ⟨fun nx ny nz h0 h1 => ⟨_, grid1d_ctor_eq nx ny nz h0 h1,
    ⟨h0, List.length_replicate _ _, h1⟩, rfl, rfl, rfl⟩, ?_⟩
  obtain ⟨data, nx, ny, nz⟩ := g
  obtain ⟨hi0, hi1⟩ := hi
  obtain ⟨hj0, hj1⟩ := hj
  obtain ⟨hk0, hk1⟩ := hk
  obtain ⟨hi0', hi1'⟩ := hi'
  obtain ⟨hj0', hj1'⟩ := hj'
  obtain ⟨hk0', hk1'⟩ := hk'
  obtain ⟨hp, hlen, hbound⟩ := hg
  dsimp only at hi1 hj1 hk1 hi1' hj1' hk1' hp hlen hbound
  lift i to ℕ using hi0
  lift j to ℕ using hj0
  lift k to ℕ using hk0
  lift i' to ℕ using hi0'
  lift j' to ℕ using hj0'
  lift k' to ℕ using hk0'
  lift nx to ℕ using (by omega)
  lift ny to ℕ using (by omega)
  lift nz to ℕ using (by omega)
  have hlen' : data.length = nx * ny * nz := by
    rw [hlen]; exact_mod_cast Int.toNat_natCast (nx * ny * nz)
  have hb : nx * ny * nz < 2147483648 := by exact_mod_cast hbound
  have hi2 : i < nx := by exact_mod_cast hi1
  have hj2 : j < ny := by exact_mod_cast hj1
  have hk2 : k < nz := by exact_mod_cast hk1
  have hi2' : i' < nx := by exact_mod_cast hi1'
  have hj2' : j' < ny := by exact_mod_cast hj1'
  have hk2' : k' < nz := by exact_mod_cast hk1'
  have hlt := offset_lt nx ny nz i j k hi2 hj2 hk2
  have hinj : i' * ny * nz + j' * nz + k' = i * ny * nz + j * nz + k ↔
      i' = i ∧ j' = j ∧ k' = k :=
    ⟨offset_inj ny nz i' j' k' i j k hj2' hk2' hj2 hk2, fun ⟨e1, e2, e3⟩ => by rw [e1, e2, e3]⟩
  have hoff := grid1d_offset_natCast data nx ny nz i j k hi2 hj2 hk2 hb
  have hoff' := grid1d_offset_natCast data nx ny nz i' j' k' hi2' hj2' hk2' hb
  refine ⟨⟨{ data := data.set (i * ny * nz + j * nz + k) v, nx := nx, ny := ny, nz := nz },
    grid1d_set_natCast data nx ny nz i j k v hi2 hj2 hk2 hb hlen',
    ⟨hp, ?_, hbound⟩, rfl, rfl, rfl, ?_⟩, ?_, ?_, ?_, ?_⟩
  · dsimp only
    rw [List.length_set]; exact hlen
  · rw [grid1d_get_natCast _ nx ny nz i' j' k' hi2' hj2' hk2' hb
        (by rw [List.length_set]; exact hlen'),
      grid1d_get_natCast _ nx ny nz i' j' k' hi2' hj2' hk2' hb hlen']
    by_cases he : i' = i ∧ j' = j ∧ k' = k
    · have he' : (i' : Int) = i ∧ (j' : Int) = j ∧ (k' : Int) = k := by
        obtain ⟨e1, e2, e3⟩ := he
        exact ⟨by rw [e1], by rw [e2], by rw [e3]⟩
      rw [if_pos he', hinj.mpr he, HW9.getD_set_self _ _ _ _ (by rw [hlen']; exact hlt)]
    · have he' : ¬ ((i' : Int) = i ∧ (j' : Int) = j ∧ (k' : Int) = k) := by
        intro h
        exact he ⟨by exact_mod_cast h.1, by exact_mod_cast h.2.1, by exact_mod_cast h.2.2⟩
      rw [if_neg he', HW9.getD_set_ne _ _ _ _ _ (fun h => he (hinj.mp h.symm))]
  · rw [hoff]
    dsimp only
    push_cast
    ring
  · rw [hoff]; exact Int.natCast_nonneg _
  · rw [hoff]
    dsimp only
    exact_mod_cast hlt
  · rw [hoff, hoff']
    constructor
    · intro h
      have h' : i' * ny * nz + j' * nz + k' = i * ny * nz + j * nz + k := by exact_mod_cast h
      obtain ⟨e1, e2, e3⟩ := hinj.mp h'
      exact ⟨by rw [e1], by rw [e2], by rw [e3]⟩
    · rintro ⟨e1, e2, e3⟩
      have e1' : i' = i := by exact_mod_cast e1
      have e2' : j' = j := by exact_mod_cast e2
      have e3' : k' = k := by exact_mod_cast e3
      rw [e1', e2', e3']

theorem grid1d_read_after_write_witness :
    ∃ g', ({ data := List.replicate 12 0, nx := 2, ny := 2, nz := 3 } : Grid1D ℚ).set 1 0 2 5
        = Except.ok g' ∧ g'.wf ∧ g'.nx = 2 ∧ g'.ny = 2 ∧ g'.nz = 3 ∧
      g'.get 0 1 1 = if (0 : Int) = 1 ∧ (1 : Int) = 0 ∧ (1 : Int) = 2 then Except.ok 5
        else ({ data := List.replicate 12 0, nx := 2, ny := 2, nz := 3 } : Grid1D ℚ).get 0 1 1 :=
  (grid1d_read_after_write
    ({ data := List.replicate 12 0, nx := 2, ny := 2, nz := 3 } : Grid1D ℚ)
    ⟨by decide, by decide, by decide⟩ 1 0 2 0 1 1 5 (by decide) (by decide) (by decide)
    (by decide) (by decide) (by decide)).2.1

/-- C28, as stated, fails when the product of the dimensions overflows: for
the grids `a` and `b` that `Grid1D(65536, 65536, 1)` returns, `a + b` and
`a += b` return a grid with no element, and the reads of `a`, `b` and
`a + b` at the in-bounds index `(0, 0, 0)` access `data[0]` outside the
array. -/
theorem grid1d_overflowing_sum :
    (Grid1D.ctor 65536 65536 1 : Except GridError (Grid1D Int))
      = Except.ok { data := [], nx := 65536, ny := 65536, nz := 1 } ∧
    Grid1D.add ({ data := [], nx := 65536, ny := 65536, nz := 1 } : Grid1D Int)
        { data := [], nx := 65536, ny := 65536, nz := 1 }
      = Except.ok { data := [], nx := 65536, ny := 65536, nz := 1 } ∧
    Grid1D.add_assign ({ data := [], nx := 65536, ny := 65536, nz := 1 } : Grid1D Int)
        (some { data := [], nx := 65536, ny := 65536, nz := 1 })
      = Except.ok { data := [], nx := 65536, ny := 65536, nz := 1 } ∧
    Grid1D.get ({ data := [], nx := 65536, ny := 65536, nz := 1 } : Grid1D Int) 0 0 0
      = Except.error GridError.out_of_array := by
  exact ⟨rfl, rfl, rfl, rfl⟩

/-- C28, amended: for well-formed grids `a` and `b` (the product
`nx * ny * nz` is not negative and below `2^31`, as the constructor requires
to allocate that many slots) of equal dimensions, `a + b` returns a
well-formed grid of the same dimensions whose element at every in-bounds
index is `a(i,j,k) + b(i,j,k)`, and `a += b` leaves in `a` the grid `a + b`;
when the dimensions differ both operators raise `std::invalid_argument`.
(The operands of `+` are taken by const reference; the model returns the new
grid and has no way to change them.) -/
theorem grid1d_addition_pointwise (a b : Grid1D α) (ha : a.wf) (hb : b.wf) :
    (a.nx = b.nx ∧ a.ny = b.ny ∧ a.nz = b.nz →
      ∃ r, a.add b = Except.ok r ∧ r.wf ∧ r.nx = a.nx ∧ r.ny = a.ny ∧ r.nz = a.nz ∧
        a.add_assign (some b) = Except.ok r ∧
        ∀ i j k : Int, 0 ≤ i ∧ i < a.nx → 0 ≤ j ∧ j < a.ny → 0 ≤ k ∧ k < a.nz →
          ∃ x y, a.get i j k = Except.ok x ∧ b.get i j k = Except.ok y ∧
            r.get i j k = Except.ok (x + y)) ∧
    (¬ (a.nx = b.nx ∧ a.ny = b.ny ∧ a.nz = b.nz) →
      a.add b = Except.error GridError.invalid_argument ∧
      a.add_assign (some b) = Except.error GridError.invalid_argument) ∧
    (∀ nx ny nz : Int, 0 ≤ nx * ny * nz → nx * ny * nz < 2147483648 →
      ∃ g0 : Grid1D α, Grid1D.ctor nx ny nz = Except.ok g0 ∧ g0.wf ∧
        g0.nx = nx ∧ g0.ny = ny ∧ g0.nz = nz) := by
  refine ⟨?_, ?_, fun nx ny nz h0 h1 => ⟨_, grid1d_ctor_eq nx ny nz h0 h1,
    ⟨h0, List.length_replicate _ _, h1⟩, rfl, rfl, rfl⟩⟩
  · rintro ⟨e1, e2, e3⟩
    have hd : ¬ (a.nx ≠ b.nx ∨ a.ny ≠ b.ny ∨ a.nz ≠ b.nz) := by
      rintro (h | h | h)
      · exact h e1
      · exact h e2
      · exact h e3
    refine ⟨_, grid1d_add_eq a b ha hd, ⟨ha.1, ?_, ha.2.2⟩, rfl, rfl, rfl,
      grid1d_add_assign_eq a b ha hd, ?_⟩
    · dsimp only
      rw [List.length_map, List.length_range]
    · intro i j k hi hj hk
      obtain ⟨adata, nx, ny, nz⟩ := a
      obtain ⟨bdata, nx', ny', nz'⟩ := b
      dsimp only at e1 e2 e3 hi hj hk ⊢
      subst e1 e2 e3
      obtain ⟨hi0, hi1⟩ := hi
      obtain ⟨hj0, hj1⟩ := hj
      obtain ⟨hk0, hk1⟩ := hk
      obtain ⟨hpa, hlena, hbounda⟩ := ha
      obtain ⟨hpb, hlenb, hboundb⟩ := hb
      dsimp only at hpa hlena hbounda hpb hlenb hboundb
      lift i to ℕ using hi0
      lift j to ℕ using hj0
      lift k to ℕ using hk0
      lift nx to ℕ using (by omega)
      lift ny to ℕ using (by omega)
      lift nz to ℕ using (by omega)
      have hi2 : i < nx := by exact_mod_cast hi1
      have hj2 : j < ny := by exact_mod_cast hj1
      have hk2 : k < nz := by exact_mod_cast hk1
      have hlt := offset_lt nx ny nz i j k hi2 hj2 hk2
      have hn : ((nx : Int) * ny * nz).toNat = nx * ny * nz := by
        exact_mod_cast Int.toNat_natCast (nx * ny * nz)
      have hbn : nx * ny * nz < 2147483648 := by exact_mod_cast hbounda
      rw [hn] at hlena hlenb
      refine ⟨_, _, grid1d_get_natCast adata nx ny nz i j k hi2 hj2 hk2 hbn hlena,
        grid1d_get_natCast bdata nx ny nz i j k hi2 hj2 hk2 hbn hlenb, ?_⟩
      rw [grid1d_get_natCast _ nx ny nz i j k hi2 hj2 hk2 hbn
          (by rw [hn, List.length_map, List.length_range]),
        hn, getD_map_range_fn _ _ _ _ hlt]
  · intro hne
    have hd : a.nx ≠ b.nx ∨ a.ny ≠ b.ny ∨ a.nz ≠ b.nz := by
      by_contra h
      push_neg at h
      exact hne h
    constructor
    · unfold Grid1D.add
      rw [if_pos hd]
    · unfold Grid1D.add_assign
      dsimp only
      rw [if_pos hd]

theorem grid1d_addition_pointwise_witness :
    ∃ r, ({ data := [1, 2, 3, 4], nx := 2, ny := 1, nz := 2 } : Grid1D ℚ).add
        { data := [10, 20, 30, 40], nx := 2, ny := 1, nz := 2 } = Except.ok r ∧
      r.wf ∧ r.nx = 2 ∧ r.ny = 1 ∧ r.nz = 2 ∧
      ({ data := [1, 2, 3, 4], nx := 2, ny := 1, nz := 2 } : Grid1D ℚ).add_assign
        (some { data := [10, 20, 30, 40], nx := 2, ny := 1, nz := 2 }) = Except.ok r ∧
      ∀ i j k : Int, 0 ≤ i ∧ i < 2 → 0 ≤ j ∧ j < 1 → 0 ≤ k ∧ k < 2 →
        ∃ x y, ({ data := [1, 2, 3, 4], nx := 2, ny := 1, nz := 2 } : Grid1D ℚ).get i j k
            = Except.ok x ∧
          ({ data := [10, 20, 30, 40], nx := 2, ny := 1, nz := 2 } : Grid1D ℚ).get i j k
            = Except.ok y ∧
          r.get i j k = Except.ok (x + y) :=
  (grid1d_addition_pointwise
    ({ data := [1, 2, 3, 4], nx := 2, ny := 1, nz := 2 } : Grid1D ℚ)
    { data := [10, 20, 30, 40], nx := 2, ny := 1, nz := 2 }
    ⟨by decide, by decide, by decide⟩ ⟨by decide, by decide, by decide⟩).1 ⟨rfl, rfl, rfl⟩

end Grid1DClaims

section NestedLemmas

variable {β : Type}

/-- A loop whose every step rewrites slot `i` from its own content is one
rewriting of slot `i` by the loop on that content. -/
theorem foldl_lift {ι : Type} (i : Nat) (d : β) (step : β → ι → β) (l : List ι)
    (data : List β) :
    l.foldl (fun data x => data.set i (step (data.getD i d) x)) data
      = data.set i (l.foldl step (data.getD i d)) := by
  induction l generalizing data with
  | nil => exact (HW9.set_getD_same data i d).symm
  | cons x l ih =>
    rw [List.foldl_cons, ih, List.foldl_cons]
    by_cases hi : i < data.length
    · rw [HW9.getD_set_self _ _ _ _ hi, List.set_set]
    · rw [List.set_eq_of_length_le (by rw [List.length_set]; omega),
        List.set_eq_of_length_le (by omega), List.set_eq_of_length_le (by omega)]

theorem vector_resize_ok (v : List β) (n : Int) (hn : 0 ≤ n) (value : β) :
    vector_resize v n value
      = Except.ok (v.take n.toNat ++ List.replicate (n.toNat - v.length) value) := by
  unfold vector_resize
  rw [if_neg (by omega)]

end NestedLemmas

section Nested3

variable {α : Type} [Zero α] [One α] [Add α] [Mul α]

theorem get3_tab3 (a b c : Nat) (f : Nat → Nat → Nat → α) (i j k : Nat) (hi : i < a)
    (hj : j < b) (hk : k < c) : get3 (tab3 a b c f) i j k = f i j k := by
  unfold get3 tab3
  rw [getD_map_range_fn _ _ _ _ hi, getD_map_range_fn _ _ _ _ hj, getD_map_range_fn _ _ _ _ hk]

theorem shape3_tab3 (a b c : Nat) (f : Nat → Nat → Nat → α) : shape3 (tab3 a b c f) a b c := by
  unfold shape3 tab3
  refine ⟨by simp, fun i hi => ?_⟩
  rw [getD_map_range_fn _ _ _ _ hi]
  refine ⟨by simp, fun j hj => ?_⟩
  rw [getD_map_range_fn _ _ _ _ hj]
  simp

/-- A nested array of the shape `a`, `b`, `c` is the table of its
elements. -/
theorem tab3_get3 (data : List (List (List α))) (a b c : Nat) (h : shape3 data a b c) :
    tab3 a b c (get3 data) = data := by
  obtain ⟨h1, h2⟩ := h
  unfold tab3
  refine (List.map_congr_left ?_).trans (map_range_getD data [] a h1)
  intro i hi
  obtain ⟨h3, h4⟩ := h2 i (List.mem_range.mp hi)
  refine (List.map_congr_left ?_).trans (map_range_getD (data.getD i []) [] b h3)
  intro j hj
  exact map_range_getD ((data.getD i []).getD j []) 0 c (h4 j (List.mem_range.mp hj))

theorem tab3_congr (a b c : Nat) (f g : Nat → Nat → Nat → α)
    (h : ∀ i j k, i < a → j < b → k < c → f i j k = g i j k) : tab3 a b c f = tab3 a b c g := by
  unfold tab3
  apply List.map_congr_left
  intro i hi
  apply List.map_congr_left
  intro j hj
  apply List.map_congr_left
  intro k hk
  exact h i j k (List.mem_range.mp hi) (List.mem_range.mp hj) (List.mem_range.mp hk)

theorem cell_loop_eq (c : Nat) (h : Nat → α → α) (cell : List α) (hc : cell.length = c) :
    cell_loop c h cell = (List.range c).map (fun k => h k (cell.getD k 0)) :=
  foldl_update_eq_map h 0 c cell hc

theorem row_loop_eq (b c : Nat) (h : Nat → Nat → α → α) (row : List (List α))
    (hb : row.length = b) (hc : ∀ j, j < b → (row.getD j []).length = c) :
    row_loop b c h row
      = (List.range b).map (fun j => (List.range c).map (fun k => h j k ((row.getD j []).getD k 0))) := by
  unfold row_loop
  rw [foldl_update_eq_map (fun j cell => cell_loop c (h j) cell) [] b row hb]
  apply List.map_congr_left
  intro j hj
  exact cell_loop_eq c (h j) _ (hc j (List.mem_range.mp hj))

/-- The loop nest that updates `data[i][j][k]` from its old value, as a loop
over the rows. -/
theorem for3_update_eq (nx ny nz : Int) (f : Nat → Nat → Nat → α → α)
    (data : List (List (List α))) :
    for3 nx ny nz (fun data i j k => set3 data i j k (f i j k (get3 data i j k))) data
      = (List.range nx.toNat).foldl
          (fun data i => data.set i (row_loop ny.toNat nz.toNat (f i) (data.getD i []))) data := by
  unfold for3
  congr 1
  funext s i
  have hk : ∀ (j : Nat) (s : List (List (List α))),
      (List.range nz.toNat).foldl (fun s k => set3 s i j k (f i j k (get3 s i j k))) s
        = s.set i ((s.getD i []).set j (cell_loop nz.toNat (f i j) ((s.getD i []).getD j []))) := by
    intro j s
    have e1 := foldl_lift i [] (fun (row : List (List α)) (k : Nat) =>
      row.set j ((row.getD j []).set k (f i j k ((row.getD j []).getD k 0))))
      (List.range nz.toNat) s
    have e2 := foldl_lift j [] (fun (cell : List α) (k : Nat) =>
      cell.set k (f i j k (cell.getD k 0))) (List.range nz.toNat) (s.getD i [])
    unfold set3 get3
    rw [e1, e2]
    rfl
  have hj : (fun (s : List (List (List α))) (j : Nat) =>
      (List.range nz.toNat).foldl (fun s k => set3 s i j k (f i j k (get3 s i j k))) s)
      = (fun s j => s.set i ((fun (row : List (List α)) (j : Nat) =>
          row.set j (cell_loop nz.toNat (f i j) (row.getD j []))) (s.getD i []) j)) := by
    funext s j
    exact hk j s
  rw [hj, foldl_lift i [] (fun (row : List (List α)) (j : Nat) =>
      row.set j (cell_loop nz.toNat (f i j) (row.getD j []))) (List.range ny.toNat) s]
  rfl

/-- On an array of the shape of the loop bounds, the loop nest that updates
`data[i][j][k]` from its old value yields the table of the new values. -/
theorem for3_update_eq_tab3 (nx ny nz : Int) (f : Nat → Nat → Nat → α → α)
    (data : List (List (List α))) (h : shape3 data nx.toNat ny.toNat nz.toNat) :
    for3 nx ny nz (fun data i j k => set3 data i j k (f i j k (get3 data i j k))) data
      = tab3 nx.toNat ny.toNat nz.toNat (fun i j k => f i j k (get3 data i j k)) := by
  rw [for3_update_eq]
  obtain ⟨h1, h2⟩ := h
  rw [foldl_update_eq_map (fun i row => row_loop ny.toNat nz.toNat (f i) row) [] _ data h1]
  unfold tab3
  apply List.map_congr_left
  intro i hi
  obtain ⟨h3, h4⟩ := h2 i (List.mem_range.mp hi)
  rw [row_loop_eq _ _ _ _ h3 h4]
  rfl

theorem get3_set3 (data : List (List (List α))) (a b c i j k : Nat) (v : α)
    (h : shape3 data a b c) (hi : i < a) (hj : j < b) (hk : k < c) (i' j' k' : Nat) :
    get3 (set3 data i j k v) i' j' k'
      = if i' = i ∧ j' = j ∧ k' = k then v else get3 data i' j' k' := by
  obtain ⟨h1, h2⟩ := h
  obtain ⟨h3, h4⟩ := h2 i hi
  unfold get3 set3
  by_cases ei : i' = i
  · subst ei
    rw [HW9.getD_set_self _ _ _ _ (by rw [h1]; exact hi)]
    by_cases ej : j' = j
    · subst ej
      rw [HW9.getD_set_self _ _ _ _ (by rw [h3]; exact hj)]
      by_cases ek : k' = k
      · subst ek
        rw [HW9.getD_set_self _ _ _ _ (by rw [h4 _ hj]; exact hk), if_pos ⟨rfl, rfl, rfl⟩]
      · rw [HW9.getD_set_ne _ _ _ _ _ (fun e => ek e.symm), if_neg (fun e => ek e.2.2)]
    · rw [HW9.getD_set_ne _ _ _ _ _ (fun e => ej e.symm), if_neg (fun e => ej e.2.1)]
  · rw [HW9.getD_set_ne _ _ _ _ _ (fun e => ei e.symm), if_neg (fun e => ei e.1)]

theorem shape3_set3 (data : List (List (List α))) (a b c i j k : Nat) (v : α)
    (h : shape3 data a b c) : shape3 (set3 data i j k v) a b c := by
  obtain ⟨h1, h2⟩ := h
  unfold set3
  refine ⟨by rw [List.length_set]; exact h1, fun i' hi' => ?_⟩
  by_cases ei : i' = i
  · subst ei
    obtain ⟨h3, h4⟩ := h2 i' hi'
    rw [HW9.getD_set_self _ _ _ _ (by rw [h1]; exact hi')]
    refine ⟨by rw [List.length_set]; exact h3, fun j' hj' => ?_⟩
    by_cases ej : j' = j
    · subst ej
      rw [HW9.getD_set_self _ _ _ _ (by rw [h3]; exact hj'), List.length_set]
      exact h4 j' hj'
    · rw [HW9.getD_set_ne _ _ _ _ _ (fun e => ej e.symm)]
      exact h4 j' hj'
  · rw [HW9.getD_set_ne _ _ _ _ _ (fun e => ei e.symm)]
    exact h2 i' hi'

/-- The allocation of `GridNew` with non-negative dimensions: the table of
the initial values. -/
theorem gridnew_allocate_eq (nx ny nz : Int) (hx : 0 ≤ nx) (hy : 0 ≤ ny) (hz : 0 ≤ nz)
    (init : Nat → Nat → Nat → α) :
    GridNew.allocate nx ny nz init = Except.ok (tab3 nx.toNat ny.toNat nz.toNat init) := by
  unfold GridNew.allocate
  rw [new_array_ok _ hx]
  dsimp only
  rw [foldlM_ok _ (fun data i => data.set i ((List.range ny.toNat).map
      (fun j => (List.range nz.toNat).map (fun k => init i j k))))]
  · rw [foldl_update_eq_map (fun i _ => (List.range ny.toNat).map
        (fun j => (List.range nz.toNat).map (fun k => init i j k))) [] _ _
        (List.length_replicate _ _)]
    rfl
  · intro data i _
    rw [new_array_ok _ hy]
    dsimp only
    rw [foldlM_ok _ (fun row j => row.set j ((List.range nz.toNat).map (fun k => init i j k)))]
    · dsimp only
      rw [foldl_update_eq_map (fun j _ => (List.range nz.toNat).map (fun k => init i j k)) []
        _ _ (List.length_replicate _ _)]
    · intro row j _
      rw [new_array_ok _ hz]
      dsimp only
      rw [foldl_update_eq_map (fun k _ => init i j k) 0 _ _ (List.length_replicate _ _)]

/-- The constructor of `GridVec` with non-negative dimensions: the table of
zeros. -/
theorem gridvec_ctor_eq (nx ny nz : Int) (hx : 0 ≤ nx) (hy : 0 ≤ ny) (hz : 0 ≤ nz) :
    (GridVec.ctor nx ny nz : Except GridError (GridVec α))
      = Except.ok { data := tab3 nx.toNat ny.toNat nz.toNat (fun _ _ _ => 0)
                    nx := nx, ny := ny, nz := nz } := by
  unfold GridVec.ctor
  rw [vector_resize_ok _ _ hx]
  dsimp only
  rw [foldlM_ok _ (fun data i => data.set i
    ((List.range ny.toNat).foldl (fun row j => row.set j
        ((row.getD j []).take nz.toNat ++
          List.replicate (nz.toNat - (row.getD j []).length) (0 : α)))
      ((data.getD i []).take ny.toNat ++
        List.replicate (ny.toNat - (data.getD i []).length) [])))]
  · dsimp only
    rw [foldl_update_eq_map (fun (_ : Nat) (row : List (List α)) =>
      (List.range ny.toNat).foldl (fun row j => row.set j
        ((row.getD j []).take nz.toNat ++
          List.replicate (nz.toNat - (row.getD j []).length) (0 : α)))
      (row.take ny.toNat ++ List.replicate (ny.toNat - row.length) [])) [] nx.toNat _
      (by simp)]
    unfold tab3
    congr 2
    apply List.map_congr_left
    intro i hi
    have h0 : (([] : List (List (List α))).take nx.toNat ++
        List.replicate (nx.toNat - ([] : List (List (List α))).length) []).getD i [] = [] := by
      simp
    rw [h0]
    have h1 : ([] : List (List α)).take ny.toNat ++
        List.replicate (ny.toNat - ([] : List (List α)).length) []
          = List.replicate ny.toNat [] := by simp
    rw [h1, foldl_update_eq_map (fun (_ : Nat) (cell : List α) =>
      cell.take nz.toNat ++ List.replicate (nz.toNat - cell.length) (0 : α)) [] ny.toNat _
      (List.length_replicate _ _)]
    apply List.map_congr_left
    intro j hj
    rw [HW9.getD_replicate _ _ _ _ (List.mem_range.mp hj), map_range_const]
    simp
  · intro data i _
    rw [vector_resize_ok _ _ hy]
    dsimp only
    rw [foldlM_ok _ (fun row j => row.set j
        ((row.getD j []).take nz.toNat ++
          List.replicate (nz.toNat - (row.getD j []).length) (0 : α)))]
    intro row j _
    rw [vector_resize_ok _ _ hz]

end Nested3

section ViewLemmas

variable {α : Type} [Zero α] [One α] [Add α] [Mul α]

/-- The elements of a returned grid may be described by any function that
agrees at the in-bounds indices. -/
theorem returns_congr {G : Type} (V : GridView G α) (r : Except GridError G) (a b c : Int)
    (f f' : Nat → Nat → Nat → α) (h : Returns V r a b c f)
    (hf : ∀ i j k : Nat, (i : Int) < a → (j : Int) < b → (k : Int) < c → f i j k = f' i j k) :
    Returns V r a b c f' := by
  obtain ⟨g, h1, h2, h3, h4, h5, h6⟩ := h
  exact ⟨g, h1, h2, h3, h4, h5, fun i j k hi hj hk => (h6 i j k hi hj hk).trans (hf i j k hi hj hk)⟩

/-- A well-formed grid returned as it is. -/
theorem returns_same {G : Type} (V : GridView G α) (g : G) (hg : V.wf g) :
    Returns V (Except.ok g) (V.nx g) (V.ny g) (V.nz g) (V.rd g) :=
  ⟨g, rfl, hg, rfl, rfl, rfl, fun _ _ _ _ _ _ => rfl⟩

theorem gridvec_returns_tab3 (nx ny nz : Int) (hx : 0 ≤ nx) (hy : 0 ≤ ny) (hz : 0 ≤ nz)
    (F : Nat → Nat → Nat → α) :
    Returns GridVec.view
      (Except.ok ({ data := tab3 nx.toNat ny.toNat nz.toNat F, nx := nx, ny := ny, nz := nz } :
        GridVec α)) nx ny nz F :=
  ⟨_, rfl, ⟨hx, hy, hz, shape3_tab3 _ _ _ _⟩, rfl, rfl, rfl,
    fun i j k hi hj hk => get3_tab3 _ _ _ _ i j k (by omega) (by omega) (by omega)⟩

theorem gridnew_returns_tab3 (nx ny nz : Int) (hx : 0 ≤ nx) (hy : 0 ≤ ny) (hz : 0 ≤ nz)
    (F : Nat → Nat → Nat → α) :
    Returns GridNew.view
      (Except.ok ({ data := tab3 nx.toNat ny.toNat nz.toNat F, nx := nx, ny := ny, nz := nz } :
        GridNew α)) nx ny nz F :=
  ⟨_, rfl, ⟨hx, hy, hz, shape3_tab3 _ _ _ _⟩, rfl, rfl, rfl,
    fun i j k hi hj hk => get3_tab3 _ _ _ _ i j k (by omega) (by omega) (by omega)⟩

/-- The nested write at in-bounds integer indices, read back at natural
indices. -/
theorem get3_set3_int (data : List (List (List α))) (nx ny nz i j k : Int) (v : α)
    (h : shape3 data nx.toNat ny.toNat nz.toNat)
    (hb : ¬ (i < 0 ∨ i ≥ nx ∨ j < 0 ∨ j ≥ ny ∨ k < 0 ∨ k ≥ nz)) (i' j' k' : Nat) :
    get3 (set3 data i.toNat j.toNat k.toNat v) i' j' k'
      = if (i' : Int) = i ∧ (j' : Int) = j ∧ (k' : Int) = k then v else get3 data i' j' k' := by
  rw [get3_set3 data _ _ _ _ _ _ v h (by omega) (by omega) (by omega)]
  by_cases he : i' = i.toNat ∧ j' = j.toNat ∧ k' = k.toNat
  · rw [if_pos he, if_pos (by omega)]
  · rw [if_neg he, if_neg (by omega)]

/-- The specification of `GridVec`. -/
theorem gridvec_lawful : Lawful (GridVec.impl : GridImpl (GridVec α) α) GridVec.view where
  ctor_spec := by
    intro a b c ha hb hc _
    show Returns GridVec.view (GridVec.ctor a b c) a b c _
    rw [gridvec_ctor_eq a b c ha hb hc]
    exact gridvec_returns_tab3 a b c ha hb hc _
  copy_spec := by
    intro g hg
    exact returns_same GridVec.view g hg
  assign_spec := by
    intro g grid _ hg
    exact returns_same GridVec.view grid hg
  getSize_spec := fun _ => rfl
  get_spec := fun _ _ _ _ _ => rfl
  set_raise := by
    intro g i j k v _ hb
    change i < 0 ∨ i ≥ g.nx ∨ j < 0 ∨ j ≥ g.ny ∨ k < 0 ∨ k ≥ g.nz at hb
    show GridVec.set g i j k v = _
    unfold GridVec.set
    rw [if_pos hb]
  set_spec := by
    intro g i j k v hg hb
    change ¬ (i < 0 ∨ i ≥ g.nx ∨ j < 0 ∨ j ≥ g.ny ∨ k < 0 ∨ k ≥ g.nz) at hb
    show Returns GridVec.view (GridVec.set g i j k v) g.nx g.ny g.nz _
    unfold GridVec.set
    rw [if_neg hb]
    exact ⟨_, rfl, ⟨hg.1, hg.2.1, hg.2.2.1, shape3_set3 _ _ _ _ _ _ _ _ hg.2.2.2⟩, rfl, rfl, rfl,
      fun i' j' k' _ _ _ => get3_set3_int g.data g.nx g.ny g.nz i j k v hg.2.2.2 hb i' j' k'⟩
  add_raise := by
    intro g grid _ _ hd
    change g.nx ≠ grid.nx ∨ g.ny ≠ grid.ny ∨ g.nz ≠ grid.nz at hd
    show GridVec.add g grid = _
    unfold GridVec.add
    rw [if_pos hd]
  add_spec := by
    intro g grid hg _ hd
    change ¬ (g.nx ≠ grid.nx ∨ g.ny ≠ grid.ny ∨ g.nz ≠ grid.nz) at hd
    show Returns GridVec.view (GridVec.add g grid) g.nx g.ny g.nz _
    unfold GridVec.add
    rw [if_neg hd, gridvec_ctor_eq _ _ _ hg.1 hg.2.1 hg.2.2.1]
    dsimp only
    rw [for3_update_eq_tab3 g.nx g.ny g.nz
      (fun i j k _ => get3 g.data i j k + get3 grid.data i j k) _ (shape3_tab3 _ _ _ _)]
    exact gridvec_returns_tab3 _ _ _ hg.1 hg.2.1 hg.2.2.1 _
  mul_spec := by
    intro g factor hg
    show Returns GridVec.view (GridVec.mul g factor) g.nx g.ny g.nz _
    unfold GridVec.mul
    rw [gridvec_ctor_eq _ _ _ hg.1 hg.2.1 hg.2.2.1]
    dsimp only
    rw [for3_update_eq_tab3 g.nx g.ny g.nz
      (fun i j k _ => get3 g.data i j k * factor) _ (shape3_tab3 _ _ _ _)]
    exact gridvec_returns_tab3 _ _ _ hg.1 hg.2.1 hg.2.2.1 _
  mul_friend_spec := fun _ _ => rfl
  incr_spec := by
    intro g hg
    show Returns GridVec.view (Except.ok (GridVec.incr g)) g.nx g.ny g.nz _
    unfold GridVec.incr
    rw [for3_update_eq_tab3 g.nx g.ny g.nz (fun _ _ _ x => x + 1) _ hg.2.2.2]
    exact gridvec_returns_tab3 _ _ _ hg.1 hg.2.1 hg.2.2.1 _
  add_assign_raise := by
    intro g grid _ _ hd
    change g.nx ≠ grid.nx ∨ g.ny ≠ grid.ny ∨ g.nz ≠ grid.nz at hd
    show GridVec.add_assign g (some grid) = _
    unfold GridVec.add_assign
    dsimp only
    rw [if_pos hd]
  add_assign_spec := by
    intro g grid hg _ hd
    change ¬ (g.nx ≠ grid.nx ∨ g.ny ≠ grid.ny ∨ g.nz ≠ grid.nz) at hd
    show Returns GridVec.view (GridVec.add_assign g (some grid)) g.nx g.ny g.nz _
    unfold GridVec.add_assign
    dsimp only
    rw [if_neg hd, for3_update_eq_tab3 g.nx g.ny g.nz
      (fun i j k x => x + get3 grid.data i j k) _ hg.2.2.2]
    exact gridvec_returns_tab3 _ _ _ hg.1 hg.2.1 hg.2.2.1 _
  add_assign_self_spec := by
    intro g hg
    show Returns GridVec.view (GridVec.add_assign g none) g.nx g.ny g.nz _
    unfold GridVec.add_assign
    dsimp only
    rw [for3_update_eq_tab3 g.nx g.ny g.nz (fun _ _ _ x => x + x) _ hg.2.2.2]
    exact gridvec_returns_tab3 _ _ _ hg.1 hg.2.1 hg.2.2.1 _

/-- The constructor of `GridNew` with non-negative dimensions: the table of
zeros. -/
theorem gridnew_ctor_eq (nx ny nz : Int) (hx : 0 ≤ nx) (hy : 0 ≤ ny) (hz : 0 ≤ nz) :
    (GridNew.ctor nx ny nz : Except GridError (GridNew α))
      = Except.ok { data := tab3 nx.toNat ny.toNat nz.toNat (fun _ _ _ => 0)
                    nx := nx, ny := ny, nz := nz } := by
  unfold GridNew.ctor
  rw [gridnew_allocate_eq nx ny nz hx hy hz]

/-- The specification of `GridNew`. -/
theorem gridnew_lawful : Lawful (GridNew.impl : GridImpl (GridNew α) α) GridNew.view where
  ctor_spec := by
    intro a b c ha hb hc _
    show Returns GridNew.view (GridNew.ctor a b c) a b c _
    rw [gridnew_ctor_eq a b c ha hb hc]
    exact gridnew_returns_tab3 a b c ha hb hc _
  copy_spec := by
    intro g hg
    show Returns GridNew.view (GridNew.copy_ctor g) g.nx g.ny g.nz _
    unfold GridNew.copy_ctor
    rw [gridnew_allocate_eq _ _ _ hg.1 hg.2.1 hg.2.2.1]
    exact gridnew_returns_tab3 _ _ _ hg.1 hg.2.1 hg.2.2.1 _
  assign_spec := by
    intro g grid _ hg
    show Returns GridNew.view (GridNew.assign g grid) grid.nx grid.ny grid.nz _
    unfold GridNew.assign
    rw [gridnew_allocate_eq _ _ _ hg.1 hg.2.1 hg.2.2.1]
    exact gridnew_returns_tab3 _ _ _ hg.1 hg.2.1 hg.2.2.1 _
  getSize_spec := fun _ => rfl
  get_spec := fun _ _ _ _ _ => rfl
  set_raise := by
    intro g i j k v _ hb
    change i < 0 ∨ i ≥ g.nx ∨ j < 0 ∨ j ≥ g.ny ∨ k < 0 ∨ k ≥ g.nz at hb
    show GridNew.set g i j k v = _
    unfold GridNew.set
    rw [if_pos hb]
  set_spec := by
    intro g i j k v hg hb
    change ¬ (i < 0 ∨ i ≥ g.nx ∨ j < 0 ∨ j ≥ g.ny ∨ k < 0 ∨ k ≥ g.nz) at hb
    show Returns GridNew.view (GridNew.set g i j k v) g.nx g.ny g.nz _
    unfold GridNew.set
    rw [if_neg hb]
    exact ⟨_, rfl, ⟨hg.1, hg.2.1, hg.2.2.1, shape3_set3 _ _ _ _ _ _ _ _ hg.2.2.2⟩, rfl, rfl, rfl,
      fun i' j' k' _ _ _ => get3_set3_int g.data g.nx g.ny g.nz i j k v hg.2.2.2 hb i' j' k'⟩
  add_raise := by
    intro g grid _ _ hd
    change g.nx ≠ grid.nx ∨ g.ny ≠ grid.ny ∨ g.nz ≠ grid.nz at hd
    show GridNew.add g grid = _
    unfold GridNew.add
    rw [if_pos hd]
  add_spec := by
    intro g grid hg _ hd
    change ¬ (g.nx ≠ grid.nx ∨ g.ny ≠ grid.ny ∨ g.nz ≠ grid.nz) at hd
    show Returns GridNew.view (GridNew.add g grid) g.nx g.ny g.nz _
    unfold GridNew.add
    rw [if_neg hd, gridnew_ctor_eq _ _ _ hg.1 hg.2.1 hg.2.2.1]
    dsimp only
    rw [for3_update_eq_tab3 g.nx g.ny g.nz
      (fun i j k _ => get3 g.data i j k + get3 grid.data i j k) _ (shape3_tab3 _ _ _ _)]
    exact gridnew_returns_tab3 _ _ _ hg.1 hg.2.1 hg.2.2.1 _
  mul_spec := by
    intro g factor hg
    show Returns GridNew.view (GridNew.mul g factor) g.nx g.ny g.nz _
    unfold GridNew.mul
    rw [gridnew_ctor_eq _ _ _ hg.1 hg.2.1 hg.2.2.1]
    dsimp only
    rw [for3_update_eq_tab3 g.nx g.ny g.nz
      (fun i j k _ => get3 g.data i j k * factor) _ (shape3_tab3 _ _ _ _)]
    exact gridnew_returns_tab3 _ _ _ hg.1 hg.2.1 hg.2.2.1 _
  mul_friend_spec := fun _ _ => rfl
  incr_spec := by
    intro g hg
    show Returns GridNew.view (Except.ok (GridNew.incr g)) g.nx g.ny g.nz _
    unfold GridNew.incr
    rw [for3_update_eq_tab3 g.nx g.ny g.nz (fun _ _ _ x => x + 1) _ hg.2.2.2]
    exact gridnew_returns_tab3 _ _ _ hg.1 hg.2.1 hg.2.2.1 _
  add_assign_raise := by
    intro g grid _ _ hd
    change g.nx ≠ grid.nx ∨ g.ny ≠ grid.ny ∨ g.nz ≠ grid.nz at hd
    show GridNew.add_assign g (some grid) = _
    unfold GridNew.add_assign
    dsimp only
    rw [if_pos hd]
  add_assign_spec := by
    intro g grid hg _ hd
    change ¬ (g.nx ≠ grid.nx ∨ g.ny ≠ grid.ny ∨ g.nz ≠ grid.nz) at hd
    show Returns GridNew.view (GridNew.add_assign g (some grid)) g.nx g.ny g.nz _
    unfold GridNew.add_assign
    dsimp only
    rw [if_neg hd, for3_update_eq_tab3 g.nx g.ny g.nz
      (fun i j k x => x + get3 grid.data i j k) _ hg.2.2.2]
    exact gridnew_returns_tab3 _ _ _ hg.1 hg.2.1 hg.2.2.1 _
  add_assign_self_spec := by
    intro g hg
    show Returns GridNew.view (GridNew.add_assign g none) g.nx g.ny g.nz _
    unfold GridNew.add_assign
    dsimp only
    rw [for3_update_eq_tab3 g.nx g.ny g.nz (fun _ _ _ x => x + x) _ hg.2.2.2]
    exact gridnew_returns_tab3 _ _ _ hg.1 hg.2.1 hg.2.2.1 _

/-- A grid that is well formed in the view has as many slots as the product
of its dimensions, which is not negative. -/
theorem grid1d_wf_of_view (g : Grid1D α) (hg : Grid1D.view.wf g) : g.wf :=
  ⟨mul_nonneg (mul_nonneg hg.1 hg.2.1) hg.2.2.1, hg.2.2.2.1, hg.2.2.2.2⟩

/-- In a well-formed grid the `int` offset of an in-bounds index is the exact
offset, and it lies inside the array. -/
theorem grid1d_offset_in_array (g : Grid1D α) (hg : Grid1D.view.wf g) (i j k : Int)
    (hb : ¬ (i < 0 ∨ i ≥ g.nx ∨ j < 0 ∨ j ≥ g.ny ∨ k < 0 ∨ k ≥ g.nz)) :
    g.offset i j k = i * g.ny * g.nz + j * g.nz + k ∧
    ¬ (g.offset i j k < 0 ∨ (g.data.length : Int) ≤ g.offset i j k) := by
  obtain ⟨data, nx, ny, nz⟩ := g
  obtain ⟨hx, hy, hz, hlen, hbound⟩ := hg
  dsimp only at hx hy hz hlen hbound hb ⊢
  lift nx to ℕ using hx
  lift ny to ℕ using hy
  lift nz to ℕ using hz
  lift i to ℕ using (by omega)
  lift j to ℕ using (by omega)
  lift k to ℕ using (by omega)
  have hi : i < nx := by omega
  have hj : j < ny := by omega
  have hk : k < nz := by omega
  have hbn : nx * ny * nz < 2147483648 := by exact_mod_cast hbound
  have hlen' : data.length = nx * ny * nz := by
    rw [hlen]; exact_mod_cast Int.toNat_natCast (nx * ny * nz)
  have hlt := offset_lt nx ny nz i j k hi hj hk
  rw [grid1d_offset_natCast data nx ny nz i j k hi hj hk hbn]
  refine ⟨by push_cast; ring, ?_⟩
  omega

theorem grid1d_returns_map (nx ny nz : Int) (hx : 0 ≤ nx) (hy : 0 ≤ ny) (hz : 0 ≤ nz)
    (hbd : nx * ny * nz < 2147483648) (F : Nat → α) :
    Returns Grid1D.view
      (Except.ok ({ data := (List.range (nx * ny * nz).toNat).map F
                    nx := nx, ny := ny, nz := nz } : Grid1D α)) nx ny nz
      (fun i j k => F (i * ny.toNat * nz.toNat + j * nz.toNat + k)) := by
  refine ⟨_, rfl, ⟨hx, hy, hz, by simp, hbd⟩, rfl, rfl, rfl, fun i j k hi hj hk => ?_⟩
  show ((List.range (nx * ny * nz).toNat).map F).getD
    (i * ny.toNat * nz.toNat + j * nz.toNat + k) 0 = F (i * ny.toNat * nz.toNat + j * nz.toNat + k)
  rw [getD_map_range_fn]
  rw [toNat_mul3 nx ny nz hx hy hz]
  exact offset_lt _ _ _ i j k (by omega) (by omega) (by omega)

/-- The specification of `Grid1D`. -/
theorem grid1d_lawful : Lawful (Grid1D.impl : GridImpl (Grid1D α) α) Grid1D.view where
  ctor_spec := by
    intro a b c ha hb hc hbd
    show Returns Grid1D.view (Grid1D.ctor a b c) a b c _
    rw [grid1d_ctor_eq a b c (mul_nonneg (mul_nonneg ha hb) hc) hbd, ← map_range_const]
    exact grid1d_returns_map a b c ha hb hc hbd (fun _ => 0)
  copy_spec := by
    intro g hg
    show Returns Grid1D.view (Grid1D.copy_ctor g) g.nx g.ny g.nz _
    rw [grid1d_copy_ctor_eq g (grid1d_wf_of_view g hg)]
    exact returns_same Grid1D.view g hg
  assign_spec := by
    intro g grid _ hg
    show Returns Grid1D.view (Grid1D.assign g grid) grid.nx grid.ny grid.nz _
    rw [grid1d_assign_eq g grid (grid1d_wf_of_view grid hg)]
    exact returns_same Grid1D.view grid hg
  getSize_spec := fun _ => rfl
  get_spec := by
    intro g i j k hg
    show Grid1D.get g i j k = if i < 0 ∨ i ≥ g.nx ∨ j < 0 ∨ j ≥ g.ny ∨ k < 0 ∨ k ≥ g.nz then _
      else Except.ok (g.data.getD (i.toNat * g.ny.toNat * g.nz.toNat + j.toNat * g.nz.toNat
        + k.toNat) 0)
    unfold Grid1D.get
    by_cases hb : i < 0 ∨ i ≥ g.nx ∨ j < 0 ∨ j ≥ g.ny ∨ k < 0 ∨ k ≥ g.nz
    · rw [if_pos hb, if_pos hb]
    · rw [if_neg hb, if_neg hb, if_neg (grid1d_offset_in_array g hg i j k hb).2,
        (grid1d_offset_in_array g hg i j k hb).1,
        toNat_offset g.ny g.nz i j k hg.2.1 hg.2.2.1 (by omega) (by omega) (by omega)]
  set_raise := by
    intro g i j k v _ hb
    change i < 0 ∨ i ≥ g.nx ∨ j < 0 ∨ j ≥ g.ny ∨ k < 0 ∨ k ≥ g.nz at hb
    show Grid1D.set g i j k v = _
    unfold Grid1D.set
    rw [if_pos hb]
  set_spec := by
    intro g i j k v hg hb
    change ¬ (i < 0 ∨ i ≥ g.nx ∨ j < 0 ∨ j ≥ g.ny ∨ k < 0 ∨ k ≥ g.nz) at hb
    show Returns Grid1D.view (Grid1D.set g i j k v) g.nx g.ny g.nz _
    unfold Grid1D.set
    rw [if_neg hb, if_neg (grid1d_offset_in_array g hg i j k hb).2,
      (grid1d_offset_in_array g hg i j k hb).1,
      toNat_offset g.ny g.nz i j k hg.2.1 hg.2.2.1 (by omega) (by omega) (by omega)]
    have hlen : g.data.length = g.nx.toNat * g.ny.toNat * g.nz.toNat := by
      rw [hg.2.2.2.1, toNat_mul3 _ _ _ hg.1 hg.2.1 hg.2.2.1]
    refine ⟨_, rfl, ⟨hg.1, hg.2.1, hg.2.2.1, ?_, hg.2.2.2.2⟩, rfl, rfl, rfl,
      fun i' j' k' hi hj hk => ?_⟩
    · show (g.data.set _ v).length = _
      rw [List.length_set]; exact hg.2.2.2.1
    · change (i' : Int) < g.nx at hi
      change (j' : Int) < g.ny at hj
      change (k' : Int) < g.nz at hk
      show (g.data.set _ v).getD (i' * g.ny.toNat * g.nz.toNat + j' * g.nz.toNat + k') 0
        = if (i' : Int) = i ∧ (j' : Int) = j ∧ (k' : Int) = k then v
          else g.data.getD (i' * g.ny.toNat * g.nz.toNat + j' * g.nz.toNat + k') 0
      by_cases he : (i' : Int) = i ∧ (j' : Int) = j ∧ (k' : Int) = k
      · have e1 : i.toNat = i' := by omega
        have e2 : j.toNat = j' := by omega
        have e3 : k.toNat = k' := by omega
        rw [if_pos he, e1, e2, e3, HW9.getD_set_self _ _ _ _ (by
          rw [hlen]
          exact offset_lt _ _ _ i' j' k' (by omega) (by omega) (by omega))]
      · rw [if_neg he, HW9.getD_set_ne]
        intro h
        obtain ⟨e1, e2, e3⟩ := offset_inj g.ny.toNat g.nz.toNat _ _ _ _ _ _
          (by omega) (by omega) (by omega) (by omega) h
        exact he (by omega)
  add_raise := by
    intro g grid _ _ hd
    change g.nx ≠ grid.nx ∨ g.ny ≠ grid.ny ∨ g.nz ≠ grid.nz at hd
    show Grid1D.add g grid = _
    unfold Grid1D.add
    rw [if_pos hd]
  add_spec := by
    intro g grid hg _ hd
    change ¬ (g.nx ≠ grid.nx ∨ g.ny ≠ grid.ny ∨ g.nz ≠ grid.nz) at hd
    show Returns Grid1D.view (Grid1D.add g grid) g.nx g.ny g.nz _
    rw [grid1d_add_eq g grid (grid1d_wf_of_view g hg) hd]
    refine returns_congr _ _ _ _ _ _ _
      (grid1d_returns_map g.nx g.ny g.nz hg.1 hg.2.1 hg.2.2.1 hg.2.2.2.2 _) ?_
    intro i j k _ _ _
    have e2 : grid.ny = g.ny := by
      by_contra h; exact hd (Or.inr (Or.inl (fun e => h e.symm)))
    have e3 : grid.nz = g.nz := by
      by_contra h; exact hd (Or.inr (Or.inr (fun e => h e.symm)))
    show _ = g.data.getD _ 0 + grid.data.getD (i * grid.ny.toNat * grid.nz.toNat
      + j * grid.nz.toNat + k) 0
    rw [e2, e3]
  mul_spec := by
    intro g factor hg
    show Returns Grid1D.view (Grid1D.mul g factor) g.nx g.ny g.nz _
    rw [grid1d_mul_eq g factor (grid1d_wf_of_view g hg)]
    exact grid1d_returns_map g.nx g.ny g.nz hg.1 hg.2.1 hg.2.2.1 hg.2.2.2.2 _
  mul_friend_spec := fun _ _ => rfl
  incr_spec := by
    intro g hg
    show Returns Grid1D.view (Except.ok (Grid1D.incr g)) g.nx g.ny g.nz _
    rw [grid1d_incr_eq g (grid1d_wf_of_view g hg)]
    exact grid1d_returns_map g.nx g.ny g.nz hg.1 hg.2.1 hg.2.2.1 hg.2.2.2.2 _
  add_assign_raise := by
    intro g grid _ _ hd
    change g.nx ≠ grid.nx ∨ g.ny ≠ grid.ny ∨ g.nz ≠ grid.nz at hd
    show Grid1D.add_assign g (some grid) = _
    unfold Grid1D.add_assign
    dsimp only
    rw [if_pos hd]
  add_assign_spec := by
    intro g grid hg _ hd
    change ¬ (g.nx ≠ grid.nx ∨ g.ny ≠ grid.ny ∨ g.nz ≠ grid.nz) at hd
    show Returns Grid1D.view (Grid1D.add_assign g (some grid)) g.nx g.ny g.nz _
    rw [grid1d_add_assign_eq g grid (grid1d_wf_of_view g hg) hd]
    refine returns_congr _ _ _ _ _ _ _
      (grid1d_returns_map g.nx g.ny g.nz hg.1 hg.2.1 hg.2.2.1 hg.2.2.2.2 _) ?_
    intro i j k _ _ _
    have e2 : grid.ny = g.ny := by
      by_contra h; exact hd (Or.inr (Or.inl (fun e => h e.symm)))
    have e3 : grid.nz = g.nz := by
      by_contra h; exact hd (Or.inr (Or.inr (fun e => h e.symm)))
    show _ = g.data.getD _ 0 + grid.data.getD (i * grid.ny.toNat * grid.nz.toNat
      + j * grid.nz.toNat + k) 0
    rw [e2, e3]
  add_assign_self_spec := by
    intro g hg
    show Returns Grid1D.view (Grid1D.add_assign g none) g.nx g.ny g.nz _
    rw [grid1d_add_assign_self_eq g (grid1d_wf_of_view g hg)]
    exact grid1d_returns_map g.nx g.ny g.nz hg.1 hg.2.1 hg.2.2.1 hg.2.2.2.2 _

end ViewLemmas

section Simulation

variable {α : Type} [Zero α] [One α] [Add α] [Mul α] {G H : Type}

/-- Two results described by the same dimensions and elements are related
grids. -/
theorem returns_rel (V : GridView G α) (W : GridView H α) (r : Except GridError G)
    (r' : Except GridError H) (a b c : Int) (f f' : Nat → Nat → Nat → α)
    (h : Returns V r a b c f) (h' : Returns W r' a b c f')
    (hf : ∀ i j k : Nat, (i : Int) < a → (j : Int) < b → (k : Int) < c → f i j k = f' i j k) :
    ∃ g h, r = Except.ok g ∧ r' = Except.ok h ∧ Rel V W g h := by
  obtain ⟨g, h1, h2, h3, h4, h5, h6⟩ := h
  obtain ⟨k, k1, k2, k3, k4, k5, k6⟩ := h'
  refine ⟨g, k, h1, k1, h2, k2, h3.trans k3.symm, h4.trans k4.symm, h5.trans k5.symm, ?_⟩
  intro i j l hi hj hl
  rw [h3] at hi
  rw [h4] at hj
  rw [h5] at hl
  rw [h6 i j l hi hj hl, k6 i j l hi hj hl]
  exact hf i j l hi hj hl

theorem storeRel_nil (V : GridView G α) (W : GridView H α) : StoreRel V W [] [] :=
  ⟨rfl, fun v g h hg _ => by simp at hg⟩

theorem storeRel_lookup (V : GridView G α) (W : GridView H α) (s : List G) (t : List H)
    (hst : StoreRel V W s t) (v : Nat) :
    (s[v]? = none ∧ t[v]? = none) ∨ ∃ g h, s[v]? = some g ∧ t[v]? = some h ∧ Rel V W g h := by
  by_cases hv : v < s.length
  · have hv' : v < t.length := by rw [← hst.1]; exact hv
    right
    exact ⟨s[v], t[v], List.getElem?_eq_getElem hv, List.getElem?_eq_getElem hv',
      hst.2 v _ _ (List.getElem?_eq_getElem hv) (List.getElem?_eq_getElem hv')⟩
  · left
    exact ⟨List.getElem?_eq_none (by omega), List.getElem?_eq_none (by rw [← hst.1]; omega)⟩

theorem storeRel_append (V : GridView G α) (W : GridView H α) (s : List G) (t : List H)
    (hst : StoreRel V W s t) (g : G) (h : H) (hgh : Rel V W g h) :
    StoreRel V W (s ++ [g]) (t ++ [h]) := by
  refine ⟨by simp [hst.1], fun v g' h' hg hh => ?_⟩
  by_cases hv : v < s.length
  · rw [List.getElem?_append_left hv] at hg
    rw [List.getElem?_append_left (by rw [← hst.1]; exact hv)] at hh
    exact hst.2 v g' h' hg hh
  · have hv2 : v < (s ++ [g]).length := by
      by_contra hc
      rw [List.getElem?_eq_none (by omega)] at hg
      cases hg
    have hv3 : v = s.length := by simp at hv2; omega
    subst hv3
    rw [List.getElem?_append_right (le_refl _)] at hg
    rw [hst.1, List.getElem?_append_right (le_refl _)] at hh
    simp at hg hh
    rw [← hg, ← hh]
    exact hgh

theorem storeRel_set (V : GridView G α) (W : GridView H α) (s : List G) (t : List H)
    (hst : StoreRel V W s t) (v : Nat) (g : G) (h : H) (hgh : Rel V W g h) :
    StoreRel V W (s.set v g) (t.set v h) := by
  refine ⟨by simp [hst.1], fun u g' h' hg hh => ?_⟩
  by_cases hu : v = u
  · subst hu
    by_cases hv : v < s.length
    · rw [List.getElem?_set_self hv] at hg
      rw [List.getElem?_set_self (by rw [← hst.1]; exact hv)] at hh
      cases hg
      cases hh
      exact hgh
    · rw [List.getElem?_eq_none (by rw [List.length_set]; omega)] at hg
      cases hg
  · rw [List.getElem?_set_ne hu] at hg
    rw [List.getElem?_set_ne hu] at hh
    exact hst.2 u g' h' hg hh

/-- A declaration initialised by results that agree keeps the variables
related and gives the same event. -/
theorem declare_sim (V : GridView G α) (W : GridView H α) (s : List G) (t : List H)
    (hst : StoreRel V W s t) (r : Except GridError G) (r' : Except GridError H)
    (hr : (∃ g h, r = Except.ok g ∧ r' = Except.ok h ∧ Rel V W g h) ∨
      ∃ e, r = Except.error e ∧ r' = Except.error e) :
    ∃ s' t' ev, (declare s r : List G × GridEvent α) = (s', ev) ∧ declare t r' = (t', ev) ∧
      StoreRel V W s' t' := by
  rcases hr with ⟨g, h, e1, e2, hgh⟩ | ⟨e, e1, e2⟩
  · subst e1 e2
    exact ⟨_, _, _, rfl, rfl, storeRel_append V W s t hst g h hgh⟩
  · subst e1 e2
    exact ⟨_, _, _, rfl, rfl, hst⟩

/-- An update by results that agree keeps the variables related and gives
the same event. -/
theorem update_sim (V : GridView G α) (W : GridView H α) (s : List G) (t : List H)
    (hst : StoreRel V W s t) (v : Nat) (r : Except GridError G) (r' : Except GridError H)
    (hr : (∃ g h, r = Except.ok g ∧ r' = Except.ok h ∧ Rel V W g h) ∨
      ∃ e, r = Except.error e ∧ r' = Except.error e) :
    ∃ s' t' ev, (update s v r : List G × GridEvent α) = (s', ev) ∧ update t v r' = (t', ev) ∧
      StoreRel V W s' t' := by
  rcases hr with ⟨g, h, e1, e2, hgh⟩ | ⟨e, e1, e2⟩
  · subst e1 e2
    exact ⟨_, _, _, rfl, rfl, storeRel_set V W s t hst v g h hgh⟩
  · subst e1 e2
    exact ⟨_, _, _, rfl, rfl, hst⟩

/-- The reads of two related grids agree, exception or value. -/
theorem get_sim (I : GridImpl G α) (J : GridImpl H α) (V : GridView G α) (W : GridView H α)
    (hI : Lawful I V) (hJ : Lawful J W) (g : G) (h : H) (hgh : Rel V W g h) (i j k : Int) :
    I.get g i j k = J.get h i j k := by
  obtain ⟨w1, w2, e1, e2, e3, hrd⟩ := hgh
  rw [hI.get_spec g i j k w1, hJ.get_spec h i j k w2, ← e1, ← e2, ← e3]
  by_cases hb : i < 0 ∨ i ≥ V.nx g ∨ j < 0 ∨ j ≥ V.ny g ∨ k < 0 ∨ k ≥ V.nz g
  · rw [if_pos hb, if_pos hb]
  · rw [if_neg hb, if_neg hb, hrd _ _ _ (by omega) (by omega) (by omega)]

/-- The operations that build a grid from one related pair agree. -/
theorem unary_sim (V : GridView G α) (W : GridView H α) (g : G) (h : H) (hgh : Rel V W g h)
    (r : Except GridError G) (r' : Except GridError H) (f f' : Nat → Nat → Nat → α)
    (hr : Returns V r (V.nx g) (V.ny g) (V.nz g) f)
    (hr' : Returns W r' (W.nx h) (W.ny h) (W.nz h) f')
    (hf : ∀ i j k : Nat, (i : Int) < V.nx g → (j : Int) < V.ny g → (k : Int) < V.nz g →
      f i j k = f' i j k) :
    (∃ g' h', r = Except.ok g' ∧ r' = Except.ok h' ∧ Rel V W g' h') ∨
      ∃ e, r = Except.error e ∧ r' = Except.error e := by
  obtain ⟨w1, w2, e1, e2, e3, hrd⟩ := hgh
  rw [← e1, ← e2, ← e3] at hr'
  exact Or.inl (returns_rel V W r r' _ _ _ f f' hr hr' hf)

/-- One statement run by two lawful classes on related variables: both runs
reject it, or both produce the same event and related variables. -/
theorem step_sim (I : GridImpl G α) (J : GridImpl H α) (V : GridView G α) (W : GridView H α)
    (hI : Lawful I V) (hJ : Lawful J W) (s : List G) (t : List H) (hst : StoreRel V W s t)
    (c : GridCmd α) (hc : c.small_dims) :
    (step I s c = none ∧ step J t c = none) ∨
      ∃ s' t' ev, step I s c = some (s', ev) ∧ step J t c = some (t', ev) ∧
        StoreRel V W s' t' := by
  cases c with
  | ctor nx ny nz =>
    right
    obtain ⟨s', t', ev, h1, h2, h3⟩ := declare_sim V W s t hst (I.ctor nx ny nz) (J.ctor nx ny nz)
      (Or.inl (returns_rel V W _ _ nx ny nz _ _ (hI.ctor_spec nx ny nz hc.1 hc.2.1 hc.2.2.1 hc.2.2.2)
        (hJ.ctor_spec nx ny nz hc.1 hc.2.1 hc.2.2.1 hc.2.2.2) (fun _ _ _ _ _ _ => rfl)))
    exact ⟨s', t', ev, by simp only [step, h1], by simp only [step, h2], h3⟩
  | copy_ctor src =>
    rcases storeRel_lookup V W s t hst src with ⟨h1, h2⟩ | ⟨g, h, h1, h2, hgh⟩
    · left
      exact ⟨by simp only [step, h1], by simp only [step, h2]⟩
    · right
      obtain ⟨s', t', ev, k1, k2, k3⟩ := declare_sim V W s t hst (I.copy_ctor g) (J.copy_ctor h)
        (unary_sim V W g h hgh _ _ _ _ (hI.copy_spec g hgh.1) (hJ.copy_spec h hgh.2.1)
          hgh.2.2.2.2.2)
      exact ⟨s', t', ev, by simp only [step, h1, k1], by simp only [step, h2, k2], k3⟩
  | assign dst src =>
    rcases storeRel_lookup V W s t hst dst with ⟨h1, h2⟩ | ⟨g, h, h1, h2, hgh⟩
    · left
      exact ⟨by simp only [step, h1], by simp only [step, h2]⟩
    · rcases storeRel_lookup V W s t hst src with ⟨h3, h4⟩ | ⟨g2, h', h3, h4, hgh2⟩
      · left
        exact ⟨by simp only [step, h1, h3], by simp only [step, h2, h4]⟩
      · right
        by_cases hds : dst = src
        · exact ⟨s, t, GridEvent.done, by simp only [step, h1, h3, hds, if_true],
            by simp only [step, h2, h4, hds, if_true], hst⟩
        · obtain ⟨s', t', ev, k1, k2, k3⟩ := update_sim V W s t hst dst (I.assign g g2)
            (J.assign h h')
            (unary_sim V W g2 h' hgh2 _ _ _ _ (hI.assign_spec g g2 hgh.1 hgh2.1)
              (hJ.assign_spec h h' hgh.2.1 hgh2.2.1) hgh2.2.2.2.2.2)
          exact ⟨s', t', ev, by simp only [step, h1, h3, hds, if_false, k1],
            by simp only [step, h2, h4, hds, if_false, k2], k3⟩
  | getSize v =>
    rcases storeRel_lookup V W s t hst v with ⟨h1, h2⟩ | ⟨g, h, h1, h2, hgh⟩
    · left
      exact ⟨by simp only [step, h1], by simp only [step, h2]⟩
    · right
      refine ⟨s, t, GridEvent.size (I.getSize g), by simp only [step, h1], ?_, hst⟩
      simp only [step, h2]
      rw [hI.getSize_spec, hJ.getSize_spec, hgh.2.2.1, hgh.2.2.2.1, hgh.2.2.2.2.1]
  | get v i j k =>
    rcases storeRel_lookup V W s t hst v with ⟨h1, h2⟩ | ⟨g, h, h1, h2, hgh⟩
    · left
      exact ⟨by simp only [step, h1], by simp only [step, h2]⟩
    · right
      have hget := get_sim I J V W hI hJ g h hgh i j k
      cases hx : I.get g i j k with
      | ok x =>
        rw [hx] at hget
        exact ⟨s, t, GridEvent.value x, by simp only [step, h1, hx],
          by simp only [step, h2, ← hget], hst⟩
      | error e =>
        rw [hx] at hget
        exact ⟨s, t, GridEvent.raised e, by simp only [step, h1, hx],
          by simp only [step, h2, ← hget], hst⟩
  | set v i j k value =>
    rcases storeRel_lookup V W s t hst v with ⟨h1, h2⟩ | ⟨g, h, h1, h2, hgh⟩
    · left
      exact ⟨by simp only [step, h1], by simp only [step, h2]⟩
    · right
      have hag : (∃ g' h', I.set g i j k value = Except.ok g' ∧
          J.set h i j k value = Except.ok h' ∧ Rel V W g' h') ∨
          ∃ e, I.set g i j k value = Except.error e ∧ J.set h i j k value = Except.error e := by
        by_cases hb : i < 0 ∨ i ≥ V.nx g ∨ j < 0 ∨ j ≥ V.ny g ∨ k < 0 ∨ k ≥ V.nz g
        · right
          refine ⟨GridError.out_of_range, hI.set_raise g i j k value hgh.1 hb,
            hJ.set_raise h i j k value hgh.2.1 ?_⟩
          rw [← hgh.2.2.1, ← hgh.2.2.2.1, ← hgh.2.2.2.2.1]
          exact hb
        · refine unary_sim V W g h hgh _ _ _ _ (hI.set_spec g i j k value hgh.1 hb)
            (hJ.set_spec h i j k value hgh.2.1
              (by rw [← hgh.2.2.1, ← hgh.2.2.2.1, ← hgh.2.2.2.2.1]; exact hb)) ?_
          intro i' j' k' hi hj hk
          dsimp only
          rw [hgh.2.2.2.2.2 i' j' k' hi hj hk]
      obtain ⟨s', t', ev, k1, k2, k3⟩ := update_sim V W s t hst v _ _ hag
      exact ⟨s', t', ev, by simp only [step, h1, k1], by simp only [step, h2, k2], k3⟩
  | add a b =>
    rcases storeRel_lookup V W s t hst a with ⟨h1, h2⟩ | ⟨g, h, h1, h2, hgh⟩
    · left
      exact ⟨by simp only [step, h1], by simp only [step, h2]⟩
    · rcases storeRel_lookup V W s t hst b with ⟨h3, h4⟩ | ⟨g2, h', h3, h4, hgh2⟩
      · left
        exact ⟨by simp only [step, h1, h3], by simp only [step, h2, h4]⟩
      · right
        have hag : (∃ g' hh, I.add g g2 = Except.ok g' ∧ J.add h h' = Except.ok hh ∧
            Rel V W g' hh) ∨
            ∃ e, I.add g g2 = Except.error e ∧ J.add h h' = Except.error e := by
          by_cases hd : V.nx g ≠ V.nx g2 ∨ V.ny g ≠ V.ny g2 ∨ V.nz g ≠ V.nz g2
          · right
            refine ⟨GridError.invalid_argument, hI.add_raise g g2 hgh.1 hgh2.1 hd,
              hJ.add_raise h h' hgh.2.1 hgh2.2.1 ?_⟩
            rw [← hgh.2.2.1, ← hgh.2.2.2.1, ← hgh.2.2.2.2.1, ← hgh2.2.2.1, ← hgh2.2.2.2.1,
              ← hgh2.2.2.2.2.1]
            exact hd
          · refine unary_sim V W g h hgh _ _ _ _ (hI.add_spec g g2 hgh.1 hgh2.1 hd)
              (hJ.add_spec h h' hgh.2.1 hgh2.2.1
                (by
                  rw [← hgh.2.2.1, ← hgh.2.2.2.1, ← hgh.2.2.2.2.1, ← hgh2.2.2.1,
                    ← hgh2.2.2.2.1, ← hgh2.2.2.2.2.1]
                  exact hd)) ?_
            intro i' j' k' hi hj hk
            have e1 : V.nx g = V.nx g2 := by
              by_contra hne; exact hd (Or.inl hne)
            have e2 : V.ny g = V.ny g2 := by
              by_contra hne; exact hd (Or.inr (Or.inl hne))
            have e3 : V.nz g = V.nz g2 := by
              by_contra hne; exact hd (Or.inr (Or.inr hne))
            rw [hgh.2.2.2.2.2 i' j' k' hi hj hk,
              hgh2.2.2.2.2.2 i' j' k' (by rw [← e1]; exact hi) (by rw [← e2]; exact hj)
                (by rw [← e3]; exact hk)]
        obtain ⟨s', t', ev, k1, k2, k3⟩ := declare_sim V W s t hst _ _ hag
        exact ⟨s', t', ev, by simp only [step, h1, h3, k1], by simp only [step, h2, h4, k2], k3⟩
  | mul a factor =>
    rcases storeRel_lookup V W s t hst a with ⟨h1, h2⟩ | ⟨g, h, h1, h2, hgh⟩
    · left
      exact ⟨by simp only [step, h1], by simp only [step, h2]⟩
    · right
      obtain ⟨s', t', ev, k1, k2, k3⟩ := declare_sim V W s t hst (I.mul g factor)
        (J.mul h factor)
        (unary_sim V W g h hgh _ _ _ _ (hI.mul_spec g factor hgh.1)
          (hJ.mul_spec h factor hgh.2.1)
          (fun i' j' k' hi hj hk => by
            rw [hgh.2.2.2.2.2 i' j' k' hi hj hk]))
      exact ⟨s', t', ev, by simp only [step, h1, k1], by simp only [step, h2, k2], k3⟩
  | mul_friend factor a =>
    rcases storeRel_lookup V W s t hst a with ⟨h1, h2⟩ | ⟨g, h, h1, h2, hgh⟩
    · left
      exact ⟨by simp only [step, h1], by simp only [step, h2]⟩
    · right
      obtain ⟨s', t', ev, k1, k2, k3⟩ := declare_sim V W s t hst (I.mul g factor)
        (J.mul h factor)
        (unary_sim V W g h hgh _ _ _ _ (hI.mul_spec g factor hgh.1)
          (hJ.mul_spec h factor hgh.2.1)
          (fun i' j' k' hi hj hk => by
            rw [hgh.2.2.2.2.2 i' j' k' hi hj hk]))
      exact ⟨s', t', ev, by simp only [step, h1, hI.mul_friend_spec, k1],
        by simp only [step, h2, hJ.mul_friend_spec, k2], k3⟩
  | incr v =>
    rcases storeRel_lookup V W s t hst v with ⟨h1, h2⟩ | ⟨g, h, h1, h2, hgh⟩
    · left
      exact ⟨by simp only [step, h1], by simp only [step, h2]⟩
    · right
      have hag := unary_sim V W g h hgh _ _ _ _ (hI.incr_spec g hgh.1) (hJ.incr_spec h hgh.2.1)
          (fun i' j' k' hi hj hk => by
            rw [hgh.2.2.2.2.2 i' j' k' hi hj hk])
      rcases hag with ⟨g', h', e1, e2, hrel⟩ | ⟨e, e1, _⟩
      · cases e1
        cases e2
        exact ⟨_, _, GridEvent.done, by simp only [step, h1], by simp only [step, h2],
          storeRel_set V W s t hst v _ _ hrel⟩
      · cases e1
  | add_assign a b =>
    rcases storeRel_lookup V W s t hst a with ⟨h1, h2⟩ | ⟨g, h, h1, h2, hgh⟩
    · left
      exact ⟨by simp only [step, h1], by simp only [step, h2]⟩
    · rcases storeRel_lookup V W s t hst b with ⟨h3, h4⟩ | ⟨g2, h', h3, h4, hgh2⟩
      · left
        exact ⟨by simp only [step, h1, h3], by simp only [step, h2, h4]⟩
      · right
        by_cases hab : a = b
        · have hag := unary_sim V W g h hgh _ _ _ _ (hI.add_assign_self_spec g hgh.1)
            (hJ.add_assign_self_spec h hgh.2.1)
            (fun i' j' k' hi hj hk => by
              rw [hgh.2.2.2.2.2 i' j' k' hi hj hk])
          obtain ⟨s', t', ev, k1, k2, k3⟩ := update_sim V W s t hst a _ _ hag
          subst hab
          exact ⟨s', t', ev, by simp only [step, h1, if_true, k1],
            by simp only [step, h2, if_true, k2], k3⟩
        · have hag : (∃ g' hh, I.add_assign g (some g2) = Except.ok g' ∧
              J.add_assign h (some h') = Except.ok hh ∧ Rel V W g' hh) ∨
              ∃ e, I.add_assign g (some g2) = Except.error e ∧
                J.add_assign h (some h') = Except.error e := by
            by_cases hd : V.nx g ≠ V.nx g2 ∨ V.ny g ≠ V.ny g2 ∨ V.nz g ≠ V.nz g2
            · right
              refine ⟨GridError.invalid_argument, hI.add_assign_raise g g2 hgh.1 hgh2.1 hd,
                hJ.add_assign_raise h h' hgh.2.1 hgh2.2.1 ?_⟩
              rw [← hgh.2.2.1, ← hgh.2.2.2.1, ← hgh.2.2.2.2.1, ← hgh2.2.2.1, ← hgh2.2.2.2.1,
                ← hgh2.2.2.2.2.1]
              exact hd
            · refine unary_sim V W g h hgh _ _ _ _ (hI.add_assign_spec g g2 hgh.1 hgh2.1 hd)
                (hJ.add_assign_spec h h' hgh.2.1 hgh2.2.1
                  (by
                    rw [← hgh.2.2.1, ← hgh.2.2.2.1, ← hgh.2.2.2.2.1, ← hgh2.2.2.1,
                      ← hgh2.2.2.2.1, ← hgh2.2.2.2.2.1]
                    exact hd)) ?_
              intro i' j' k' hi hj hk
              have e1 : V.nx g = V.nx g2 := by
                by_contra hne; exact hd (Or.inl hne)
              have e2 : V.ny g = V.ny g2 := by
                by_contra hne; exact hd (Or.inr (Or.inl hne))
              have e3 : V.nz g = V.nz g2 := by
                by_contra hne; exact hd (Or.inr (Or.inr hne))
              rw [hgh.2.2.2.2.2 i' j' k' hi hj hk,
                hgh2.2.2.2.2.2 i' j' k' (by rw [← e1]; exact hi) (by rw [← e2]; exact hj)
                  (by rw [← e3]; exact hk)]
          obtain ⟨s', t', ev, k1, k2, k3⟩ := update_sim V W s t hst a _ _ hag
          exact ⟨s', t', ev, by simp only [step, h1, h3, hab, if_false, k1],
            by simp only [step, h2, h4, hab, if_false, k2], k3⟩

/-- A program whose constructors take non-negative dimensions, run by two
lawful classes from related variables, produces the same events. -/
theorem run_from_sim (I : GridImpl G α) (J : GridImpl H α) (V : GridView G α)
    (W : GridView H α) (hI : Lawful I V) (hJ : Lawful J W) (prog : List (GridCmd α))
    (hprog : ∀ c ∈ prog, c.small_dims) :
    ∀ (s : List G) (t : List H), StoreRel V W s t → run_from I prog s = run_from J prog t := by
  induction prog with
  | nil => intro s t _; rfl
  | cons c cs ih =>
    intro s t hst
    rcases step_sim I J V W hI hJ s t hst c (hprog c (List.mem_cons_self _ _)) with
      ⟨h1, h2⟩ | ⟨s', t', ev, h1, h2, hrel⟩
    · simp only [run_from, h1, h2]
    · simp only [run_from, h1, h2]
      rw [ih (fun c hc => hprog c (List.mem_cons_of_mem _ hc)) s' t' hrel]

end Simulation

section EquivalenceClaims

variable {α : Type} [Zero α] [One α] [Add α] [Mul α]

/-- C27 (counterexample): the statement `Grid g(-1, -1, 2);` returns normally
with `Grid1D` (the product of the dimensions is 2, and `getSize()` is 2),
and raises with `GridVec` (`resize(-1)`) and with `GridNew`
(`new double**[-1]`). -/
theorem negative_dimensions_diverge :
    run (Grid1D.impl : GridImpl (Grid1D Int) Int) [GridCmd.ctor (-1) (-1) 2, GridCmd.getSize 0]
      = some [GridEvent.done, GridEvent.size 2] ∧
    run (Grid1D.impl : GridImpl (Grid1D Int) Int) [GridCmd.ctor (-1) (-1) 2]
      = some [GridEvent.done] ∧
    run (GridVec.impl : GridImpl (GridVec Int) Int) [GridCmd.ctor (-1) (-1) 2]
      = some [GridEvent.raised GridError.length_error] ∧
    run (GridNew.impl : GridImpl (GridNew Int) Int) [GridCmd.ctor (-1) (-1) 2]
      = some [GridEvent.raised GridError.bad_array_new_length] :=
  ⟨rfl, rfl, rfl, rfl⟩

/-- With the dimensions `46341, 46341, 1` the `int` product `nx * ny * nz` is
negative: `Grid1D` raises `std::bad_array_new_length`, while `GridVec` and
`GridNew` construct the grid, and report that negative number as its size. -/
theorem overflowing_dimensions_diverge :
    int_size 46341 46341 1 = -2147479015 ∧
    (Grid1D.ctor 46341 46341 1 : Except GridError (Grid1D Int))
      = Except.error GridError.bad_array_new_length ∧
    (∃ g, (GridVec.ctor 46341 46341 1 : Except GridError (GridVec Int)) = Except.ok g ∧
      g.getSize = -2147479015) ∧
    (∃ g, (GridNew.ctor 46341 46341 1 : Except GridError (GridNew Int)) = Except.ok g ∧
      g.getSize = -2147479015) :=
  ⟨rfl, rfl,
    ⟨_, gridvec_ctor_eq 46341 46341 1 (by decide) (by decide) (by decide), rfl⟩,
    ⟨_, gridnew_ctor_eq 46341 46341 1 (by decide) (by decide) (by decide), rfl⟩⟩

/-- C27 (amended): for every sequence of statements (construction with
non-negative dimensions whose product is below `2^31`, copy, assignment,
`set`, `+`, scalar `*` from either side, prefix `++`, `+=`, `getSize()` and
reads at any index) run identically with `Grid1D`, `GridVec` and `GridNew`,
the three runs observe the same events: the same value of every `getSize()`
and of every read, and an exception, the same one, at the same
statements. -/
theorem grids_observationally_equivalent (prog : List (GridCmd α))
    (hprog : ∀ c ∈ prog, c.small_dims) :
    run (Grid1D.impl : GridImpl (Grid1D α) α) prog = run GridVec.impl prog ∧
    run (GridVec.impl : GridImpl (GridVec α) α) prog = run GridNew.impl prog :=
  ⟨run_from_sim Grid1D.impl GridVec.impl Grid1D.view GridVec.view grid1d_lawful gridvec_lawful
      prog hprog [] [] (storeRel_nil _ _),
    run_from_sim GridVec.impl GridNew.impl GridVec.view GridNew.view gridvec_lawful
      gridnew_lawful prog hprog [] [] (storeRel_nil _ _)⟩

theorem grids_observationally_equivalent_witness :
    run (Grid1D.impl : GridImpl (Grid1D Int) Int)
        [GridCmd.ctor 2 2 3, GridCmd.set 0 1 0 2 5, GridCmd.add_assign 0 0, GridCmd.incr 0,
          GridCmd.copy_ctor 0, GridCmd.mul 1 3, GridCmd.get 2 1 0 2, GridCmd.get 2 1 0 3,
          GridCmd.getSize 2, GridCmd.ctor 1 1 1, GridCmd.add 0 3, GridCmd.assign 3 0,
          GridCmd.add 0 3, GridCmd.get 4 1 0 2]
      = run GridVec.impl
        [GridCmd.ctor 2 2 3, GridCmd.set 0 1 0 2 5, GridCmd.add_assign 0 0, GridCmd.incr 0,
          GridCmd.copy_ctor 0, GridCmd.mul 1 3, GridCmd.get 2 1 0 2, GridCmd.get 2 1 0 3,
          GridCmd.getSize 2, GridCmd.ctor 1 1 1, GridCmd.add 0 3, GridCmd.assign 3 0,
          GridCmd.add 0 3, GridCmd.get 4 1 0 2] ∧
    run (GridVec.impl : GridImpl (GridVec Int) Int)
        [GridCmd.ctor 2 2 3, GridCmd.set 0 1 0 2 5, GridCmd.add_assign 0 0, GridCmd.incr 0,
          GridCmd.copy_ctor 0, GridCmd.mul 1 3, GridCmd.get 2 1 0 2, GridCmd.get 2 1 0 3,
          GridCmd.getSize 2, GridCmd.ctor 1 1 1, GridCmd.add 0 3, GridCmd.assign 3 0,
          GridCmd.add 0 3, GridCmd.get 4 1 0 2]
      = run GridNew.impl
        [GridCmd.ctor 2 2 3, GridCmd.set 0 1 0 2 5, GridCmd.add_assign 0 0, GridCmd.incr 0,
          GridCmd.copy_ctor 0, GridCmd.mul 1 3, GridCmd.get 2 1 0 2, GridCmd.get 2 1 0 3,
          GridCmd.getSize 2, GridCmd.ctor 1 1 1, GridCmd.add 0 3, GridCmd.assign 3 0,
          GridCmd.add 0 3, GridCmd.get 4 1 0 2] :=
  grids_observationally_equivalent _ (by simp [GridCmd.small_dims])

/-- The events of the example program: nothing is rejected, the reads return
`33` and `22`, the out-of-bounds read and the addition of grids of different
dimensions raise. -/
theorem example_program_events :
    run (GridNew.impl : GridImpl (GridNew Int) Int)
        [GridCmd.ctor 2 2 3, GridCmd.set 0 1 0 2 5, GridCmd.add_assign 0 0, GridCmd.incr 0,
          GridCmd.copy_ctor 0, GridCmd.mul 1 3, GridCmd.get 2 1 0 2, GridCmd.get 2 1 0 3,
          GridCmd.getSize 2, GridCmd.ctor 1 1 1, GridCmd.add 0 3, GridCmd.assign 3 0,
          GridCmd.add 0 3, GridCmd.get 4 1 0 2]
      = some [GridEvent.done, GridEvent.done, GridEvent.done, GridEvent.done, GridEvent.done,
          GridEvent.done, GridEvent.value 33, GridEvent.raised GridError.out_of_range,
          GridEvent.size 12, GridEvent.done, GridEvent.raised GridError.invalid_argument,
          GridEvent.done, GridEvent.done, GridEvent.value 22] := by
  rfl

end EquivalenceClaims

end HW3

/-! # HW1: theorems -/

namespace HW1

section Lemmas

variable {K : Type} [LinearOrderedField K]

/-- The value of `std::min_element` is an element of the range and a lower
bound of it. -/
theorem min_element_spec (first : K) (rest : List K) :
    min_element first rest ∈ first :: rest ∧ ∀ v ∈ first :: rest, min_element first rest ≤ v := by
  unfold min_element
  induction rest generalizing first with
  | nil => simp
  | cons a rest ih =>
    rw [List.foldl_cons]
    by_cases h : a < first
    · rw [if_pos h]
      obtain ⟨h1, h2⟩ := ih a
      refine ⟨?_, ?_⟩
      · rcases List.mem_cons.mp h1 with e | e
        · rw [e]; simp
        · exact List.mem_cons_of_mem _ (List.mem_cons_of_mem _ e)
      · intro v hv
        rcases List.mem_cons.mp hv with e | e
        · rw [e]; exact le_trans (h2 a (List.mem_cons_self _ _)) (le_of_lt h)
        · exact h2 v e
    · rw [if_neg h]
      obtain ⟨h1, h2⟩ := ih first
      refine ⟨?_, ?_⟩
      · rcases List.mem_cons.mp h1 with e | e
        · rw [e]; simp
        · exact List.mem_cons_of_mem _ (List.mem_cons_of_mem _ e)
      · intro v hv
        rcases List.mem_cons.mp hv with e | e
        · rw [e]; exact h2 first (List.mem_cons_self _ _)
        · rcases List.mem_cons.mp e with e' | e'
          · rw [e']; exact le_trans (h2 first (List.mem_cons_self _ _)) (not_lt.mp h)
          · exact h2 v (List.mem_cons_of_mem _ e')

/-- The value of `std::max_element` is an element of the range and an upper
bound of it. -/
theorem max_element_spec (first : K) (rest : List K) :
    max_element first rest ∈ first :: rest ∧ ∀ v ∈ first :: rest, v ≤ max_element first rest := by
  unfold max_element
  induction rest generalizing first with
  | nil => simp
  | cons a rest ih =>
    rw [List.foldl_cons]
    by_cases h : first < a
    · rw [if_pos h]
      obtain ⟨h1, h2⟩ := ih a
      refine ⟨?_, ?_⟩
      · rcases List.mem_cons.mp h1 with e | e
        · rw [e]; simp
        · exact List.mem_cons_of_mem _ (List.mem_cons_of_mem _ e)
      · intro v hv
        rcases List.mem_cons.mp hv with e | e
        · rw [e]; exact le_trans (le_of_lt h) (h2 a (List.mem_cons_self _ _))
        · exact h2 v e
    · rw [if_neg h]
      obtain ⟨h1, h2⟩ := ih first
      refine ⟨?_, ?_⟩
      · rcases List.mem_cons.mp h1 with e | e
        · rw [e]; simp
        · exact List.mem_cons_of_mem _ (List.mem_cons_of_mem _ e)
      · intro v hv
        rcases List.mem_cons.mp hv with e | e
        · rw [e]; exact h2 first (List.mem_cons_self _ _)
        · rcases List.mem_cons.mp e with e' | e'
          · rw [e']; exact le_trans (not_lt.mp h) (h2 first (List.mem_cons_self _ _))
          · exact h2 v (List.mem_cons_of_mem _ e')

/-- A loop of `push_back (g value)` builds the image of the list. -/
theorem foldl_push_back_eq_map (g : K → K) (l acc : List K) :
    l.foldl (fun normalized value => normalized ++ [g value]) acc = acc ++ l.map g := by
  induction l generalizing acc with
  | nil => simp
  | cons a l ih => rw [List.foldl_cons, ih]; simp

/-- What `normalizeData` returns on a non-empty vector whose extreme values
differ. -/
theorem normalizeData_of_ne (first : K) (rest : List K)
    (h : max_element first rest ≠ min_element first rest) :
    normalizeData (first :: rest) = (first :: rest).map (fun value =>
      (value - min_element first rest) / (max_element first rest - min_element first rest)) := by
  unfold normalizeData
  dsimp only
  rw [if_neg h, foldl_push_back_eq_map (fun value =>
    (value - min_element first rest) / (max_element first rest - min_element first rest)),
    List.nil_append]

/-- What `normalizeData` returns on a non-empty vector whose extreme values
are equal. -/
theorem normalizeData_of_eq (first : K) (rest : List K)
    (h : max_element first rest = min_element first rest) :
    normalizeData (first :: rest) = List.replicate (first :: rest).length (1 / 2) := by
  unfold normalizeData
  dsimp only
  rw [if_pos h]

end Lemmas

section Claims

variable {K : Type} [LinearOrderedField K]

/-- In exact real arithmetic (no rounding, no overflow, no NaN),
`normalizeData` returns a vector of the length of its input whose
elements lie in `[0, 1]`; when the values are not all equal, an element that
is a minimum of the input maps to 0, one that is a maximum maps to 1, and
the order of the values is preserved; when all values are equal every
element is `0.5`; the empty input gives the empty output. -/
theorem normalizeData_spec (data : List K) :
    (normalizeData data).length = data.length ∧
    (∀ y ∈ normalizeData data, 0 ≤ y ∧ y ≤ 1) ∧
    ((∃ a ∈ data, ∃ b ∈ data, a ≠ b) →
      ∀ i, i < data.length →
        ((∀ v ∈ data, data.getD i 0 ≤ v) → (normalizeData data).getD i 0 = 0) ∧
        ((∀ v ∈ data, v ≤ data.getD i 0) → (normalizeData data).getD i 0 = 1) ∧
        ∀ j, j < data.length → data.getD i 0 ≤ data.getD j 0 →
          (normalizeData data).getD i 0 ≤ (normalizeData data).getD j 0) ∧
    ((∀ a ∈ data, ∀ b ∈ data, a = b) → ∀ y ∈ normalizeData data, y = 1 / 2) ∧
    normalizeData ([] : List K) = [] := by
  cases data with
  | nil =>
    refine ⟨rfl, ?_, ?_, ?_, rfl⟩
    · intro y hy; simp [normalizeData] at hy
    · rintro ⟨a, ha, -⟩; simp at ha
    · intro _ y hy; simp [normalizeData] at hy
  | cons first rest =>
    obtain ⟨hm1, hm2⟩ := min_element_spec first rest
    obtain ⟨hM1, hM2⟩ := max_element_spec first rest
    have hle : min_element first rest ≤ max_element first rest := hm2 _ hM1
    by_cases h : max_element first rest = min_element first rest
    · have hall : ∀ v ∈ first :: rest, v = min_element first rest := fun v hv =>
        le_antisymm (h ▸ hM2 v hv) (hm2 v hv)
      rw [normalizeData_of_eq first rest h]
      refine ⟨by simp, ?_, ?_, ?_, rfl⟩
      · intro y hy
        rw [List.eq_of_mem_replicate hy]
        constructor <;> norm_num
      · rintro ⟨a, ha, b, hb, hab⟩
        exact absurd ((hall a ha).trans (hall b hb).symm) hab
      · intro _ y hy
        exact List.eq_of_mem_replicate hy
    · have hlt : min_element first rest < max_element first rest := lt_of_le_of_ne hle (Ne.symm h)
      have hpos : 0 < max_element first rest - min_element first rest := sub_pos.mpr hlt
      rw [normalizeData_of_ne first rest h]
      have hget : ∀ i, i < (first :: rest).length →
          ((first :: rest).map (fun value => (value - min_element first rest) /
            (max_element first rest - min_element first rest))).getD i 0
            = ((first :: rest).getD i 0 - min_element first rest) /
              (max_element first rest - min_element first rest) := by
        intro i hi
        rw [List.getD_eq_getElem _ _ (by rw [List.length_map]; exact hi), List.getElem_map,
          List.getD_eq_getElem _ _ hi]
      refine ⟨by simp, ?_, ?_, ?_, rfl⟩
      · intro y hy
        obtain ⟨v, hv, rfl⟩ := List.mem_map.mp hy
        constructor
        · exact div_nonneg (sub_nonneg.mpr (hm2 v hv)) (le_of_lt hpos)
        · rw [div_le_one hpos]
          exact sub_le_sub_right (hM2 v hv) _
      · intro _ i hi
        have hmem : (first :: rest).getD i 0 ∈ first :: rest := by
          rw [List.getD_eq_getElem _ _ hi]; exact List.getElem_mem _
        refine ⟨?_, ?_, ?_⟩
        · intro hmin
          rw [hget i hi, le_antisymm (hmin _ hm1) (hm2 _ hmem), sub_self, zero_div]
        · intro hmax
          rw [hget i hi, le_antisymm (hM2 _ hmem) (hmax _ hM1), div_self (ne_of_gt hpos)]
        · intro j hj hij
          rw [hget i hi, hget j hj]
          exact div_le_div_of_nonneg_right (sub_le_sub_right hij _) (le_of_lt hpos)
      · intro hall
        exact absurd (hall _ hM1 _ hm1) h

end Claims

end HW1

/-! # HW4: theorems -/

namespace HW4

section Lemmas

variable {K : Type} [LinearOrderedField K]

/-- The three possible values of `new_bracket`. -/
theorem new_bracket_cases (func : K → K) (bracket : K × K) :
    (func bracket.1 * func ((bracket.1 + bracket.2) / 2) < 0 ∧
      new_bracket func bracket = (bracket.1, (bracket.1 + bracket.2) / 2)) ∨
    (¬ func bracket.1 * func ((bracket.1 + bracket.2) / 2) < 0 ∧
      func bracket.2 * func ((bracket.1 + bracket.2) / 2) < 0 ∧
      new_bracket func bracket = ((bracket.1 + bracket.2) / 2, bracket.2)) ∨
    (¬ func bracket.1 * func ((bracket.1 + bracket.2) / 2) < 0 ∧
      ¬ func bracket.2 * func ((bracket.1 + bracket.2) / 2) < 0 ∧
      new_bracket func bracket =
        (bracket.1 + ((bracket.1 + bracket.2) / 2 - bracket.1) / 2,
          (bracket.1 + bracket.2) / 2 + (bracket.2 - (bracket.1 + bracket.2) / 2) / 2)) := by
  unfold new_bracket
  dsimp only
  by_cases h1 : func bracket.1 * func ((bracket.1 + bracket.2) / 2) < 0
  · left; exact ⟨h1, by rw [if_pos h1]⟩
  · by_cases h2 : func bracket.2 * func ((bracket.1 + bracket.2) / 2) < 0
    · right; left; exact ⟨h1, h2, by rw [if_neg h1, if_pos h2]⟩
    · right; right; exact ⟨h1, h2, by rw [if_neg h1, if_neg h2]⟩

/-- The distance tested by the base case is half the width of the bracket. -/
theorem center_distance (bracket : K × K) :
    |(bracket.1 + bracket.2) / 2 - bracket.1| = |bracket.2 - bracket.1| / 2 := by
  have h : (bracket.1 + bracket.2) / 2 - bracket.1 = (bracket.2 - bracket.1) / 2 := by ring
  rw [h, abs_div, abs_of_pos (by norm_num : (0 : K) < 2)]

/-- Whichever branch is taken, the next bracket has half the width. -/
theorem new_bracket_width (func : K → K) (bracket : K × K) :
    |(new_bracket func bracket).2 - (new_bracket func bracket).1| = |bracket.2 - bracket.1| / 2 := by
  have h2 : |(2 : K)| = 2 := abs_of_pos (by norm_num)
  rcases new_bracket_cases func bracket with ⟨_, h⟩ | ⟨_, _, h⟩ | ⟨_, _, h⟩
  · rw [h]; exact center_distance bracket
  · rw [h]
    have e : bracket.2 - (bracket.1 + bracket.2) / 2 = (bracket.2 - bracket.1) / 2 := by ring
    show |bracket.2 - (bracket.1 + bracket.2) / 2| = _
    rw [e, abs_div, h2]
  · rw [h]
    have e : (bracket.1 + bracket.2) / 2 + (bracket.2 - (bracket.1 + bracket.2) / 2) / 2
        - (bracket.1 + ((bracket.1 + bracket.2) / 2 - bracket.1) / 2)
        = (bracket.2 - bracket.1) / 2 := by ring
    show |(bracket.1 + bracket.2) / 2 + (bracket.2 - (bracket.1 + bracket.2) / 2) / 2
        - (bracket.1 + ((bracket.1 + bracket.2) / 2 - bracket.1) / 2)| = _
    rw [e, abs_div, h2]

/-- One unfolding of `bisectionRecursive` when the base case holds. -/
theorem bisectionRecursive_base (func : K → K) (fuel : Nat) (bracket : K × K) (bracket_tol : K)
    (h : |(bracket.1 + bracket.2) / 2 - bracket.1| ≤ bracket_tol) :
    bisectionRecursive func (fuel + 1) bracket bracket_tol = some bracket := by
  unfold bisectionRecursive
  dsimp only
  rw [if_pos h]

/-- One unfolding of `bisectionRecursive` when the base case fails. -/
theorem bisectionRecursive_rec (func : K → K) (fuel : Nat) (bracket : K × K) (bracket_tol : K)
    (h : ¬ |(bracket.1 + bracket.2) / 2 - bracket.1| ≤ bracket_tol) :
    bisectionRecursive func (fuel + 1) bracket bracket_tol
      = bisectionRecursive func fuel (new_bracket func bracket) bracket_tol := by
  conv_lhs => unfold bisectionRecursive
  dsimp only
  rw [if_neg h]

/-- A bracket whose width is at most `2 ^ (k + 1)` tolerances is returned
after at most `k + 1` calls. -/
theorem bisectionRecursive_returns_of_width (func : K → K) (bracket_tol : K) (k : Nat) :
    ∀ bracket : K × K, |bracket.2 - bracket.1| ≤ 2 ^ (k + 1) * bracket_tol →
      ∃ r, ∀ fuel, k + 1 ≤ fuel → bisectionRecursive func fuel bracket bracket_tol = some r := by
  induction k with
  | zero =>
    intro bracket hw
    refine ⟨bracket, fun fuel hfuel => ?_⟩
    obtain ⟨f, rfl⟩ : ∃ f, fuel = f + 1 := ⟨fuel - 1, by omega⟩
    apply bisectionRecursive_base
    rw [center_distance]
    rw [div_le_iff₀ (by norm_num : (0 : K) < 2)]
    calc |bracket.2 - bracket.1| ≤ 2 ^ (0 + 1) * bracket_tol := hw
      _ = bracket_tol * 2 := by ring
  | succ k ih =>
    intro bracket hw
    by_cases h : |(bracket.1 + bracket.2) / 2 - bracket.1| ≤ bracket_tol
    · refine ⟨bracket, fun fuel hfuel => ?_⟩
      obtain ⟨f, rfl⟩ : ∃ f, fuel = f + 1 := ⟨fuel - 1, by omega⟩
      exact bisectionRecursive_base func f bracket bracket_tol h
    · have hw' : |(new_bracket func bracket).2 - (new_bracket func bracket).1|
          ≤ 2 ^ (k + 1) * bracket_tol := by
        rw [new_bracket_width, div_le_iff₀ (by norm_num : (0 : K) < 2)]
        calc |bracket.2 - bracket.1| ≤ 2 ^ (k + 1 + 1) * bracket_tol := hw
          _ = 2 ^ (k + 1) * bracket_tol * 2 := by ring
      obtain ⟨r, hr⟩ := ih (new_bracket func bracket) hw'
      refine ⟨r, fun fuel hfuel => ?_⟩
      obtain ⟨f, rfl⟩ : ∃ f, fuel = f + 1 := ⟨fuel - 1, by omega⟩
      rw [bisectionRecursive_rec func f bracket bracket_tol h]
      exact hr f (by omega)

/-- With a positive tolerance the recursion reaches its base case: there is
a depth from which every larger recursion budget gives the same bracket. -/
theorem bisectionRecursive_returns [Archimedean K] (func : K → K) (bracket : K × K)
    (bracket_tol : K) (htol : 0 < bracket_tol) :
    ∃ r N, ∀ fuel, N ≤ fuel → bisectionRecursive func fuel bracket bracket_tol = some r := by
  obtain ⟨k, hk⟩ := pow_unbounded_of_one_lt (|bracket.2 - bracket.1| / bracket_tol)
    (by norm_num : (1 : K) < 2)
  have hw : |bracket.2 - bracket.1| ≤ 2 ^ (k + 1) * bracket_tol := by
    rw [div_lt_iff₀ htol] at hk
    have h2 : (2 : K) ^ k ≤ 2 ^ (k + 1) := by
      rw [pow_succ]
      have : (0 : K) < 2 ^ k := by positivity
      linarith
    exact le_trans (le_of_lt hk) (mul_le_mul_of_nonneg_right h2 (le_of_lt htol))
  obtain ⟨r, hr⟩ := bisectionRecursive_returns_of_width func bracket_tol k bracket hw
  exact ⟨r, k + 1, hr⟩

/-- On a bracket with the property, the third branch is taken only when the
function vanishes at the midpoint. -/
theorem third_branch_center (func : K → K) (bracket : K × K) (h : bracketed func bracket)
    (h1 : ¬ func bracket.1 * func ((bracket.1 + bracket.2) / 2) < 0)
    (h2 : ¬ func bracket.2 * func ((bracket.1 + bracket.2) / 2) < 0) :
    func ((bracket.1 + bracket.2) / 2) = 0 := by
  rcases h with h | h
  · by_contra hc
    rcases lt_or_gt_of_ne hc with hneg | hpos
    · -- center value negative: both end values are non-positive
      have ha : func bracket.1 ≤ 0 := by
        by_contra hx
        exact h1 (mul_neg_of_pos_of_neg (not_le.mp hx) hneg)
      have hb : func bracket.2 ≤ 0 := by
        by_contra hx
        exact h2 (mul_neg_of_pos_of_neg (not_le.mp hx) hneg)
      exact absurd h (not_lt.mpr (mul_nonneg_of_nonpos_of_nonpos ha hb))
    · have ha : 0 ≤ func bracket.1 := by
        by_contra hx
        exact h1 (mul_neg_of_neg_of_pos (not_le.mp hx) hpos)
      have hb : 0 ≤ func bracket.2 := by
        by_contra hx
        exact h2 (mul_neg_of_neg_of_pos (not_le.mp hx) hpos)
      exact absurd h (not_lt.mpr (mul_nonneg ha hb))
  · exact h

/-- The property is kept by one step of the recursion. -/
theorem new_bracket_bracketed (func : K → K) (bracket : K × K) (h : bracketed func bracket) :
    bracketed func (new_bracket func bracket) := by
  rcases new_bracket_cases func bracket with ⟨h1, e⟩ | ⟨_, h2, e⟩ | ⟨h1, h2, e⟩
  · rw [e]; left; exact h1
  · rw [e]; left
    show func ((bracket.1 + bracket.2) / 2) * func bracket.2 < 0
    rw [mul_comm]; exact h2
  · rw [e]; right
    have hc := third_branch_center func bracket h h1 h2
    have e2 : (bracket.1 + ((bracket.1 + bracket.2) / 2 - bracket.1) / 2 +
        ((bracket.1 + bracket.2) / 2 + (bracket.2 - (bracket.1 + bracket.2) / 2) / 2)) / 2
        = (bracket.1 + bracket.2) / 2 := by ring
    show func ((bracket.1 + ((bracket.1 + bracket.2) / 2 - bracket.1) / 2 +
        ((bracket.1 + bracket.2) / 2 + (bracket.2 - (bracket.1 + bracket.2) / 2) / 2)) / 2) = 0
    rw [e2]; exact hc

/-- The property holds of every bracket the recursion can reach. -/
theorem iterate_bracketed (func : K → K) (bracket : K × K) (h : bracketed func bracket)
    (k : Nat) : bracketed func ((new_bracket func)^[k] bracket) := by
  induction k with
  | zero => exact h
  | succ k ih =>
    rw [Function.iterate_succ_apply']
    exact new_bracket_bracketed func _ ih

/-- The property holds of the bracket returned. -/
theorem bisectionRecursive_bracketed (func : K → K) (bracket_tol : K) (fuel : Nat) :
    ∀ (bracket r : K × K), bracketed func bracket →
      bisectionRecursive func fuel bracket bracket_tol = some r → bracketed func r := by
  induction fuel with
  | zero => intro bracket r _ h; simp [bisectionRecursive] at h
  | succ fuel ih =>
    intro bracket r hI h
    by_cases hb : |(bracket.1 + bracket.2) / 2 - bracket.1| ≤ bracket_tol
    · rw [bisectionRecursive_base func fuel bracket bracket_tol hb] at h
      cases h
      exact hI
    · rw [bisectionRecursive_rec func fuel bracket bracket_tol hb] at h
      exact ih _ r (new_bracket_bracketed func bracket hI) h

end Lemmas

section Claims

variable {K : Type} [LinearOrderedField K]

/-- C34: `bisectionRecursive` terminates for every function, bracket and
positive tolerance: every recursive call is made on a bracket of exactly
half the width, whichever branch is taken, and there is a recursion depth
from which the function returns a bracket. -/
theorem bisection_terminates [Archimedean K] (func : K → K) (bracket : K × K)
    (bracket_tol : K) (htol : 0 < bracket_tol) :
    (∀ br : K × K, |(new_bracket func br).2 - (new_bracket func br).1| = |br.2 - br.1| / 2) ∧
    ∃ r N, ∀ fuel, N ≤ fuel → bisectionRecursive func fuel bracket bracket_tol = some r :=
  ⟨new_bracket_width func, bisectionRecursive_returns func bracket bracket_tol htol⟩

theorem bisection_terminates_witness :
    (0 : ℚ) < 1 / 1000 ∧
    ∃ r N, ∀ fuel, N ≤ fuel →
      bisectionRecursive (fun x : ℚ => x * x - 2) fuel (0, 2) (1 / 1000) = some r :=
  ⟨by norm_num, (bisection_terminates (fun x : ℚ => x * x - 2) (0, 2) (1 / 1000)
    (by norm_num)).2⟩

/-- In exact real arithmetic (no rounding, no underflow), when
`f a * f b < 0` and the tolerance is positive,
`bisectionRecursive` returns a bracket `(l, r)` with `f l * f r < 0` or
`f ((l + r) / 2) = 0`; and on every bracket reached from `(a, b)` the third
branch (no sign change on either half) is taken only when `f` vanishes at
the midpoint. -/
theorem bisection_keeps_root_bracketed [Archimedean K] (func : K → K) (a b : K)
    (bracket_tol : K) (hab : func a * func b < 0) (htol : 0 < bracket_tol) :
    (∃ r N, (∀ fuel, N ≤ fuel → bisectionRecursive func fuel (a, b) bracket_tol = some r) ∧
      (func r.1 * func r.2 < 0 ∨ func ((r.1 + r.2) / 2) = 0)) ∧
    (∀ fuel r, bisectionRecursive func fuel (a, b) bracket_tol = some r →
      (func r.1 * func r.2 < 0 ∨ func ((r.1 + r.2) / 2) = 0)) ∧
    ∀ k, third_branch func ((new_bracket func)^[k] (a, b)) = true →
      func ((((new_bracket func)^[k] (a, b)).1 + ((new_bracket func)^[k] (a, b)).2) / 2) = 0 := by
  have h0 : bracketed func (a, b) := Or.inl hab
  refine ⟨?_, ?_, ?_⟩
  · obtain ⟨r, N, h⟩ := bisectionRecursive_returns func (a, b) bracket_tol htol
    exact ⟨r, N, h, bisectionRecursive_bracketed func bracket_tol N (a, b) r h0 (h N le_rfl)⟩
  · intro fuel r h
    exact bisectionRecursive_bracketed func bracket_tol fuel (a, b) r h0 h
  · intro k hk
    unfold third_branch at hk
    simp only [Bool.and_eq_true, Bool.not_eq_true', decide_eq_false_iff_not] at hk
    exact third_branch_center func _ (iterate_bracketed func (a, b) h0 k) hk.1 hk.2

end Claims

end HW4

/-! # HW9: timing statistics and subscript checks -/

namespace HW9

section StatsLemmas

variable {K : Type} [LinearOrderedField K]

/-- The running minimum `if (d < m) m = d;` over a list: it is at most the
initial value and at most every element, and it is the initial value or an
element. -/
theorem running_min_spec (l : List K) (m0 : K) :
    l.foldl (fun m d => if d < m then d else m) m0 ≤ m0 ∧
    (∀ v ∈ l, l.foldl (fun m d => if d < m then d else m) m0 ≤ v) ∧
    (l.foldl (fun m d => if d < m then d else m) m0 = m0 ∨
      l.foldl (fun m d => if d < m then d else m) m0 ∈ l) := by
  induction l generalizing m0 with
  | nil => simp
  | cons a l ih =>
    rw [List.foldl_cons]
    by_cases h : a < m0
    · rw [if_pos h]
      obtain ⟨h1, h2, h3⟩ := ih a
      refine ⟨le_trans h1 (le_of_lt h), ?_, ?_⟩
      · intro v hv
        rcases List.mem_cons.mp hv with e | e
        · rw [e]; exact h1
        · exact h2 v e
      · right
        rcases h3 with e | e
        · rw [e]; exact List.mem_cons_self _ _
        · exact List.mem_cons_of_mem _ e
    · rw [if_neg h]
      obtain ⟨h1, h2, h3⟩ := ih m0
      refine ⟨h1, ?_, ?_⟩
      · intro v hv
        rcases List.mem_cons.mp hv with e | e
        · rw [e]; exact le_trans h1 (not_lt.mp h)
        · exact h2 v e
      · rcases h3 with e | e
        · left; exact e
        · right; exact List.mem_cons_of_mem _ e

/-- The timed loop of the harness, run over any list of trial numbers:
the three variables it updates. -/
theorem timed_loop_eq (run_time : Nat → K) (l : List Nat) (s : K × K × List K) :
    l.foldl (fun (s : K × K × List K) i =>
        ((if run_time (NUM_WARMUP + i) < s.1 then run_time (NUM_WARMUP + i) else s.1),
          s.2.1 + run_time (NUM_WARMUP + i), s.2.2 ++ [run_time (NUM_WARMUP + i)])) s
      = ((l.map (fun i => run_time (NUM_WARMUP + i))).foldl
            (fun m d => if d < m then d else m) s.1,
          s.2.1 + (l.map (fun i => run_time (NUM_WARMUP + i))).sum,
          s.2.2 ++ l.map (fun i => run_time (NUM_WARMUP + i))) := by
  induction l generalizing s with
  | nil => simp
  | cons a l ih =>
    rw [List.foldl_cons, ih]
    simp [add_assoc]

/-- The loop `variance += g d` computes the sum of the `g d`. -/
theorem foldl_accumulate_eq_sum (g : K → K) (l : List K) (init : K) :
    l.foldl (fun variance d => variance + g d) init = init + (l.map g).sum := by
  induction l generalizing init with
  | nil => simp
  | cons a l ih => rw [List.foldl_cons, ih]; simp [add_assoc]

/-- The three values returned by `benchmark_stats`, in terms of the list
of timed durations. -/
theorem benchmark_stats_eq (DBL_MAX : K) (sqrt : K → K) (run_time : Nat → K) :
    benchmark_stats DBL_MAX sqrt run_time
      = ((timed_durations run_time).foldl (fun m d => if d < m then d else m) DBL_MAX,
          (timed_durations run_time).sum / (NUM_RUNS : K),
          sqrt (((timed_durations run_time).map (fun d =>
              (d - (timed_durations run_time).sum / (NUM_RUNS : K)) *
                (d - (timed_durations run_time).sum / (NUM_RUNS : K)))).sum / (NUM_RUNS : K))) := by
  unfold benchmark_stats
  dsimp only
  rw [timed_loop_eq run_time]
  dsimp only
  rw [foldl_accumulate_eq_sum (fun d => (d - (0 + (List.map (fun i => run_time (NUM_WARMUP + i))
    (List.range NUM_RUNS)).sum) / (NUM_RUNS : K)) * (d - (0 + (List.map
    (fun i => run_time (NUM_WARMUP + i)) (List.range NUM_RUNS)).sum) / (NUM_RUNS : K)))]
  simp only [zero_add, List.nil_append]
  rfl

/-- A lower bound of all elements, times the length, is at most the sum. -/
theorem length_mul_le_sum (l : List K) (m : K) (h : ∀ v ∈ l, m ≤ v) :
    (l.length : K) * m ≤ l.sum := by
  induction l with
  | nil => simp
  | cons a l ih =>
    rw [List.length_cons, List.sum_cons]
    push_cast
    have h1 := h a (List.mem_cons_self _ _)
    have h2 := ih (fun v hv => h v (List.mem_cons_of_mem _ hv))
    linarith

/-- A sum of squares is not negative. -/
theorem sum_squares_nonneg (l : List K) (c : K) :
    0 ≤ (l.map (fun d => (d - c) * (d - c))).sum := by
  induction l with
  | nil => simp
  | cons a l ih =>
    rw [List.map_cons, List.sum_cons]
    exact add_nonneg (mul_self_nonneg _) ih

theorem timed_durations_length (run_time : Nat → K) :
    (timed_durations run_time).length = 10 := by
  simp [timed_durations, NUM_RUNS]

end StatsLemmas

section CheckedLemmas

variable {α : Type} [Zero α] [Add α] [Mul α]

end CheckedLemmas

section StatsClaims

variable {K : Type} [LinearOrderedField K]

/-- In exact real arithmetic, over the 10 timed durations recorded after the
2 warm-up runs
(each at most the largest `double`), the harness reports their minimum,
their arithmetic mean `(Σ d_i) / 10`, and the population standard deviation
`s ≥ 0` with `s² = (Σ (d_i - avg)²) / 10`; hence `min ≤ avg`; the two warm-up
runs have no influence.  Arithmetic is exact and `sqrt` is a square root on
the non-negative numbers. -/
theorem benchmark_stats_spec (DBL_MAX : K) (sqrt : K → K) (run_time : Nat → K)
    (hmax : ∀ d ∈ timed_durations run_time, d ≤ DBL_MAX)
    (hsqrt : ∀ v, 0 ≤ v → 0 ≤ sqrt v ∧ sqrt v * sqrt v = v) :
    (timed_durations run_time).length = 10 ∧
    timed_durations run_time = (List.range 10).map (fun i => run_time (2 + i)) ∧
    ((benchmark_stats DBL_MAX sqrt run_time).1 ∈ timed_durations run_time ∧
      ∀ d ∈ timed_durations run_time, (benchmark_stats DBL_MAX sqrt run_time).1 ≤ d) ∧
    (benchmark_stats DBL_MAX sqrt run_time).2.1 = (timed_durations run_time).sum / 10 ∧
    (0 ≤ (benchmark_stats DBL_MAX sqrt run_time).2.2 ∧
      (benchmark_stats DBL_MAX sqrt run_time).2.2 * (benchmark_stats DBL_MAX sqrt run_time).2.2
        = ((timed_durations run_time).map (fun d =>
            (d - (benchmark_stats DBL_MAX sqrt run_time).2.1) *
              (d - (benchmark_stats DBL_MAX sqrt run_time).2.1))).sum / 10) ∧
    (benchmark_stats DBL_MAX sqrt run_time).1 ≤ (benchmark_stats DBL_MAX sqrt run_time).2.1 ∧
    (∀ other : Nat → K, (∀ k, 2 ≤ k → other k = run_time k) →
      benchmark_stats DBL_MAX sqrt other = benchmark_stats DBL_MAX sqrt run_time) := by
  have hlen := timed_durations_length run_time
  have hnum : ((NUM_RUNS : Nat) : K) = 10 := by simp [NUM_RUNS]
  obtain ⟨m1, m2, m3⟩ := running_min_spec (timed_durations run_time) DBL_MAX
  have hmin_mem : (timed_durations run_time).foldl (fun m d => if d < m then d else m) DBL_MAX
      ∈ timed_durations run_time := by
    rcases m3 with e | e
    · obtain ⟨d, hd⟩ : ∃ d, d ∈ timed_durations run_time :=
        List.exists_mem_of_length_pos (by rw [hlen]; norm_num)
      have : d = DBL_MAX := le_antisymm (hmax d hd) (e ▸ m2 d hd)
      rw [e, ← this]; exact hd
    · exact e
  have hvar : 0 ≤ ((timed_durations run_time).map (fun d =>
      (d - (timed_durations run_time).sum / (NUM_RUNS : K)) *
        (d - (timed_durations run_time).sum / (NUM_RUNS : K)))).sum / (NUM_RUNS : K) := by
    rw [hnum]
    exact div_nonneg (sum_squares_nonneg _ _) (by norm_num)
  obtain ⟨s1, s2⟩ := hsqrt _ hvar
  rw [benchmark_stats_eq]
  refine ⟨hlen, rfl, ⟨hmin_mem, m2⟩, by rw [hnum], ⟨s1, by rw [s2, hnum]⟩, ?_, ?_⟩
  · show _ ≤ (timed_durations run_time).sum / (NUM_RUNS : K)
    rw [hnum, le_div_iff₀ (by norm_num : (0 : K) < 10)]
    have := length_mul_le_sum (timed_durations run_time) _ m2
    rw [hlen] at this
    push_cast at this
    linarith
  · intro other hother
    have : timed_durations other = timed_durations run_time := by
      unfold timed_durations
      apply List.map_congr_left
      intro i _
      exact hother _ (by unfold NUM_WARMUP; omega)
    rw [benchmark_stats_eq, this]

end StatsClaims

section CheckedClaims

variable {α : Type} [Zero α] [Add α] [Mul α]

end CheckedClaims

end HW9

/-! # HW5: repeated calls of `computeVertexAreas` -/

namespace HW5

section TwiceLemmas

variable {K : Type} [Field K]

/-- Statement `l[i] += a` adds `a` to the entry `i` and leaves the others. -/
theorem getD_set_add (l : List K) (i v : Nat) (a : K) (hi : i < l.length) :
    (l.set i (l.getD i 0 + a)).getD v 0 = l.getD v 0 + (if v = i then a else 0) := by
  by_cases h : v = i
  · subst h; rw [HW9.getD_set_self _ _ _ _ hi, if_pos rfl]
  · rw [HW9.getD_set_ne _ _ _ _ _ (Ne.symm h), if_neg h, add_zero]

/-- The three statements `vertexAreas[t[c]] += area / 3`, entry by entry. -/
theorem vertex_step_getD (va : List K) (t : Triangle) (area : K) (v : Nat)
    (h1 : t.1 < va.length) (h2 : t.2.1 < va.length) (h3 : t.2.2 < va.length) :
    (((va.set t.1 (va.getD t.1 0 + area / 3)).set t.2.1
        ((va.set t.1 (va.getD t.1 0 + area / 3)).getD t.2.1 0 + area / 3)).set t.2.2
        (((va.set t.1 (va.getD t.1 0 + area / 3)).set t.2.1
          ((va.set t.1 (va.getD t.1 0 + area / 3)).getD t.2.1 0 + area / 3)).getD t.2.2 0
            + area / 3)).getD v 0
      = va.getD v 0 + ((if v = t.1 then area / 3 else 0) + (if v = t.2.1 then area / 3 else 0)
          + (if v = t.2.2 then area / 3 else 0)) := by
  rw [getD_set_add _ _ _ _ (by rw [List.length_set, List.length_set]; exact h3),
    getD_set_add _ _ _ _ (by rw [List.length_set]; exact h2), getD_set_add _ _ _ _ h1]
  ring

/-- The loop of `computeVertexAreas` keeps the length of `vertexAreas`. -/
theorem vertex_loop_length (triangles : List Triangle) (areas : List K) (k : Nat)
    (init : List K) :
    ((List.range k).foldl (fun vertexAreas i =>
      let area := areas.getD i 0
      let vertexArea := area / 3
      let t := triangles.getD i (0, 0, 0)
      let vertexAreas := vertexAreas.set t.1 (vertexAreas.getD t.1 0 + vertexArea)
      let vertexAreas := vertexAreas.set t.2.1 (vertexAreas.getD t.2.1 0 + vertexArea)
      vertexAreas.set t.2.2 (vertexAreas.getD t.2.2 0 + vertexArea)) init).length
      = init.length := by
  induction k with
  | zero => rfl
  | succ k ih =>
    rw [List.range_succ, List.foldl_append]
    simp only [List.foldl_cons, List.foldl_nil, List.length_set]
    exact ih

/-- The loop of `computeVertexAreas` adds to what `vertexAreas` holds: run
from `init`, every entry is the entry of `init` plus the entry computed from
a vector of zeros. -/
theorem vertex_loop_getD (triangles : List Triangle) (areas : List K) (nv : Nat)
    (hidx : ∀ t ∈ triangles, t.1 < nv ∧ t.2.1 < nv ∧ t.2.2 < nv)
    (k : Nat) (hk : k ≤ triangles.length) (init : List K) (hinit : init.length = nv) (v : Nat) :
    ((List.range k).foldl (fun vertexAreas i =>
      let area := areas.getD i 0
      let vertexArea := area / 3
      let t := triangles.getD i (0, 0, 0)
      let vertexAreas := vertexAreas.set t.1 (vertexAreas.getD t.1 0 + vertexArea)
      let vertexAreas := vertexAreas.set t.2.1 (vertexAreas.getD t.2.1 0 + vertexArea)
      vertexAreas.set t.2.2 (vertexAreas.getD t.2.2 0 + vertexArea)) init).getD v 0
      = init.getD v 0 +
    ((List.range k).foldl (fun vertexAreas i =>
      let area := areas.getD i 0
      let vertexArea := area / 3
      let t := triangles.getD i (0, 0, 0)
      let vertexAreas := vertexAreas.set t.1 (vertexAreas.getD t.1 0 + vertexArea)
      let vertexAreas := vertexAreas.set t.2.1 (vertexAreas.getD t.2.1 0 + vertexArea)
      vertexAreas.set t.2.2 (vertexAreas.getD t.2.2 0 + vertexArea))
      (List.replicate nv 0)).getD v 0 := by
  induction k with
  | zero =>
    simp only [List.range_zero, List.foldl_nil]
    have : (List.replicate nv (0 : K)).getD v 0 = 0 := by
      simp [List.getD_eq_getElem?_getD, List.getElem?_replicate]
      split <;> rfl
    rw [this, add_zero]
  | succ k ih =>
    have ih := ih (by omega)
    have hl1 := vertex_loop_length triangles areas k init
    have hl2 := vertex_loop_length triangles areas k (List.replicate nv (0 : K))
    rw [List.length_replicate] at hl2
    rw [hinit] at hl1
    rw [List.range_succ, List.foldl_append, List.foldl_append]
    simp only [List.foldl_cons, List.foldl_nil]
    generalize (List.range k).foldl _ init = va at ih hl1 ⊢
    generalize (List.range k).foldl _ (List.replicate nv (0 : K)) = vz at ih hl2 ⊢
    have hkt : k < triangles.length := by omega
    have hmem : triangles.getD k (0, 0, 0) ∈ triangles := by
      rw [List.getD_eq_getElem _ _ hkt]; exact List.getElem_mem _
    obtain ⟨h1, h2, h3⟩ := hidx _ hmem
    rw [vertex_step_getD va _ _ v (by omega) (by omega) (by omega),
      vertex_step_getD vz _ _ v (by omega) (by omega) (by omega), ih]
    ring

/-- The vector `vertexAreas` after `computeVertexAreas`: the loop run from
the resized previous contents. -/
theorem computeVertexAreas_vertexAreas (sqrt : K → K) (m : BrainMesh K) :
    (computeVertexAreas sqrt m).vertexAreas
      = (List.range m.nbTriangles).foldl (fun vertexAreas i =>
          let area := (computeVertexAreas sqrt m).triangleAreas.getD i 0
          let vertexArea := area / 3
          let t := m.triangles.getD i (0, 0, 0)
          let vertexAreas := vertexAreas.set t.1 (vertexAreas.getD t.1 0 + vertexArea)
          let vertexAreas := vertexAreas.set t.2.1 (vertexAreas.getD t.2.1 0 + vertexArea)
          vertexAreas.set t.2.2 (vertexAreas.getD t.2.2 0 + vertexArea))
        (resize m.vertexAreas m.nbVertices 0) := by
  unfold computeVertexAreas
  dsimp only
  by_cases he : m.triangleAreas.isEmpty = true
  · simp only [if_pos he]
    rfl
  · simp only [if_neg he]

/-- The triangle areas held after `computeVertexAreas` on a mesh that holds
the vertices and triangles of `m0` and either no triangle area or the area
of each triangle. -/
theorem computeVertexAreas_triangleAreas (sqrt : K → K) (m0 m : BrainMesh K)
    (hv : m.vertices = m0.vertices) (ht : m.triangles = m0.triangles)
    (hnt : m.nbTriangles = m0.triangles.length)
    (hta : m.triangleAreas = [] ∨ m.triangleAreas = m0.triangles.map (triangleArea sqrt m0)) :
    (computeVertexAreas sqrt m).triangleAreas = m0.triangles.map (triangleArea sqrt m0) := by
  unfold computeVertexAreas
  dsimp only
  by_cases he : m.triangleAreas.isEmpty = true
  · rw [if_pos he, computeTriangleAreas_eq sqrt m (by rw [hnt, ht]), ht,
      triangleArea_congr sqrt m m0 hv]
  · rw [if_neg he]
    rcases hta with h | h
    · rw [h] at he; simp at he
    · exact h

/-- Member `resize(n, value)` on a vector of `n` elements changes nothing. -/
theorem resize_of_length {β : Type} (l : List β) (n : Nat) (value : β) (h : l.length = n) :
    resize l n value = l := by
  unfold resize
  rw [h, Nat.sub_self, List.replicate_zero, List.append_nil, ← h, List.take_length]

/-- The members other than the two area vectors are left as they are by
`computeVertexAreas`. -/
theorem computeVertexAreas_frame (sqrt : K → K) (m : BrainMesh K) :
    (computeVertexAreas sqrt m).vertices = m.vertices ∧
    (computeVertexAreas sqrt m).triangles = m.triangles ∧
    (computeVertexAreas sqrt m).nbTriangles = m.nbTriangles ∧
    (computeVertexAreas sqrt m).nbVertices = m.nbVertices := by
  unfold computeVertexAreas
  dsimp only
  by_cases he : m.triangleAreas.isEmpty = true
  · rw [if_pos he]; exact ⟨rfl, rfl, rfl, rfl⟩
  · rw [if_neg he]; exact ⟨rfl, rfl, rfl, rfl⟩

end TwiceLemmas

section TwiceClaims

variable {K : Type} [Field K]

/-- C38 (divergence): `computeVertexAreas` is not idempotent.  For a freshly
loaded mesh whose triangles all index valid vertices, a second call adds the
thirds of the triangle areas again, so every entry of `vertexAreas` is twice
the entry left by the first call, and the two vectors differ as soon as one
vertex has a non-zero area. -/
theorem compute_vertex_areas_twice_doubles (sqrt : K → K) (points : List (Vertex K))
    (polygons : List Triangle)
    (hidx : ∀ t ∈ polygons,
      t.1 < points.length ∧ t.2.1 < points.length ∧ t.2.2 < points.length) :
    (∀ v, (computeVertexAreas sqrt (computeVertexAreas sqrt
        (readData BrainMesh.new points polygons))).vertexAreas.getD v 0
      = 2 * (computeVertexAreas sqrt
        (readData BrainMesh.new points polygons)).vertexAreas.getD v 0) ∧
    (∀ v, (computeVertexAreas sqrt
        (readData BrainMesh.new points polygons)).vertexAreas.getD v 0 ≠ 0 →
      (computeVertexAreas sqrt (computeVertexAreas sqrt
        (readData BrainMesh.new points polygons))).vertexAreas
      ≠ (computeVertexAreas sqrt (readData BrainMesh.new points polygons)).vertexAreas) := by
  have key : ∀ v, (computeVertexAreas sqrt (computeVertexAreas sqrt
        (readData BrainMesh.new points polygons))).vertexAreas.getD v 0
      = 2 * (computeVertexAreas sqrt
        (readData BrainMesh.new points polygons)).vertexAreas.getD v 0 := by
    intro v
    obtain ⟨f1, f2, f3, f4⟩ := computeVertexAreas_frame sqrt
      (readData (BrainMesh.new : BrainMesh K) points polygons)
    have a1 := computeVertexAreas_triangleAreas sqrt (readData BrainMesh.new points polygons)
      (readData BrainMesh.new points polygons) rfl rfl rfl (Or.inl rfl)
    have a2 := computeVertexAreas_triangleAreas sqrt (readData BrainMesh.new points polygons)
      (computeVertexAreas sqrt (readData BrainMesh.new points polygons)) f1 f2 f3 (Or.inr a1)
    have e1 := computeVertexAreas_vertexAreas sqrt
      (readData (BrainMesh.new : BrainMesh K) points polygons)
    have e2 := computeVertexAreas_vertexAreas sqrt
      (computeVertexAreas sqrt (readData (BrainMesh.new : BrainMesh K) points polygons))
    rw [a1] at e1
    rw [a2, f2, f3, f4] at e2
    have hz : resize (readData (BrainMesh.new : BrainMesh K) points polygons).vertexAreas
        (readData (BrainMesh.new : BrainMesh K) points polygons).nbVertices 0
        = List.replicate points.length 0 := resize_nil _ _
    rw [hz] at e1
    have hlen : (computeVertexAreas sqrt
        (readData (BrainMesh.new : BrainMesh K) points polygons)).vertexAreas.length
        = points.length := by
      rw [e1]
      exact (vertex_loop_length _ _ _ _).trans (List.length_replicate _ _)
    have hr : resize (computeVertexAreas sqrt
        (readData (BrainMesh.new : BrainMesh K) points polygons)).vertexAreas
        (readData (BrainMesh.new : BrainMesh K) points polygons).nbVertices 0
        = (computeVertexAreas sqrt
          (readData (BrainMesh.new : BrainMesh K) points polygons)).vertexAreas :=
      resize_of_length _ _ _ hlen
    rw [hr] at e2
    have h := vertex_loop_getD polygons
      ((readData (BrainMesh.new : BrainMesh K) points polygons).triangles.map
        (triangleArea sqrt (readData BrainMesh.new points polygons)))
      points.length hidx polygons.length le_rfl
      (computeVertexAreas sqrt (readData BrainMesh.new points polygons)).vertexAreas hlen v
    rw [e2]
    refine (h.trans ?_)
    rw [two_mul]
    congr 1
    rw [e1]
    rfl
  refine ⟨key, ?_⟩
  intro v hv heq
  have h := key v
  rw [heq, two_mul] at h
  exact hv (by simpa using h)

theorem compute_vertex_areas_twice_doubles_witness :
    (computeVertexAreas (fun x : ℚ => x) (computeVertexAreas (fun x : ℚ => x)
        (readData BrainMesh.new [(0, 0, 0), (1, 0, 0), (0, 1, 0)]
          [(0, 1, 2)]))).vertexAreas
      ≠ (computeVertexAreas (fun x : ℚ => x)
        (readData BrainMesh.new [(0, 0, 0), (1, 0, 0), (0, 1, 0)] [(0, 1, 2)])).vertexAreas :=
  (compute_vertex_areas_twice_doubles (fun x : ℚ => x) [(0, 0, 0), (1, 0, 0), (0, 1, 0)]
    [(0, 1, 2)] (by decide)).2 0
    (by simp [computeVertexAreas, computeTriangleAreas, readData, BrainMesh.new, resize,
      triangleArea, List.range_succ])

end TwiceClaims

end HW5

/-! # HW7: theorems -/

namespace HW7

section Lemmas

variable {K : Type} [LinearOrderedField K]

/-- On a tree whose operators are supported `evaluateNode` does not throw. -/
theorem evaluateNode_integral (t : Node K) (h : t.integral) (x : K) :
    evaluateNode t x = Except.ok (t.value x) := by
  induction t with
  | nullptr => exact absurd h id
  | Constant c => rfl
  | Variable v => rfl
  | Operator op l r ihl ihr =>
    obtain ⟨hop, hl, hr⟩ := h
    simp only [evaluateNode, ihl hl, ihr hr, Node.value]
    rcases hop with rfl | rfl | rfl <;> simp

/-- An integer of absolute value below `1e-10` is zero. -/
theorem int_small_eq_zero (n : Int) (h : |(n : K)| < 1 / 10000000000) : n = 0 := by
  have h1 : |(n : K)| < 1 := lt_trans h (by norm_num)
  have h2 : ((|n| : Int) : K) < ((1 : Int) : K) := by
    rw [Int.cast_abs, Int.cast_one]; exact h1
  have h3 : |n| < 1 := Int.cast_lt.mp h2
  exact Int.abs_lt_one_iff.mp h3

/-- On a tree with integer constants, `isZero` holds of the constant `0`
only. -/
theorem isZero_integral (t : Node K) (h : t.integral) (hz : isZero t = true) :
    t = Node.Constant 0 := by
  cases t with
  | nullptr => exact absurd h id
  | Constant c =>
    obtain ⟨n, rfl⟩ := h
    simp only [isZero, decide_eq_true_eq] at hz
    rw [int_small_eq_zero n hz, Int.cast_zero]
  | Variable v => simp [isZero] at hz
  | Operator op l r => simp [isZero] at hz

/-- On a tree with integer constants, `getConstantValue` is an integer. -/
theorem getConstantValue_integer (t : Node K) (h : t.integral) :
    ∃ n : Int, getConstantValue t = n := by
  induction t with
  | nullptr => exact absurd h id
  | Constant c => exact h
  | Variable v => exact ⟨0, by simp [getConstantValue]⟩
  | Operator op l r ihl ihr =>
    obtain ⟨hop, hl, hr⟩ := h
    obtain ⟨a, ha⟩ := ihl hl
    obtain ⟨b, hb⟩ := ihr hr
    simp only [getConstantValue, ha, hb]
    rcases hop with rfl | rfl | rfl
    · exact ⟨a + b, by simp⟩
    · exact ⟨a - b, by simp⟩
    · exact ⟨a * b, by simp⟩

/-- On a constant tree, `getConstantValue` is the value of the tree. -/
theorem getConstantValue_eq_value (t : Node K) (h : t.integral) (hc : isConstant t = true)
    (x : K) : getConstantValue t = t.value x := by
  induction t with
  | nullptr => exact absurd h id
  | Constant c => rfl
  | Variable v => simp [isConstant] at hc
  | Operator op l r ihl ihr =>
    obtain ⟨hop, hl, hr⟩ := h
    simp only [isConstant, Bool.and_eq_true] at hc
    simp only [getConstantValue, Node.value, ihl hl hc.1, ihr hr hc.2]

/-- On a tree with integer constants and supported operators, `simplifyNode`
returns such a tree, of the same value. -/
theorem simplifyNode_sound (t : Node K) (h : t.integral) :
    (simplifyNode t).integral ∧ ∀ x, (simplifyNode t).value x = t.value x := by
  induction t with
  | nullptr => exact absurd h id
  | Constant c => exact ⟨h, fun _ => rfl⟩
  | Variable v => exact ⟨h, fun _ => rfl⟩
  | Operator op l r ihl ihr =>
    obtain ⟨hop, hl, hr⟩ := h
    obtain ⟨hLi, hLv⟩ := ihl hl
    obtain ⟨hRi, hRv⟩ := ihr hr
    simp only [simplifyNode]
    have hval : ∀ x, (Node.Operator op l r).value x
        = if op = '+' then (simplifyNode l).value x + (simplifyNode r).value x
          else if op = '-' then (simplifyNode l).value x - (simplifyNode r).value x
          else if op = '*' then (simplifyNode l).value x * (simplifyNode r).value x
          else 0 := by
      intro x; simp only [Node.value, hLv, hRv]
    simp only [hval]
    generalize simplifyNode l = L at hLi ⊢
    generalize simplifyNode r = R at hRi ⊢
    have zL : isZero L = true → L = Node.Constant 0 := isZero_integral L hLi
    have zR : isZero R = true → R = Node.Constant 0 := isZero_integral R hRi
    obtain ⟨a, ha⟩ := getConstantValue_integer L hLi
    obtain ⟨b, hb⟩ := getConstantValue_integer R hRi
    have cL := getConstantValue_eq_value L hLi
    have cR := getConstantValue_eq_value R hRi
    have hz0 : isZero (Node.Constant (0 : K)) = true := by simp [isZero]
    rcases hop with rfl | rfl | rfl
    · -- addition
      by_cases h1 : isZero L = true
      · have := zL h1; subst this
        simp [hz0, Node.value, hRi]
      · by_cases h2 : isZero R = true
        · have := zR h2; subst this
          simp [h1, hz0, Node.value, hLi]
        · by_cases h3 : (isConstant L && isConstant R) = true
          · have h3' := Bool.and_eq_true_iff.mp h3
            simp only [h1, h2, h3, if_true, Bool.false_eq_true, if_false]
            refine ⟨⟨a + b, by rw [ha, hb]; simp⟩, fun x => ?_⟩
            simp [Node.value, cL h3'.1 x, cR h3'.2 x]
          · simp only [h1, h2, h3, if_true, Bool.false_eq_true, if_false]
            exact ⟨⟨Or.inl rfl, hLi, hRi⟩, fun x => by simp [Node.value]⟩
    · -- subtraction
      by_cases h1 : isZero L = true
      · have := zL h1; subst this
        by_cases h4 : isConstant R = true
        · simp only [h1, h4, if_true]
          refine ⟨?_, fun x => ?_⟩
          · simp
            exact ⟨-b, by rw [hb]; simp⟩
          · simp [Node.value, cR h4 x]
        · simp only [h1, h4, if_true, Bool.false_eq_true, if_false]
          refine ⟨?_, fun x => ?_⟩
          · simp
            exact ⟨Or.inr (Or.inr rfl), ⟨-1, by simp⟩, hRi⟩
          · simp [Node.value]
      · by_cases h2 : isZero R = true
        · have := zR h2; subst this
          simp [h1, hz0, Node.value, hLi]
        · by_cases h3 : (isConstant L && isConstant R) = true
          · have h3' := Bool.and_eq_true_iff.mp h3
            simp only [h1, h2, h3, if_true, Bool.false_eq_true, if_false]
            refine ⟨?_, fun x => ?_⟩
            · simp
              exact ⟨a - b, by rw [ha, hb]; simp⟩
            · simp [Node.value, cL h3'.1 x, cR h3'.2 x]
          · simp only [h1, h2, h3, if_true, Bool.false_eq_true, if_false]
            refine ⟨?_, fun x => ?_⟩
            · simp
              exact ⟨Or.inr (Or.inl rfl), hLi, hRi⟩
            · simp [Node.value]
    · -- multiplication
      by_cases h1 : isZero L = true
      · have := zL h1; subst this
        simp [hz0, Node.value]
        exact ⟨0, by simp⟩
      · by_cases h2 : isZero R = true
        · have := zR h2; subst this
          simp [h1, hz0, Node.value]
          exact ⟨0, by simp⟩
        · by_cases h3 : (isConstant L && isConstant R) = true
          · have h3' := Bool.and_eq_true_iff.mp h3
            simp only [h1, h2, h3, if_true, Bool.false_eq_true, if_false, Bool.or_self]
            refine ⟨?_, fun x => ?_⟩
            · simp
              exact ⟨a * b, by rw [ha, hb]; simp⟩
            · simp [Node.value, cL h3'.1 x, cR h3'.2 x]
          · simp only [h1, h2, h3, if_true, Bool.false_eq_true, if_false, Bool.or_self]
            refine ⟨?_, fun x => ?_⟩
            · simp
              exact ⟨Or.inr (Or.inr rfl), hLi, hRi⟩
            · simp [Node.value]

/-- The tree of an expression with integer constants has integer constants
and supported operators, and its value is the value of the expression. -/
theorem toNode_integral (p : Expression K) (hp : p.integer_constants) :
    p.toNode.integral ∧ ∀ x, p.toNode.value x = p.value x := by
  induction p with
  | const c => exact ⟨hp, fun _ => rfl⟩
  | var => exact ⟨trivial, fun _ => rfl⟩
  | add l r ihl ihr =>
    obtain ⟨l1, l2⟩ := ihl hp.1
    obtain ⟨r1, r2⟩ := ihr hp.2
    exact ⟨⟨Or.inl rfl, l1, r1⟩, fun x => by simp [Expression.toNode, Node.value,
      Expression.value, l2, r2]⟩
  | sub l r ihl ihr =>
    obtain ⟨l1, l2⟩ := ihl hp.1
    obtain ⟨r1, r2⟩ := ihr hp.2
    exact ⟨⟨Or.inr (Or.inl rfl), l1, r1⟩, fun x => by simp [Expression.toNode, Node.value,
      Expression.value, l2, r2]⟩
  | mul l r ihl ihr =>
    obtain ⟨l1, l2⟩ := ihl hp.1
    obtain ⟨r1, r2⟩ := ihr hp.2
    exact ⟨⟨Or.inr (Or.inr rfl), l1, r1⟩, fun x => by simp [Expression.toNode, Node.value,
      Expression.value, l2, r2]⟩

/-- On the tree of an expression with integer constants, `differentiateNode`
returns a tree with integer constants whose value is the value of the
formal derivative. -/
theorem differentiateNode_sound (p : Expression K) (hp : p.integer_constants) :
    ∃ d, differentiateNode p.toNode = Except.ok d ∧ d.integral ∧
      ∀ x, d.value x = p.derivative_value x := by
  induction p with
  | const c => exact ⟨Node.Constant 0, rfl, ⟨0, by simp⟩, fun _ => rfl⟩
  | var => exact ⟨Node.Constant 1, rfl, ⟨1, by simp⟩, fun _ => rfl⟩
  | add l r ihl ihr =>
    obtain ⟨dl, l1, l2, l3⟩ := ihl hp.1
    obtain ⟨dr, r1, r2, r3⟩ := ihr hp.2
    refine ⟨Node.Operator '+' dl dr, ?_, ⟨Or.inl rfl, l2, r2⟩, fun x => ?_⟩
    · simp [Expression.toNode, differentiateNode, l1, r1]
    · simp [Node.value, Expression.derivative_value, l3, r3]
  | sub l r ihl ihr =>
    obtain ⟨dl, l1, l2, l3⟩ := ihl hp.1
    obtain ⟨dr, r1, r2, r3⟩ := ihr hp.2
    refine ⟨Node.Operator '-' dl dr, ?_, ⟨Or.inr (Or.inl rfl), l2, r2⟩, fun x => ?_⟩
    · simp [Expression.toNode, differentiateNode, l1, r1]
    · simp [Node.value, Expression.derivative_value, l3, r3]
  | mul l r ihl ihr =>
    obtain ⟨dl, l1, l2, l3⟩ := ihl hp.1
    obtain ⟨dr, r1, r2, r3⟩ := ihr hp.2
    obtain ⟨tl1, tl2⟩ := toNode_integral l hp.1
    obtain ⟨tr1, tr2⟩ := toNode_integral r hp.2
    refine ⟨Node.Operator '+' (Node.Operator '*' dl r.toNode) (Node.Operator '*' l.toNode dr),
      ?_, ⟨Or.inl rfl, ⟨Or.inr (Or.inr rfl), l2, tr1⟩, ⟨Or.inr (Or.inr rfl), tl1, r2⟩⟩,
      fun x => ?_⟩
    · simp [Expression.toNode, differentiateNode, l1, r1]
    · simp [Node.value, Expression.derivative_value, l3, r3, tl2, tr2]

end Lemmas

section ExactLemmas

variable {K : Type} [LinearOrderedField K]

/-- On a tree whose operators are supported `evaluateNode` does not throw. -/
theorem evaluateNode_supported (t : Node K) (h : t.supported) (x : K) :
    evaluateNode t x = Except.ok (t.value x) := by
  induction t with
  | nullptr => exact absurd h id
  | Constant c => rfl
  | Variable v => rfl
  | Operator op l r ihl ihr =>
    obtain ⟨hop, hl, hr⟩ := h
    simp only [evaluateNode, ihl hl, ihr hr, Node.value]
    rcases hop with rfl | rfl | rfl <;> simp

/-- On a constant tree, `getConstantValue` is the value of the tree. -/
theorem getConstantValue_value (t : Node K) (h : t.supported) (hc : isConstant t = true)
    (x : K) : getConstantValue t = t.value x := by
  induction t with
  | nullptr => exact absurd h id
  | Constant c => rfl
  | Variable v => simp [isConstant] at hc
  | Operator op l r ihl ihr =>
    obtain ⟨hop, hl, hr⟩ := h
    simp only [isConstant, Bool.and_eq_true] at hc
    simp only [getConstantValue, Node.value, ihl hl hc.1, ihr hr hc.2]

theorem is_constant_zero_eq (t : Node K) (h : t.is_constant_zero = true) :
    t = Node.Constant 0 := by
  cases t with
  | Constant c =>
    simp only [Node.is_constant_zero, decide_eq_true_eq] at h
    rw [h]
  | nullptr => simp [Node.is_constant_zero] at h
  | Variable v => simp [Node.is_constant_zero] at h
  | Operator op l r => simp [Node.is_constant_zero] at h

/-- What the exactness of the zero test says at an operator node. -/
theorem zero_test_exact_operator (op : Char) (l r : Node K)
    (h : (Node.Operator op l r).zero_test_exact = true) :
    l.zero_test_exact = true ∧ r.zero_test_exact = true ∧
    (isZero (simplifyNode l) = true → simplifyNode l = Node.Constant 0) ∧
    (isZero (simplifyNode r) = true → simplifyNode r = Node.Constant 0) := by
  simp only [Node.zero_test_exact, Bool.and_eq_true, Bool.or_eq_true, Bool.not_eq_true'] at h
  obtain ⟨⟨⟨h1, h2⟩, h3⟩, h4⟩ := h
  refine ⟨h1, h2, fun hz => ?_, fun hz => ?_⟩
  · rcases h3 with h3 | h3
    · rw [hz] at h3; cases h3
    · exact is_constant_zero_eq _ h3
  · rcases h4 with h4 | h4
    · rw [hz] at h4; cases h4
    · exact is_constant_zero_eq _ h4

/-- On a tree with supported operators on which the zero test is exact,
`simplifyNode` returns a tree with supported operators, of the same
value. -/
theorem simplifyNode_exact (t : Node K) (h : t.supported) (hz : t.zero_test_exact = true) :
    (simplifyNode t).supported ∧ ∀ x, (simplifyNode t).value x = t.value x := by
  induction t with
  | nullptr => exact absurd h id
  | Constant c => exact ⟨h, fun _ => rfl⟩
  | Variable v => exact ⟨h, fun _ => rfl⟩
  | Operator op l r ihl ihr =>
    obtain ⟨hop, hl, hr⟩ := h
    obtain ⟨hzl, hzr, zL, zR⟩ := zero_test_exact_operator op l r hz
    obtain ⟨hLi, hLv⟩ := ihl hl hzl
    obtain ⟨hRi, hRv⟩ := ihr hr hzr
    simp only [simplifyNode]
    have hval : ∀ x, (Node.Operator op l r).value x
        = if op = '+' then (simplifyNode l).value x + (simplifyNode r).value x
          else if op = '-' then (simplifyNode l).value x - (simplifyNode r).value x
          else if op = '*' then (simplifyNode l).value x * (simplifyNode r).value x
          else 0 := by
      intro x; simp only [Node.value, hLv, hRv]
    simp only [hval]
    generalize simplifyNode l = L at hLi zL ⊢
    generalize simplifyNode r = R at hRi zR ⊢
    have cL := getConstantValue_value L hLi
    have cR := getConstantValue_value R hRi
    have hz0 : isZero (Node.Constant (0 : K)) = true := by simp [isZero]
    rcases hop with rfl | rfl | rfl
    · -- addition
      by_cases h1 : isZero L = true
      · have := zL h1; subst this
        simp [hz0, Node.value, hRi]
      · by_cases h2 : isZero R = true
        · have := zR h2; subst this
          simp [h1, hz0, Node.value, hLi]
        · by_cases h3 : (isConstant L && isConstant R) = true
          · have h3' := Bool.and_eq_true_iff.mp h3
            simp only [h1, h2, h3, if_true, Bool.false_eq_true, if_false]
            refine ⟨trivial, fun x => ?_⟩
            simp [Node.value, cL h3'.1 x, cR h3'.2 x]
          · simp only [h1, h2, h3, if_true, Bool.false_eq_true, if_false]
            exact ⟨⟨Or.inl rfl, hLi, hRi⟩, fun x => by simp [Node.value]⟩
    · -- subtraction
      by_cases h1 : isZero L = true
      · have := zL h1; subst this
        by_cases h4 : isConstant R = true
        · simp only [h1, h4, if_true]
          refine ⟨?_, fun x => ?_⟩
          · simp [Node.supported]
          · simp [Node.value, cR h4 x]
        · simp only [h1, h4, if_true, Bool.false_eq_true, if_false]
          refine ⟨?_, fun x => ?_⟩
          · simp [Node.supported]
            exact hRi
          · simp [Node.value]
      · by_cases h2 : isZero R = true
        · have := zR h2; subst this
          simp [h1, hz0, Node.value, hLi]
        · by_cases h3 : (isConstant L && isConstant R) = true
          · have h3' := Bool.and_eq_true_iff.mp h3
            simp only [h1, h2, h3, if_true, Bool.false_eq_true, if_false]
            refine ⟨?_, fun x => ?_⟩
            · simp [Node.supported]
            · simp [Node.value, cL h3'.1 x, cR h3'.2 x]
          · simp only [h1, h2, h3, if_true, Bool.false_eq_true, if_false]
            refine ⟨?_, fun x => ?_⟩
            · simp [Node.supported]
              exact ⟨hLi, hRi⟩
            · simp [Node.value]
    · -- multiplication
      by_cases h1 : isZero L = true
      · have := zL h1; subst this
        simp [hz0, Node.value, Node.supported]
      · by_cases h2 : isZero R = true
        · have := zR h2; subst this
          simp [h1, hz0, Node.value, Node.supported]
        · by_cases h3 : (isConstant L && isConstant R) = true
          · have h3' := Bool.and_eq_true_iff.mp h3
            simp only [h1, h2, h3, if_true, Bool.false_eq_true, if_false, Bool.or_self]
            refine ⟨?_, fun x => ?_⟩
            · simp [Node.supported]
            · simp [Node.value, cL h3'.1 x, cR h3'.2 x]
          · simp only [h1, h2, h3, if_true, Bool.false_eq_true, if_false, Bool.or_self]
            refine ⟨?_, fun x => ?_⟩
            · simp [Node.supported]
              exact ⟨hLi, hRi⟩
            · simp [Node.value]

/-- A tree with integer constants has supported operators. -/
theorem integral_supported (t : Node K) (h : t.integral) : t.supported := by
  induction t with
  | nullptr => exact absurd h id
  | Constant c => trivial
  | Variable v => trivial
  | Operator op l r ihl ihr => exact ⟨h.1, ihl h.2.1, ihr h.2.2⟩

/-- On a tree with integer constants the zero test is exact. -/
theorem integral_zero_test_exact (t : Node K) (h : t.integral) :
    t.zero_test_exact = true := by
  induction t with
  | nullptr => exact absurd h id
  | Constant c => rfl
  | Variable v => rfl
  | Operator op l r ihl ihr =>
    have key : ∀ s : Node K, s.integral → (!isZero s || s.is_constant_zero) = true := by
      intro s hs
      by_cases hz : isZero s = true
      · rw [isZero_integral s hs hz]
        simp [Node.is_constant_zero]
      · simp [hz]
    simp only [Node.zero_test_exact, Bool.and_eq_true]
    exact ⟨⟨⟨ihl h.2.1, ihr h.2.2⟩, key _ (simplifyNode_sound l h.2.1).1⟩,
      key _ (simplifyNode_sound r h.2.2).1⟩

/-- The tree of an expression has supported operators, and its value is the
value of the expression. -/
theorem toNode_supported (p : Expression K) :
    p.toNode.supported ∧ ∀ x, p.toNode.value x = p.value x := by
  induction p with
  | const c => exact ⟨trivial, fun _ => rfl⟩
  | var => exact ⟨trivial, fun _ => rfl⟩
  | add l r ihl ihr =>
    exact ⟨⟨Or.inl rfl, ihl.1, ihr.1⟩, fun x => by simp [Expression.toNode, Node.value,
      Expression.value, ihl.2, ihr.2]⟩
  | sub l r ihl ihr =>
    exact ⟨⟨Or.inr (Or.inl rfl), ihl.1, ihr.1⟩, fun x => by simp [Expression.toNode,
      Node.value, Expression.value, ihl.2, ihr.2]⟩
  | mul l r ihl ihr =>
    exact ⟨⟨Or.inr (Or.inr rfl), ihl.1, ihr.1⟩, fun x => by simp [Expression.toNode,
      Node.value, Expression.value, ihl.2, ihr.2]⟩

/-- On the tree of an expression `differentiateNode` returns a tree with
supported operators whose value is the value of the formal derivative; its
constants are integers when those of the expression are. -/
theorem differentiateNode_supported (p : Expression K) :
    ∃ d, differentiateNode p.toNode = Except.ok d ∧ d.supported ∧
      (∀ x, d.value x = p.derivative_value x) ∧ (p.integer_constants → d.integral) := by
  induction p with
  | const c => exact ⟨Node.Constant 0, rfl, trivial, fun _ => rfl, fun _ => ⟨0, by simp⟩⟩
  | var => exact ⟨Node.Constant 1, rfl, trivial, fun _ => rfl, fun _ => ⟨1, by simp⟩⟩
  | add l r ihl ihr =>
    obtain ⟨dl, l1, l2, l3, l4⟩ := ihl
    obtain ⟨dr, r1, r2, r3, r4⟩ := ihr
    refine ⟨Node.Operator '+' dl dr, ?_, ⟨Or.inl rfl, l2, r2⟩, fun x => ?_,
      fun hp => ⟨Or.inl rfl, l4 hp.1, r4 hp.2⟩⟩
    · simp [Expression.toNode, differentiateNode, l1, r1]
    · simp [Node.value, Expression.derivative_value, l3, r3]
  | sub l r ihl ihr =>
    obtain ⟨dl, l1, l2, l3, l4⟩ := ihl
    obtain ⟨dr, r1, r2, r3, r4⟩ := ihr
    refine ⟨Node.Operator '-' dl dr, ?_, ⟨Or.inr (Or.inl rfl), l2, r2⟩, fun x => ?_,
      fun hp => ⟨Or.inr (Or.inl rfl), l4 hp.1, r4 hp.2⟩⟩
    · simp [Expression.toNode, differentiateNode, l1, r1]
    · simp [Node.value, Expression.derivative_value, l3, r3]
  | mul l r ihl ihr =>
    obtain ⟨dl, l1, l2, l3, l4⟩ := ihl
    obtain ⟨dr, r1, r2, r3, r4⟩ := ihr
    obtain ⟨tl1, tl2⟩ := toNode_supported l
    obtain ⟨tr1, tr2⟩ := toNode_supported r
    refine ⟨Node.Operator '+' (Node.Operator '*' dl r.toNode) (Node.Operator '*' l.toNode dr),
      ?_, ⟨Or.inl rfl, ⟨Or.inr (Or.inr rfl), l2, tr1⟩, ⟨Or.inr (Or.inr rfl), tl1, r2⟩⟩,
      fun x => ?_, fun hp => ⟨Or.inl rfl,
        ⟨Or.inr (Or.inr rfl), l4 hp.1, (toNode_integral r hp.2).1⟩,
        ⟨Or.inr (Or.inr rfl), (toNode_integral l hp.1).1, r4 hp.2⟩⟩⟩
    · simp [Expression.toNode, differentiateNode, l1, r1]
    · simp [Node.value, Expression.derivative_value, l3, r3, tl2, tr2]

end ExactLemmas

section Claims

variable {K : Type} [LinearOrderedField K]

/-- C36, as stated, fails: for `p = x * 1e-11` the formal derivative has the
value `1e-11` everywhere, while `differentiate(p).evaluate(0)` is `0`: the
simplify step replaces the product `1 * 1e-11` by the constant `0`, because
`isZero` holds of every constant below `1e-10` in absolute value. -/
theorem differentiate_drops_small_constant :
    differentiate_evaluate
        (Expression.toNode (Expression.mul Expression.var
          (Expression.const (1 / 100000000000 : ℚ)))) 0 = Except.ok 0 ∧
    Expression.derivative_value (Expression.mul Expression.var
        (Expression.const (1 / 100000000000 : ℚ))) 0 = 1 / 100000000000 ∧
    evaluateNode (simplifyNode (Node.Operator '*' (Node.Constant 1)
        (Node.Constant (1 / 100000000000 : ℚ)))) 0 = Except.ok 0 ∧
    evaluateNode (Node.Operator '*' (Node.Constant 1)
        (Node.Constant (1 / 100000000000 : ℚ))) 0 = Except.ok (1 / 100000000000) := by
  have habs : |(100000000000 : ℚ)⁻¹| < 10000000000⁻¹ := by
    rw [abs_of_pos (by norm_num)]; norm_num
  have hone : ¬ (1 : ℚ) < 10000000000⁻¹ := by norm_num
  have hzero : |(0 : ℚ)| < 10000000000⁻¹ := by norm_num
  refine ⟨?_, ?_, ?_, ?_⟩
  · simp [differentiate_evaluate, differentiate, differentiateNode, Expression.toNode,
      simplifyNode, isZero, isConstant, getConstantValue, evaluateNode, habs, hone, hzero]
  · simp [Expression.derivative_value, Expression.value]
  · simp [simplifyNode, isZero, isConstant, getConstantValue, evaluateNode, habs, hone, hzero]
  · simp [evaluateNode]

/-- C36, amended: in exact real arithmetic, for every expression tree `p`
built from constants, the variable `x` and the operators `+`, `-`, `*`,
`differentiateNode` returns a tree `d` whose value is the formal derivative
of `p`, and for every `x0`, `differentiate(p).evaluate(x0)` is the value at
`x0` of the formal derivative provided the zero test is exact while `d` is
simplified (no simplified operand is a non-zero constant below `1e-10` in
absolute value); this is the case whenever the constants of `p` are
integers.  On every tree with these operators on which the zero test is
exact, the simplify step does not change the result of `evaluateNode`. -/
theorem differentiate_evaluates_derivative_when_zero_test_exact (p : Expression K) (x0 : K) :
    (∃ d, differentiateNode p.toNode = Except.ok d ∧
      evaluateNode d x0 = Except.ok (p.derivative_value x0) ∧
      (p.integer_constants → d.zero_test_exact = true)) ∧
    (∀ d, differentiateNode p.toNode = Except.ok d → d.zero_test_exact = true →
      differentiate_evaluate p.toNode x0 = Except.ok (p.derivative_value x0)) ∧
    (∀ t : Node K, t.supported → t.zero_test_exact = true →
      evaluateNode (simplifyNode t) x0 = evaluateNode t x0) := by
  obtain ⟨d, h1, h2, h3, h4⟩ := differentiateNode_supported p
  refine ⟨⟨d, h1, ?_, fun hp => integral_zero_test_exact d (h4 hp)⟩, ?_, ?_⟩
  · rw [evaluateNode_supported d h2, h3]
  · intro d' hd' hz
    rw [h1] at hd'
    cases hd'
    obtain ⟨s1, s2⟩ := simplifyNode_exact d h2 hz
    unfold differentiate_evaluate differentiate
    rw [h1]
    dsimp only
    rw [evaluateNode_supported _ s1, s2, h3]
  · intro t ht hz
    obtain ⟨s1, s2⟩ := simplifyNode_exact t ht hz
    rw [evaluateNode_supported _ s1, evaluateNode_supported _ ht, s2]

theorem differentiate_evaluates_derivative_when_zero_test_exact_witness :
    differentiate_evaluate
        (from_zeros [-(86 / 100 : ℚ), -(34 / 100), 34 / 100, 86 / 100]).toNode (1 / 2)
      = Except.ok ((from_zeros [-(86 / 100 : ℚ), -(34 / 100), 34 / 100, 86 / 100]).derivative_value
          (1 / 2)) :=
  (differentiate_evaluates_derivative_when_zero_test_exact
    (from_zeros [-(86 / 100 : ℚ), -(34 / 100), 34 / 100, 86 / 100]) (1 / 2)).2.1 _ rfl
    (by decide!)

end Claims

end HW7

/-! # HW6: serialisation -/

namespace HW6

section ScanLemmas

theorem scan_append (q : Nat) (a b : List Char) : scan q (a ++ b) = scan (scan q a) b := by
  unfold scan; rw [List.foldl_append]

theorem scan_step_le (q : Nat) (c : Char) (hq : q ≤ 6) : scan_step q c ≤ 6 := by
  unfold scan_step
  by_cases h6 : q = 6
  · rw [if_pos h6]
  · rw [if_neg h6]
    split_ifs <;> omega

theorem scan_le (q : Nat) (text : List Char) (hq : q ≤ 6) : scan q text ≤ 6 := by
  induction text generalizing q with
  | nil => exact hq
  | cons c text ih => exact ih _ (scan_step_le q c hq)

/-- Once the pattern has been seen the scanner stays in the state `6`. -/
theorem scan_six (text : List Char) : scan 6 text = 6 := by
  induction text with
  | nil => rfl
  | cons c text ih => exact ih

/-- From every state, reading the pattern ends in the state `6`. -/
theorem scan_trailing_comma (q : Nat) (hq : q ≤ 6) : scan q trailing_comma = 6 := by
  interval_cases q <;> decide

/-- The scanner is sound: a text that contains the pattern drives it into
the state `6`. -/
theorem scan_of_occurrence (text : List Char) (h : trailing_comma <:+: text) : scan 0 text = 6 := by
  obtain ⟨pre, post, rfl⟩ := h
  rw [scan_append, scan_append, scan_trailing_comma _ (scan_le 0 pre (by omega)), scan_six]

/-- A character other than the newline keeps the scanner below the state
`3`. -/
theorem scan_step_no_newline (q : Nat) (c : Char) (hq : q ≤ 2) (hc : c ≠ '\n') :
    scan_step q c ≤ 2 := by
  unfold scan_step
  rw [if_neg (by omega)]
  by_cases hm : some c = trailing_comma[q]?
  · rw [if_pos hm]
    have : q ≠ 2 := by
      rintro rfl
      have h' : some c = some '\n' := hm
      exact hc (Option.some.inj h')
    omega
  · rw [if_neg hm]
    split_ifs <;> omega

/-- A text without newline keeps the scanner below the state `3`. -/
theorem scan_no_newline (q : Nat) (text : List Char) (hq : q ≤ 2) (h : '\n' ∉ text) :
    scan q text ≤ 2 := by
  induction text generalizing q with
  | nil => exact hq
  | cons c text ih =>
    have hc : c ≠ '\n' := fun e => h (e ▸ List.mem_cons_self _ _)
    exact ih _ (scan_step_no_newline q c hq hc) (fun hm => h (List.mem_cons_of_mem _ hm))

end ScanLemmas

section NewlineLemmas

theorem digitChar_ne_newline (n : Nat) : Nat.digitChar n ≠ '\n' := by
  by_cases h : n < 16
  · interval_cases n <;> decide
  · have : Nat.digitChar n = '*' := by
      unfold Nat.digitChar
      iterate 16 rw [if_neg (by omega)]
    rw [this]
    decide

theorem toDigitsCore_no_newline (fuel n : Nat) (ds : List Char) (h : '\n' ∉ ds) :
    '\n' ∉ Nat.toDigitsCore 10 fuel n ds := by
  induction fuel generalizing n ds with
  | zero => exact h
  | succ fuel ih =>
    unfold Nat.toDigitsCore
    have hd : '\n' ∉ Nat.digitChar (n % 10) :: ds := by
      intro hm
      rcases List.mem_cons.mp hm with e | e
      · exact digitChar_ne_newline _ e.symm
      · exact h e
    dsimp only
    split_ifs
    · exact hd
    · exact ih _ _ hd

theorem nat_repr_no_newline (n : Nat) : '\n' ∉ (Nat.repr n).data := by
  unfold Nat.repr Nat.toDigits
  exact toDigitsCore_no_newline _ _ _ (List.not_mem_nil _)

/-- The text written by `operator<<` for an `int` has no newline. -/
theorem int_toString_no_newline (n : Int) : '\n' ∉ (toString n).data := by
  cases n with
  | ofNat m => exact nat_repr_no_newline m
  | negSucc m =>
    show '\n' ∉ ("-" ++ Nat.repr (m + 1)).data
    rw [String.data_append]
    intro h
    rcases List.mem_append.mp h with e | e
    · revert e; decide
    · exact nat_repr_no_newline _ e

theorem get_object_type_name_no_newline (o : ScientificObject) :
    '\n' ∉ (get_object_type_name o).data := by
  cases o <;> decide

/-- The result of `escape_json_string` has no newline: a newline of the
argument is written as a backslash and the letter `n`. -/
theorem escape_json_string_no_newline (str : String) :
    '\n' ∉ (escape_json_string str).data := by
  unfold escape_json_string
  have key : ∀ (l : List Char) (result : String), '\n' ∉ result.data →
      '\n' ∉ (l.foldl (fun result c =>
        if c = '"' then result ++ "\\\""
        else if c = '\\' then result ++ "\\\\"
        else if c = '\n' then result ++ "\\n"
        else if c = '\r' then result ++ "\\r"
        else if c = '\t' then result ++ "\\t"
        else result.push c) result).data := by
    intro l
    induction l with
    | nil => intro result h; exact h
    | cons c l ih =>
      intro result h
      rw [List.foldl_cons]
      apply ih
      have happ : ∀ lit : String, '\n' ∉ lit.data → '\n' ∉ (result ++ lit).data := by
        intro lit hl hm
        rw [String.data_append] at hm
        rcases List.mem_append.mp hm with e | e
        · exact h e
        · exact hl e
      split_ifs with h1 h2 h3 h4 h5
      · exact happ _ (by decide)
      · exact happ _ (by decide)
      · exact happ _ (by decide)
      · exact happ _ (by decide)
      · exact happ _ (by decide)
      · intro hm
        rw [String.data_push] at hm
        rcases List.mem_append.mp hm with e | e
        · exact h e
        · exact h3 (List.mem_singleton.mp e).symm
  exact key _ _ (by decide)

end NewlineLemmas

section JoinLemmas

/-- A loop that writes a separator before every block but the first writes
the blocks joined by the separator. -/
theorem fold_blocks_after_first {β : Type} (step : String × Bool → β → String × Bool)
    (blk : β → String)
    (hstep : ∀ (file : String) (first : Bool) (e : β),
      step (file, first) e = ((if first then file else file ++ ",\n") ++ blk e, false))
    (l : List β) (file : String) :
    l.foldl step (file, false)
      = (file ++ l.foldr (fun e acc => ",\n" ++ blk e ++ acc) "", false) := by
  induction l generalizing file with
  | nil => simp
  | cons a l ih =>
    rw [List.foldl_cons, hstep, ih]
    simp [String.append_assoc]

theorem join_with_cons (sep a : String) (rest : List String) :
    join_with sep (a :: rest) = a ++ rest.foldr (fun e acc => sep ++ e ++ acc) "" := by
  induction rest generalizing a with
  | nil => simp [join_with]
  | cons b rest ih =>
    rw [join_with, ih, List.foldr_cons]
    simp [String.append_assoc]

theorem fold_blocks {β : Type} (step : String × Bool → β → String × Bool)
    (blk : β → String)
    (hstep : ∀ (file : String) (first : Bool) (e : β),
      step (file, first) e = ((if first then file else file ++ ",\n") ++ blk e, false))
    (l : List β) (file : String) :
    (l.foldl step (file, true)).1 = file ++ join_with ",\n" (l.map blk) := by
  cases l with
  | nil => simp [join_with]
  | cons a l =>
    rw [List.foldl_cons, hstep, fold_blocks_after_first step blk hstep, List.map_cons,
      join_with_cons, List.foldr_map]
    simp [String.append_assoc]

end JoinLemmas

section SerializeLemmas

variable {T D : Type} [ToString T]

/-- The text written by `serialize` is the text of the specification. -/
theorem serialize_eq_spec (show_double : D → String)
    (c : ScientificContainer T ScientificObject (MetadataTuple D)) :
    serialize show_double c = spec_serialize show_double c := by
  have e1 : ("    \x7b\n      \"key\": " : String) = "    \x7b\n" ++ "      \"key\": " := by
    decide
  have e2 : (",\n      \"type\": \"" : String) = ",\n" ++ "      \"type\": \"" := by decide
  have e3 : ("\"\n    \x7d" : String) = "\"\n" ++ "    \x7d" := by decide
  have e4 : (",\n      \"int_value\": " : String) = ",\n" ++ "      \"int_value\": " := by
    decide
  have e5 : (",\n      \"double_value\": " : String)
      = ",\n" ++ "      \"double_value\": " := by decide
  have e6 : (",\n      \"string_value\": \"" : String)
      = ",\n" ++ "      \"string_value\": \"" := by decide
  have e7 : ("\x7b\n  \"elements\": [\n" : String) = "" ++ "\x7b\n" ++ "  \"elements\": [\n" := by
    decide
  have e8 : ("\n  ],\n  \"metadata\": [\n" : String) = "\n  ],\n" ++ "  \"metadata\": [\n" := by
    decide
  have e9 : ("\n  ]\n\x7d\n" : String) = "\n  ]\n" ++ "\x7d\n" := by decide
  have e0 : (",\n    \x7b\n      \"key\": " : String) = ",\n" ++ "    \x7b\n      \"key\": " := by
    decide
  unfold serialize spec_serialize
  dsimp only
  rw [fold_blocks _ spec_element_block ?h1, fold_blocks _ (spec_metadata_block show_double) ?h2]
  case h1 =>
    intro file first e
    cases first
    · simp only [spec_element_block, e1, e2, e3]
      simp [String.append_assoc]
      rw [e0, String.append_assoc]
    · simp only [spec_element_block, e1, e2, e3]
      simp [String.append_assoc]
  case h2 =>
    intro file first e
    cases first
    · simp only [spec_metadata_block, e1, e4, e5, e6, e3]
      simp [String.append_assoc]
      rw [e0, String.append_assoc]
    · simp only [spec_metadata_block, e1, e4, e5, e6, e3]
      simp [String.append_assoc]
  rw [e7, e8, e9]
  simp only [String.append_assoc]

end SerializeLemmas

section BlockLemmas

variable {T D : Type} [ToString T]

/-- The scanner leaves the block of an element in the state `1` (the closing
brace has been read), from whatever state it enters it. -/
theorem scan_element_block (e : T × ScientificObject) (hkey : '\n' ∉ (toString e.1).data)
    (q : Nat) (hq : q ≤ 5) : scan q (spec_element_block e).data = 1 := by
  unfold spec_element_block
  simp only [String.data_append, scan_append]
  have h1 : scan q ("    \x7b\n      \"key\": " : String).data = 0 := by
    interval_cases q <;> decide
  rw [h1]
  have k := scan_no_newline 0 _ (by omega) hkey
  generalize scan 0 (toString e.1).data = s at k
  have h2 : scan s (",\n      \"type\": \"" : String).data = 0 := by
    interval_cases s <;> decide
  rw [h2]
  have n := scan_no_newline 0 _ (by omega) (get_object_type_name_no_newline e.2)
  generalize scan 0 (get_object_type_name e.2).data = s' at n
  interval_cases s' <;> decide

/-- The same for the block of a metadata entry. -/
theorem scan_metadata_block (show_double : D → String) (e : T × MetadataTuple D)
    (hkey : '\n' ∉ (toString e.1).data) (hdouble : '\n' ∉ (show_double e.2.get1).data)
    (q : Nat) (hq : q ≤ 5) : scan q (spec_metadata_block show_double e).data = 1 := by
  unfold spec_metadata_block
  simp only [String.data_append, scan_append]
  have h1 : scan q ("    \x7b\n      \"key\": " : String).data = 0 := by
    interval_cases q <;> decide
  rw [h1]
  have k := scan_no_newline 0 _ (by omega) hkey
  generalize scan 0 (toString e.1).data = s at k
  have h2 : scan s (",\n      \"int_value\": " : String).data = 0 := by
    interval_cases s <;> decide
  rw [h2]
  have k2 := scan_no_newline 0 _ (by omega) (int_toString_no_newline e.2.get0)
  generalize scan 0 (toString e.2.get0).data = s2 at k2
  have h3 : scan s2 (",\n      \"double_value\": " : String).data = 0 := by
    interval_cases s2 <;> decide
  rw [h3]
  have k3 := scan_no_newline 0 _ (by omega) hdouble
  generalize scan 0 (show_double e.2.get1).data = s3 at k3
  have h4 : scan s3 (",\n      \"string_value\": \"" : String).data = 0 := by
    interval_cases s3 <;> decide
  rw [h4]
  have k4 := scan_no_newline 0 _ (by omega) (escape_json_string_no_newline e.2.get2)
  generalize scan 0 (escape_json_string e.2.get2).data = s4 at k4
  interval_cases s4 <;> decide

/-- The scanner over blocks joined by a comma and a newline: it ends in the
state `1` when there is a block, and does not move when there is none. -/
theorem scan_join_with (blocks : List String)
    (hb : ∀ b ∈ blocks, ∀ q, q ≤ 5 → scan q b.data = 1) (q : Nat) (hq : q ≤ 5) :
    scan q (join_with ",\n" blocks).data = if blocks = [] then q else 1 := by
  induction blocks generalizing q with
  | nil => rfl
  | cons a rest ih =>
    rw [if_neg (List.cons_ne_nil _ _)]
    cases rest with
    | nil => exact hb a (List.mem_cons_self _ _) q hq
    | cons b rest =>
      rw [join_with]
      simp only [String.data_append, scan_append]
      rw [hb a (List.mem_cons_self _ _) q hq]
      have hsep : scan 1 (",\n" : String).data = 3 := by decide
      rw [hsep, ih (fun b hb' => hb b (List.mem_cons_of_mem _ hb')) 3 (by omega),
        if_neg (List.cons_ne_nil _ _)]

/-- The scanner ends in the state `0` on the text of the specification. -/
theorem scan_spec_serialize (show_double : D → String)
    (c : ScientificContainer T ScientificObject (MetadataTuple D))
    (hkey : ∀ k : T, '\n' ∉ (toString k).data)
    (hdouble : ∀ d : D, '\n' ∉ (show_double d).data) :
    scan 0 (spec_serialize show_double c).data = 0 := by
  unfold spec_serialize
  simp only [String.data_append, scan_append]
  have h1 : scan 0 ("\x7b\n  \"elements\": [\n" : String).data = 0 := by decide
  rw [h1, scan_join_with _ (by
    intro b hb q hq
    obtain ⟨e, -, rfl⟩ := List.mem_map.mp hb
    exact scan_element_block e (hkey e.1) q hq) 0 (by omega)]
  have h2 : ∀ s, s = 0 ∨ s = 1 →
      scan s ("\n  ],\n  \"metadata\": [\n" : String).data = 0 := by
    rintro s (rfl | rfl) <;> decide
  rw [h2 _ (by split_ifs <;> simp)]
  rw [scan_join_with _ (by
    intro b hb q hq
    obtain ⟨e, -, rfl⟩ := List.mem_map.mp hb
    exact scan_metadata_block show_double e (hkey e.1) (hdouble e.2.get1) q hq) 0 (by omega)]
  have h3 : ∀ s, s = 0 ∨ s = 1 → scan s ("\n  ]\n\x7d\n" : String).data = 0 := by
    rintro s (rfl | rfl) <;> decide
  exact h3 _ (by split_ifs <;> simp)

end BlockLemmas

section SerializeClaims

variable {D : Type}

/-- C35: for every state of a `ScientificContainer<int>`, the text written by
`serialize` consists of the sections `elements` and `metadata`, the first
with one block per element that holds the key and, in the field `type`, the
name of the dynamic class of the element, the blocks of a section being
separated by a comma and a newline; and the text contains no closing brace
immediately followed by a comma, a newline, two spaces and a closing
bracket.  The text written for a `double` is assumed to have no newline. -/
theorem serialize_no_trailing_comma (show_double : D → String)
    (c : ScientificContainer Int ScientificObject (MetadataTuple D))
    (hdouble : ∀ d : D, '\n' ∉ (show_double d).data) :
    serialize show_double c
      = "\x7b\n  \"elements\": [\n"
        ++ join_with ",\n" (c.container.map (fun e =>
            "    \x7b\n      \"key\": " ++ toString e.1 ++ ",\n      \"type\": \""
              ++ get_object_type_name e.2 ++ "\"\n    \x7d"))
        ++ "\n  ],\n  \"metadata\": [\n"
        ++ join_with ",\n" (c.metadata.map (spec_metadata_block show_double))
        ++ "\n  ]\n\x7d\n" ∧
    ¬ (trailing_comma <:+: (serialize show_double c).data) := by
  refine ⟨serialize_eq_spec show_double c, ?_⟩
  intro h
  have h6 := scan_of_occurrence _ h
  rw [serialize_eq_spec, scan_spec_serialize show_double c int_toString_no_newline hdouble] at h6
  exact absurd h6 (by decide)

theorem serialize_no_trailing_comma_witness :
    ¬ (trailing_comma <:+: (serialize (fun _ : Unit => "2.5")
      { container := [(1, ScientificObject.VectorCalculation), (-2, ScientificObject.other)],
        metadata := [(1, { get0 := 3, get1 := (), get2 := "a\nb" })],
        unique_elements := [1, -2] }).data) :=
  (serialize_no_trailing_comma (fun _ : Unit => "2.5")
    { container := [(1, ScientificObject.VectorCalculation), (-2, ScientificObject.other)],
      metadata := [(1, { get0 := 3, get1 := (), get2 := "a\nb" })],
      unique_elements := [1, -2] }
    (fun _ => by
      show '\n' ∉ ("2.5" : String).data
      decide)).2

end SerializeClaims

end HW6

/-! # Programs on doubles: theorems -/

open IEEE754

/-! ## Rounding -/

section Rounding

theorem pow2_eq_zpow (e : Int) : pow2 e = (2 : ℚ) ^ e := by
  unfold pow2
  split
  · rename_i h
    lift e to ℕ using h
    rw [Int.toNat_natCast, zpow_natCast]
    push_cast
    rfl
  · rename_i h
    have h' : 0 ≤ -e := by omega
    obtain ⟨n, hn⟩ := Int.eq_ofNat_of_zero_le h'
    have he : e = -(n : Int) := by omega
    rw [hn, he, Int.toNat_natCast, zpow_neg, zpow_natCast]
    push_cast
    rw [one_div]

theorem pow2_pos (e : Int) : 0 < pow2 e := by
  rw [pow2_eq_zpow]
  positivity

theorem pow2_le_pow2 (a b : Int) (h : a ≤ b) : pow2 a ≤ pow2 b := by
  rw [pow2_eq_zpow, pow2_eq_zpow]
  exact zpow_le_zpow_right₀ (by norm_num) h

theorem pow2_add (a b : Int) : pow2 (a + b) = pow2 a * pow2 b := by
  rw [pow2_eq_zpow, pow2_eq_zpow, pow2_eq_zpow, zpow_add₀ (by norm_num)]

/-- The number of binary digits: `2 ^ (b - 1) ≤ n < 2 ^ b`. -/
theorem bit_length_spec : ∀ (fuel n : Nat), n ≤ fuel → 0 < n →
    2 ^ (bit_length fuel n - 1) ≤ n ∧ n < 2 ^ bit_length fuel n ∧ 1 ≤ bit_length fuel n := by
  intro fuel
  induction fuel with
  | zero => intro n h1 h2; omega
  | succ fuel ih =>
    intro n h1 h2
    have hb : bit_length (fuel + 1) n = bit_length fuel (n / 2) + 1 := by
      show (if n = 0 then 0 else bit_length fuel (n / 2) + 1) = _
      rw [if_neg (by omega)]
    rw [hb]
    by_cases h : n / 2 = 0
    · have hn : n = 1 := by omega
      have h0 : bit_length fuel (n / 2) = 0 := by
        rw [h]
        cases fuel <;> rfl
      rw [h0, hn]
      decide
    · obtain ⟨i1, i2, i3⟩ := ih (n / 2) (by omega) (by omega)
      refine ⟨?_, ?_, by omega⟩
      · have e : bit_length fuel (n / 2) + 1 - 1 = (bit_length fuel (n / 2) - 1) + 1 := by omega
        rw [e, pow_succ]
        omega
      · rw [pow_succ]
        omega

/-- The binade of a positive rational `q`: `2 ^ e ≤ q < 2 ^ (e + 1)`. -/
theorem binade_spec (q : ℚ) (hq : 0 < q) :
    pow2 (binade q) ≤ q ∧ q < pow2 (binade q + 1) := by
  have hnum : 0 < q.num := Rat.num_pos.mpr hq
  have hden : 0 < q.den := q.den_pos
  obtain ⟨N, hN⟩ := Int.eq_ofNat_of_zero_le hnum.le
  have hN0 : 0 < N := by omega
  have hNt : q.num.toNat = N := by omega
  obtain ⟨n1, n2, n3⟩ := bit_length_spec N N le_rfl hN0
  obtain ⟨d1, d2, d3⟩ := bit_length_spec q.den q.den le_rfl hden
  have hqe : q = (N : ℚ) / (q.den : ℚ) := by
    have := Rat.num_div_den q
    rw [hN, Int.cast_natCast] at this
    exact this.symm
  have hD : (0 : ℚ) < (q.den : ℚ) := by exact_mod_cast hden
  have n1' : (2 : ℚ) ^ (bit_length N N - 1) ≤ (N : ℚ) := by exact_mod_cast n1
  have n2' : (N : ℚ) < (2 : ℚ) ^ bit_length N N := by exact_mod_cast n2
  have d1' : (2 : ℚ) ^ (bit_length q.den q.den - 1) ≤ (q.den : ℚ) := by exact_mod_cast d1
  have d2' : (q.den : ℚ) < (2 : ℚ) ^ bit_length q.den q.den := by exact_mod_cast d2
  -- bounds of `q` by powers of two
  have hup : q < pow2 ((bit_length N N : Int) - (bit_length q.den q.den : Int) + 1) := by
    rw [pow2_eq_zpow]
    have e : ((bit_length N N : Int) - (bit_length q.den q.den : Int) + 1)
        = (bit_length N N : Int) - ((bit_length q.den q.den - 1 : Nat) : Int) := by omega
    rw [e, zpow_sub₀ (by norm_num), zpow_natCast, zpow_natCast]
    calc q = (N : ℚ) / (q.den : ℚ) := hqe
      _ < (2 : ℚ) ^ bit_length N N / (q.den : ℚ) :=
          div_lt_div_of_pos_right n2' hD
      _ ≤ (2 : ℚ) ^ bit_length N N / (2 : ℚ) ^ (bit_length q.den q.den - 1) :=
          div_le_div_of_nonneg_left (by positivity) (by positivity) d1'
  have hlo : pow2 ((bit_length N N : Int) - (bit_length q.den q.den : Int) - 1) ≤ q := by
    rw [pow2_eq_zpow]
    have e : ((bit_length N N : Int) - (bit_length q.den q.den : Int) - 1)
        = ((bit_length N N - 1 : Nat) : Int) - (bit_length q.den q.den : Int) := by omega
    rw [e, zpow_sub₀ (by norm_num), zpow_natCast, zpow_natCast]
    calc (2 : ℚ) ^ (bit_length N N - 1) / (2 : ℚ) ^ bit_length q.den q.den
        ≤ (2 : ℚ) ^ (bit_length N N - 1) / (q.den : ℚ) :=
          div_le_div_of_nonneg_left (by positivity) hD d2'.le
      _ ≤ (N : ℚ) / (q.den : ℚ) := div_le_div_of_nonneg_right n1' hD.le
      _ = q := hqe.symm
  unfold binade
  dsimp only
  rw [hNt]
  split
  · rename_i h
    exact ⟨h, hup⟩
  · rename_i h
    refine ⟨hlo, ?_⟩
    rw [sub_add_cancel]
    exact not_le.mp h

/-- The binade is monotone on the positive rationals. -/
theorem binade_mono (p q : ℚ) (hp : 0 < p) (hpq : p ≤ q) : binade p ≤ binade q := by
  obtain ⟨p1, p2⟩ := binade_spec p hp
  obtain ⟨q1, q2⟩ := binade_spec q (lt_of_lt_of_le hp hpq)
  by_contra h
  have h' : binade q + 1 ≤ binade p := by omega
  have := pow2_le_pow2 _ _ h'
  linarith

/-- Rounding to the nearest integer, in terms of the floor. -/
theorem round_half_even_eq (n : ℚ) :
    round_half_even n =
      if n - ⌊n⌋ < 1 / 2 then ⌊n⌋
      else if 1 / 2 < n - ⌊n⌋ then ⌊n⌋ + 1
      else if ⌊n⌋ % 2 = 0 then ⌊n⌋ else ⌊n⌋ + 1 := by
  unfold round_half_even
  dsimp only
  rw [← Rat.floor_def]

/-- Rounding to the nearest integer is monotone. -/
theorem round_half_even_mono (x y : ℚ) (h : x ≤ y) : round_half_even x ≤ round_half_even y := by
  have hf : ⌊x⌋ ≤ ⌊y⌋ := Int.floor_mono h
  have x1 : (⌊x⌋ : ℚ) ≤ x := Int.floor_le x
  have x2 : x < ⌊x⌋ + 1 := Int.lt_floor_add_one x
  have y1 : (⌊y⌋ : ℚ) ≤ y := Int.floor_le y
  have y2 : y < ⌊y⌋ + 1 := Int.lt_floor_add_one y
  rw [round_half_even_eq, round_half_even_eq]
  rcases lt_or_eq_of_le hf with hlt | heq
  · split_ifs <;> omega
  · rw [heq] at x1 x2 ⊢
    split_ifs <;> first | omega | (exfalso; linarith)

/-- An integer is not changed by rounding. -/
theorem round_half_even_intCast (k : Int) : round_half_even (k : ℚ) = k := by
  rw [round_half_even_eq, Int.floor_intCast, sub_self, if_pos (by norm_num)]

theorem round_half_even_nonneg (n : ℚ) (h : 0 ≤ n) : 0 ≤ round_half_even n := by
  have := round_half_even_mono 0 n h
  rwa [show (0 : ℚ) = ((0 : Int) : ℚ) by norm_num, round_half_even_intCast] at this

theorem ulp_pos (q : ℚ) : 0 < ulp q := pow2_pos _

theorem round_magnitude_zero : round_magnitude 0 = 0 := by
  unfold round_magnitude
  rw [if_pos rfl]

theorem round_magnitude_nonneg (q : ℚ) (h : 0 ≤ q) : 0 ≤ round_magnitude q := by
  unfold round_magnitude
  split
  · exact le_refl _
  · apply mul_nonneg
    · exact_mod_cast round_half_even_nonneg _ (div_nonneg h (ulp_pos q).le)
    · exact (ulp_pos q).le

/-- A power of two with a natural exponent is an integer. -/
theorem pow2_natCast (n : Nat) : pow2 (n : Int) = (((2 : Int) ^ n : Int) : ℚ) := by
  rw [pow2_eq_zpow, zpow_natCast]
  push_cast
  rfl

/-- Rounding a rational `p` that is at most a multiple `B` of its own spacing
gives at most `B`. -/
theorem round_magnitude_le_of_le (p : ℚ) (hp : 0 < p) (e : Int)
    (hk : max (binade p) (-1022) - 52 ≤ e) (hB : p ≤ pow2 e) : round_magnitude p ≤ pow2 e := by
  unfold round_magnitude
  rw [if_neg hp.ne']
  have hu := ulp_pos p
  obtain ⟨n, hn⟩ := Int.eq_ofNat_of_zero_le (sub_nonneg.mpr hk)
  have hBu : pow2 e = ((2 : Int) ^ n : Int) * ulp p := by
    have : e = (n : Int) + (max (binade p) (-1022) - 52) := by omega
    rw [this, pow2_add, pow2_natCast]
    rfl
  have h1 : p / ulp p ≤ (((2 : Int) ^ n : Int) : ℚ) := by
    rw [div_le_iff₀ hu, ← hBu]
    exact hB
  have h2 := round_half_even_mono _ _ h1
  rw [round_half_even_intCast] at h2
  rw [hBu]
  exact mul_le_mul_of_nonneg_right (by exact_mod_cast h2) hu.le

/-- Rounding of a rational that is at least the lower end `2 ^ e` of its binade,
above the subnormal range, gives at least `2 ^ e`. -/
theorem le_round_magnitude_of_le (q : ℚ) (hq : 0 < q) (e : Int)
    (hk : e ≤ binade q) (he : max (binade q) (-1022) - 52 ≤ e) (hB : pow2 e ≤ q) :
    pow2 e ≤ round_magnitude q := by
  unfold round_magnitude
  rw [if_neg hq.ne']
  have hu := ulp_pos q
  obtain ⟨n, hn⟩ := Int.eq_ofNat_of_zero_le (sub_nonneg.mpr he)
  have hBu : pow2 e = ((2 : Int) ^ n : Int) * ulp q := by
    have : e = (n : Int) + (max (binade q) (-1022) - 52) := by omega
    rw [this, pow2_add, pow2_natCast]
    rfl
  have h1 : (((2 : Int) ^ n : Int) : ℚ) ≤ q / ulp q := by
    rw [le_div_iff₀ hu, ← hBu]
    exact hB
  have h2 := round_half_even_mono _ _ h1
  rw [round_half_even_intCast] at h2
  rw [hBu]
  exact mul_le_mul_of_nonneg_right (by exact_mod_cast h2) hu.le

/-- Rounding to the nearest double is monotone. -/
theorem round_magnitude_mono (p q : ℚ) (hp : 0 ≤ p) (hpq : p ≤ q) :
    round_magnitude p ≤ round_magnitude q := by
  rcases hp.eq_or_lt with h0 | hp0
  · rw [← h0, round_magnitude_zero]
    exact round_magnitude_nonneg q (le_trans hp hpq)
  have hq0 : 0 < q := lt_of_lt_of_le hp0 hpq
  have hb := binade_mono p q hp0 hpq
  rcases (max_le_max_right (-1022) hb).eq_or_lt with he | hlt
  · -- same spacing
    have hu : ulp p = ulp q := by
      unfold ulp
      rw [he]
    unfold round_magnitude
    rw [if_neg hp0.ne', if_neg hq0.ne', hu]
    have hd : p / ulp q ≤ q / ulp q := div_le_div_of_nonneg_right hpq (ulp_pos q).le
    exact mul_le_mul_of_nonneg_right (by exact_mod_cast round_half_even_mono _ _ hd)
      (ulp_pos q).le
  · -- `p` lies in a lower binade than `q`
    have hq1 : -1022 < binade q := by
      rcases le_or_lt (binade q) (-1022) with h | h
      · rw [max_eq_right h] at hlt
        have := le_max_right (binade p) (-1022)
        omega
      · exact h
    have hpb : binade p + 1 ≤ binade q := by
      rw [max_eq_left hq1.le] at hlt
      have := le_max_left (binade p) (-1022)
      omega
    obtain ⟨-, p2⟩ := binade_spec p hp0
    obtain ⟨q1, -⟩ := binade_spec q hq0
    have hpB : p ≤ pow2 (binade q) := le_trans p2.le (pow2_le_pow2 _ _ hpb)
    have h1 : round_magnitude p ≤ pow2 (binade q) :=
      round_magnitude_le_of_le p hp0 (binade q) (by
        rw [max_eq_left hq1.le] at hlt
        omega) hpB
    have h2 : pow2 (binade q) ≤ round_magnitude q :=
      le_round_magnitude_of_le q hq0 (binade q) le_rfl (by
        rw [max_eq_left hq1.le]
        omega) q1
    exact le_trans h1 h2

set_option maxRecDepth 100000 in
/-- The number 1 is a double. -/
theorem round_magnitude_one : round_magnitude 1 = 1 := by decide!

theorem DBL_MAX_pos : 0 < DBL_MAX := by
  unfold DBL_MAX
  have h : 0 < (2 ^ 53 - 1) * 2 ^ 971 := Nat.mul_pos (by norm_num) (by positivity)
  exact_mod_cast h

theorem one_le_DBL_MAX : 1 ≤ DBL_MAX := by
  unfold DBL_MAX
  have h : 1 ≤ (2 ^ 53 - 1) * 2 ^ 971 := Nat.mul_pos (by norm_num) (by positivity)
  exact_mod_cast h

/-- The binade of a power of two. -/
theorem binade_pow2 (e : Int) : binade (pow2 e) = e := by
  obtain ⟨h1, h2⟩ := binade_spec (pow2 e) (pow2_pos e)
  generalize binade (pow2 e) = b at h1 h2 ⊢
  rw [pow2_eq_zpow, pow2_eq_zpow] at h1 h2
  have a := (zpow_le_zpow_iff_right₀ (by norm_num : (1 : ℚ) < 2)).mp h1
  have b := (zpow_lt_zpow_iff_right₀ (by norm_num : (1 : ℚ) < 2)).mp h2
  omega

/-- The smallest positive double, `2 ^ (-1074)`, is not changed by rounding. -/
theorem round_magnitude_min_subnormal : pow2 (-1074) ≤ round_magnitude (pow2 (-1074)) :=
  le_round_magnitude_of_le _ (pow2_pos _) (-1074) (by rw [binade_pow2])
    (by rw [binade_pow2]; decide) le_rfl

/-- A magnitude that rounding does not change is a multiple of
`2 ^ (-1074)`. -/
theorem representable_grid (m : ℚ) (h : round_magnitude m = m) :
    ∃ k : Int, m = k * pow2 (-1074) := by
  by_cases h0 : m = 0
  · exact ⟨0, by rw [h0]; simp⟩
  · unfold round_magnitude at h
    rw [if_neg h0] at h
    have hk : (0 : Int) ≤ max (binade m) (-1022) - 52 - (-1074) := by
      have := le_max_right (binade m) (-1022)
      omega
    obtain ⟨n, hn⟩ := Int.eq_ofNat_of_zero_le hk
    have hu : ulp m = ((2 : Int) ^ n : Int) * pow2 (-1074) := by
      unfold ulp
      have : max (binade m) (-1022) - 52 = (n : Int) + (-1074) := by omega
      rw [this, pow2_add, pow2_natCast]
    refine ⟨round_half_even (m / ulp m) * (2 : Int) ^ n, ?_⟩
    calc m = round_half_even (m / ulp m) * ulp m := h.symm
      _ = round_half_even (m / ulp m) * (((2 : Int) ^ n : Int) * pow2 (-1074)) := by
          rw [← hu]
      _ = ((round_half_even (m / ulp m) * (2 : Int) ^ n : Int) : ℚ) * pow2 (-1074) := by
          push_cast
          ring

/-- A positive multiple of `2 ^ (-1074)` does not round to zero. -/
theorem round_magnitude_pos_of_grid (v : ℚ) (k : Int) (hv : 0 < v) (hk : v = k * pow2 (-1074)) :
    0 < round_magnitude v := by
  have hp := pow2_pos (-1074)
  have hk1 : (1 : Int) ≤ k := by
    by_contra hc
    have hk0 : k ≤ 0 := by omega
    have : (k : ℚ) ≤ 0 := by exact_mod_cast hk0
    have := mul_nonpos_of_nonpos_of_nonneg this hp.le
    linarith
  have hge : pow2 (-1074) ≤ v := by
    rw [hk]
    have : (1 : ℚ) ≤ k := by exact_mod_cast hk1
    calc pow2 (-1074) = 1 * pow2 (-1074) := (one_mul _).symm
      _ ≤ k * pow2 (-1074) := mul_le_mul_of_nonneg_right this hp.le
  have := round_magnitude_mono _ _ hp.le hge
  exact lt_of_lt_of_le hp (le_trans round_magnitude_min_subnormal this)

end Rounding

section DoubleOrder

/-- Comparison of finite doubles is comparison of their values. -/
theorem double_lt_finite (a b : Double) (ha : a.is_finite = true) (hb : b.is_finite = true) :
    a.lt b = decide (a.value < b.value) := by
  cases a <;> cases b <;> simp [Double.is_finite] at ha hb
  rfl

/-- The running minimum `if (d < m) m = d;` over a list of finite doubles:
it is finite, at most the initial value and at most every element, and it
is the initial value or an element. -/
theorem double_running_min (l : List Double) (m0 : Double)
    (hl : ∀ d ∈ l, d.is_finite = true) (hm0 : m0.is_finite = true) :
    (l.foldl (fun m d => if d.lt m then d else m) m0).is_finite = true ∧
    (l.foldl (fun m d => if d.lt m then d else m) m0).value ≤ m0.value ∧
    (∀ v ∈ l, (l.foldl (fun m d => if d.lt m then d else m) m0).value ≤ v.value) ∧
    (l.foldl (fun m d => if d.lt m then d else m) m0 = m0 ∨
      l.foldl (fun m d => if d.lt m then d else m) m0 ∈ l) := by
  induction l generalizing m0 with
  | nil => exact ⟨hm0, le_refl _, by simp, Or.inl rfl⟩
  | cons a l ih =>
    have ha : a.is_finite = true := hl a (List.mem_cons_self _ _)
    have hl' : ∀ d ∈ l, d.is_finite = true := fun d hd => hl d (List.mem_cons_of_mem _ hd)
    rw [List.foldl_cons, double_lt_finite a m0 ha hm0]
    by_cases h : a.value < m0.value
    · rw [decide_eq_true h, if_pos rfl]
      obtain ⟨h0, h1, h2, h3⟩ := ih a hl' ha
      refine ⟨h0, le_trans h1 h.le, ?_, ?_⟩
      · intro v hv
        rcases List.mem_cons.mp hv with e | e
        · rw [e]; exact h1
        · exact h2 v e
      · right
        rcases h3 with e | e
        · rw [e]; exact List.mem_cons_self _ _
        · exact List.mem_cons_of_mem _ e
    · rw [decide_eq_false h, if_neg (by simp)]
      obtain ⟨h0, h1, h2, h3⟩ := ih m0 hl' hm0
      refine ⟨h0, h1, ?_, ?_⟩
      · intro v hv
        rcases List.mem_cons.mp hv with e | e
        · rw [e]; exact le_trans h1 (not_lt.mp h)
        · exact h2 v e
      · rcases h3 with e | e
        · left; exact e
        · right; exact List.mem_cons_of_mem _ e

/-- The running maximum `if (m < d) m = d;` over a list of finite doubles. -/
theorem double_running_max (l : List Double) (m0 : Double)
    (hl : ∀ d ∈ l, d.is_finite = true) (hm0 : m0.is_finite = true) :
    (l.foldl (fun m d => if m.lt d then d else m) m0).is_finite = true ∧
    m0.value ≤ (l.foldl (fun m d => if m.lt d then d else m) m0).value ∧
    (∀ v ∈ l, v.value ≤ (l.foldl (fun m d => if m.lt d then d else m) m0).value) ∧
    (l.foldl (fun m d => if m.lt d then d else m) m0 = m0 ∨
      l.foldl (fun m d => if m.lt d then d else m) m0 ∈ l) := by
  induction l generalizing m0 with
  | nil => exact ⟨hm0, le_refl _, by simp, Or.inl rfl⟩
  | cons a l ih =>
    have ha : a.is_finite = true := hl a (List.mem_cons_self _ _)
    have hl' : ∀ d ∈ l, d.is_finite = true := fun d hd => hl d (List.mem_cons_of_mem _ hd)
    rw [List.foldl_cons, double_lt_finite m0 a hm0 ha]
    by_cases h : m0.value < a.value
    · rw [decide_eq_true h, if_pos rfl]
      obtain ⟨h0, h1, h2, h3⟩ := ih a hl' ha
      refine ⟨h0, le_trans h.le h1, ?_, ?_⟩
      · intro v hv
        rcases List.mem_cons.mp hv with e | e
        · rw [e]; exact h1
        · exact h2 v e
      · right
        rcases h3 with e | e
        · rw [e]; exact List.mem_cons_self _ _
        · exact List.mem_cons_of_mem _ e
    · rw [decide_eq_false h, if_neg (by simp)]
      obtain ⟨h0, h1, h2, h3⟩ := ih m0 hl' hm0
      refine ⟨h0, h1, ?_, ?_⟩
      · intro v hv
        rcases List.mem_cons.mp hv with e | e
        · rw [e]; exact le_trans (not_lt.mp h) h1
        · exact h2 v e
      · rcases h3 with e | e
        · left; exact e
        · right; exact List.mem_cons_of_mem _ e

/-- Equality of finite doubles is equality of their values. -/
theorem double_eq_finite (a b : Double) (ha : a.is_finite = true) (hb : b.is_finite = true) :
    a.eq b = decide (a.value = b.value) := by
  cases a <;> cases b <;> simp [Double.is_finite] at ha hb
  rfl

/-- The difference of two finite doubles, the first being at least the
second, when it does not overflow: the rounded difference of the values,
with the sign bit set only if it is zero. -/
theorem double_sub_of_le (x y : Double) (hx : x.is_finite = true) (hy : y.is_finite = true)
    (h : y.value ≤ x.value) (hf : (x.sub y).is_finite = true) :
    ∃ s, x.sub y = Double.finite s (round_magnitude (x.value - y.value)) ∧
      (s = true → x.value = y.value) := by
  cases x with
  | nan => simp [Double.is_finite] at hx
  | infinite s => simp [Double.is_finite] at hx
  | finite s m =>
    cases y with
    | nan => simp [Double.is_finite] at hy
    | infinite t => simp [Double.is_finite] at hy
    | finite t n =>
      have hneg : Double.signed (!t) n = -Double.signed t n := by
        cases t <;> simp [Double.signed]
      have hsub : (Double.finite s m).sub (Double.finite t n)
          = if Double.signed s m + Double.signed (!t) n = 0 then Double.finite (s && !t) 0
            else Double.round (decide (Double.signed s m + Double.signed (!t) n < 0))
              |Double.signed s m + Double.signed (!t) n| := rfl
      simp only [Double.value] at h ⊢
      rw [hsub, hneg, ← sub_eq_add_neg] at hf ⊢
      by_cases h0 : Double.signed s m - Double.signed t n = 0
      · rw [if_pos h0, h0, round_magnitude_zero]
        exact ⟨_, rfl, fun _ => sub_eq_zero.mp h0⟩
      · have hpos : 0 < Double.signed s m - Double.signed t n :=
          lt_of_le_of_ne (sub_nonneg.mpr h) (Ne.symm h0)
        rw [if_neg h0, decide_eq_false (not_lt.mpr hpos.le), abs_of_pos hpos] at hf ⊢
        unfold Double.round at hf ⊢
        by_cases hov : DBL_MAX < round_magnitude (Double.signed s m - Double.signed t n)
        · rw [if_pos hov] at hf
          simp [Double.is_finite] at hf
        · rw [if_neg hov]
          exact ⟨false, rfl, fun hc => by cases hc⟩

/-- The quotient of a finite double by a positive one that is at least as
large: a double between 0 and 1. -/
theorem double_div_unit (s : Bool) (a d : ℚ) (h0 : 0 ≤ a) (hle : a ≤ d) (hd : 0 < d) :
    (Double.finite s a).div (Double.finite false d)
      = Double.finite s (round_magnitude (a / d)) ∧
    0 ≤ round_magnitude (a / d) ∧ round_magnitude (a / d) ≤ 1 := by
  have hq0 : 0 ≤ a / d := div_nonneg h0 hd.le
  have hq1 : a / d ≤ 1 := (div_le_one hd).mpr hle
  have hr1 : round_magnitude (a / d) ≤ 1 := by
    have := round_magnitude_mono _ _ hq0 hq1
    rwa [round_magnitude_one] at this
  refine ⟨?_, round_magnitude_nonneg _ hq0, hr1⟩
  have hdiv : (Double.finite s a).div (Double.finite false d)
      = if d = 0 then (if a = 0 then Double.nan else Double.infinite (xor s false))
        else Double.round (xor s false) (a / d) := rfl
  rw [hdiv, if_neg hd.ne']
  unfold Double.round
  rw [if_neg (not_lt.mpr (le_trans hr1 one_le_DBL_MAX)), Bool.xor_false]

/-- The value of a valid double is a multiple of `2 ^ (-1074)`. -/
theorem double_value_grid (x : Double) (hv : x.valid) : ∃ k : Int, x.value = k * pow2 (-1074) := by
  cases x with
  | nan => exact ⟨0, by simp [Double.value]⟩
  | infinite s => exact ⟨0, by simp [Double.value]⟩
  | finite s m =>
    obtain ⟨-, -, hr⟩ := hv
    obtain ⟨k, hk⟩ := representable_grid m hr
    cases s
    · exact ⟨k, by simp [Double.value, Double.signed, hk]⟩
    · exact ⟨-k, by simp [Double.value, Double.signed, hk]⟩

/-- One element of the result of `normalizeData` on doubles: for finite
doubles `minVal <= value <= maxVal` with `minVal != maxVal`, no difference
overflowing, `(value - minVal) / (maxVal - minVal)` is the finite double of
value `round (round (value - minVal) / round (maxVal - minVal))`. -/
theorem double_normalize_one (x mn mx : Double) (hx : x.is_finite = true)
    (hmn : mn.is_finite = true) (hmx : mx.is_finite = true) (hvmn : mn.valid) (hvmx : mx.valid)
    (h1 : mn.value ≤ x.value) (h2 : x.value ≤ mx.value) (hne : mn.value ≠ mx.value)
    (hf1 : (x.sub mn).is_finite = true) (hf2 : (mx.sub mn).is_finite = true) :
    ((x.sub mn).div (mx.sub mn)).is_finite = true ∧
    ((x.sub mn).div (mx.sub mn)).value
      = round_magnitude (round_magnitude (x.value - mn.value)
          / round_magnitude (mx.value - mn.value)) ∧
    0 < round_magnitude (mx.value - mn.value) := by
  have hlt : mn.value < mx.value := lt_of_le_of_ne (le_trans h1 h2) hne
  obtain ⟨k1, hk1⟩ := double_value_grid mx hvmx
  obtain ⟨k2, hk2⟩ := double_value_grid mn hvmn
  have hD : 0 < round_magnitude (mx.value - mn.value) :=
    round_magnitude_pos_of_grid _ (k1 - k2) (sub_pos.mpr hlt) (by rw [hk1, hk2]; push_cast; ring)
  obtain ⟨s1, e1, hs1⟩ := double_sub_of_le mx mn hmx hmn hlt.le hf2
  have hs1f : s1 = false := by
    cases s1
    · rfl
    · exact absurd (hs1 rfl) (Ne.symm hne)
  obtain ⟨s2, e2, hs2⟩ := double_sub_of_le x mn hx hmn h1 hf1
  have hA0 : 0 ≤ round_magnitude (x.value - mn.value) :=
    round_magnitude_nonneg _ (sub_nonneg.mpr h1)
  have hAD : round_magnitude (x.value - mn.value) ≤ round_magnitude (mx.value - mn.value) :=
    round_magnitude_mono _ _ (sub_nonneg.mpr h1) (by linarith)
  obtain ⟨d1, d2, d3⟩ := double_div_unit s2 _ _ hA0 hAD hD
  rw [e1, e2, hs1f, d1]
  refine ⟨rfl, ?_, hD⟩
  cases s2
  · rfl
  · have hz : x.value - mn.value = 0 := sub_eq_zero.mpr (hs2 rfl)
    show Double.signed true (round_magnitude (round_magnitude (x.value - mn.value)
      / round_magnitude (mx.value - mn.value))) = _
    rw [hz, round_magnitude_zero, zero_div, round_magnitude_zero]
    simp [Double.signed]

end DoubleOrder

section DoubleNormalize

/-- A loop of `push_back (g value)` builds the image of the list. -/
theorem double_foldl_push_back (g : Double → Double) (l acc : List Double) :
    l.foldl (fun normalized value => normalized ++ [g value]) acc = acc ++ l.map g := by
  induction l generalizing acc with
  | nil => simp
  | cons a l ih => rw [List.foldl_cons, ih]; simp

/-- The result of `normalizeData` on doubles for a non-empty vector. -/
theorem double_normalizeData_cons (first : Double) (rest : List Double) :
    HW1.F64.normalizeData (first :: rest)
      = if (HW1.F64.max_element first rest).eq (HW1.F64.min_element first rest) then
          List.replicate (first :: rest).length (Double.ofRat (1 / 2))
        else (first :: rest).map (fun value =>
          (value.sub (HW1.F64.min_element first rest)).div
            ((HW1.F64.max_element first rest).sub (HW1.F64.min_element first rest))) := by
  unfold HW1.F64.normalizeData
  dsimp only
  split
  · rfl
  · rw [double_foldl_push_back]
    rfl

/-- On doubles, for every vector of finite numbers none of whose differences
overflows, `normalizeData` returns a vector of the length of its input whose
elements are finite and lie in `[0, 1]`; when the values are not all equal, an
element that is a minimum of the input maps to 0, one that is a maximum maps
to 1, and the order of the values is preserved; when all values are equal
every element is `0.5`; the empty input gives the empty output. -/
theorem double_normalizeData_spec (data : List Double)
    (hv : ∀ d ∈ data, d.valid ∧ d.is_finite = true)
    (hrange : ∀ a ∈ data, ∀ b ∈ data, (a.sub b).is_finite = true) :
    (HW1.F64.normalizeData data).length = data.length ∧
    (∀ y ∈ HW1.F64.normalizeData data, y.is_finite = true ∧ 0 ≤ y.value ∧ y.value ≤ 1) ∧
    ((∃ a ∈ data, ∃ b ∈ data, a.value ≠ b.value) →
      ∀ i, i < data.length →
        ((∀ v ∈ data, (data.getD i (Double.ofRat 0)).value ≤ v.value) →
          ((HW1.F64.normalizeData data).getD i (Double.ofRat 0)).value = 0) ∧
        ((∀ v ∈ data, v.value ≤ (data.getD i (Double.ofRat 0)).value) →
          ((HW1.F64.normalizeData data).getD i (Double.ofRat 0)).value = 1) ∧
        ∀ j, j < data.length →
          (data.getD i (Double.ofRat 0)).value ≤ (data.getD j (Double.ofRat 0)).value →
          ((HW1.F64.normalizeData data).getD i (Double.ofRat 0)).value
            ≤ ((HW1.F64.normalizeData data).getD j (Double.ofRat 0)).value) ∧
    ((∀ a ∈ data, ∀ b ∈ data, a.value = b.value) →
      ∀ y ∈ HW1.F64.normalizeData data, y = Double.ofRat (1 / 2)) ∧
    HW1.F64.normalizeData [] = [] := by
  cases data with
  | nil =>
    refine ⟨rfl, ?_, ?_, ?_, rfl⟩
    · intro y hy; simp [HW1.F64.normalizeData] at hy
    · rintro ⟨a, ha, -⟩; simp at ha
    · intro _ y hy; simp [HW1.F64.normalizeData] at hy
  | cons first rest =>
    have hfin : ∀ d ∈ first :: rest, d.is_finite = true := fun d hd => (hv d hd).2
    have hfirst : first.is_finite = true := hfin first (List.mem_cons_self _ _)
    have hrest : ∀ d ∈ rest, d.is_finite = true := fun d hd =>
      hfin d (List.mem_cons_of_mem _ hd)
    obtain ⟨m0, m1, m2, m3⟩ := double_running_min rest first hrest hfirst
    obtain ⟨M0, M1, M2, M3⟩ := double_running_max rest first hrest hfirst
    change (HW1.F64.min_element first rest).is_finite = true at m0
    change (HW1.F64.min_element first rest).value ≤ first.value at m1
    change ∀ v ∈ rest, (HW1.F64.min_element first rest).value ≤ v.value at m2
    change HW1.F64.min_element first rest = first ∨ HW1.F64.min_element first rest ∈ rest at m3
    change (HW1.F64.max_element first rest).is_finite = true at M0
    change first.value ≤ (HW1.F64.max_element first rest).value at M1
    change ∀ v ∈ rest, v.value ≤ (HW1.F64.max_element first rest).value at M2
    change HW1.F64.max_element first rest = first ∨ HW1.F64.max_element first rest ∈ rest at M3
    rw [double_normalizeData_cons]
    generalize HW1.F64.min_element first rest = mn at *
    generalize HW1.F64.max_element first rest = mx at *
    have hmn_mem : mn ∈ first :: rest := by
      rcases m3 with e | e
      · rw [e]; exact List.mem_cons_self _ _
      · exact List.mem_cons_of_mem _ e
    have hmx_mem : mx ∈ first :: rest := by
      rcases M3 with e | e
      · rw [e]; exact List.mem_cons_self _ _
      · exact List.mem_cons_of_mem _ e
    have hmin : ∀ v ∈ first :: rest, mn.value ≤ v.value := by
      intro v hv'
      rcases List.mem_cons.mp hv' with e | e
      · rw [e]; exact m1
      · exact m2 v e
    have hmax : ∀ v ∈ first :: rest, v.value ≤ mx.value := by
      intro v hv'
      rcases List.mem_cons.mp hv' with e | e
      · rw [e]; exact M1
      · exact M2 v e
    rw [double_eq_finite mx mn M0 m0]
    by_cases h : mx.value = mn.value
    · have hall : ∀ v ∈ first :: rest, v.value = mn.value := fun v hv' =>
        le_antisymm (h ▸ hmax v hv') (hmin v hv')
      rw [decide_eq_true h, if_pos rfl]
      have hhalf : Double.ofRat (1 / 2) = Double.finite false (1 / 2) := by
        set_option maxRecDepth 100000 in decide!
      refine ⟨by simp, ?_, ?_, ?_, rfl⟩
      · intro y hy
        rw [List.eq_of_mem_replicate hy, hhalf]
        refine ⟨rfl, ?_, ?_⟩
        · show (0 : ℚ) ≤ Double.signed false (1 / 2)
          simp [Double.signed]
        · show Double.signed false (1 / 2) ≤ (1 : ℚ)
          simp only [Double.signed]
          norm_num
      · rintro ⟨a, ha, b, hb, hab⟩
        exact absurd ((hall a ha).trans (hall b hb).symm) hab
      · intro _ y hy
        exact List.eq_of_mem_replicate hy
    · rw [decide_eq_false h, if_neg (by simp)]
      have hne : mn.value ≠ mx.value := fun e => h e.symm
      have hone : ∀ x ∈ first :: rest,
          ((x.sub mn).div (mx.sub mn)).is_finite = true ∧
          ((x.sub mn).div (mx.sub mn)).value
            = round_magnitude (round_magnitude (x.value - mn.value)
                / round_magnitude (mx.value - mn.value)) ∧
          0 < round_magnitude (mx.value - mn.value) := fun x hx =>
        double_normalize_one x mn mx (hfin x hx) m0 M0 (hv mn hmn_mem).1 (hv mx hmx_mem).1
          (hmin x hx) (hmax x hx) hne (hrange x hx mn hmn_mem) (hrange mx hmx_mem mn hmn_mem)
      have hD := (hone mn hmn_mem).2.2
      have hget : ∀ i, i < (first :: rest).length →
          (((first :: rest).map (fun value => (value.sub mn).div (mx.sub mn))).getD i
              (Double.ofRat 0)).value
            = round_magnitude (round_magnitude
                (((first :: rest).getD i (Double.ofRat 0)).value - mn.value)
                / round_magnitude (mx.value - mn.value)) ∧
          (first :: rest).getD i (Double.ofRat 0) ∈ first :: rest := by
        intro i hi
        have e1 : ((first :: rest).map (fun value => (value.sub mn).div (mx.sub mn))).getD i
            (Double.ofRat 0)
            = (((first :: rest).getD i (Double.ofRat 0)).sub mn).div (mx.sub mn) := by
          rw [List.getD_eq_getElem _ _ (by rw [List.length_map]; exact hi), List.getElem_map,
            List.getD_eq_getElem _ _ hi]
        have e2 : (first :: rest).getD i (Double.ofRat 0) ∈ first :: rest := by
          rw [List.getD_eq_getElem _ _ hi]
          exact List.getElem_mem _
        rw [e1]
        exact ⟨(hone _ e2).2.1, e2⟩
      refine ⟨by simp, ?_, ?_, ?_, rfl⟩
      · intro y hy
        obtain ⟨x, hx, rfl⟩ := List.mem_map.mp hy
        obtain ⟨f1, f2, -⟩ := hone x hx
        have hA0 : 0 ≤ round_magnitude (x.value - mn.value) :=
          round_magnitude_nonneg _ (sub_nonneg.mpr (hmin x hx))
        have hAD : round_magnitude (x.value - mn.value)
            ≤ round_magnitude (mx.value - mn.value) :=
          round_magnitude_mono _ _ (sub_nonneg.mpr (hmin x hx)) (by linarith [hmax x hx])
        obtain ⟨-, d2, d3⟩ := double_div_unit false _ _ hA0 hAD hD
        exact ⟨f1, by rw [f2]; exact d2, by rw [f2]; exact d3⟩
      · intro _ i hi
        obtain ⟨g1, g2⟩ := hget i hi
        refine ⟨?_, ?_, ?_⟩
        · intro hleast
          have e : ((first :: rest).getD i (Double.ofRat 0)).value = mn.value :=
            le_antisymm (hleast mn hmn_mem) (hmin _ g2)
          rw [g1, e, sub_self, round_magnitude_zero, zero_div, round_magnitude_zero]
        · intro hgreatest
          have e : ((first :: rest).getD i (Double.ofRat 0)).value = mx.value :=
            le_antisymm (hmax _ g2) (hgreatest mx hmx_mem)
          rw [g1, e, div_self hD.ne', round_magnitude_one]
        · intro j hj hij
          obtain ⟨g3, g4⟩ := hget j hj
          rw [g1, g3]
          apply round_magnitude_mono
          · exact div_nonneg (round_magnitude_nonneg _ (sub_nonneg.mpr (hmin _ g2))) hD.le
          · apply div_le_div_of_nonneg_right _ hD.le
            exact round_magnitude_mono _ _ (sub_nonneg.mpr (hmin _ g2)) (by linarith)
      · intro hall
        exact absurd (hall mx hmx_mem mn hmn_mem) h

end DoubleNormalize

section DoubleSigns

theorem DBL_MAX_nonneg : 0 ≤ DBL_MAX := DBL_MAX_pos.le

/-- Rounding of the magnitude 0. -/
theorem double_round_zero (s : Bool) : Double.round s 0 = Double.finite s 0 := by
  unfold Double.round
  rw [round_magnitude_zero, if_neg (not_lt.mpr DBL_MAX_nonneg)]

/-- The double `0.0`. -/
theorem double_zero : Double.ofRat 0 = Double.finite false 0 := by
  unfold Double.ofRat
  rw [abs_zero, double_round_zero]
  simp

/-- A product is negative only if neither factor is a NaN. -/
theorem double_mul_lt_zero (x y : Double) (h : (x.mul y).lt (Double.ofRat 0) = true) :
    x.eq x = true ∧ y.eq y = true ∧ x.eq (Double.ofRat 0) = false ∧
      y.eq (Double.ofRat 0) = false := by
  rw [double_zero] at h ⊢
  cases x with
  | nan => simp [Double.mul, Double.lt] at h
  | infinite s =>
    cases y with
    | nan => simp [Double.mul, Double.lt] at h
    | infinite t => simp [Double.eq]
    | finite t n =>
      refine ⟨by simp [Double.eq], by simp [Double.eq], by simp [Double.eq], ?_⟩
      by_cases hn : n = 0
      · simp [Double.mul, Double.lt, hn] at h
      · simp only [Double.eq, Double.signed, decide_eq_false_iff_not]
        cases t <;> simp [hn]
  | finite s m =>
    cases y with
    | nan => simp [Double.mul, Double.lt] at h
    | infinite t =>
      refine ⟨by simp [Double.eq], by simp [Double.eq], ?_, by simp [Double.eq]⟩
      by_cases hm : m = 0
      · simp [Double.mul, Double.lt, hm] at h
      · simp only [Double.eq, Double.signed, decide_eq_false_iff_not]
        cases s <;> simp [hm]
    | finite t n =>
      refine ⟨by simp [Double.eq], by simp [Double.eq], ?_, ?_⟩
      · by_cases hm : m = 0
        · exfalso
          subst hm
          have e : (Double.finite s 0).mul (Double.finite t n) = Double.finite (xor s t) 0 := by
            show Double.round (xor s t) (0 * n) = _
            rw [zero_mul, double_round_zero]
          rw [e] at h
          cases s <;> cases t <;> simp [Double.lt, Double.signed] at h
        · simp only [Double.eq, Double.signed, decide_eq_false_iff_not]
          cases s <;> simp [hm]
      · by_cases hn : n = 0
        · exfalso
          subst hn
          have e : (Double.finite s m).mul (Double.finite t 0) = Double.finite (xor s t) 0 := by
            show Double.round (xor s t) (m * 0) = _
            rw [mul_zero, double_round_zero]
          rw [e] at h
          cases s <;> cases t <;> simp [Double.lt, Double.signed] at h
        · simp only [Double.eq, Double.signed, decide_eq_false_iff_not]
          cases t <;> simp [hn]


/-- A valid double that is not a NaN is negative, zero or positive. -/
theorem double_trichotomy (z : Double) (hv : z.valid) (hn : z.eq z = true) :
    z.lt (Double.ofRat 0) = true ∨ z.eq (Double.ofRat 0) = true ∨
      (Double.ofRat 0).lt z = true := by
  rw [double_zero]
  cases z with
  | nan => simp [Double.eq] at hn
  | infinite s => cases s <;> simp [Double.lt]
  | finite s m =>
    obtain ⟨h0, -, -⟩ := hv
    rcases h0.eq_or_lt with h | h
    · right; left
      subst h
      cases s <;> simp [Double.eq, Double.signed]
    · cases s
      · right; right
        simp [Double.lt, Double.signed, h]
      · left
        simp [Double.lt, Double.signed, h]

/-- A negative valid double is `-inf` or has a positive magnitude and the
sign bit set. -/
theorem double_neg_cases (x : Double) (hx : x.valid)
    (h : x.lt (Double.finite false 0) = true) :
    x = Double.infinite true ∨ ∃ m, 0 < m ∧ x = Double.finite true m := by
  cases x with
  | nan => simp [Double.lt] at h
  | infinite s =>
    have hs : s = true := by simpa [Double.lt] using h
    subst hs
    exact Or.inl rfl
  | finite s m =>
    obtain ⟨h0, -, -⟩ := hx
    cases s
    · simp only [Double.lt, Double.signed, decide_eq_true_eq] at h
      norm_num at h
      linarith
    · simp only [Double.lt, Double.signed, decide_eq_true_eq] at h
      norm_num at h
      exact Or.inr ⟨m, h, rfl⟩

/-- A positive valid double is `+inf` or has a positive magnitude and the
sign bit clear. -/
theorem double_pos_cases (z : Double) (hz : z.valid)
    (h : (Double.finite false 0).lt z = true) :
    z = Double.infinite false ∨ ∃ n, 0 < n ∧ z = Double.finite false n := by
  cases z with
  | nan => simp [Double.lt] at h
  | infinite t =>
    have ht : t = false := by simpa [Double.lt] using h
    subst ht
    exact Or.inl rfl
  | finite t n =>
    obtain ⟨h0, -, -⟩ := hz
    cases t
    · simp only [Double.lt, Double.signed, decide_eq_true_eq] at h
      norm_num at h
      exact Or.inr ⟨n, h, rfl⟩
    · simp only [Double.lt, Double.signed, decide_eq_true_eq] at h
      norm_num at h
      linarith

/-- The rounded double of sign `s` is negative exactly when `s` is set and
the magnitude does not round to zero. -/
theorem double_round_lt_zero (s : Bool) (q : ℚ) (hq : 0 ≤ q) :
    (Double.round s q).lt (Double.finite false 0) = (s && decide (round_magnitude q ≠ 0)) := by
  have hr0 : 0 ≤ round_magnitude q := round_magnitude_nonneg q hq
  unfold Double.round
  by_cases hov : DBL_MAX < round_magnitude q
  · rw [if_pos hov]
    have hne : round_magnitude q ≠ 0 := by
      intro h0
      rw [h0] at hov
      exact absurd hov (not_lt.mpr DBL_MAX_nonneg)
    cases s <;> simp [Double.lt, hne]
  · rw [if_neg hov]
    cases s
    · simp [Double.lt, Double.signed, hr0]
    · by_cases hne : round_magnitude q = 0
      · simp [Double.lt, Double.signed, hne]
      · have hpos : 0 < round_magnitude q := lt_of_le_of_ne hr0 (Ne.symm hne)
        simp [Double.lt, Double.signed, hne, hpos]

/-- The rounded double is zero exactly when the magnitude rounds to zero. -/
theorem double_round_eq_zero (s : Bool) (q : ℚ) :
    (Double.round s q).eq (Double.finite false 0) = decide (round_magnitude q = 0) := by
  unfold Double.round
  by_cases hov : DBL_MAX < round_magnitude q
  · rw [if_pos hov]
    have hne : round_magnitude q ≠ 0 := by
      intro h0
      rw [h0] at hov
      exact absurd hov (not_lt.mpr DBL_MAX_nonneg)
    simp [Double.eq, hne]
  · rw [if_neg hov]
    cases s <;> simp [Double.eq, Double.signed]

/-- The product of a negative and a positive valid double is negative,
unless it underflows to zero. -/
theorem double_mul_neg_pos (x z : Double) (hx : x.valid) (hz : z.valid)
    (hxn : x.lt (Double.ofRat 0) = true) (hzp : (Double.ofRat 0).lt z = true)
    (hu : (x.mul z).eq (Double.ofRat 0) = true →
      x.eq (Double.ofRat 0) = true ∨ z.eq (Double.ofRat 0) = true) :
    (x.mul z).lt (Double.ofRat 0) = true := by
  rw [double_zero] at hxn hzp hu ⊢
  rcases double_neg_cases x hx hxn with rfl | ⟨m, hm, rfl⟩
  · rcases double_pos_cases z hz hzp with rfl | ⟨n, hn, rfl⟩
    · rfl
    · show (if n = 0 then Double.nan else Double.infinite (xor true false)).lt _ = true
      rw [if_neg hn.ne']
      rfl
  · rcases double_pos_cases z hz hzp with rfl | ⟨n, hn, rfl⟩
    · show (if m = 0 then Double.nan else Double.infinite (xor true false)).lt _ = true
      rw [if_neg hm.ne']
      rfl
    · have hmul : (Double.finite true m).mul (Double.finite false n)
          = Double.round true (m * n) := rfl
      rw [hmul, double_round_eq_zero] at hu
      rw [hmul, double_round_lt_zero _ _ (mul_pos hm hn).le]
      have hne : round_magnitude (m * n) ≠ 0 := by
        intro h0
        rcases hu (by simp [h0]) with h | h
        · simp [Double.eq, Double.signed, hm.ne'] at h
        · simp [Double.eq, Double.signed, hn.ne'] at h
      simp [hne]

/-- Multiplication of doubles is commutative. -/
theorem double_mul_comm (x y : Double) : x.mul y = y.mul x := by
  cases x <;> cases y <;> simp [Double.mul, mul_comm, Bool.xor_comm]

/-- The product of two negative valid doubles is not negative. -/
theorem double_mul_neg_neg (x y : Double) (hx : x.valid) (hy : y.valid)
    (h1 : x.lt (Double.finite false 0) = true) (h2 : y.lt (Double.finite false 0) = true) :
    (x.mul y).lt (Double.finite false 0) = false := by
  rcases double_neg_cases x hx h1 with rfl | ⟨m, hm, rfl⟩
  · rcases double_neg_cases y hy h2 with rfl | ⟨n, hn, rfl⟩
    · rfl
    · show (if n = 0 then Double.nan else Double.infinite (xor true true)).lt _ = false
      rw [if_neg hn.ne']
      rfl
  · rcases double_neg_cases y hy h2 with rfl | ⟨n, hn, rfl⟩
    · show (if m = 0 then Double.nan else Double.infinite (xor true true)).lt _ = false
      rw [if_neg hm.ne']
      rfl
    · have hmul : (Double.finite true m).mul (Double.finite true n)
          = Double.round false (m * n) := rfl
      rw [hmul, double_round_lt_zero _ _ (mul_pos hm hn).le]
      rfl

/-- The product of two positive valid doubles is not negative. -/
theorem double_mul_pos_pos (x y : Double) (hx : x.valid) (hy : y.valid)
    (h1 : (Double.finite false 0).lt x = true) (h2 : (Double.finite false 0).lt y = true) :
    (x.mul y).lt (Double.finite false 0) = false := by
  rcases double_pos_cases x hx h1 with rfl | ⟨m, hm, rfl⟩
  · rcases double_pos_cases y hy h2 with rfl | ⟨n, hn, rfl⟩
    · rfl
    · show (if n = 0 then Double.nan else Double.infinite (xor false false)).lt _ = false
      rw [if_neg hn.ne']
      rfl
  · rcases double_pos_cases y hy h2 with rfl | ⟨n, hn, rfl⟩
    · show (if m = 0 then Double.nan else Double.infinite (xor false false)).lt _ = false
      rw [if_neg hm.ne']
      rfl
    · have hmul : (Double.finite false m).mul (Double.finite false n)
          = Double.round false (m * n) := rfl
      rw [hmul, double_round_lt_zero _ _ (mul_pos hm hn).le]
      rfl

/-- A negative product has a negative and a positive factor. -/
theorem double_mul_lt_zero_signs (x y : Double) (hx : x.valid) (hy : y.valid)
    (h : (x.mul y).lt (Double.ofRat 0) = true) :
    (x.lt (Double.ofRat 0) = true ∧ (Double.ofRat 0).lt y = true) ∨
      ((Double.ofRat 0).lt x = true ∧ y.lt (Double.ofRat 0) = true) := by
  obtain ⟨nx, ny, zx, zy⟩ := double_mul_lt_zero x y h
  rcases double_trichotomy x hx nx with h1 | h1 | h1
  · rcases double_trichotomy y hy ny with h2 | h2 | h2
    · exfalso
      rw [double_zero] at h h1 h2
      rw [double_mul_neg_neg x y hx hy h1 h2] at h
      cases h
    · rw [zy] at h2; cases h2
    · exact Or.inl ⟨h1, h2⟩
  · rw [zx] at h1; cases h1
  · rcases double_trichotomy y hy ny with h2 | h2 | h2
    · exact Or.inr ⟨h1, h2⟩
    · rw [zy] at h2; cases h2
    · exfalso
      rw [double_zero] at h h1 h2
      rw [double_mul_pos_pos x y hx hy h1 h2] at h
      cases h

/-- On doubles, at a bracket `(l, r)` with `f(l) * f(r) < 0`, the third
branch is taken only when `f` is zero at the centre, provided the value at
the centre is not a NaN and neither product with it underflows to zero. -/
theorem double_third_branch_center (func : Double → Double) (bracket : Double × Double)
    (hv : ∀ x, (func x).valid)
    (hlr : ((func bracket.1).mul (func bracket.2)).lt (Double.ofRat 0) = true)
    (hnan : (func ((bracket.1.add bracket.2).div (Double.ofRat 2))).eq
      (func ((bracket.1.add bracket.2).div (Double.ofRat 2))) = true)
    (hul : ((func bracket.1).mul (func ((bracket.1.add bracket.2).div (Double.ofRat 2)))).eq
        (Double.ofRat 0) = true →
      (func bracket.1).eq (Double.ofRat 0) = true ∨
        (func ((bracket.1.add bracket.2).div (Double.ofRat 2))).eq (Double.ofRat 0) = true)
    (hur : ((func bracket.2).mul (func ((bracket.1.add bracket.2).div (Double.ofRat 2)))).eq
        (Double.ofRat 0) = true →
      (func bracket.2).eq (Double.ofRat 0) = true ∨
        (func ((bracket.1.add bracket.2).div (Double.ofRat 2))).eq (Double.ofRat 0) = true)
    (h3 : HW4.F64.third_branch func bracket = true) :
    (func ((bracket.1.add bracket.2).div (Double.ofRat 2))).eq (Double.ofRat 0) = true := by
  unfold HW4.F64.third_branch at h3
  dsimp only at h3
  rw [Bool.and_eq_true, Bool.not_eq_true', Bool.not_eq_true'] at h3
  obtain ⟨h3l, h3r⟩ := h3
  have hz := hv ((bracket.1.add bracket.2).div (Double.ofRat 2))
  generalize func ((bracket.1.add bracket.2).div (Double.ofRat 2)) = z at *
  rcases double_trichotomy z hz hnan with hz1 | hz1 | hz1
  · exfalso
    rcases double_mul_lt_zero_signs _ _ (hv _) (hv _) hlr with ⟨h1, h2⟩ | ⟨h1, h2⟩
    · have := double_mul_neg_pos z (func bracket.2) hz (hv _) hz1 h2
        (by rw [double_mul_comm]; intro h; exact (hur h).symm)
      rw [double_mul_comm, h3r] at this
      cases this
    · have := double_mul_neg_pos z (func bracket.1) hz (hv _) hz1 h1
        (by rw [double_mul_comm]; intro h; exact (hul h).symm)
      rw [double_mul_comm, h3l] at this
      cases this
  · exact hz1
  · exfalso
    rcases double_mul_lt_zero_signs _ _ (hv _) (hv _) hlr with ⟨h1, h2⟩ | ⟨h1, h2⟩
    · have := double_mul_neg_pos (func bracket.1) z (hv _) hz h1 hz1 hul
      rw [h3l] at this
      cases this
    · have := double_mul_neg_pos (func bracket.2) z (hv _) hz h2 hz1 hur
      rw [h3r] at this
      cases this

/-- On doubles a sign change over the bracket is kept by the recursion as
long as the third branch is not taken. -/
theorem double_bisection_sign_change (func : Double → Double) (bracket_tol : Double) :
    ∀ (fuel : Nat) (bracket result : Double × Double),
      HW4.F64.bisectionRecursive func fuel bracket bracket_tol = some result →
      ((func bracket.1).mul (func bracket.2)).lt (Double.ofRat 0) = true →
      ((func result.1).mul (func result.2)).lt (Double.ofRat 0) = true ∨
        ∃ k, HW4.F64.third_branch func ((HW4.F64.new_bracket func)^[k] bracket) = true := by
  intro fuel
  induction fuel with
  | zero =>
    intro bracket result h
    simp [HW4.F64.bisectionRecursive] at h
  | succ fuel ih =>
    intro bracket result h hlr
    unfold HW4.F64.bisectionRecursive at h
    dsimp only at h
    cases ht : ((((bracket.1.add bracket.2).div (Double.ofRat 2)).sub bracket.1).abs).le
        bracket_tol
    · rw [ht] at h
      simp only [Bool.false_eq_true, if_false] at h
      cases h1 : ((func bracket.1).mul
          (func ((bracket.1.add bracket.2).div (Double.ofRat 2)))).lt (Double.ofRat 0)
      · cases h2 : ((func bracket.2).mul
            (func ((bracket.1.add bracket.2).div (Double.ofRat 2)))).lt (Double.ofRat 0)
        · right
          refine ⟨0, ?_⟩
          show HW4.F64.third_branch func bracket = true
          unfold HW4.F64.third_branch
          dsimp only
          rw [h1, h2]
          rfl
        · have hnb : HW4.F64.new_bracket func bracket
              = ((bracket.1.add bracket.2).div (Double.ofRat 2), bracket.2) := by
            unfold HW4.F64.new_bracket
            dsimp only
            rw [h1, h2]
            rfl
          rcases ih _ result h (by rw [hnb]; dsimp only; rw [double_mul_comm]; exact h2)
            with hres | ⟨k, hk⟩
          · exact Or.inl hres
          · exact Or.inr ⟨k + 1, by rw [Function.iterate_succ_apply]; exact hk⟩
      · have hnb : HW4.F64.new_bracket func bracket
            = (bracket.1, (bracket.1.add bracket.2).div (Double.ofRat 2)) := by
          unfold HW4.F64.new_bracket
          dsimp only
          rw [h1]
          rfl
        rcases ih _ result h (by rw [hnb]; exact h1) with hres | ⟨k, hk⟩
        · exact Or.inl hres
        · exact Or.inr ⟨k + 1, by rw [Function.iterate_succ_apply]; exact hk⟩
    · rw [ht] at h
      simp only [if_true, Option.some.injEq] at h
      rw [← h]
      exact Or.inl hlr

end DoubleSigns

section DoubleStats

/-- The timed loop of the harness on doubles, run over any list of trial
numbers: the three variables it updates. -/
theorem double_timed_loop_eq (run_time : Nat → Double) (l : List Nat)
    (s : Double × Double × List Double) :
    l.foldl (fun (s : Double × Double × List Double) i =>
        ((if (run_time (HW9.NUM_WARMUP + i)).lt s.1 then run_time (HW9.NUM_WARMUP + i)
            else s.1),
          s.2.1.add (run_time (HW9.NUM_WARMUP + i)),
          s.2.2 ++ [run_time (HW9.NUM_WARMUP + i)])) s
      = ((l.map (fun i => run_time (HW9.NUM_WARMUP + i))).foldl
            (fun m d => if d.lt m then d else m) s.1,
          (l.map (fun i => run_time (HW9.NUM_WARMUP + i))).foldl (fun t d => t.add d) s.2.1,
          s.2.2 ++ l.map (fun i => run_time (HW9.NUM_WARMUP + i))) := by
  induction l generalizing s with
  | nil => simp
  | cons a l ih =>
    rw [List.foldl_cons, ih]
    simp

/-- The minimum and the average reported on doubles, in terms of the list of
timed durations: the running minimum from `DBL_MAX`, and the sum accumulated
in the order of the runs, divided by `NUM_RUNS`. -/
theorem double_benchmark_stats_eq (sqrt : Double → Double) (run_time : Nat → Double) :
    (HW9.F64.benchmark_stats sqrt run_time).1
      = (HW9.timed_durations run_time).foldl (fun m d => if d.lt m then d else m)
          (Double.finite false DBL_MAX) ∧
    (HW9.F64.benchmark_stats sqrt run_time).2.1
      = ((HW9.timed_durations run_time).foldl (fun t d => t.add d) (Double.ofRat 0)).div
          (Double.ofRat HW9.NUM_RUNS) := by
  unfold HW9.F64.benchmark_stats HW9.timed_durations
  dsimp only
  rw [double_timed_loop_eq]
  dsimp only
  exact ⟨rfl, rfl⟩

/-- On doubles the minimum reported is the least of the ten durations, when
these are finite numbers. -/
theorem double_benchmark_min (sqrt : Double → Double) (run_time : Nat → Double)
    (hv : ∀ k, (run_time k).valid) (hf : ∀ k, (run_time k).is_finite = true) :
    (HW9.F64.benchmark_stats sqrt run_time).1 ∈ HW9.timed_durations run_time ∧
    ∀ d ∈ HW9.timed_durations run_time,
      d.lt (HW9.F64.benchmark_stats sqrt run_time).1 = false := by
  rw [(double_benchmark_stats_eq sqrt run_time).1]
  have hl : ∀ d ∈ HW9.timed_durations run_time, d.is_finite = true := by
    intro d hd
    unfold HW9.timed_durations at hd
    obtain ⟨i, -, rfl⟩ := List.mem_map.mp hd
    exact hf _
  have hlv : ∀ d ∈ HW9.timed_durations run_time, d.valid := by
    intro d hd
    unfold HW9.timed_durations at hd
    obtain ⟨i, -, rfl⟩ := List.mem_map.mp hd
    exact hv _
  obtain ⟨h0, h1, h2, h3⟩ := double_running_min (HW9.timed_durations run_time)
    (Double.finite false DBL_MAX) hl rfl
  constructor
  · rcases h3 with e | e
    · -- the minimum is still the initial value: every duration is `DBL_MAX`
      rw [e]
      have hmem : run_time (HW9.NUM_WARMUP + 0) ∈ HW9.timed_durations run_time := by
        unfold HW9.timed_durations
        exact List.mem_map.mpr ⟨0, by simp [HW9.NUM_RUNS], rfl⟩
      have h2' := h2 _ hmem
      rw [e] at h2'
      have hval := hlv _ hmem
      have hfin := hl _ hmem
      revert h2' hval hfin hmem
      generalize run_time (HW9.NUM_WARMUP + 0) = d
      intro hmem h2' hval hfin
      cases d with
      | nan => simp [Double.is_finite] at hfin
      | infinite s => simp [Double.is_finite] at hfin
      | finite s m =>
        obtain ⟨hm0, hm1, -⟩ := hval
        have hs : s = false ∧ m = DBL_MAX := by
          cases s
          · simp only [Double.value, Double.signed] at h2'
            norm_num at h2'
            exact ⟨rfl, le_antisymm hm1 h2'⟩
          · simp only [Double.value, Double.signed] at h2'
            norm_num at h2'
            have := DBL_MAX_pos
            linarith
        rw [hs.1, hs.2] at hmem
        exact hmem
    · exact e
  · intro d hd
    rw [double_lt_finite d _ (hl d hd) h0]
    exact decide_eq_false (not_lt.mpr (h2 d hd))

end DoubleStats

/-! ## The programs -/

namespace HW9.F64

open IEEE754

section DoubleLemmas

end DoubleLemmas

end HW9.F64

section DoubleClaims

open IEEE754

/-- The matrix returned by `invert_matrix` on doubles when the test fails. -/
theorem double_invert_matrix_ok (D : HW8.Matrix Double)
    (h : (HW8.F64.determinant D).abs.lt (Double.ofRat (1 / 1000000000000)) = false) :
    HW8.F64.invert_matrix D
      = Except.ok { a11 := D.a22.div (HW8.F64.determinant D),
                    a12 := D.a12.neg.div (HW8.F64.determinant D),
                    a21 := D.a21.neg.div (HW8.F64.determinant D),
                    a22 := D.a11.div (HW8.F64.determinant D) } := by
  unfold HW8.F64.invert_matrix
  dsimp only
  rw [h]
  rfl

set_option maxRecDepth 100000 in
/-- On doubles a determinant can overflow: for the diagonal matrix with
entries `1e200` it is `+inf`, the test `std::abs(det) < 1e-12` fails, and the
matrix returned has the entries `+0, -0, -0, +0`. -/
theorem invert_matrix_overflowing_determinant :
    HW8.F64.determinant
        { a11 := Double.ofRat (10 ^ 200), a12 := Double.ofRat 0, a21 := Double.ofRat 0,
          a22 := Double.ofRat (10 ^ 200) } = Double.infinite false ∧
    ∃ R, HW8.F64.invert_matrix
        { a11 := Double.ofRat (10 ^ 200), a12 := Double.ofRat 0, a21 := Double.ofRat 0,
          a22 := Double.ofRat (10 ^ 200) } = Except.ok R ∧
      R.a11 = Double.finite false 0 ∧ R.a12 = Double.finite true 0 ∧
      R.a21 = Double.finite true 0 ∧ R.a22 = Double.finite false 0 :=
  ⟨by decide!, _, double_invert_matrix_ok _ (by decide!), by decide!, by decide!, by decide!,
    by decide!⟩

set_option maxRecDepth 100000 in
/-- C31, as stated, fails on doubles: on the input `{1e308, -1e308, 0}` of
finite numbers the difference `maxVal - minVal` overflows to `+inf`, and
`normalizeData` returns `{NaN, 0, 0}`: the first element is not in `[0,1]`,
and the maximum is not mapped to 1. -/
theorem normalizeData_overflow_gives_nan :
    HW1.F64.normalizeData [Double.ofRat (10 ^ 308), Double.ofRat (-(10 ^ 308)), Double.ofRat 0]
      = [Double.nan, Double.finite false 0, Double.finite false 0] ∧
    Double.lt (Double.ofRat (10 ^ 308)) (Double.finite false DBL_MAX) = true ∧
    Double.lt (Double.finite true DBL_MAX) (Double.ofRat (-(10 ^ 308))) = true ∧
    Double.le (Double.ofRat 0) Double.nan = false ∧
    Double.le Double.nan (Double.ofRat 1) = false ∧
    Double.eq Double.nan (Double.ofRat 1) = false := by
  decide!

/-- The minimum and the average reported do not depend on `std::sqrt`. -/
theorem double_benchmark_stats_min_avg (sqrt : Double → Double) (run_time : Nat → Double) :
    (HW9.F64.benchmark_stats sqrt run_time).1
      = (HW9.F64.benchmark_stats (fun d => d) run_time).1 ∧
    (HW9.F64.benchmark_stats sqrt run_time).2.1
      = (HW9.F64.benchmark_stats (fun d => d) run_time).2.1 :=
  ⟨rfl, rfl⟩

set_option maxRecDepth 100000 in
/-- The minimum and the average of ten durations equal to the double `0.1`. -/
theorem double_benchmark_stats_tenths :
    (HW9.F64.benchmark_stats (fun d => d) (fun _ => Double.ofRat (1 / 10))).1
      = Double.ofRat (1 / 10) ∧
    (HW9.F64.benchmark_stats (fun d => d) (fun _ => Double.ofRat (1 / 10))).2.1
      = Double.finite false (7205759403792793 / 72057594037927936) ∧
    Double.ofRat (1 / 10) = Double.finite false (3602879701896397 / 36028797018963968) ∧
    Double.lt (Double.finite false (7205759403792793 / 72057594037927936))
      (Double.ofRat (1 / 10)) = true ∧
    Double.le (Double.ofRat (1 / 10))
      (Double.finite false (7205759403792793 / 72057594037927936)) = false := by
  decide!

/-- C33, as stated, fails on doubles: when each of the ten timed runs takes
the double `0.1` (milliseconds), the reported minimum is `0.1` and the
reported average, the rounded sum divided by 10, is
`0.09999999999999999`, the double just below: `min <= avg` is false,
whatever `std::sqrt` returns. -/
theorem benchmark_average_below_minimum :
    Double.le (Double.finite false (3602879701896397 / 36028797018963968))
      (Double.finite false (7205759403792793 / 72057594037927936)) = false ∧
    ∀ sqrt : Double → Double,
      (HW9.F64.benchmark_stats sqrt (fun _ => Double.ofRat (1 / 10))).1
        = Double.finite false (3602879701896397 / 36028797018963968) ∧
      (HW9.F64.benchmark_stats sqrt (fun _ => Double.ofRat (1 / 10))).2.1
        = Double.finite false (7205759403792793 / 72057594037927936) ∧
      Double.le (HW9.F64.benchmark_stats sqrt (fun _ => Double.ofRat (1 / 10))).1
        (HW9.F64.benchmark_stats sqrt (fun _ => Double.ofRat (1 / 10))).2.1 = false := by
  obtain ⟨e1, e2, e3, -, e5⟩ := double_benchmark_stats_tenths
  rw [e3] at e5
  refine ⟨e5, fun sqrt => ?_⟩
  obtain ⟨h1, h2⟩ := double_benchmark_stats_min_avg sqrt (fun _ => Double.ofRat (1 / 10))
  rw [h1, h2, e1, e2, e3]
  exact ⟨rfl, rfl, e5⟩

set_option maxRecDepth 100000 in
/-- C39, as stated, fails on doubles: for `f(x) = 1e-153 * (x - 0.9)^21` and
the bracket `(-1, 1)`, `f(-1) * f(1) < 0` holds, the product
`f(1) * f(0)` underflows to `-0`, so that the third branch is taken although
`f(0)` is not zero; with tolerance `0.5` the bracket returned is
`(-0.5, 0.5)`, on which `f(-0.5) * f(0.5) < 0` is false and `f` does not
vanish at the midpoint. -/
theorem bisection_loses_root_by_underflow :
    ((HW4.F64.scaled_power (Double.ofRat (-1))).mul
      (HW4.F64.scaled_power (Double.ofRat 1))).lt (Double.ofRat 0) = true ∧
    (HW4.F64.scaled_power (Double.ofRat 1)).mul (HW4.F64.scaled_power (Double.ofRat 0))
      = Double.finite true 0 ∧
    HW4.F64.third_branch HW4.F64.scaled_power (Double.ofRat (-1), Double.ofRat 1) = true ∧
    (HW4.F64.scaled_power
      (((Double.ofRat (-1)).add (Double.ofRat 1)).div (Double.ofRat 2))).eq (Double.ofRat 0)
      = false ∧
    HW4.F64.bisectionRecursive HW4.F64.scaled_power 2 (Double.ofRat (-1), Double.ofRat 1)
      (Double.ofRat (1 / 2)) = some (Double.ofRat (-(1 / 2)), Double.ofRat (1 / 2)) ∧
    ((HW4.F64.scaled_power (Double.ofRat (-(1 / 2)))).mul
      (HW4.F64.scaled_power (Double.ofRat (1 / 2)))).lt (Double.ofRat 0) = false ∧
    (HW4.F64.scaled_power
      (((Double.ofRat (-(1 / 2))).add (Double.ofRat (1 / 2))).div (Double.ofRat 2))).eq
        (Double.ofRat 0) = false := by
  decide!


set_option maxRecDepth 100000 in
/-- On doubles the width of the bracket returned can exceed twice the
tolerance: for the adjacent doubles `1` and `1 + 2^-52` the centre rounds
onto the left end, so the bracket is returned unchanged for the tolerance
`1e-17`, and its width `2^-52` is larger than `2e-17`. -/
theorem bisection_adjacent_doubles :
    HW4.F64.bisectionRecursive (fun x => x) 1
      (Double.ofRat 1, Double.finite false (1 + 1 / 2 ^ 52)) (Double.ofRat (1 / 10 ^ 17))
      = some (Double.ofRat 1, Double.finite false (1 + 1 / 2 ^ 52)) ∧
    ((Double.finite false (1 + 1 / 2 ^ 52)).sub (Double.ofRat 1)).abs
      = Double.finite false (1 / 2 ^ 52) ∧
    Double.le (Double.finite false (1 / 2 ^ 52))
      ((Double.ofRat 2).mul (Double.ofRat (1 / 10 ^ 17))) = false := by
  decide!

/-- C31, amended: on doubles, for every vector of finite numbers no two of
which have a difference that overflows (so that `maxVal - minVal` is
finite), `normalizeData` returns a vector of the length of its input whose
elements are finite and lie in `[0, 1]`; when the values are not all equal,
an element that is a minimum of the input maps to 0, one that is a maximum
maps to 1, and the order of the values is preserved; when all values are
equal every element is `0.5`; the empty input gives the empty output.  The
same holds of every vector in exact real arithmetic. -/
theorem normalizeData_unit_interval {K : Type} [LinearOrderedField K] (reals : List K)
    (data : List Double) (hv : ∀ d ∈ data, d.valid ∧ d.is_finite = true)
    (hrange : ∀ a ∈ data, ∀ b ∈ data, (a.sub b).is_finite = true) :
    ((HW1.F64.normalizeData data).length = data.length ∧
      (∀ y ∈ HW1.F64.normalizeData data, y.is_finite = true ∧ 0 ≤ y.value ∧ y.value ≤ 1) ∧
      ((∃ a ∈ data, ∃ b ∈ data, a.value ≠ b.value) →
        ∀ i, i < data.length →
          ((∀ v ∈ data, (data.getD i (Double.ofRat 0)).value ≤ v.value) →
            ((HW1.F64.normalizeData data).getD i (Double.ofRat 0)).value = 0) ∧
          ((∀ v ∈ data, v.value ≤ (data.getD i (Double.ofRat 0)).value) →
            ((HW1.F64.normalizeData data).getD i (Double.ofRat 0)).value = 1) ∧
          ∀ j, j < data.length →
            (data.getD i (Double.ofRat 0)).value ≤ (data.getD j (Double.ofRat 0)).value →
            ((HW1.F64.normalizeData data).getD i (Double.ofRat 0)).value
              ≤ ((HW1.F64.normalizeData data).getD j (Double.ofRat 0)).value) ∧
      ((∀ a ∈ data, ∀ b ∈ data, a.value = b.value) →
        ∀ y ∈ HW1.F64.normalizeData data, y = Double.ofRat (1 / 2)) ∧
      HW1.F64.normalizeData [] = []) ∧
    ((HW1.normalizeData reals).length = reals.length ∧
      (∀ y ∈ HW1.normalizeData reals, 0 ≤ y ∧ y ≤ 1) ∧
      ((∃ a ∈ reals, ∃ b ∈ reals, a ≠ b) →
        ∀ i, i < reals.length →
          ((∀ v ∈ reals, reals.getD i 0 ≤ v) → (HW1.normalizeData reals).getD i 0 = 0) ∧
          ((∀ v ∈ reals, v ≤ reals.getD i 0) → (HW1.normalizeData reals).getD i 0 = 1) ∧
          ∀ j, j < reals.length → reals.getD i 0 ≤ reals.getD j 0 →
            (HW1.normalizeData reals).getD i 0 ≤ (HW1.normalizeData reals).getD j 0) ∧
      ((∀ a ∈ reals, ∀ b ∈ reals, a = b) → ∀ y ∈ HW1.normalizeData reals, y = 1 / 2) ∧
      HW1.normalizeData ([] : List K) = []) :=
  ⟨double_normalizeData_spec data hv hrange, HW1.normalizeData_spec reals⟩

set_option maxRecDepth 100000 in
theorem normalizeData_unit_interval_witness :
    ((HW1.F64.normalizeData [Double.finite false 3, Double.finite false 1]).getD 0
      (Double.ofRat 0)).value = 1 :=
  ((normalizeData_unit_interval ([3, 1] : List ℚ) [Double.finite false 3, Double.finite false 1]
    (by
      intro d hd
      simp only [List.mem_cons, List.mem_singleton, List.not_mem_nil, or_false] at hd
      rcases hd with rfl | rfl
      · exact ⟨⟨by norm_num, by decide!, by decide!⟩, rfl⟩
      · exact ⟨⟨by norm_num, by decide!, by decide!⟩, rfl⟩)
    (by
      intro a ha b hb
      simp only [List.mem_cons, List.mem_singleton, List.not_mem_nil, or_false] at ha hb
      rcases ha with rfl | rfl <;> rcases hb with rfl | rfl <;> decide!)).1.2.2.1
    ⟨Double.finite false 3, List.mem_cons_self _ _, Double.finite false 1,
      List.mem_cons_of_mem _ (List.mem_cons_self _ _), by decide!⟩ 0 (by decide)).2.1
    (by
      intro v hv
      simp only [List.mem_cons, List.mem_singleton, List.not_mem_nil, or_false] at hv
      rcases hv with rfl | rfl <;> decide!)

/-- C33, amended: in exact real arithmetic with an exact square root, over
the 10 timed durations recorded after the 2 warm-up runs (each at most the
largest `double`), the harness reports their minimum, their arithmetic mean
`(Σ d_i) / 10`, and the population standard deviation `s ≥ 0` with
`s² = (Σ (d_i - avg)²) / 10`; hence `min ≤ avg`; the two warm-up runs have no
influence.  On doubles, for durations that are finite numbers, the minimum
reported is one of the ten durations and none of them is less, and the
average reported is the sum accumulated in the order of the runs, divided by
10, each operation rounded. -/
theorem benchmark_statistics {K : Type} [LinearOrderedField K] (DBL_MAX_ : K) (sqrt : K → K)
    (run_time : Nat → K) (dsqrt : Double → Double) (drun_time : Nat → Double)
    (hmax : ∀ d ∈ HW9.timed_durations run_time, d ≤ DBL_MAX_)
    (hsqrt : ∀ v, 0 ≤ v → 0 ≤ sqrt v ∧ sqrt v * sqrt v = v)
    (hv : ∀ k, (drun_time k).valid) (hf : ∀ k, (drun_time k).is_finite = true) :
    ((HW9.timed_durations run_time).length = 10 ∧
      HW9.timed_durations run_time = (List.range 10).map (fun i => run_time (2 + i)) ∧
      ((HW9.benchmark_stats DBL_MAX_ sqrt run_time).1 ∈ HW9.timed_durations run_time ∧
        ∀ d ∈ HW9.timed_durations run_time, (HW9.benchmark_stats DBL_MAX_ sqrt run_time).1 ≤ d) ∧
      (HW9.benchmark_stats DBL_MAX_ sqrt run_time).2.1
        = (HW9.timed_durations run_time).sum / 10 ∧
      (0 ≤ (HW9.benchmark_stats DBL_MAX_ sqrt run_time).2.2 ∧
        (HW9.benchmark_stats DBL_MAX_ sqrt run_time).2.2
            * (HW9.benchmark_stats DBL_MAX_ sqrt run_time).2.2
          = ((HW9.timed_durations run_time).map (fun d =>
              (d - (HW9.benchmark_stats DBL_MAX_ sqrt run_time).2.1) *
                (d - (HW9.benchmark_stats DBL_MAX_ sqrt run_time).2.1))).sum / 10) ∧
      (HW9.benchmark_stats DBL_MAX_ sqrt run_time).1
        ≤ (HW9.benchmark_stats DBL_MAX_ sqrt run_time).2.1 ∧
      (∀ other : Nat → K, (∀ k, 2 ≤ k → other k = run_time k) →
        HW9.benchmark_stats DBL_MAX_ sqrt other = HW9.benchmark_stats DBL_MAX_ sqrt run_time)) ∧
    ((HW9.F64.benchmark_stats dsqrt drun_time).1 ∈ HW9.timed_durations drun_time ∧
      (∀ d ∈ HW9.timed_durations drun_time,
        d.lt (HW9.F64.benchmark_stats dsqrt drun_time).1 = false) ∧
      (HW9.F64.benchmark_stats dsqrt drun_time).2.1
        = ((HW9.timed_durations drun_time).foldl (fun t d => t.add d) (Double.ofRat 0)).div
            (Double.ofRat HW9.NUM_RUNS)) :=
  ⟨HW9.benchmark_stats_spec DBL_MAX_ sqrt run_time hmax hsqrt,
    (double_benchmark_min dsqrt drun_time hv hf).1,
    (double_benchmark_min dsqrt drun_time hv hf).2,
    (double_benchmark_stats_eq dsqrt drun_time).2⟩

set_option maxRecDepth 100000 in
theorem benchmark_statistics_witness :
    (HW9.benchmark_stats (1000 : ℝ) Real.sqrt (fun k => (k : ℝ))).1
        ≤ (HW9.benchmark_stats (1000 : ℝ) Real.sqrt (fun k => (k : ℝ))).2.1 ∧
    (HW9.F64.benchmark_stats (fun d => d)
        (fun _ => Double.finite false (3602879701896397 / 36028797018963968))).1
      ∈ HW9.timed_durations
        (fun _ => Double.finite false (3602879701896397 / 36028797018963968)) :=
  ⟨(benchmark_statistics (1000 : ℝ) Real.sqrt (fun k => (k : ℝ)) (fun d => d)
      (fun _ => Double.finite false (3602879701896397 / 36028797018963968))
      (by
        intro d hd
        obtain ⟨i, hi, rfl⟩ := List.mem_map.mp hd
        have hi' : i < 10 := List.mem_range.mp hi
        have : HW9.NUM_WARMUP + i ≤ 1000 := by unfold HW9.NUM_WARMUP; omega
        show ((HW9.NUM_WARMUP + i : Nat) : ℝ) ≤ 1000
        exact_mod_cast this)
      (fun v hv => ⟨Real.sqrt_nonneg v, Real.mul_self_sqrt hv⟩)
      (fun _ => ⟨by norm_num, by decide!, by decide!⟩) (fun _ => rfl)).1.2.2.2.2.2.1,
    (benchmark_statistics (1000 : ℝ) Real.sqrt (fun k => (k : ℝ)) (fun d => d)
      (fun _ => Double.finite false (3602879701896397 / 36028797018963968))
      (by
        intro d hd
        obtain ⟨i, hi, rfl⟩ := List.mem_map.mp hd
        have hi' : i < 10 := List.mem_range.mp hi
        have : HW9.NUM_WARMUP + i ≤ 1000 := by unfold HW9.NUM_WARMUP; omega
        show ((HW9.NUM_WARMUP + i : Nat) : ℝ) ≤ 1000
        exact_mod_cast this)
      (fun v hv => ⟨Real.sqrt_nonneg v, Real.mul_self_sqrt hv⟩)
      (fun _ => ⟨by norm_num, by decide!, by decide!⟩) (fun _ => rfl)).2.1⟩

/-- C39, amended: in exact real arithmetic, when `f a * f b < 0` and the
tolerance is positive, `bisectionRecursive` returns a bracket `(l, r)` with
`f l * f r < 0` or `f ((l + r) / 2) = 0`, and on every bracket reached from
`(a, b)` the third branch (no sign change on either half) is taken only when
`f` vanishes at the midpoint.  On doubles, a bracket returned from a bracket
with `f(l) * f(r) < 0` has that property too unless the third branch was
taken on the way; and at a bracket with `f(l) * f(r) < 0` the third branch
is taken only when `f` is zero at the centre, provided the value at the
centre is not a NaN and neither product with it underflows to zero. -/
theorem bisection_root_bracketed {K : Type} [LinearOrderedField K] [Archimedean K]
    (func : K → K) (a b : K) (bracket_tol : K) (dfunc : Double → Double)
    (dbracket : Double × Double) (dtol : Double)
    (hab : func a * func b < 0) (htol : 0 < bracket_tol) :
    ((∃ r N, (∀ fuel, N ≤ fuel →
          HW4.bisectionRecursive func fuel (a, b) bracket_tol = some r) ∧
        (func r.1 * func r.2 < 0 ∨ func ((r.1 + r.2) / 2) = 0)) ∧
      (∀ fuel r, HW4.bisectionRecursive func fuel (a, b) bracket_tol = some r →
        (func r.1 * func r.2 < 0 ∨ func ((r.1 + r.2) / 2) = 0)) ∧
      ∀ k, HW4.third_branch func ((HW4.new_bracket func)^[k] (a, b)) = true →
        func ((((HW4.new_bracket func)^[k] (a, b)).1
          + ((HW4.new_bracket func)^[k] (a, b)).2) / 2) = 0) ∧
    (∀ fuel result, HW4.F64.bisectionRecursive dfunc fuel dbracket dtol = some result →
      ((dfunc dbracket.1).mul (dfunc dbracket.2)).lt (Double.ofRat 0) = true →
      ((dfunc result.1).mul (dfunc result.2)).lt (Double.ofRat 0) = true ∨
        ∃ k, HW4.F64.third_branch dfunc ((HW4.F64.new_bracket dfunc)^[k] dbracket) = true) ∧
    ((∀ x, (dfunc x).valid) →
      ((dfunc dbracket.1).mul (dfunc dbracket.2)).lt (Double.ofRat 0) = true →
      (dfunc ((dbracket.1.add dbracket.2).div (Double.ofRat 2))).eq
        (dfunc ((dbracket.1.add dbracket.2).div (Double.ofRat 2))) = true →
      (((dfunc dbracket.1).mul (dfunc ((dbracket.1.add dbracket.2).div (Double.ofRat 2)))).eq
          (Double.ofRat 0) = true →
        (dfunc dbracket.1).eq (Double.ofRat 0) = true ∨
          (dfunc ((dbracket.1.add dbracket.2).div (Double.ofRat 2))).eq (Double.ofRat 0)
            = true) →
      (((dfunc dbracket.2).mul (dfunc ((dbracket.1.add dbracket.2).div (Double.ofRat 2)))).eq
          (Double.ofRat 0) = true →
        (dfunc dbracket.2).eq (Double.ofRat 0) = true ∨
          (dfunc ((dbracket.1.add dbracket.2).div (Double.ofRat 2))).eq (Double.ofRat 0)
            = true) →
      HW4.F64.third_branch dfunc dbracket = true →
      (dfunc ((dbracket.1.add dbracket.2).div (Double.ofRat 2))).eq (Double.ofRat 0) = true) :=
  ⟨HW4.bisection_keeps_root_bracketed func a b bracket_tol hab htol,
    fun fuel result h hlr => double_bisection_sign_change dfunc dtol fuel dbracket result h hlr,
    fun hv hlr hnan hul hur h3 =>
      double_third_branch_center dfunc dbracket hv hlr hnan hul hur h3⟩

theorem bisection_root_bracketed_witness :
    ((fun x : ℚ => x - 1) 0 * (fun x : ℚ => x - 1) 3 < 0 ∧ (0 : ℚ) < 1 / 4) ∧
    ∃ r N, (∀ fuel, N ≤ fuel →
        HW4.bisectionRecursive (fun x : ℚ => x - 1) fuel (0, 3) (1 / 4) = some r) ∧
      ((fun x : ℚ => x - 1) r.1 * (fun x : ℚ => x - 1) r.2 < 0 ∨
        (fun x : ℚ => x - 1) ((r.1 + r.2) / 2) = 0) :=
  ⟨⟨by norm_num, by norm_num⟩, (bisection_root_bracketed (fun x : ℚ => x - 1) 0 3 (1 / 4)
    (fun x => x) (Double.ofRat 0, Double.ofRat 3) (Double.ofRat (1 / 4))
    (by norm_num) (by norm_num)).1.1⟩

end DoubleClaims
